import Mathlib

/-!
The explicit-list heap allocator `el_malloc`.

A shallow embedding of `src/el_malloc.c` and the properties of its
specification.

Memory model.

Addresses and `size_t` values are natural numbers below `2 ^ 64`; every
`size_t` operation of the source is reduced modulo `2 ^ 64`.

Memory is typed by field: `State.size`, `State.state`, `State.next` and
`State.prev` give the four fields of the `el_blockhead_t` found at an address,
`State.foot` gives the `size` field of the `el_blockfoot_t` found at an
address.  Byte-level overlap between a header and a footer placed at
intersecting addresses, and writes of the client into payload bytes, are not
represented.

Dereferencing the null pointer has no result: every function returns an
`Option`, and `none` stands for a run that does not return (a null
dereference, a failed `assert`, or a loop that ran out of fuel).

The declarations of `el_malloc.h` (structure sizes, constants, the control
block's addresses) are not among the sources; they are collected in `Layout`
and stay parameters of the development.
-/

namespace ElMalloc

/-! ## Machine arithmetic -/

/-- The number of values of a `size_t` (and of a pointer). -/
@[irreducible] def WORD : Nat := 2 ^ 64

/-- Addition of two `size_t` values. -/
def add64 (a b : Nat) : Nat := (a + b) % WORD

/-- Subtraction of two `size_t` values. -/
def sub64 (a b : Nat) : Nat := (a + (WORD - b % WORD)) % WORD

/-- Modelled from the spec: the macro `PTR_PLUS_BYTES` of `el_malloc.h`, the
address `off` bytes above `ptr`. -/
def PTR_PLUS_BYTES (ptr off : Nat) : Nat := add64 ptr off

/-- Modelled from the spec: the macro `PTR_MINUS_BYTES` of `el_malloc.h`, the
address `off` bytes below `ptr`. -/
def PTR_MINUS_BYTES (ptr off : Nat) : Nat := sub64 ptr off

/-- The value `MAP_FAILED` returned by a denied `mmap`, `(void *) -1`. -/
def MAP_FAILED : Nat := WORD - 1

/-! ## Data model -/

/-- The constants and structure sizes declared in `el_malloc.h`. -/
structure Layout where
  /-- Value of `sizeof(el_blockhead_t)`. -/
  head_bytes : Nat
  /-- Value of `sizeof(el_blockfoot_t)`. -/
  foot_bytes : Nat
  EL_PAGE_BYTES : Nat
  EL_HEAP_START_ADDRESS : Nat
  EL_CTL_START_ADDRESS : Nat
  /-- Address of `el_ctl->avail_actual.beg_actual`. -/
  avail_beg_actual : Nat
  /-- Address of `el_ctl->avail_actual.end_actual`. -/
  avail_end_actual : Nat
  /-- Address of `el_ctl->used_actual.beg_actual`. -/
  used_beg_actual : Nat
  /-- Address of `el_ctl->used_actual.end_actual`. -/
  used_end_actual : Nat
  EL_AVAILABLE : Nat
  EL_USED : Nat
  EL_BEGIN_BLOCK : Nat
  EL_END_BLOCK : Nat
  EL_UNINITIALIZED : Nat

/-- The space taken by the header and the footer of one block. -/
def Layout.EL_BLOCK_OVERHEAD (L : Layout) : Nat := L.head_bytes + L.foot_bytes

/-- The two block lists of the control block. -/
inductive ListId where
  | avail
  | used
  deriving DecidableEq, Repr

/-- Address of the begin sentinel embedded in a list, `&(list->beg_actual)`. -/
def Layout.beg_actual (L : Layout) : ListId → Nat
  | .avail => L.avail_beg_actual
  | .used => L.used_beg_actual

/-- Address of the end sentinel embedded in a list, `&(list->end_actual)`. -/
def Layout.end_actual (L : Layout) : ListId → Nat
  | .avail => L.avail_end_actual
  | .used => L.used_end_actual

/-- The pointer and counter fields of an `el_blocklist_t`; its two sentinels
are headers in memory at `Layout.beg_actual` and `Layout.end_actual`. -/
structure el_blocklist_t where
  beg : Nat
  end_ : Nat
  length : Nat
  bytes : Nat

/-- The control block `*el_ctl` together with the memory holding block headers
and footers.  The pointers `el_ctl->avail` and `el_ctl->used` always designate
`avail_actual` and `used_actual` and are not stored. -/
structure State where
  heap_start : Nat
  heap_end : Nat
  heap_bytes : Nat
  avail : el_blocklist_t
  used : el_blocklist_t
  /-- Field `size` of the header at an address. -/
  size : Nat → Nat
  /-- Field `state` of the header at an address. -/
  state : Nat → Nat
  /-- Field `next` of the header at an address. -/
  next : Nat → Nat
  /-- Field `prev` of the header at an address. -/
  prev : Nat → Nat
  /-- Field `size` of the footer at an address. -/
  foot : Nat → Nat

/-- The list structure a `ListId` designates. -/
def State.list (s : State) : ListId → el_blocklist_t
  | .avail => s.avail
  | .used => s.used

/-- Store a list structure. -/
def State.setList (s : State) (id : ListId) (l : el_blocklist_t) : State :=
  match id with
  | .avail => { s with avail := l }
  | .used => { s with used := l }

/-- The assignment `p->size = v` on a header. -/
def State.wr_size (s : State) (p v : Nat) : State :=
  { s with size := Function.update s.size p v }

/-- The assignment `p->state = v` on a header. -/
def State.wr_state (s : State) (p v : Nat) : State :=
  { s with state := Function.update s.state p v }

/-- The assignment `p->next = v` on a header. -/
def State.wr_next (s : State) (p v : Nat) : State :=
  { s with next := Function.update s.next p v }

/-- The assignment `p->prev = v` on a header. -/
def State.wr_prev (s : State) (p v : Nat) : State :=
  { s with prev := Function.update s.prev p v }

/-- The assignment `p->size = v` on a footer. -/
def State.wr_foot (s : State) (p v : Nat) : State :=
  { s with foot := Function.update s.foot p v }

/-- The assignment `el_ctl->heap_start = v`. -/
def State.set_heap_start (s : State) (v : Nat) : State := { s with heap_start := v }

/-- The assignment `el_ctl->heap_end = v`. -/
def State.set_heap_end (s : State) (v : Nat) : State := { s with heap_end := v }

/-- The assignment `el_ctl->heap_bytes = v`. -/
def State.set_heap_bytes (s : State) (v : Nat) : State := { s with heap_bytes := v }

/-- A dereference of pointer `p`: no result for the null pointer. -/
def deref (p : Nat) : Option Unit := if p = 0 then none else some ()

/-! ## Pointer arithmetic on adjacent headers and footers -/

/-- The footer of the block whose header is at `head`
(`el_get_footer`, lines 84-88). -/
def el_get_footer (L : Layout) (s : State) (head : Nat) : Option Nat := do
  deref head
  let size := s.size head
  pure (PTR_PLUS_BYTES head (add64 L.head_bytes size))

/-- The header of the block whose footer is at `foot`
(`el_get_header`, lines 93-104). -/
def el_get_header (L : Layout) (s : State) (foot : Nat) : Option Nat := do
  deref foot
  let size := s.foot foot
  pure (PTR_MINUS_BYTES foot (add64 size L.head_bytes))

/-- The block one higher in memory, `0` (NULL) when that would be off the heap
(`el_block_above`, lines 111-120). -/
def el_block_above (L : Layout) (s : State) (block : Nat) : Option Nat := do
  deref block
  let higher := PTR_PLUS_BYTES block (add64 (s.size block) L.EL_BLOCK_OVERHEAD)
  if s.heap_end ≤ higher then pure 0 else pure higher

/-- The block one lower in memory, `0` (NULL) when `block` is too close to the
bottom of the heap (`el_block_below`, lines 130-147). -/
def el_block_below (L : Layout) (s : State) (block : Nat) : Option Nat :=
  if block ≤ PTR_PLUS_BYTES s.heap_start L.foot_bytes then some 0
  else do
    let foot := PTR_MINUS_BYTES block L.foot_bytes
    deref foot
    let size := s.foot foot
    pure (PTR_MINUS_BYTES block (add64 (add64 size L.head_bytes) L.foot_bytes))

/-! ## Block list operations -/

/-- Make a list empty (`el_init_blocklist`, lines 218-231).  The assignment
to `list->beg` is commented out in the source (line 219), so the begin
sentinel is reached through whatever `list->beg` holds on entry. -/
def el_init_blocklist (L : Layout) (s : State) (list : ListId) : Option State := do
  -- list->beg->state = EL_BEGIN_BLOCK;
  deref (s.list list).beg
  let s := s.wr_state (s.list list).beg L.EL_BEGIN_BLOCK
  -- list->beg->size = EL_UNINITIALIZED;
  let s := s.wr_size (s.list list).beg L.EL_UNINITIALIZED
  -- list->end = &(list->end_actual);
  let s := s.setList list { s.list list with end_ := L.end_actual list }
  -- list->end->state = EL_END_BLOCK;
  deref (s.list list).end_
  let s := s.wr_state (s.list list).end_ L.EL_END_BLOCK
  -- list->end->size = EL_UNINITIALIZED;
  let s := s.wr_size (s.list list).end_ L.EL_UNINITIALIZED
  -- list->beg->next = list->end;
  let s := s.wr_next (s.list list).beg (s.list list).end_
  -- list->beg->prev = NULL;
  let s := s.wr_prev (s.list list).beg 0
  -- list->end->next = NULL;
  let s := s.wr_next (s.list list).end_ 0
  -- list->end->prev = list->beg;
  let s := s.wr_prev (s.list list).end_ (s.list list).beg
  -- list->length = 0; list->bytes = 0;
  pure (s.setList list { s.list list with length := 0, bytes := 0 })

/-- Link `block` right after the begin sentinel of `list`
(`el_add_block_front`, lines 237-255). -/
def el_add_block_front (L : Layout) (s : State) (list : ListId) (block : Nat) :
    Option State := do
  -- block->prev = list->beg;
  deref block
  let s := s.wr_prev block (s.list list).beg
  -- block->next = list->beg->next;
  deref (s.list list).beg
  let s := s.wr_next block (s.next (s.list list).beg)
  -- list->beg->next->prev = block;
  deref (s.next (s.list list).beg)
  let s := s.wr_prev (s.next (s.list list).beg) block
  -- list->beg->next = block;
  let s := s.wr_next (s.list list).beg block
  -- list->length += 1;
  let s := s.setList list { s.list list with length := add64 (s.list list).length 1 }
  -- list->bytes += block->size + EL_BLOCK_OVERHEAD;
  pure (s.setList list { s.list list with
    bytes := add64 (s.list list).bytes (add64 (s.size block) L.EL_BLOCK_OVERHEAD) })

/-- Unlink `block` from `list` (`el_remove_block`, lines 261-271). -/
def el_remove_block (L : Layout) (s : State) (list : ListId) (block : Nat) :
    Option State := do
  -- block->prev->next = block->next;
  deref block
  deref (s.prev block)
  let s := s.wr_next (s.prev block) (s.next block)
  -- block->next->prev = block->prev;
  deref (s.next block)
  let s := s.wr_prev (s.next block) (s.prev block)
  -- list->length -= 1;
  let s := s.setList list { s.list list with length := sub64 (s.list list).length 1 }
  -- list->bytes -= block->size + EL_BLOCK_OVERHEAD;
  pure (s.setList list { s.list list with
    bytes := sub64 (s.list list).bytes (add64 (s.size block) L.EL_BLOCK_OVERHEAD) })

/-! ## Allocation -/

/-- The `while` loop of `el_find_first_avail` (lines 286-293), run for at most
`fuel` tests of its condition; `some 0` is the NULL returned after the loop. -/
def find_first_loop (s : State) (size : Nat) : Nat → Nat → Option Nat
  | 0, _ => none
  | fuel + 1, curr =>
    if curr = s.avail.end_ then some 0
    else if curr = 0 then none
    else if size ≤ s.size curr then some curr
    else find_first_loop s size fuel (s.next curr)

/-- The first block of the available list with at least `size` bytes, `0`
(NULL) if there is none (`el_find_first_avail`, lines 280-298). -/
def el_find_first_avail (s : State) (fuel : Nat) (size : Nat) : Option Nat := do
  -- el_blockhead_t *curr = el_ctl->avail->beg->next;
  deref s.avail.beg
  find_first_loop s size fuel (s.next s.avail.beg)

/-- Cut `block` down to `new_size` bytes and make a block of what is left;
returns the state and the new block, `0` (NULL) when the block is too small
(`el_split_block`, lines 311-347). -/
def el_split_block (L : Layout) (s : State) (block : Nat) (new_size : Nat) :
    Option (State × Nat) := do
  deref block
  if s.size block < add64 new_size L.EL_BLOCK_OVERHEAD then pure (s, 0)
  else do
    -- size_t split_size = block->size - new_size - EL_BLOCK_OVERHEAD;
    let split_size := sub64 (sub64 (s.size block) new_size) L.EL_BLOCK_OVERHEAD
    -- block->size = new_size;
    let s := s.wr_size block new_size
    -- el_blockfoot_t *foot = el_get_footer(block); foot->size = new_size;
    let foot ← el_get_footer L s block
    deref foot
    let s := s.wr_foot foot new_size
    -- split_block = PTR_PLUS_BYTES(foot, sizeof(el_blockfoot_t));
    let split_block := PTR_PLUS_BYTES foot L.foot_bytes
    deref split_block
    let s := s.wr_size split_block split_size
    let s := s.wr_state split_block L.EL_AVAILABLE
    let s := s.wr_prev split_block block
    let s := s.wr_next split_block (s.next block)
    -- block->next = split_block;
    let s := s.wr_next block split_block
    -- split_foot = el_get_footer(split_block); split_foot->size = split_size;
    let split_foot ← el_get_footer L s split_block
    deref split_foot
    let s := s.wr_foot split_foot split_size
    pure (s, split_block)

/-- Allocate `nbytes` bytes; returns the state and the pointer to the usable
space, `0` (NULL) if no block is large enough (`el_malloc`, lines 355-383). -/
def el_malloc (L : Layout) (fuel : Nat) (s : State) (nbytes : Nat) :
    Option (State × Nat) := do
  let block ← el_find_first_avail s fuel nbytes
  if block = 0 then pure (s, 0)
  else do
    let s ← el_remove_block L s .avail block
    let (s, split) ← el_split_block L s block nbytes
    let s ← if split ≠ 0 then el_add_block_front L s .avail split else pure s
    -- el_blockfoot_t *foot = el_get_footer(block); foot->size = block->size;
    let foot ← el_get_footer L s block
    deref foot
    let s := s.wr_foot foot (s.size block)
    -- block->state = EL_USED;
    let s := s.wr_state block L.EL_USED
    let s ← el_add_block_front L s .used block
    pure (s, PTR_PLUS_BYTES block L.head_bytes)

/-! ## Deallocation -/

/-- Merge `lower` with the block above it when both are available
(`el_merge_block_with_above`, lines 399-426). -/
def el_merge_block_with_above (L : Layout) (s : State) (lower : Nat) : Option State :=
  if lower = 0 then some s
  else if s.state lower ≠ L.EL_AVAILABLE then some s
  else do
    let upper ← el_block_above L s lower
    if upper = 0 then pure s
    else if s.state upper ≠ L.EL_AVAILABLE then pure s
    else do
      let s ← el_remove_block L s .avail lower
      let s ← el_remove_block L s .avail upper
      -- lower->size = lower->size + upper->size + EL_BLOCK_OVERHEAD;
      let s := s.wr_size lower
        (add64 (add64 (s.size lower) (s.size upper)) L.EL_BLOCK_OVERHEAD)
      -- el_blockfoot_t *foot = el_get_footer(lower); foot->size = lower->size;
      let foot ← el_get_footer L s lower
      deref foot
      let s := s.wr_foot foot (s.size lower)
      el_add_block_front L s .avail lower

/-- Free the block whose usable space starts at `ptr` (`el_free`,
lines 438-478).  The diagnostic printed on the two error paths is not
part of the state. -/
def el_free (L : Layout) (s : State) (ptr : Nat) : Option State :=
  if ptr = 0 then some s
  else
    let block := PTR_MINUS_BYTES ptr L.head_bytes
    if block = 0 then none
    else if s.state block ≠ L.EL_USED then some s
    else do
      -- block->state = EL_AVAILABLE;
      let s := s.wr_state block L.EL_AVAILABLE
      -- el_blockfoot_t *foot = el_get_footer(block); foot->size = block->size;
      let foot ← el_get_footer L s block
      deref foot
      let s := s.wr_foot foot (s.size block)
      let s ← el_remove_block L s .used block
      let s ← el_add_block_front L s .avail block
      let s ← el_merge_block_with_above L s block
      let lower ← el_block_below L s block
      if lower ≠ 0 then
        if s.state lower = L.EL_AVAILABLE then el_merge_block_with_above L s lower
        else pure s
      else pure s

/-! ## Heap expansion -/

/-- The product of two C `int`s as the machine forms it: the low 32 bits of
the exact product, read as a signed number. -/
def int_mul (a b : Int) : Int := (a * b + 2 ^ 31) % 2 ^ 32 - 2 ^ 31

/-- The conversion of a C `int` to `size_t`. -/
def size_t_of_int (i : Int) : Nat := (i % 2 ^ 64).toNat

/-- Append `npages` pages to the heap (`el_append_pages_to_heap`,
lines 511-560).  `new_block_addr` is the value the `mmap` call of line 523
returns.  In `size_t bytes_add = npages * EL_PAGE_BYTES` (line 520) the
product is formed from the `int` `npages` and the plain constant
`EL_PAGE_BYTES`, as an `int`, before it is converted to `size_t`. -/
def el_append_pages_to_heap (L : Layout) (s : State) (npages : Int)
    (new_block_addr : Nat) : Option (State × Nat) :=
  if npages ≤ 0 then some (s, 1)
  else
    let bytes_add := size_t_of_int (int_mul npages L.EL_PAGE_BYTES)
    if new_block_addr = MAP_FAILED ∨ new_block_addr ≠ s.heap_end then some (s, 1)
    else do
      let new_block := new_block_addr
      deref new_block
      let s := s.wr_size new_block (sub64 bytes_add L.EL_BLOCK_OVERHEAD)
      let s := s.wr_state new_block L.EL_AVAILABLE
      let s := s.wr_next new_block 0
      let s := s.wr_prev new_block 0
      -- new_foot = el_get_footer(new_block); new_foot->size = new_block->size;
      let new_foot ← el_get_footer L s new_block
      deref new_foot
      let s := s.wr_foot new_foot (s.size new_block)
      -- el_ctl->heap_bytes += bytes_add;
      let s := s.set_heap_bytes (add64 s.heap_bytes bytes_add)
      -- el_ctl->heap_end = PTR_PLUS_BYTES(new_block_addr, bytes_add);
      let s := s.set_heap_end (PTR_PLUS_BYTES new_block_addr bytes_add)
      let s ← el_add_block_front L s .avail new_block
      let below ← el_block_below L s new_block
      let s ← if below ≠ 0 then
          (if s.state below = L.EL_AVAILABLE then el_merge_block_with_above L s below
           else pure s)
        else pure s
      pure (s, 0)

/-! ## Initialisation -/

/-- Set up the control block and the heap (`el_init`, lines 18-70).  `pre` is
the memory as the two `mmap` calls hand it over, `ctl_map` and `heap_map` are
the addresses they return; a failed `assert` has no result. -/
def el_init (L : Layout) (pre : State) (ctl_map heap_map : Nat)
    (initial_heap_size : Nat) : Option (State × Nat) :=
  -- assert(el_ctl == EL_CTL_START_ADDRESS);
  if ctl_map ≠ L.EL_CTL_START_ADDRESS then none
  -- assert(heap == EL_HEAP_START_ADDRESS);
  else if heap_map ≠ L.EL_HEAP_START_ADDRESS then none
  else
    -- el_ctl->heap_bytes = initial_heap_size;
    let s := pre.set_heap_bytes initial_heap_size
    -- el_ctl->heap_start = heap;
    let s := s.set_heap_start heap_map
    -- el_ctl->heap_end = PTR_PLUS_BYTES(heap,el_ctl->heap_bytes);
    let s := s.set_heap_end (PTR_PLUS_BYTES heap_map s.heap_bytes)
    if s.heap_bytes < L.EL_BLOCK_OVERHEAD then some (s, 1)
    else do
      let s ← el_init_blocklist L s .avail
      let s ← el_init_blocklist L s .used
      -- size_t size = el_ctl->heap_bytes - EL_BLOCK_OVERHEAD;
      let size := sub64 s.heap_bytes L.EL_BLOCK_OVERHEAD
      let ablock := s.heap_start
      deref ablock
      let s := s.wr_size ablock size
      let s := s.wr_state ablock L.EL_AVAILABLE
      let afoot ← el_get_footer L s ablock
      deref afoot
      let s := s.wr_foot afoot size
      -- ablock->prev = el_ctl->avail->beg;
      let s := s.wr_prev ablock s.avail.beg
      -- ablock->next = el_ctl->avail->beg->next;
      deref s.avail.beg
      let s := s.wr_next ablock (s.next s.avail.beg)
      -- ablock->prev->next = ablock;
      deref (s.prev ablock)
      let s := s.wr_next (s.prev ablock) ablock
      -- ablock->next->prev = ablock;
      deref (s.next ablock)
      let s := s.wr_prev (s.next ablock) ablock
      -- el_ctl->avail->length++;
      let s := s.setList .avail { s.avail with length := add64 s.avail.length 1 }
      -- el_ctl->avail->bytes += (ablock->size + EL_BLOCK_OVERHEAD);
      let s := s.setList .avail { s.avail with
        bytes := add64 s.avail.bytes (add64 (s.size ablock) L.EL_BLOCK_OVERHEAD) }
      pure (s, 0)

/-! ## Predicates and ghost structures of the specification -/

/-- The chain `p → xs → e`: following `nx` from `p` runs through `xs` and
reaches `e`, and `pv` leads back. -/
def Seg (nx pv : Nat → Nat) : Nat → List Nat → Nat → Prop
  | p, [], e => nx p = e ∧ pv e = p
  | p, x :: xs, e => nx p = x ∧ pv x = p ∧ Seg nx pv x xs e

/-- The bytes a list of blocks accounts for: payload plus overhead of each. -/
def total (L : Layout) (sz : Nat → Nat) (l : List Nat) : Nat :=
  (l.map fun b => sz b + L.EL_BLOCK_OVERHEAD).sum

/-- The nodes of a list: its two sentinels around its members. -/
def nodes (L : Layout) (id : ListId) (xs : List Nat) : List Nat :=
  L.beg_actual id :: xs ++ [L.end_actual id]

/-- List `id` of state `s` links exactly the blocks `xs`, in this order,
between its own sentinels, and its counters agree with them. -/
structure ListOK (L : Layout) (s : State) (id : ListId) (xs : List Nat) : Prop where
  beg_eq : (s.list id).beg = L.beg_actual id
  end_eq : (s.list id).end_ = L.end_actual id
  seg : Seg s.next s.prev (L.beg_actual id) xs (L.end_actual id)
  nodup : (nodes L id xs).Nodup
  nonnull : ∀ a ∈ nodes L id xs, a ≠ 0
  len : (s.list id).length = xs.length
  bytes : (s.list id).bytes = total L s.size xs
  len_lt : xs.length < WORD
  bytes_lt : total L s.size xs < WORD

/-- The parts of a state no list operation writes. -/
structure Keeps (s s' : State) : Prop where
  size : s'.size = s.size
  state : s'.state = s.state
  foot : s'.foot = s.foot
  heap_start : s'.heap_start = s.heap_start
  heap_end : s'.heap_end = s.heap_end
  heap_bytes : s'.heap_bytes = s.heap_bytes

/-- The blocks `bs`, in address order, tile `[a, e)`: each block starts where
the one before it ends. -/
def Tiled (L : Layout) (sz : Nat → Nat) : Nat → List Nat → Nat → Prop
  | a, [], e => a = e
  | a, b :: bs, e => b = a ∧ Tiled L sz (a + sz a + L.EL_BLOCK_OVERHEAD) bs e

/-- What the development assumes of the declarations in `el_malloc.h`. -/
structure Layout.WF (L : Layout) : Prop where
  head_pos : 0 < L.head_bytes
  foot_pos : 0 < L.foot_bytes
  page_ge : L.EL_BLOCK_OVERHEAD ≤ L.EL_PAGE_BYTES
  page_lt : L.EL_PAGE_BYTES < 2 ^ 32
  heap_pos : 0 < L.EL_HEAP_START_ADDRESS
  sentinels : [L.avail_beg_actual, L.avail_end_actual, L.used_beg_actual,
    L.used_end_actual].Nodup
  sentinels_pos : ∀ a ∈ [L.avail_beg_actual, L.avail_end_actual, L.used_beg_actual,
    L.used_end_actual], a ≠ 0
  avail_ne_used : L.EL_AVAILABLE ≠ L.EL_USED
  begin_ne_used : L.EL_BEGIN_BLOCK ≠ L.EL_USED
  end_ne_used : L.EL_END_BLOCK ≠ L.EL_USED

/-- The four sentinel addresses. -/
def Layout.IsSentinel (L : Layout) (a : Nat) : Prop :=
  a = L.avail_beg_actual ∨ a = L.avail_end_actual ∨ a = L.used_beg_actual ∨
    a = L.used_end_actual

/-- What is assumed of a mapping of `len` bytes that `mmap` grants at `lo`: it
lies inside the address space and does not cover the control block. -/
def Granted (L : Layout) (lo len : Nat) : Prop :=
  lo + len < WORD ∧ ∀ a, L.IsSentinel a → a < lo ∨ lo + len ≤ a

/-- The heap part of the invariant: the blocks `bs` tile the region and carry
matching boundary tags. -/
structure HeapOK (L : Layout) (s : State) (bs : List Nat) : Prop where
  start_pos : 0 < s.heap_start
  end_lt : s.heap_end < WORD
  extent : s.heap_start + s.heap_bytes = s.heap_end
  tiled : Tiled L s.size s.heap_start bs s.heap_end
  ne : bs ≠ []
  foot_ok : ∀ b ∈ bs, s.foot (b + L.head_bytes + s.size b) = s.size b
  sent_out : ∀ a, L.IsSentinel a → a < s.heap_start ∨ s.heap_end ≤ a

/-- The invariant without the clause on adjacent available blocks, over the
blocks `bs` of the heap in address order, the members `xs` of the available
list and the members `ys` of the used list, both in list order. -/
structure Inv0 (L : Layout) (s : State) (bs xs ys : List Nat) : Prop where
  heap : HeapOK L s bs
  avail : ListOK L s .avail xs
  used : ListOK L s .used ys
  tag : ∀ b ∈ bs, s.state b = L.EL_AVAILABLE ∨ s.state b = L.EL_USED
  mem_avail : ∀ b, b ∈ xs ↔ b ∈ bs ∧ s.state b = L.EL_AVAILABLE
  mem_used : ∀ b, b ∈ ys ↔ s.state b = L.EL_USED
  used_sub : ∀ b ∈ ys, b ∈ bs

/-- No block of `bs` and the block right above it are both available. -/
def NoAdj (L : Layout) (s : State) (bs : List Nat) : Prop :=
  ∀ b ∈ bs, ∀ c ∈ bs, c = b + s.size b + L.EL_BLOCK_OVERHEAD →
    ¬ (s.state b = L.EL_AVAILABLE ∧ s.state c = L.EL_AVAILABLE)

/-- The invariant of the allocator. -/
structure Inv (L : Layout) (s : State) (bs xs ys : List Nat) : Prop where
  base : Inv0 L s bs xs ys
  no_adj : NoAdj L s bs

/-- What `el_merge_block_with_above` changes when it merges `u` into `lower`. -/
structure Merged (L : Layout) (s s' : State) (lower u : Nat) : Prop where
  state : s'.state = s.state
  size : s'.size =
    Function.update s.size lower (s.size lower + s.size u + L.EL_BLOCK_OVERHEAD)
  heap_start : s'.heap_start = s.heap_start
  heap_end : s'.heap_end = s.heap_end
  heap_bytes : s'.heap_bytes = s.heap_bytes
  avail_bytes : s'.avail.bytes = s.avail.bytes
  avail_len : s'.avail.length + 1 = s.avail.length
  used : s'.used = s.used

/-- What the merging steps of `el_free` and `el_append_pages_to_heap` keep. -/
structure MergeStep (s s' : State) : Prop where
  state : s'.state = s.state
  heap_start : s'.heap_start = s.heap_start
  heap_end : s'.heap_end = s.heap_end
  heap_bytes : s'.heap_bytes = s.heap_bytes
  avail_bytes : s'.avail.bytes = s.avail.bytes
  used : s'.used = s.used

/-- No two adjacent blocks are both available, except possibly `x` and the
block below it. -/
def NoAdjBelow (L : Layout) (s : State) (bs : List Nat) (x : Nat) : Prop :=
  ∀ b ∈ bs, ∀ c ∈ bs, c = b + s.size b + L.EL_BLOCK_OVERHEAD → c ≠ x →
    ¬ (s.state b = L.EL_AVAILABLE ∧ s.state c = L.EL_AVAILABLE)

/-- No two adjacent blocks other than `x` are both available. -/
def NoAdjAround (L : Layout) (s : State) (bs : List Nat) (x : Nat) : Prop :=
  ∀ b ∈ bs, ∀ c ∈ bs, c = b + s.size b + L.EL_BLOCK_OVERHEAD → b ≠ x → c ≠ x →
    ¬ (s.state b = L.EL_AVAILABLE ∧ s.state c = L.EL_AVAILABLE)

/-- What a successful `el_free` of `block` changes outside the lists' links. -/
structure Freed (L : Layout) (s s' : State) (block : Nat) : Prop where
  state : s'.state = Function.update s.state block L.EL_AVAILABLE
  heap_start : s'.heap_start = s.heap_start
  heap_end : s'.heap_end = s.heap_end
  heap_bytes : s'.heap_bytes = s.heap_bytes
  used_len : s'.used.length + 1 = s.used.length
  used_bytes : s'.used.bytes + (s.size block + L.EL_BLOCK_OVERHEAD) = s.used.bytes
  avail_bytes : s'.avail.bytes = s.avail.bytes + (s.size block + L.EL_BLOCK_OVERHEAD)

/-- The block a first-fit scan of `xs` selects, `0` if there is none. -/
def firstFit (s : State) (size : Nat) (xs : List Nat) : Nat :=
  (xs.find? (fun x => decide (size ≤ s.size x))).getD 0

/-- What the last steps of `el_malloc` change. -/
structure Linked (L : Layout) (t t' : State) (b : Nat) : Prop where
  size : t'.size = t.size
  state : t'.state = Function.update t.state b L.EL_USED
  heap_start : t'.heap_start = t.heap_start
  heap_end : t'.heap_end = t.heap_end
  heap_bytes : t'.heap_bytes = t.heap_bytes
  avail : t'.avail = t.avail
  used_len : t'.used.length = t.used.length + 1
  used_bytes : t'.used.bytes = t.used.bytes + (t.size b + L.EL_BLOCK_OVERHEAD)

/-- What a successful `el_malloc` of `n` bytes from block `b` changes. -/
structure Alloc (L : Layout) (s s' : State) (b n : Nat) : Prop where
  state : s'.state b = L.EL_USED
  size_split : n + L.EL_BLOCK_OVERHEAD ≤ s.size b → s'.size b = n
  size_whole : s.size b < n + L.EL_BLOCK_OVERHEAD → s'.size b = s.size b
  heap_start : s'.heap_start = s.heap_start
  heap_end : s'.heap_end = s.heap_end
  heap_bytes : s'.heap_bytes = s.heap_bytes
  used_len : s'.used.length = s.used.length + 1
  used_bytes : s'.used.bytes = s.used.bytes + (s'.size b + L.EL_BLOCK_OVERHEAD)
  avail_bytes : s'.avail.bytes + (s'.size b + L.EL_BLOCK_OVERHEAD) = s.avail.bytes

/-- What a successful `el_append_pages_to_heap` changes outside the available
list. -/
structure Grown (s s' : State) (bytes : Nat) : Prop where
  heap_start : s'.heap_start = s.heap_start
  heap_end : s'.heap_end = s.heap_end + bytes
  heap_bytes : s'.heap_bytes = s.heap_bytes + bytes
  used : s'.used = s.used
  avail_bytes : s'.avail.bytes = s.avail.bytes + bytes

/-- The memory `el_init` can start from: the `beg` pointers of the two lists
already designate the lists' begin sentinels, and no header carries the used
tag. -/
structure Prepared (L : Layout) (pre : State) : Prop where
  avail_beg : pre.avail.beg = L.avail_beg_actual
  used_beg : pre.used.beg = L.used_beg_actual
  no_used : ∀ a, pre.state a ≠ L.EL_USED

/-- The linear walk through the heap of `el_print_heap_blocks` (lines
187-196): from `cur`, apply `el_block_above` until it returns NULL, for at most
`fuel` tests of the loop condition; the blocks visited, in order. -/
def heap_walk (L : Layout) (s : State) : Nat → Nat → Option (List Nat)
  | 0, _ => none
  | fuel + 1, cur =>
    if cur = 0 then some []
    else do
      let above ← el_block_above L s cur
      let rest ← heap_walk L s fuel above
      pure (cur :: rest)

/-- The traversal of a list from the element `cur` to the sentinel `end_`, as
in the loop of `el_find_first_avail` (lines 286-293), for at most `fuel` tests
of the loop condition; the blocks visited, in order. -/
def walk_list (s : State) (end_ : Nat) : Nat → Nat → Option (List Nat)
  | 0, _ => none
  | fuel + 1, cur =>
    if cur = end_ then some []
    else if cur = 0 then none
    else (walk_list s end_ fuel (s.next cur)).map (fun rest => cur :: rest)

/-- The blocks linked between the begin and the end sentinel of a list. -/
def State.members (s : State) (id : ListId) (fuel : Nat) : Option (List Nat) := do
  deref (s.list id).beg
  walk_list s (s.list id).end_ fuel (s.next (s.list id).beg)

/-- The states the allocator can be in: those a successful `el_init` returns
and those later calls of `el_malloc`, `el_free` and `el_append_pages_to_heap`
lead to.  `el_init` starts from a memory in which `list->beg` already
designates the begin sentinels (see `el_init_blocklist`); mappings are granted
by the environment as `Granted` describes, and a mapping granted at `heap_end`
has room for the overhead of a block (the byte count the call asks for is the
`int` product of line 520; `mmap` grants no empty mapping). -/
inductive Reachable (L : Layout) : State → Prop
  | init {pre s : State} {ctl_map heap_map n : Nat} :
      Prepared L pre → Granted L L.EL_HEAP_START_ADDRESS n →
      el_init L pre ctl_map heap_map n = some (s, 0) → Reachable L s
  | malloc {s s' : State} {fuel n p : Nat} :
      Reachable L s → el_malloc L fuel s n = some (s', p) → Reachable L s'
  | free {s s' : State} {ptr : Nat} :
      Reachable L s → el_free L s ptr = some s' → Reachable L s'
  | append {s s' : State} {npages : Int} {addr r : Nat} :
      Reachable L s →
      (addr = s.heap_end →
        Granted L s.heap_end (size_t_of_int (int_mul npages L.EL_PAGE_BYTES)) ∧
          L.EL_BLOCK_OVERHEAD ≤ size_t_of_int (int_mul npages L.EL_PAGE_BYTES)) →
      el_append_pages_to_heap L s npages addr = some (s', r) → Reachable L s'

/-- A layout with the structure sizes of x86-64 Linux: 32-byte headers, 8-byte
footers (overhead 40, as in the listing of `el_print_blocklist`), 4096-byte
pages, the heap at `0x600000000000`. -/
def x86_64 : Layout :=
  { head_bytes := 32, foot_bytes := 8, EL_PAGE_BYTES := 4096,
    EL_HEAP_START_ADDRESS := 0x600000000000, EL_CTL_START_ADDRESS := 0x700000000000,
    avail_beg_actual := 0x700000000018, avail_end_actual := 0x700000000038,
    used_beg_actual := 0x700000000078, used_end_actual := 0x700000000098,
    EL_AVAILABLE := 97, EL_USED := 117, EL_BEGIN_BLOCK := 66, EL_END_BLOCK := 69,
    EL_UNINITIALIZED := 12345 }

/-- Memory as anonymous `mmap` hands it over: every byte zero. -/
def fresh_page : State :=
  { heap_start := 0, heap_end := 0, heap_bytes := 0,
    avail := el_blocklist_t.mk 0 0 0 0, used := el_blocklist_t.mk 0 0 0 0,
    size := fun _ => 0, state := fun _ => 0, next := fun _ => 0, prev := fun _ => 0,
    foot := fun _ => 0 }

/-- Zeroed memory in which the two `beg` pointers designate the begin
sentinels. -/
def prepared_page : State :=
  { fresh_page with
    avail := el_blocklist_t.mk x86_64.avail_beg_actual 0 0 0,
    used := el_blocklist_t.mk x86_64.used_beg_actual 0 0 0 }

/-- The state after `el_init(4096)` on `prepared_page`. -/
def state0 : State :=
  ((el_init x86_64 prepared_page x86_64.EL_CTL_START_ADDRESS x86_64.EL_HEAP_START_ADDRESS
    4096).getD (prepared_page, 1)).1

/-- The state after `el_malloc(100)` in `state0`. -/
def state1 : State := ((el_malloc x86_64 2 state0 100).getD (state0, 0)).1

/-- The pointer `el_malloc(100)` returns in `state0`. -/
def ptr1 : Nat := ((el_malloc x86_64 2 state0 100).getD (state0, 0)).2

/-- The heap of `s` is one available block of `n` bytes at `heap_start`, the
only member of the available list, and the used list is empty. -/
def OneAvailable (L : Layout) (s : State) (n : Nat) : Prop :=
  (∀ fuel, 1 < fuel → heap_walk L s fuel s.heap_start = some [s.heap_start]) ∧
  (∀ fuel, 1 < fuel → s.members .avail fuel = some [s.heap_start]) ∧
  (∀ fuel, 0 < fuel → s.members .used fuel = some []) ∧
  s.avail.length = 1 ∧ s.used.length = 0 ∧
  s.state s.heap_start = L.EL_AVAILABLE ∧ s.size s.heap_start = n

/-- The state after `el_init(1048576)` (1 MiB) on `prepared_page`. -/
def big0 : State :=
  ((el_init x86_64 prepared_page x86_64.EL_CTL_START_ADDRESS x86_64.EL_HEAP_START_ADDRESS
    1048576).getD (prepared_page, 1)).1

/-- The state after `el_malloc(100)` in `big0`. -/
def big1 : State := ((el_malloc x86_64 2 big0 100).getD (big0, 0)).1

/-- The pointer `el_malloc(100)` returns in `big0`. -/
def bigA : Nat := ((el_malloc x86_64 2 big0 100).getD (big0, 0)).2

/-- The state after `el_malloc(200)` in `big1`. -/
def big2 : State := ((el_malloc x86_64 2 big1 200).getD (big1, 0)).1

/-- The pointer `el_malloc(200)` returns in `big1`. -/
def bigB : Nat := ((el_malloc x86_64 2 big1 200).getD (big1, 0)).2

/-- The state after `el_malloc(300)` in `big2`. -/
def big3 : State := ((el_malloc x86_64 2 big2 300).getD (big2, 0)).1

/-- The pointer `el_malloc(300)` returns in `big2`. -/
def bigC : Nat := ((el_malloc x86_64 2 big2 300).getD (big2, 0)).2

/-- The state after `el_append_pages_to_heap(1)` in `state1`, the mapping being
granted at `heap_end`. -/
def grown1 : State :=
  ((el_append_pages_to_heap x86_64 state1 1 state1.heap_end).getD (state1, 1)).1

/-- The state in the middle of `el_free(ptr1)` in `state1`, right before the
two merging attempts: the block at the start of the heap carries the available
tag again and has moved from the used list to the front of the available
list. -/
def relinked1 : State :=
  ((el_remove_block x86_64
      ((state1.wr_state x86_64.EL_HEAP_START_ADDRESS x86_64.EL_AVAILABLE).wr_foot
        (x86_64.EL_HEAP_START_ADDRESS + x86_64.head_bytes +
          state1.size x86_64.EL_HEAP_START_ADDRESS)
        (state1.size x86_64.EL_HEAP_START_ADDRESS))
      .used x86_64.EL_HEAP_START_ADDRESS).bind
    (fun t => el_add_block_front x86_64 t .avail x86_64.EL_HEAP_START_ADDRESS)).getD state1

/-- The state after `el_split_block` cuts the block of `state0` down to 100
bytes. -/
def split0 : State :=
  ((el_split_block x86_64 state0 x86_64.EL_HEAP_START_ADDRESS 100).getD (state0, 0)).1

/-- A control block whose available list holds a stale `beg` pointer: it
designates the begin sentinel of the used list. -/
def stale_page : State :=
  { fresh_page with avail := el_blocklist_t.mk x86_64.used_beg_actual 0 0 0 }

end ElMalloc

namespace ColNorm

/-! ## Column normalisation of a matrix (`colnorm_base.c`, `colnorm_optm.c`)

The element type `double` is replaced by a field `α` with a square root
function `sqrt`, so that the code can be read in exact arithmetic.  Dimensions
and counts are non-negative C integers, modelled as natural numbers.  A loop
whose `int` counter would overflow has no result. -/

/-- A matrix (`matrix_t` of `colnorm.h`): `data` is the array the structure
points to. -/
structure matrix_t (α : Type) where
  rows : Nat
  cols : Nat
  col_space : Nat
  data : Nat → α

/-- A vector (`vector_t` of `colnorm.h`). -/
structure vector_t (α : Type) where
  len : Nat
  data : Nat → α

/-- The macro `MGET(mat,i,j)`. -/
def MGET {α : Type} (mat : matrix_t α) (i j : Nat) : α := mat.data (i * mat.col_space + j)

/-- The macro `VGET(vec,i)`. -/
def VGET {α : Type} (vec : vector_t α) (i : Nat) : α := vec.data i

/-- The macro `MSET(mat,i,j,x)`. -/
def MSET {α : Type} (mat : matrix_t α) (i j : Nat) (x : α) : matrix_t α :=
  { mat with data := Function.update mat.data (i * mat.col_space + j) x }

/-- The macro `VSET(vec,i,x)`. -/
def VSET {α : Type} (vec : vector_t α) (i : Nat) (x : α) : vector_t α :=
  { vec with data := Function.update vec.data i x }

/-- One iteration of the loop over the columns of `colnorm_BASE_1`
(lines 19-41): the three passes over column `j`. -/
def base_column {α : Type} [Field α] (sqrt : α → α)
    (st : matrix_t α × vector_t α × vector_t α) (j : Nat) :
    matrix_t α × vector_t α × vector_t α :=
  let mat := st.1
  let avg := st.2.1
  let std := st.2.2
  -- PASS 1: for(int i=0; i<mat.rows; i++) sum_j += MGET(mat,i,j);
  let sum_j := (List.range mat.rows).foldl (fun acc i => acc + MGET mat i j) 0
  let avg_j := sum_j / (mat.rows : α)
  let avg := VSET avg j avg_j
  -- PASS 2: diff = MGET(mat,i,j) - avg_j; sum_j += diff*diff;
  let sum_j := (List.range mat.rows).foldl
    (fun acc i => acc + (MGET mat i j - avg_j) * (MGET mat i j - avg_j)) 0
  let std_j := sqrt (sum_j / (mat.rows : α))
  let std := VSET std j std_j
  -- PASS 3: MSET(mat,i,j,(MGET(mat,i,j) - avg_j) / std_j);
  let mat := (List.range mat.rows).foldl
    (fun m i => MSET m i j ((MGET m i j - avg_j) / std_j)) mat
  (mat, avg, std)

/-- The baseline normalisation (`colnorm_BASE_1`, lines 9-43); returns the
result code and the matrix and vectors as the call leaves them.  The counters
`i` and `j` are `int`s compared with `long` bounds. -/
def colnorm_BASE_1 {α : Type} [Field α] (sqrt : α → α) (mat : matrix_t α)
    (avg std : vector_t α) : Option (Nat × matrix_t α × vector_t α × vector_t α) :=
  if 2 ^ 31 ≤ mat.cols ∨ (0 < mat.cols ∧ 2 ^ 31 ≤ mat.rows) then none
  else
    let st := (List.range mat.cols).foldl (base_column sqrt) (mat, avg, std)
    some (0, st.1, st.2.1, st.2.2)

/-- The entry point `colnorm_BASE` (lines 88-94): refuses vectors whose length
is not the number of columns. -/
def colnorm_BASE {α : Type} [Field α] (sqrt : α → α) (mat : matrix_t α)
    (avg std : vector_t α) : Option (Nat × matrix_t α × vector_t α × vector_t α) :=
  if avg.len ≠ mat.cols ∨ std.len ≠ mat.cols then some (1, mat, avg, std)
  else colnorm_BASE_1 sqrt mat avg std

/-- The first row of thread `thread_id` (`start_row`, line 68). -/
def start_row (rows thread_count thread_id : Nat) : Nat :=
  thread_id * (rows / thread_count)

/-- One past the last row of thread `thread_id` (`end_row`, line 69): the last
thread takes the leftover rows. -/
def end_row (rows thread_count thread_id : Nat) : Nat :=
  if thread_id = thread_count - 1 then rows
  else start_row rows thread_count thread_id + rows / thread_count

/-- The sums a worker accumulates in its own arrays `local_sum` and
`local_sumsq` (lines 74-91), over the rows from `start` up to `stop`. -/
def local_sums {α : Type} [Field α] (mat : matrix_t α) (start stop : Nat) :
    (Nat → α) × (Nat → α) :=
  (List.range' start (stop - start)).foldl
    (fun loc i => (List.range mat.cols).foldl
      (fun loc j =>
        let val := MGET mat i j
        (Function.update loc.1 j (loc.1 j + val),
          Function.update loc.2 j (loc.2 j + val * val))) loc)
    (fun _ => 0, fun _ => 0)

/-- The worker `norm_worker` (lines 53-113) of thread `thread_id`, as a
function of the shared vectors it finds when it takes the lock: it adds its
local sums to them. -/
def norm_worker {α : Type} [Field α] (mat : matrix_t α) (thread_count thread_id : Nat)
    (shared : vector_t α × vector_t α) : vector_t α × vector_t α :=
  let loc := local_sums mat (start_row mat.rows thread_count thread_id)
    (end_row mat.rows thread_count thread_id)
  -- between pthread_mutex_lock and pthread_mutex_unlock
  (List.range mat.cols).foldl
    (fun sh j => (VSET sh.1 j (VGET sh.1 j + loc.1 j), VSET sh.2 j (VGET sh.2 j + loc.2 j)))
    shared

/-- The threaded normalisation (`cn_verA`, lines 39-177).  The workers only
read the matrix and write the shared vectors inside their critical section, so
a run is determined by the order `sched` in which the threads take the lock.
The array of `thread_count` threads needs a positive count; the counter of the
loop of line 78 is an `int` compared with the `long` `cols`. -/
def cn_verA {α : Type} [Field α] (sqrt : α → α) (sched : List Nat) (mat : matrix_t α)
    (avg std : vector_t α) (thread_count : Nat) :
    Option (Nat × matrix_t α × vector_t α × vector_t α) :=
  if thread_count = 0 ∨ 2 ^ 31 ≤ mat.cols then none
  else
    -- VSET(*avg_ptr, i, 0.0); VSET(*std_ptr, i, 0.0);
    let sh := (List.range mat.cols).foldl (fun sh i => (VSET sh.1 i 0, VSET sh.2 i 0))
      (avg, std)
    -- the workers, from pthread_create to pthread_join
    let sh := sched.foldl (fun sh t => norm_worker mat thread_count t sh) sh
    -- finalize computations (lines 154-162)
    let sh := (List.range mat.cols).foldl
      (fun sh j =>
        let sum := VGET sh.1 j
        let sumsq := VGET sh.2 j
        let mean := sum / (mat.rows : α)
        let variance := sumsq / (mat.rows : α) - mean * mean
        let stddev := sqrt variance
        (VSET sh.1 j mean, VSET sh.2 j stddev)) sh
    -- normalize the matrix, row by row (lines 165-172)
    let mat := (List.range mat.rows).foldl
      (fun m i => (List.range mat.cols).foldl
        (fun m j => MSET m i j ((MGET m i j - VGET sh.1 j) / VGET sh.2 j)) m) mat
    some (0, mat, sh.1, sh.2)

/-- The entry point `colnorm_OPTM` (lines 185-188). -/
def colnorm_OPTM {α : Type} [Field α] (sqrt : α → α) (sched : List Nat)
    (mat : matrix_t α) (avg std : vector_t α) (thread_count : Nat) :
    Option (Nat × matrix_t α × vector_t α × vector_t α) :=
  cn_verA sqrt sched mat avg std thread_count

/-- The mean of column `j` of a matrix. -/
def col_mean {α : Type} [Field α] (mat : matrix_t α) (j : Nat) : α :=
  (∑ i in Finset.range mat.rows, MGET mat i j) / (mat.rows : α)

/-- The population variance of column `j` of a matrix. -/
def col_var {α : Type} [Field α] (mat : matrix_t α) (j : Nat) : α :=
  (∑ i in Finset.range mat.rows, (MGET mat i j - col_mean mat j) ^ 2) / (mat.rows : α)

/-- The matrix and vectors `st` after the first `k` columns of `mat` have been
normalised: the cells of those columns hold the normalised values, the entries
`j < k` of the vectors hold mean and standard deviation of the original column
`j`, and everything else is as in `mat`, `avg`, `std`. -/
structure Partial {α : Type} [Field α] (sqrt : α → α) (mat : matrix_t α)
    (avg std : vector_t α) (k : Nat) (st : matrix_t α × vector_t α × vector_t α) :
    Prop where
  rows : st.1.rows = mat.rows
  cols : st.1.cols = mat.cols
  col_space : st.1.col_space = mat.col_space
  avg_len : st.2.1.len = avg.len
  std_len : st.2.2.len = std.len
  cell : ∀ i, i < mat.rows → ∀ j, j < k →
    st.1.data (i * mat.col_space + j) =
      (mat.data (i * mat.col_space + j) - col_mean mat j) / sqrt (col_var mat j)
  other : ∀ x, (∀ i, i < mat.rows → ∀ j, j < k → x ≠ i * mat.col_space + j) →
    st.1.data x = mat.data x
  avg_eq : ∀ j, st.2.1.data j = if j < k then col_mean mat j else avg.data j
  std_eq : ∀ j, st.2.2.data j = if j < k then sqrt (col_var mat j) else std.data j

/-- The rows thread `t` of `T` works on. -/
def thread_rows (rows T t : Nat) : List Nat :=
  List.range' (start_row rows T t) (end_row rows T t - start_row rows T t)

/-- A matrix of two rows and one column, holding 1 and 3. -/
def sample_mat (α : Type) [Field α] : matrix_t α :=
  { rows := 2, cols := 1, col_space := 1, data := fun x => if x = 0 then 1 else 3 }

/-- A vector of length 1. -/
def sample_vec (α : Type) [Field α] : vector_t α := { len := 1, data := fun _ => 0 }

/-- A matrix of `2 ^ 31` rows and one column. -/
def tall_mat (α : Type) [Field α] : matrix_t α :=
  { rows := 2 ^ 31, cols := 1, col_space := 1, data := fun _ => 0 }

/-- A matrix of one row and `2 ^ 31` columns. -/
def wide_mat (α : Type) [Field α] : matrix_t α :=
  { rows := 1, cols := 2 ^ 31, col_space := 2 ^ 31, data := fun _ => 0 }

/-- A vector of length `2 ^ 31`. -/
def wide_vec (α : Type) [Field α] : vector_t α := { len := 2 ^ 31, data := fun _ => 0 }

end ColNorm

namespace ElMalloc

/-! ## Arithmetic without wrap-around -/

theorem add64_eq {a b : Nat} (h : a + b < WORD) : add64 a b = a + b := by
  unfold add64; exact Nat.mod_eq_of_lt h

theorem sub64_eq {a b : Nat} (hb : b ≤ a) (ha : a < WORD) : sub64 a b = a - b := by
  unfold sub64 WORD at *; omega

theorem deref_ne {p : Nat} (h : p ≠ 0) : deref p = some () := by
  simp [deref, h]

theorem deref_zero : deref 0 = none := by
  simp [deref]

/-! ## Doubly linked segments -/

theorem Seg.frame_links {nx pv nx' pv' : Nat → Nat} {xs : List Nat} {p e : Nat}
    (h : Seg nx pv p xs e)
    (hn : ∀ a ∈ p :: xs, nx' a = nx a) (hp : ∀ a ∈ xs ++ [e], pv' a = pv a) :
    Seg nx' pv' p xs e := by
  induction xs generalizing p with
  | nil =>
    obtain ⟨h1, h2⟩ := h
    exact ⟨by rw [hn p (by simp), h1], by rw [hp e (by simp), h2]⟩
  | cons x xs ih =>
    obtain ⟨h1, h2, h3⟩ := h
    refine ⟨by rw [hn p (by simp), h1], by rw [hp x (by simp), h2], ?_⟩
    exact ih h3 (fun a ha => hn a (by simp at ha ⊢; tauto))
      (fun a ha => hp a (by simp at ha ⊢; tauto))

theorem Seg.split {nx pv : Nat → Nat} {l1 l2 : List Nat} {p b e : Nat} :
    Seg nx pv p (l1 ++ b :: l2) e ↔ Seg nx pv p l1 b ∧ Seg nx pv b l2 e := by
  induction l1 generalizing p with
  | nil => simp [Seg, and_assoc]
  | cons x l1 ih => simp [Seg, ih, and_assoc]

/-- The predecessor stored in the element after a segment lies in it. -/
theorem Seg.prev_mem {nx pv : Nat → Nat} {l1 : List Nat} {p b : Nat}
    (h : Seg nx pv p l1 b) : pv b ∈ p :: l1 := by
  induction l1 generalizing p with
  | nil => simp [h.2]
  | cons x l1 ih =>
    have := ih h.2.2
    simp at this ⊢; tauto

/-- The successor stored in the element before a segment lies in it. -/
theorem Seg.next_mem {nx pv : Nat → Nat} {l2 : List Nat} {b e : Nat}
    (h : Seg nx pv b l2 e) : nx b ∈ l2 ++ [e] := by
  cases l2 with
  | nil => simp [h.1]
  | cons x l2 => simp [h.1]

/-- Unlinking `b`: the two writes of `el_remove_block` turn the chain through
`l1 ++ b :: l2` into the chain through `l1 ++ l2`. -/
theorem Seg.remove {nx pv : Nat → Nat} {l1 l2 : List Nat} {p b e : Nat}
    (h : Seg nx pv p (l1 ++ b :: l2) e)
    (nd : (p :: (l1 ++ b :: l2) ++ [e]).Nodup) :
    Seg (Function.update nx (pv b) (nx b)) (Function.update pv (nx b) (pv b))
      p (l1 ++ l2) e := by
  induction l1 generalizing p with
  | nil =>
    simp only [List.nil_append] at h nd ⊢
    obtain ⟨h1, h2, h3⟩ := h
    cases l2 with
    | nil =>
      obtain ⟨h4, h5⟩ := h3
      rw [h2, h4]
      simp [Seg]
    | cons x l2 =>
      obtain ⟨h4, h5, h6⟩ := h3
      rw [h2, h4]
      refine ⟨by simp, by simp, ?_⟩
      refine h6.frame_links ?_ ?_
      · intro a ha
        have : a ≠ p := by
          rintro rfl
          simp at nd ha
          tauto
        simp [Function.update_apply, this]
      · intro a ha
        have : a ≠ x := by
          rintro rfl
          simp at nd ha
          tauto
        simp [Function.update_apply, this]
  | cons y l1 ih =>
    obtain ⟨h1, h2, h3⟩ := h
    have hs := Seg.split.1 h3
    have hpm := hs.1.prev_mem
    have hnm := hs.2.next_mem
    have nd' : (y :: (l1 ++ b :: l2) ++ [e]).Nodup := by
      simp at nd ⊢; tauto
    refine ⟨?_, ?_, ih h3 nd'⟩
    · have : p ≠ pv b := by
        rintro rfl
        simp at nd hpm
        tauto
      simp [Function.update_apply, this, h1]
    · have : y ≠ nx b := by
        rintro rfl
        simp at nd hnm
        tauto
      simp [Function.update_apply, this, h2]

/-- Linking `b` at the front: the four writes of `el_add_block_front`. -/
theorem Seg.add_front {nx pv : Nat → Nat} {xs : List Nat} {p b e : Nat}
    (h : Seg nx pv p xs e) (nd : (p :: xs ++ [e]).Nodup)
    (hb : b ∉ p :: xs ++ [e]) :
    Seg (Function.update (Function.update nx b (nx p)) p b)
      (Function.update (Function.update pv b p) (nx p) b) p (b :: xs) e := by
  have hbp : b ≠ p := by rintro rfl; simp at hb
  cases xs with
  | nil =>
    obtain ⟨h1, h2⟩ := h
    have hbe : b ≠ e := by rintro rfl; simp at hb
    have hpe : p ≠ e := by rintro rfl; simp at nd
    simp [Seg, h1, Function.update_apply, hbp, hbe, hpe]
  | cons x xs =>
    obtain ⟨h1, h2, h3⟩ := h
    have hbx : b ≠ x := by rintro rfl; simp at hb
    have hpx : p ≠ x := by rintro rfl; simp at nd
    rw [h1]
    refine ⟨by simp, by simp [Function.update_apply, hbx], ?_, ?_, ?_⟩
    · simp [Function.update_apply, hbp]
    · simp
    · refine h3.frame_links ?_ ?_
      · intro a ha
        have h1 : a ≠ p := by rintro rfl; simp at nd ha; tauto
        have h2 : a ≠ b := by rintro rfl; simp at hb ha; tauto
        simp [Function.update_apply, h1, h2]
      · intro a ha
        have h1' : a ≠ x := by rintro rfl; simp at nd ha; tauto
        have h2' : a ≠ b := by rintro rfl; simp at hb ha; tauto
        simp [Function.update_apply, h1', h2']

/-! ## Reading a state after a write -/

@[simp] theorem wr_size_heap_start (s : State) (p v : Nat) : (s.wr_size p v).heap_start = s.heap_start := rfl

@[simp] theorem wr_size_heap_end (s : State) (p v : Nat) : (s.wr_size p v).heap_end = s.heap_end := rfl

@[simp] theorem wr_size_heap_bytes (s : State) (p v : Nat) : (s.wr_size p v).heap_bytes = s.heap_bytes := rfl

@[simp] theorem wr_size_avail (s : State) (p v : Nat) : (s.wr_size p v).avail = s.avail := rfl

@[simp] theorem wr_size_used (s : State) (p v : Nat) : (s.wr_size p v).used = s.used := rfl

@[simp] theorem wr_size_size (s : State) (p v : Nat) :
    (s.wr_size p v).size = Function.update s.size p v := rfl

@[simp] theorem wr_size_state (s : State) (p v : Nat) : (s.wr_size p v).state = s.state := rfl

@[simp] theorem wr_size_next (s : State) (p v : Nat) : (s.wr_size p v).next = s.next := rfl

@[simp] theorem wr_size_prev (s : State) (p v : Nat) : (s.wr_size p v).prev = s.prev := rfl

@[simp] theorem wr_size_foot (s : State) (p v : Nat) : (s.wr_size p v).foot = s.foot := rfl

@[simp] theorem wr_size_list (s : State) (p v : Nat) (id : ListId) :
    (s.wr_size p v).list id = s.list id := by
  cases id <;> rfl

@[simp] theorem wr_state_heap_start (s : State) (p v : Nat) : (s.wr_state p v).heap_start = s.heap_start := rfl

@[simp] theorem wr_state_heap_end (s : State) (p v : Nat) : (s.wr_state p v).heap_end = s.heap_end := rfl

@[simp] theorem wr_state_heap_bytes (s : State) (p v : Nat) : (s.wr_state p v).heap_bytes = s.heap_bytes := rfl

@[simp] theorem wr_state_avail (s : State) (p v : Nat) : (s.wr_state p v).avail = s.avail := rfl

@[simp] theorem wr_state_used (s : State) (p v : Nat) : (s.wr_state p v).used = s.used := rfl

@[simp] theorem wr_state_size (s : State) (p v : Nat) : (s.wr_state p v).size = s.size := rfl

@[simp] theorem wr_state_state (s : State) (p v : Nat) :
    (s.wr_state p v).state = Function.update s.state p v := rfl

@[simp] theorem wr_state_next (s : State) (p v : Nat) : (s.wr_state p v).next = s.next := rfl

@[simp] theorem wr_state_prev (s : State) (p v : Nat) : (s.wr_state p v).prev = s.prev := rfl

@[simp] theorem wr_state_foot (s : State) (p v : Nat) : (s.wr_state p v).foot = s.foot := rfl

@[simp] theorem wr_state_list (s : State) (p v : Nat) (id : ListId) :
    (s.wr_state p v).list id = s.list id := by
  cases id <;> rfl

@[simp] theorem wr_next_heap_start (s : State) (p v : Nat) : (s.wr_next p v).heap_start = s.heap_start := rfl

@[simp] theorem wr_next_heap_end (s : State) (p v : Nat) : (s.wr_next p v).heap_end = s.heap_end := rfl

@[simp] theorem wr_next_heap_bytes (s : State) (p v : Nat) : (s.wr_next p v).heap_bytes = s.heap_bytes := rfl

@[simp] theorem wr_next_avail (s : State) (p v : Nat) : (s.wr_next p v).avail = s.avail := rfl

@[simp] theorem wr_next_used (s : State) (p v : Nat) : (s.wr_next p v).used = s.used := rfl

@[simp] theorem wr_next_size (s : State) (p v : Nat) : (s.wr_next p v).size = s.size := rfl

@[simp] theorem wr_next_state (s : State) (p v : Nat) : (s.wr_next p v).state = s.state := rfl

@[simp] theorem wr_next_next (s : State) (p v : Nat) :
    (s.wr_next p v).next = Function.update s.next p v := rfl

@[simp] theorem wr_next_prev (s : State) (p v : Nat) : (s.wr_next p v).prev = s.prev := rfl

@[simp] theorem wr_next_foot (s : State) (p v : Nat) : (s.wr_next p v).foot = s.foot := rfl

@[simp] theorem wr_next_list (s : State) (p v : Nat) (id : ListId) :
    (s.wr_next p v).list id = s.list id := by
  cases id <;> rfl

@[simp] theorem wr_prev_heap_start (s : State) (p v : Nat) : (s.wr_prev p v).heap_start = s.heap_start := rfl

@[simp] theorem wr_prev_heap_end (s : State) (p v : Nat) : (s.wr_prev p v).heap_end = s.heap_end := rfl

@[simp] theorem wr_prev_heap_bytes (s : State) (p v : Nat) : (s.wr_prev p v).heap_bytes = s.heap_bytes := rfl

@[simp] theorem wr_prev_avail (s : State) (p v : Nat) : (s.wr_prev p v).avail = s.avail := rfl

@[simp] theorem wr_prev_used (s : State) (p v : Nat) : (s.wr_prev p v).used = s.used := rfl

@[simp] theorem wr_prev_size (s : State) (p v : Nat) : (s.wr_prev p v).size = s.size := rfl

@[simp] theorem wr_prev_state (s : State) (p v : Nat) : (s.wr_prev p v).state = s.state := rfl

@[simp] theorem wr_prev_next (s : State) (p v : Nat) : (s.wr_prev p v).next = s.next := rfl

@[simp] theorem wr_prev_prev (s : State) (p v : Nat) :
    (s.wr_prev p v).prev = Function.update s.prev p v := rfl

@[simp] theorem wr_prev_foot (s : State) (p v : Nat) : (s.wr_prev p v).foot = s.foot := rfl

@[simp] theorem wr_prev_list (s : State) (p v : Nat) (id : ListId) :
    (s.wr_prev p v).list id = s.list id := by
  cases id <;> rfl

@[simp] theorem wr_foot_heap_start (s : State) (p v : Nat) : (s.wr_foot p v).heap_start = s.heap_start := rfl

@[simp] theorem wr_foot_heap_end (s : State) (p v : Nat) : (s.wr_foot p v).heap_end = s.heap_end := rfl

@[simp] theorem wr_foot_heap_bytes (s : State) (p v : Nat) : (s.wr_foot p v).heap_bytes = s.heap_bytes := rfl

@[simp] theorem wr_foot_avail (s : State) (p v : Nat) : (s.wr_foot p v).avail = s.avail := rfl

@[simp] theorem wr_foot_used (s : State) (p v : Nat) : (s.wr_foot p v).used = s.used := rfl

@[simp] theorem wr_foot_size (s : State) (p v : Nat) : (s.wr_foot p v).size = s.size := rfl

@[simp] theorem wr_foot_state (s : State) (p v : Nat) : (s.wr_foot p v).state = s.state := rfl

@[simp] theorem wr_foot_next (s : State) (p v : Nat) : (s.wr_foot p v).next = s.next := rfl

@[simp] theorem wr_foot_prev (s : State) (p v : Nat) : (s.wr_foot p v).prev = s.prev := rfl

@[simp] theorem wr_foot_foot (s : State) (p v : Nat) :
    (s.wr_foot p v).foot = Function.update s.foot p v := rfl

@[simp] theorem wr_foot_list (s : State) (p v : Nat) (id : ListId) :
    (s.wr_foot p v).list id = s.list id := by
  cases id <;> rfl

@[simp] theorem setList_heap_start (s : State) (id : ListId) (l : el_blocklist_t) :
    (s.setList id l).heap_start = s.heap_start := by
  cases id <;> rfl

@[simp] theorem setList_heap_end (s : State) (id : ListId) (l : el_blocklist_t) :
    (s.setList id l).heap_end = s.heap_end := by
  cases id <;> rfl

@[simp] theorem setList_heap_bytes (s : State) (id : ListId) (l : el_blocklist_t) :
    (s.setList id l).heap_bytes = s.heap_bytes := by
  cases id <;> rfl

@[simp] theorem setList_size (s : State) (id : ListId) (l : el_blocklist_t) :
    (s.setList id l).size = s.size := by
  cases id <;> rfl

@[simp] theorem setList_state (s : State) (id : ListId) (l : el_blocklist_t) :
    (s.setList id l).state = s.state := by
  cases id <;> rfl

@[simp] theorem setList_next (s : State) (id : ListId) (l : el_blocklist_t) :
    (s.setList id l).next = s.next := by
  cases id <;> rfl

@[simp] theorem setList_prev (s : State) (id : ListId) (l : el_blocklist_t) :
    (s.setList id l).prev = s.prev := by
  cases id <;> rfl

@[simp] theorem setList_foot (s : State) (id : ListId) (l : el_blocklist_t) :
    (s.setList id l).foot = s.foot := by
  cases id <;> rfl

@[simp] theorem set_heap_start_heap_start (s : State) (v : Nat) : (s.set_heap_start v).heap_start = v := rfl

@[simp] theorem set_heap_start_heap_end (s : State) (v : Nat) : (s.set_heap_start v).heap_end = s.heap_end := rfl

@[simp] theorem set_heap_start_heap_bytes (s : State) (v : Nat) : (s.set_heap_start v).heap_bytes = s.heap_bytes := rfl

@[simp] theorem set_heap_start_avail (s : State) (v : Nat) : (s.set_heap_start v).avail = s.avail := rfl

@[simp] theorem set_heap_start_used (s : State) (v : Nat) : (s.set_heap_start v).used = s.used := rfl

@[simp] theorem set_heap_start_size (s : State) (v : Nat) : (s.set_heap_start v).size = s.size := rfl

@[simp] theorem set_heap_start_state (s : State) (v : Nat) : (s.set_heap_start v).state = s.state := rfl

@[simp] theorem set_heap_start_next (s : State) (v : Nat) : (s.set_heap_start v).next = s.next := rfl

@[simp] theorem set_heap_start_prev (s : State) (v : Nat) : (s.set_heap_start v).prev = s.prev := rfl

@[simp] theorem set_heap_start_foot (s : State) (v : Nat) : (s.set_heap_start v).foot = s.foot := rfl

@[simp] theorem set_heap_start_list (s : State) (v : Nat) (id : ListId) :
    (s.set_heap_start v).list id = s.list id := by
  cases id <;> rfl

@[simp] theorem set_heap_end_heap_start (s : State) (v : Nat) : (s.set_heap_end v).heap_start = s.heap_start := rfl

@[simp] theorem set_heap_end_heap_end (s : State) (v : Nat) : (s.set_heap_end v).heap_end = v := rfl

@[simp] theorem set_heap_end_heap_bytes (s : State) (v : Nat) : (s.set_heap_end v).heap_bytes = s.heap_bytes := rfl

@[simp] theorem set_heap_end_avail (s : State) (v : Nat) : (s.set_heap_end v).avail = s.avail := rfl

@[simp] theorem set_heap_end_used (s : State) (v : Nat) : (s.set_heap_end v).used = s.used := rfl

@[simp] theorem set_heap_end_size (s : State) (v : Nat) : (s.set_heap_end v).size = s.size := rfl

@[simp] theorem set_heap_end_state (s : State) (v : Nat) : (s.set_heap_end v).state = s.state := rfl

@[simp] theorem set_heap_end_next (s : State) (v : Nat) : (s.set_heap_end v).next = s.next := rfl

@[simp] theorem set_heap_end_prev (s : State) (v : Nat) : (s.set_heap_end v).prev = s.prev := rfl

@[simp] theorem set_heap_end_foot (s : State) (v : Nat) : (s.set_heap_end v).foot = s.foot := rfl

@[simp] theorem set_heap_end_list (s : State) (v : Nat) (id : ListId) :
    (s.set_heap_end v).list id = s.list id := by
  cases id <;> rfl

@[simp] theorem set_heap_bytes_heap_start (s : State) (v : Nat) : (s.set_heap_bytes v).heap_start = s.heap_start := rfl

@[simp] theorem set_heap_bytes_heap_end (s : State) (v : Nat) : (s.set_heap_bytes v).heap_end = s.heap_end := rfl

@[simp] theorem set_heap_bytes_heap_bytes (s : State) (v : Nat) : (s.set_heap_bytes v).heap_bytes = v := rfl

@[simp] theorem set_heap_bytes_avail (s : State) (v : Nat) : (s.set_heap_bytes v).avail = s.avail := rfl

@[simp] theorem set_heap_bytes_used (s : State) (v : Nat) : (s.set_heap_bytes v).used = s.used := rfl

@[simp] theorem set_heap_bytes_size (s : State) (v : Nat) : (s.set_heap_bytes v).size = s.size := rfl

@[simp] theorem set_heap_bytes_state (s : State) (v : Nat) : (s.set_heap_bytes v).state = s.state := rfl

@[simp] theorem set_heap_bytes_next (s : State) (v : Nat) : (s.set_heap_bytes v).next = s.next := rfl

@[simp] theorem set_heap_bytes_prev (s : State) (v : Nat) : (s.set_heap_bytes v).prev = s.prev := rfl

@[simp] theorem set_heap_bytes_foot (s : State) (v : Nat) : (s.set_heap_bytes v).foot = s.foot := rfl

@[simp] theorem set_heap_bytes_list (s : State) (v : Nat) (id : ListId) :
    (s.set_heap_bytes v).list id = s.list id := by
  cases id <;> rfl

@[simp] theorem setList_avail_avail (s : State) (l : el_blocklist_t) :
    (s.setList .avail l).avail = l := rfl

@[simp] theorem setList_avail_used (s : State) (l : el_blocklist_t) :
    (s.setList .avail l).used = s.used := rfl

@[simp] theorem setList_used_used (s : State) (l : el_blocklist_t) :
    (s.setList .used l).used = l := rfl

@[simp] theorem setList_used_avail (s : State) (l : el_blocklist_t) :
    (s.setList .used l).avail = s.avail := rfl

@[simp] theorem list_setList_self (s : State) (id : ListId) (l : el_blocklist_t) :
    (s.setList id l).list id = l := by
  cases id <;> rfl

theorem list_setList_ne (s : State) {id id' : ListId} (l : el_blocklist_t) (h : id' ≠ id) :
    (s.setList id l).list id' = s.list id' := by
  cases id <;> cases id' <;> first | rfl | exact absurd rfl h

@[simp] theorem setList_setList (s : State) (id : ListId) (l l' : el_blocklist_t) :
    (s.setList id l).setList id l' = s.setList id l' := by
  cases id <;> rfl

@[simp] theorem list_avail (s : State) : s.list .avail = s.avail := rfl

@[simp] theorem list_used (s : State) : s.list .used = s.used := rfl

theorem update_read_self (f : Nat → Nat) (a b : Nat) :
    Function.update f a (f b) b = f b := by
  by_cases h : b = a
  · subst h; simp
  · simp [Function.update_apply, h]

/-! ## Well-formed block lists -/

theorem total_nil (L : Layout) (sz : Nat → Nat) : total L sz [] = 0 := rfl

theorem total_cons (L : Layout) (sz : Nat → Nat) (b : Nat) (l : List Nat) :
    total L sz (b :: l) = sz b + L.EL_BLOCK_OVERHEAD + total L sz l := by
  simp [total]

theorem total_append (L : Layout) (sz : Nat → Nat) (l1 l2 : List Nat) :
    total L sz (l1 ++ l2) = total L sz l1 + total L sz l2 := by
  simp [total]

theorem total_congr (L : Layout) {sz sz' : Nat → Nat} {l : List Nat}
    (h : ∀ a ∈ l, sz' a = sz a) : total L sz' l = total L sz l := by
  unfold total
  congr 1
  exact List.map_congr_left (fun a ha => by rw [h a ha])

theorem total_perm (L : Layout) (sz : Nat → Nat) {l1 l2 : List Nat} (h : l1.Perm l2) :
    total L sz l1 = total L sz l2 :=
  (h.map _).sum_eq

theorem total_sublist (L : Layout) (sz : Nat → Nat) {l1 l2 : List Nat}
    (h : l1.Sublist l2) : total L sz l1 ≤ total L sz l2 :=
  (h.map _).sum_le_sum (fun _ _ => Nat.zero_le _)

/-- A duplicate-free list inside another accounts for no more bytes. -/
theorem total_le_of_subset (L : Layout) (sz : Nat → Nat) {l1 l2 : List Nat}
    (nd : l1.Nodup) (h : l1 ⊆ l2) : total L sz l1 ≤ total L sz l2 := by
  obtain ⟨l, hl, hs⟩ := List.subperm_of_subset nd h
  rw [← total_perm L sz hl]
  exact total_sublist L sz hs

theorem length_le_total (L : Layout) (sz : Nat → Nat) (l : List Nat)
    (h : 0 < L.EL_BLOCK_OVERHEAD) : l.length ≤ total L sz l := by
  induction l with
  | nil => simp [total]
  | cons b l ih => rw [total_cons]; simp; omega

theorem total_erase (L : Layout) (sz : Nat → Nat) {l : List Nat} {b : Nat} (hb : b ∈ l) :
    total L sz (l.erase b) + (sz b + L.EL_BLOCK_OVERHEAD) = total L sz l := by
  have := total_perm L sz (List.perm_cons_erase hb)
  rw [total_cons] at this
  omega

theorem ListOK.frame {L : Layout} {s s' : State} {id : ListId} {xs : List Nat}
    (h : ListOK L s id xs) (hl : s'.list id = s.list id)
    (hn : ∀ a ∈ nodes L id xs, s'.next a = s.next a ∧ s'.prev a = s.prev a)
    (hs : ∀ a ∈ xs, s'.size a = s.size a) : ListOK L s' id xs := by
  have ht := total_congr L hs
  refine ⟨by rw [hl, h.beg_eq], by rw [hl, h.end_eq], ?_, h.nodup, h.nonnull,
    by rw [hl, h.len], by rw [hl, h.bytes, ht], h.len_lt, by rw [ht]; exact h.bytes_lt⟩
  refine h.seg.frame_links (fun a ha => (hn a ?_).1) (fun a ha => (hn a ?_).2)
  · simp [nodes] at ha ⊢; tauto
  · simp [nodes] at ha ⊢; tauto

theorem nodes_nodup_inner {L : Layout} {id : ListId} {xs : List Nat}
    (nd : (nodes L id xs).Nodup) : xs.Nodup :=
  ((List.nodup_cons.1 nd).2).of_append_left

theorem nodes_mem {L : Layout} {id : ListId} {xs : List Nat} {a : Nat} :
    a ∈ nodes L id xs ↔ a = L.beg_actual id ∨ a ∈ xs ∨ a = L.end_actual id := by
  simp [nodes]

/-- The state `el_remove_block` returns when its three dereferences succeed. -/
theorem el_remove_block_eq (L : Layout) (s : State) (id : ListId) {b : Nat}
    (h0 : b ≠ 0) (hp0 : s.prev b ≠ 0) (hn0 : s.next b ≠ 0) :
    el_remove_block L s id b = some
      (((s.wr_next (s.prev b) (s.next b)).wr_prev (s.next b) (s.prev b)).setList id
        { beg := (s.list id).beg, end_ := (s.list id).end_,
          length := sub64 (s.list id).length 1,
          bytes := sub64 (s.list id).bytes (add64 (s.size b) L.EL_BLOCK_OVERHEAD) }) := by
  simp only [el_remove_block, deref_ne h0, deref_ne hp0, deref_ne hn0, Option.pure_def,
    Option.bind_eq_bind, Option.some_bind, wr_next_next, update_read_self, wr_next_prev,
    list_setList_self, setList_setList, wr_prev_list, wr_next_list, setList_size, wr_prev_size,
    wr_next_size]

/-- Effect of `el_remove_block` on a well-formed list holding `b`. -/
theorem el_remove_block_spec {L : Layout} {s : State} {id : ListId} {xs : List Nat}
    {b : Nat} (h : ListOK L s id xs) (hb : b ∈ xs) :
    ∃ s', el_remove_block L s id b = some s' ∧ ListOK L s' id (xs.erase b) ∧ Keeps s s' ∧
      (∀ id', id' ≠ id → s'.list id' = s.list id') ∧
      (∀ a, a ∉ nodes L id xs → s'.next a = s.next a ∧ s'.prev a = s.prev a) := by
  obtain ⟨l1, l2, rfl⟩ := List.append_of_mem hb
  have nd := h.nodup
  have ndx := nodes_nodup_inner nd
  have hbl : b ∉ l1 ++ l2 := (List.nodup_cons.1 (List.nodup_middle.1 ndx)).1
  have hbl1 : b ∉ l1 := fun hm => hbl (List.mem_append_left _ hm)
  have her : (l1 ++ b :: l2).erase b = l1 ++ l2 := by
    rw [List.erase_append_right _ hbl1, List.erase_cons_head]
  rw [her]
  have hsp := Seg.split.1 h.seg
  have hpm := hsp.1.prev_mem
  have hnm := hsp.2.next_mem
  have h0 : b ≠ 0 := h.nonnull b (by simp [nodes])
  have hp0 : s.prev b ≠ 0 := h.nonnull _ (by simp [nodes] at hpm ⊢; tauto)
  have hn0 : s.next b ≠ 0 := h.nonnull _ (by simp [nodes] at hnm ⊢; tauto)
  have hl : (l1 ++ b :: l2).length = (l1 ++ l2).length + 1 := by simp; omega
  have hlt := h.len_lt
  have hlen : sub64 (s.list id).length 1 = (l1 ++ l2).length := by
    rw [sub64_eq (by rw [h.len]; omega) (by rw [h.len]; exact h.len_lt), h.len]; omega
  have htot : total L s.size (l1 ++ l2) + (s.size b + L.EL_BLOCK_OVERHEAD) =
      total L s.size (l1 ++ b :: l2) := by
    simp only [total_append, total_cons]; omega
  have hbt := h.bytes_lt
  have hbytes : sub64 (s.list id).bytes (add64 (s.size b) L.EL_BLOCK_OVERHEAD) =
      total L s.size (l1 ++ l2) := by
    rw [add64_eq (by omega), sub64_eq (by rw [h.bytes]; omega) (by rw [h.bytes]; exact hbt),
      h.bytes]
    omega
  refine ⟨_, el_remove_block_eq L s id h0 hp0 hn0, ?_, ?_, ?_, ?_⟩
  · refine ⟨?_, ?_, ?_, ?_, ?_, ?_, ?_, ?_, ?_⟩
    · simpa using h.beg_eq
    · simpa using h.end_eq
    · simpa using h.seg.remove (by simpa [nodes] using nd)
    · have h1 := (List.nodup_cons.1 nd)
      refine List.nodup_cons.2 ⟨fun hm => h1.1 ?_, ?_⟩
      · simp at hm ⊢; tauto
      · have h2 := h1.2
        exact h2.sublist (by simp)
    · intro a ha
      exact h.nonnull a (by simp [nodes] at ha ⊢; tauto)
    · simpa using hlen
    · simpa using hbytes
    · omega
    · simp only [setList_size, wr_prev_size, wr_next_size]; omega
  · exact ⟨by simp, by simp, by simp, by simp, by simp, by simp⟩
  · intro id' hne
    simp [list_setList_ne _ _ hne]
  · intro a ha
    have h1 : a ≠ s.prev b := by
      rintro rfl; apply ha; simp [nodes] at hpm ⊢; tauto
    have h2 : a ≠ s.next b := by
      rintro rfl; apply ha; simp [nodes] at hnm ⊢; tauto
    simp [Function.update_apply, h1, h2]

/-- The state `el_add_block_front` returns when its dereferences succeed. -/
theorem el_add_block_front_eq (L : Layout) (s : State) (id : ListId) {b : Nat}
    (h0 : b ≠ 0) (hb0 : (s.list id).beg ≠ 0) (hn0 : s.next (s.list id).beg ≠ 0) :
    el_add_block_front L s id b = some
      (((((s.wr_prev b (s.list id).beg).wr_next b (s.next (s.list id).beg)).wr_prev
          (s.next (s.list id).beg) b).wr_next (s.list id).beg b).setList id
        { beg := (s.list id).beg, end_ := (s.list id).end_,
          length := add64 (s.list id).length 1,
          bytes := add64 (s.list id).bytes (add64 (s.size b) L.EL_BLOCK_OVERHEAD) }) := by
  simp only [el_add_block_front, deref_ne h0, deref_ne hb0, deref_ne hn0, Option.pure_def,
    Option.bind_eq_bind, Option.some_bind, wr_next_next, update_read_self, wr_next_prev,
    list_setList_self, setList_setList, wr_prev_list, wr_next_list, setList_size, wr_prev_size,
    wr_next_size, wr_prev_next]

/-- Effect of `el_add_block_front` on a well-formed list not holding `b`. -/
theorem el_add_block_front_spec {L : Layout} {s : State} {id : ListId} {xs : List Nat}
    {b : Nat} (h : ListOK L s id xs) (hb : b ∉ nodes L id xs) (h0 : b ≠ 0)
    (hlen : xs.length + 1 < WORD)
    (hbytes : total L s.size xs + (s.size b + L.EL_BLOCK_OVERHEAD) < WORD) :
    ∃ s', el_add_block_front L s id b = some s' ∧ ListOK L s' id (b :: xs) ∧ Keeps s s' ∧
      (∀ id', id' ≠ id → s'.list id' = s.list id') ∧
      (∀ a, a ≠ b → a ∉ nodes L id xs → s'.next a = s.next a ∧ s'.prev a = s.prev a) := by
  have nd := h.nodup
  have hnm := h.seg.next_mem
  have hb0 : (s.list id).beg ≠ 0 := by
    rw [h.beg_eq]; exact h.nonnull _ (by simp [nodes])
  have hn0 : s.next (s.list id).beg ≠ 0 := by
    rw [h.beg_eq]; exact h.nonnull _ (by simp [nodes] at hnm ⊢; tauto)
  refine ⟨_, el_add_block_front_eq L s id h0 hb0 hn0, ?_, ?_, ?_, ?_⟩
  · refine ⟨?_, ?_, ?_, ?_, ?_, ?_, ?_, ?_, ?_⟩
    · simpa using h.beg_eq
    · simpa using h.end_eq
    · simpa [h.beg_eq] using h.seg.add_front (by simpa [nodes] using nd)
        (by simpa [nodes] using hb)
    · simp only [nodes] at nd hb ⊢
      have : (b :: (L.beg_actual id :: xs ++ [L.end_actual id])).Nodup :=
        List.nodup_cons.2 ⟨hb, nd⟩
      exact this.perm (by simpa using List.Perm.swap _ _ _)
    · intro a ha
      rcases nodes_mem.1 ha with rfl | ha | rfl
      · exact h.nonnull _ (by simp [nodes])
      · rcases List.mem_cons.1 ha with rfl | ha
        · exact h0
        · exact h.nonnull _ (by simp [nodes, ha])
      · exact h.nonnull _ (by simp [nodes])
    · simp only [list_setList_self, List.length_cons]
      rw [add64_eq (by rw [h.len]; exact hlen), h.len]
    · simp only [list_setList_self, setList_size, wr_next_size, wr_prev_size, total_cons]
      rw [add64_eq (a := s.size b) (by omega), add64_eq (by rw [h.bytes]; omega), h.bytes]
      omega
    · simp only [List.length_cons]; omega
    · simp only [setList_size, wr_next_size, wr_prev_size, total_cons]; omega
  · exact ⟨by simp, by simp, by simp, by simp, by simp, by simp⟩
  · intro id' hne
    simp [list_setList_ne _ _ hne]
  · intro a hab ha
    have h1 : a ≠ (s.list id).beg := by
      rw [h.beg_eq]; rintro rfl; apply ha; simp [nodes]
    have h2 : a ≠ s.next (s.list id).beg := by
      rw [h.beg_eq]; rintro rfl; apply ha; simp [nodes] at hnm ⊢; tauto
    simp [Function.update_apply, h1, h2, hab]

/-! ## Tilings of the heap -/

theorem Tiled.append {L : Layout} {sz : Nat → Nat} {l1 l2 : List Nat} {a e : Nat} :
    Tiled L sz a (l1 ++ l2) e ↔ ∃ m, Tiled L sz a l1 m ∧ Tiled L sz m l2 e := by
  induction l1 generalizing a with
  | nil => simp [Tiled]
  | cons b l1 ih => simp [Tiled, ih, and_assoc]

theorem Tiled.congr {L : Layout} {sz sz' : Nat → Nat} {bs : List Nat} {a e : Nat}
    (h : Tiled L sz a bs e) (hs : ∀ b ∈ bs, sz' b = sz b) : Tiled L sz' a bs e := by
  induction bs generalizing a with
  | nil => exact h
  | cons b bs ih =>
    obtain ⟨rfl, h2⟩ := h
    refine ⟨rfl, ?_⟩
    rw [hs b (by simp)]
    exact ih h2 (fun c hc => hs c (by simp [hc]))

theorem Tiled.sum_eq {L : Layout} {sz : Nat → Nat} {bs : List Nat} {a e : Nat}
    (h : Tiled L sz a bs e) : a + total L sz bs = e := by
  induction bs generalizing a with
  | nil => simpa [Tiled, total] using h
  | cons b bs ih =>
    obtain ⟨rfl, h2⟩ := h
    have := ih h2
    rw [total_cons]; omega

theorem Tiled.le {L : Layout} {sz : Nat → Nat} {bs : List Nat} {a e : Nat}
    (h : Tiled L sz a bs e) : a ≤ e := by
  have := h.sum_eq; omega

theorem Tiled.bounds {L : Layout} {sz : Nat → Nat} {bs : List Nat} {a e : Nat}
    (h : Tiled L sz a bs e) {b : Nat} (hb : b ∈ bs) :
    a ≤ b ∧ b + sz b + L.EL_BLOCK_OVERHEAD ≤ e := by
  induction bs generalizing a with
  | nil => simp at hb
  | cons c bs ih =>
    obtain ⟨rfl, h2⟩ := h
    rcases List.mem_cons.1 hb with rfl | hb
    · exact ⟨le_refl _, h2.le⟩
    · have := ih h2 hb
      omega

theorem Tiled.pairwise {L : Layout} {sz : Nat → Nat} {bs : List Nat} {a e : Nat}
    (h : Tiled L sz a bs e) :
    bs.Pairwise (fun b c => b + sz b + L.EL_BLOCK_OVERHEAD ≤ c) := by
  induction bs generalizing a with
  | nil => exact List.Pairwise.nil
  | cons c bs ih =>
    obtain ⟨rfl, h2⟩ := h
    exact List.Pairwise.cons (fun d hd => (h2.bounds hd).1) (ih h2)

/-- Two distinct blocks of a tiling do not overlap. -/
theorem Tiled.sep {L : Layout} {sz : Nat → Nat} {bs : List Nat} {a e : Nat}
    (h : Tiled L sz a bs e) {b c : Nat} (hb : b ∈ bs) (hc : c ∈ bs) (hne : b ≠ c) :
    b + sz b + L.EL_BLOCK_OVERHEAD ≤ c ∨ c + sz c + L.EL_BLOCK_OVERHEAD ≤ b := by
  have hp := h.pairwise
  have := List.Pairwise.forall_of_forall_of_flip
    (R := fun b c => b ≠ c → b + sz b + L.EL_BLOCK_OVERHEAD ≤ c ∨
      c + sz c + L.EL_BLOCK_OVERHEAD ≤ b)
    (l := bs) (fun x _ hx => absurd rfl hx)
    (hp.imp (fun hxy _ => Or.inl hxy)) (hp.imp (fun hxy _ => Or.inr hxy))
  exact this hb hc hne

theorem Tiled.nodup {L : Layout} {sz : Nat → Nat} {bs : List Nat} {a e : Nat}
    (h : Tiled L sz a bs e) (ho : 0 < L.EL_BLOCK_OVERHEAD) : bs.Nodup :=
  h.pairwise.imp (fun hxy => by omega)

/-- What lies above a block of a tiling: the end of the heap or the next
block. -/
theorem Tiled.above {L : Layout} {sz : Nat → Nat} {l1 l2 : List Nat} {a b e : Nat}
    (h : Tiled L sz a (l1 ++ b :: l2) e) :
    (l2 = [] ∧ b + sz b + L.EL_BLOCK_OVERHEAD = e) ∨
    (∃ l2', l2 = (b + sz b + L.EL_BLOCK_OVERHEAD) :: l2' ∧
      (b + sz b + L.EL_BLOCK_OVERHEAD) +
        sz (b + sz b + L.EL_BLOCK_OVERHEAD) + L.EL_BLOCK_OVERHEAD ≤ e) := by
  obtain ⟨m, _, rfl, h3⟩ := Tiled.append.1 h
  cases l2 with
  | nil => exact Or.inl ⟨rfl, h3⟩
  | cons u l2 =>
    obtain ⟨rfl, h4⟩ := h3
    exact Or.inr ⟨l2, rfl, h4.le⟩

/-- What lies below a block of a tiling: the start of the heap or the
previous block. -/
theorem Tiled.below {L : Layout} {sz : Nat → Nat} {l1 l2 : List Nat} {a b e : Nat}
    (h : Tiled L sz a (l1 ++ b :: l2) e) :
    (l1 = [] ∧ b = a) ∨
    (∃ l1' l, l1 = l1' ++ [l] ∧ l + sz l + L.EL_BLOCK_OVERHEAD = b ∧ a ≤ l) := by
  obtain ⟨m, h1, rfl, _⟩ := Tiled.append.1 h
  rcases List.eq_nil_or_concat l1 with rfl | ⟨l1', l, hl⟩
  · exact Or.inl ⟨rfl, h1.symm⟩
  · right
    rw [List.concat_eq_append] at hl
    subst hl
    refine ⟨l1', l, rfl, ?_, ?_⟩
    · obtain ⟨m', _, rfl, h5⟩ := Tiled.append.1 h1
      exact h5
    · exact (h1.bounds (by simp)).1

/-- Splitting a block of a tiling in two. -/
theorem Tiled.split_block {L : Layout} {sz sz' : Nat → Nat} {l1 l2 : List Nat}
    {a b e n : Nat} (h : Tiled L sz a (l1 ++ b :: l2) e)
    (hb : sz' b = n)
    (hm : sz' (b + n + L.EL_BLOCK_OVERHEAD) + n + L.EL_BLOCK_OVERHEAD = sz b)
    (h1 : ∀ c ∈ l1, sz' c = sz c) (h2 : ∀ c ∈ l2, sz' c = sz c) :
    Tiled L sz' a (l1 ++ b :: (b + n + L.EL_BLOCK_OVERHEAD) :: l2) e := by
  obtain ⟨m, t1, rfl, t2⟩ := Tiled.append.1 h
  refine Tiled.append.2 ⟨b, t1.congr h1, rfl, ?_⟩
  rw [hb]
  refine ⟨rfl, ?_⟩
  have := t2.congr h2
  have e1 : b + n + L.EL_BLOCK_OVERHEAD + sz' (b + n + L.EL_BLOCK_OVERHEAD) +
      L.EL_BLOCK_OVERHEAD = b + sz b + L.EL_BLOCK_OVERHEAD := by omega
  rw [e1]; exact this

/-- Merging a block of a tiling with the one above it. -/
theorem Tiled.merge_block {L : Layout} {sz sz' : Nat → Nat} {l1 l2 : List Nat}
    {a b u e : Nat} (h : Tiled L sz a (l1 ++ b :: u :: l2) e)
    (hb : sz' b = sz b + sz u + L.EL_BLOCK_OVERHEAD)
    (h1 : ∀ c ∈ l1, sz' c = sz c) (h2 : ∀ c ∈ l2, sz' c = sz c) :
    Tiled L sz' a (l1 ++ b :: l2) e := by
  obtain ⟨m, t1, rfl, hu, t2⟩ := Tiled.append.1 h
  refine Tiled.append.2 ⟨b, t1.congr h1, rfl, ?_⟩
  have := t2.congr h2
  have e1 : b + sz' b + L.EL_BLOCK_OVERHEAD = b + sz b + L.EL_BLOCK_OVERHEAD +
      sz (b + sz b + L.EL_BLOCK_OVERHEAD) + L.EL_BLOCK_OVERHEAD := by
    rw [hb, hu]; omega
  rw [e1]; exact this

/-! ## Consequences of the invariant -/

theorem Layout.WF.overhead_pos {L : Layout} (hL : L.WF) : 0 < L.EL_BLOCK_OVERHEAD := by
  have := hL.head_pos
  unfold Layout.EL_BLOCK_OVERHEAD; omega

theorem isSentinel_beg (L : Layout) (id : ListId) : L.IsSentinel (L.beg_actual id) := by
  cases id <;> simp [Layout.IsSentinel, Layout.beg_actual]

theorem isSentinel_end (L : Layout) (id : ListId) : L.IsSentinel (L.end_actual id) := by
  cases id <;> simp [Layout.IsSentinel, Layout.end_actual]

theorem Layout.WF.sentinel_ne_zero {L : Layout} (hL : L.WF) {a : Nat}
    (h : L.IsSentinel a) : a ≠ 0 :=
  hL.sentinels_pos a (by simpa [Layout.IsSentinel] using h)

theorem HeapOK.mem_range {L : Layout} {s : State} {bs : List Nat} (h : HeapOK L s bs)
    {b : Nat} (hb : b ∈ bs) :
    s.heap_start ≤ b ∧ b + s.size b + L.EL_BLOCK_OVERHEAD ≤ s.heap_end :=
  h.tiled.bounds hb

theorem HeapOK.mem_ne_zero {L : Layout} {s : State} {bs : List Nat} (h : HeapOK L s bs)
    {b : Nat} (hb : b ∈ bs) : b ≠ 0 := by
  have := h.mem_range hb
  have := h.start_pos
  omega

theorem HeapOK.not_sentinel {L : Layout} {s : State} {bs : List Nat} (h : HeapOK L s bs)
    (hL : L.WF) {b : Nat} (hb : b ∈ bs) : ¬ L.IsSentinel b := by
  intro hs
  have := h.mem_range hb
  have := h.sent_out b hs
  have := hL.overhead_pos
  omega

theorem HeapOK.total_eq {L : Layout} {s : State} {bs : List Nat} (h : HeapOK L s bs) :
    total L s.size bs = s.heap_bytes := by
  have := h.tiled.sum_eq
  have := h.extent
  omega

/-- A duplicate-free list of heap blocks accounts for less than `2 ^ 64`
bytes and has fewer than `2 ^ 64` members. -/
theorem HeapOK.total_lt {L : Layout} {s : State} {bs : List Nat} (h : HeapOK L s bs)
    (hL : L.WF) {l : List Nat} (nd : l.Nodup) (hs : l ⊆ bs) :
    total L s.size l ≤ s.heap_bytes ∧ total L s.size l < WORD ∧ l.length < WORD := by
  have h1 := total_le_of_subset L s.size nd hs
  have h2 := h.total_eq
  have h3 := h.extent
  have h4 := h.end_lt
  have h5 := length_le_total L s.size l hL.overhead_pos
  omega

theorem not_mem_nodes {L : Layout} {id : ListId} {xs : List Nat} {a : Nat}
    (h1 : ¬ L.IsSentinel a) (h2 : a ∉ xs) : a ∉ nodes L id xs := by
  intro h
  rcases nodes_mem.1 h with rfl | h | rfl
  · exact h1 (isSentinel_beg L id)
  · exact h2 h
  · exact h1 (isSentinel_end L id)

/-- The nodes of a list of heap blocks are distinct and non-null. -/
theorem nodes_ok {L : Layout} {s : State} {bs : List Nat} (h : HeapOK L s bs) (hL : L.WF)
    (id : ListId) {xs : List Nat} (nd : xs.Nodup) (hs : xs ⊆ bs) :
    (nodes L id xs).Nodup ∧ ∀ a ∈ nodes L id xs, a ≠ 0 := by
  have hbe : L.beg_actual id ≠ L.end_actual id := by
    have := hL.sentinels
    cases id <;> simp [Layout.beg_actual, Layout.end_actual] at this ⊢ <;> tauto
  constructor
  · simp only [nodes, List.cons_append, List.nodup_cons, List.mem_append, List.mem_singleton,
      not_or]
    refine ⟨⟨fun hm => h.not_sentinel hL (hs hm) (isSentinel_beg L id), hbe⟩, ?_⟩
    rw [List.nodup_append]
    refine ⟨nd, by simp, ?_⟩
    intro a ha hb
    simp at hb
    subst hb
    exact h.not_sentinel hL (hs ha) (isSentinel_end L id)
  · intro a ha
    rcases nodes_mem.1 ha with rfl | ha | rfl
    · exact hL.sentinel_ne_zero (isSentinel_beg L id)
    · exact h.mem_ne_zero (hs ha)
    · exact hL.sentinel_ne_zero (isSentinel_end L id)

theorem Inv0.avail_sub {L : Layout} {s : State} {bs xs ys : List Nat}
    (h : Inv0 L s bs xs ys) : xs ⊆ bs :=
  fun _ hb => ((h.mem_avail _).1 hb).1

/-- The two lists have no block in common. -/
theorem Inv0.disjoint {L : Layout} {s : State} {bs xs ys : List Nat}
    (h : Inv0 L s bs xs ys) (hL : L.WF) {b : Nat} (hx : b ∈ xs) : b ∉ ys := by
  intro hy
  have h1 := ((h.mem_avail b).1 hx).2
  have h2 := (h.mem_used b).1 hy
  exact hL.avail_ne_used (h1.symm.trans h2)

/-- The nodes of the two lists are different addresses. -/
theorem nodes_disjoint {L : Layout} {s : State} {bs xs ys : List Nat}
    (h : HeapOK L s bs) (hL : L.WF) (hx : xs ⊆ bs) (hy : ys ⊆ bs)
    (hd : ∀ b ∈ xs, b ∉ ys) {a : Nat} (ha : a ∈ nodes L .avail xs) :
    a ∉ nodes L .used ys := by
  have hs := hL.sentinels
  simp [Layout.beg_actual, Layout.end_actual] at hs
  intro hu
  rcases nodes_mem.1 ha with rfl | ha | rfl <;> rcases nodes_mem.1 hu with hu | hu | hu
  all_goals first
    | (simp [Layout.beg_actual, Layout.end_actual] at hu; omega)
    | exact h.not_sentinel hL (hy hu) (isSentinel_beg L _)
    | exact h.not_sentinel hL (hy hu) (isSentinel_end L _)
    | exact h.not_sentinel hL (hx ha) (hu ▸ isSentinel_beg L _)
    | exact h.not_sentinel hL (hx ha) (hu ▸ isSentinel_end L _)
    | exact hd _ ha hu

/-! ## Boundary tags in a well-formed heap -/

theorem el_get_footer_eq (L : Layout) (s : State) {b : Nat} (h0 : b ≠ 0)
    (h : b + L.head_bytes + s.size b < WORD) :
    el_get_footer L s b = some (b + L.head_bytes + s.size b) := by
  simp only [el_get_footer, deref_ne h0, Option.pure_def, Option.bind_eq_bind,
    Option.some_bind, PTR_PLUS_BYTES]
  rw [add64_eq (a := L.head_bytes) (by omega), add64_eq (by omega)]
  congr 1; omega

theorem HeapOK.footer {L : Layout} {s : State} {bs : List Nat} (h : HeapOK L s bs)
    {b : Nat} (hb : b ∈ bs) :
    el_get_footer L s b = some (b + L.head_bytes + s.size b) ∧
      b + L.head_bytes + s.size b ≠ 0 := by
  have h1 := h.mem_range hb
  have h2 := h.end_lt
  have h3 := h.mem_ne_zero hb
  refine ⟨el_get_footer_eq L s h3 ?_, by omega⟩
  unfold Layout.EL_BLOCK_OVERHEAD at h1; omega

/-- The block above the last block of the heap: none. -/
theorem HeapOK.above_last {L : Layout} {s : State} {l1 : List Nat} {b : Nat}
    (h : HeapOK L s (l1 ++ [b])) : el_block_above L s b = some 0 := by
  have h1 := h.mem_range (b := b) (by simp)
  have h2 := h.end_lt
  have h3 := h.mem_ne_zero (b := b) (by simp)
  rcases h.tiled.above with ⟨_, h4⟩ | ⟨l2', h4, _⟩
  · simp only [el_block_above, deref_ne h3, Option.pure_def, Option.bind_eq_bind,
      Option.some_bind, PTR_PLUS_BYTES]
    rw [add64_eq (a := s.size b) (by omega), add64_eq (by omega)]
    simp; omega
  · simp at h4

/-- The block above a block that is not the last one: the next block. -/
theorem HeapOK.above_next {L : Layout} {s : State} {l1 l2 : List Nat} {b u : Nat}
    (h : HeapOK L s (l1 ++ b :: u :: l2)) (hL : L.WF) :
    el_block_above L s b = some u ∧ u = b + s.size b + L.EL_BLOCK_OVERHEAD ∧ u ≠ 0 := by
  have h1 := h.mem_range (b := b) (by simp)
  have h2 := h.end_lt
  have h3 := h.mem_ne_zero (b := b) (by simp)
  have h5 := hL.overhead_pos
  rcases h.tiled.above with ⟨h4, _⟩ | ⟨l2', h4, h6⟩
  · simp at h4
  · simp at h4
    obtain ⟨rfl, _⟩ := h4
    refine ⟨?_, rfl, by omega⟩
    simp only [el_block_above, deref_ne h3, Option.pure_def, Option.bind_eq_bind,
      Option.some_bind, PTR_PLUS_BYTES]
    rw [add64_eq (a := s.size b) (by omega), add64_eq (by omega)]
    rw [if_neg (by omega)]
    congr 1; omega

/-- The block below the first block of the heap: none. -/
theorem HeapOK.below_first {L : Layout} {s : State} {l2 : List Nat} {b : Nat}
    (h : HeapOK L s (b :: l2)) : el_block_below L s b = some 0 := by
  have h1 := h.tiled.1
  have h2 := h.mem_range (b := b) (by simp)
  have h3 := h.end_lt
  subst h1
  unfold Layout.EL_BLOCK_OVERHEAD at h2
  simp only [el_block_below, PTR_PLUS_BYTES]
  rw [add64_eq (by omega), if_pos (by omega)]

/-- The block below a block that is not the first one: the previous block. -/
theorem HeapOK.below_prev {L : Layout} {s : State} {l1 l2 : List Nat} {l b : Nat}
    (h : HeapOK L s (l1 ++ l :: b :: l2)) (hL : L.WF) :
    el_block_below L s b = some l ∧ b = l + s.size l + L.EL_BLOCK_OVERHEAD ∧ l ≠ 0 := by
  have h1 := h.mem_range (b := l) (by simp)
  have h2 := h.end_lt
  have h3 := h.mem_ne_zero (b := l) (by simp)
  have h5 := hL.head_pos
  have h6 := hL.foot_pos
  have h7 := h.foot_ok l (by simp)
  have h8 := h.mem_range (b := b) (by simp)
  rcases h.tiled.above with ⟨h4, _⟩ | ⟨l2', h4, _⟩
  · simp at h4
  · simp at h4
    obtain ⟨hb, _⟩ := h4
    refine ⟨?_, hb, h3⟩
    unfold Layout.EL_BLOCK_OVERHEAD at h1 h8 hb
    have hf : PTR_MINUS_BYTES b L.foot_bytes = l + L.head_bytes + s.size l := by
      unfold PTR_MINUS_BYTES
      rw [sub64_eq (by omega) (by omega)]; omega
    simp only [el_block_below, PTR_PLUS_BYTES]
    rw [add64_eq (by omega), if_neg (by omega), hf, deref_ne (by omega)]
    simp only [Option.pure_def, Option.bind_eq_bind, Option.some_bind, h7, PTR_MINUS_BYTES]
    rw [add64_eq (a := s.size l) (by omega), add64_eq (by omega),
      sub64_eq (by omega) (by omega)]
    congr 1; omega

/-! ## Merging -/

theorem el_merge_noop_state (L : Layout) (s : State) (lower : Nat)
    (h : s.state lower ≠ L.EL_AVAILABLE) :
    el_merge_block_with_above L s lower = some s := by
  unfold el_merge_block_with_above
  split_ifs <;> rfl

theorem el_merge_noop_last {L : Layout} {s : State} {l1 : List Nat} {lower : Nat}
    (h : HeapOK L s (l1 ++ [lower])) :
    el_merge_block_with_above L s lower = some s := by
  unfold el_merge_block_with_above
  rw [h.above_last]
  simp

theorem el_merge_noop_above {L : Layout} {s : State} {l1 l2 : List Nat} {lower u : Nat}
    (h : HeapOK L s (l1 ++ lower :: u :: l2)) (hL : L.WF)
    (hu : s.state u ≠ L.EL_AVAILABLE) :
    el_merge_block_with_above L s lower = some s := by
  unfold el_merge_block_with_above
  rw [(h.above_next hL).1]
  simp [hu]

theorem mem_middle_erase {l1 l2 : List Nat} {b u c : Nat}
    (nd : (l1 ++ b :: u :: l2).Nodup) :
    c ∈ l1 ++ b :: l2 ↔ c ∈ l1 ++ b :: u :: l2 ∧ c ≠ u := by
  have hu : u ∉ l1 ++ b :: l2 := by
    have h1 : (l1 ++ [b] ++ u :: l2).Nodup := by simpa using nd
    simpa using (List.nodup_cons.1 (List.nodup_middle.1 h1)).1
  constructor
  · intro hc
    refine ⟨by simp at hc ⊢; tauto, ?_⟩
    rintro rfl
    exact hu hc
  · rintro ⟨hc, hne⟩
    simp at hc ⊢; tauto

/-- Effect of `el_merge_block_with_above` on two adjacent available blocks. -/
theorem el_merge_spec {L : Layout} {s : State} {l1 l2 xs ys : List Nat} {lower u : Nat}
    (hL : L.WF) (hI : Inv0 L s (l1 ++ lower :: u :: l2) xs ys)
    (hl : s.state lower = L.EL_AVAILABLE) (hu : s.state u = L.EL_AVAILABLE) :
    ∃ s', el_merge_block_with_above L s lower = some s' ∧
      Inv0 L s' (l1 ++ lower :: l2) (lower :: (xs.erase lower).erase u) ys ∧
      Merged L s s' lower u := by
  have hH := hI.heap
  have hlb : lower ∈ l1 ++ lower :: u :: l2 := by simp
  have hub : u ∈ l1 ++ lower :: u :: l2 := by simp
  have hlx : lower ∈ xs := (hI.mem_avail _).2 ⟨hlb, hl⟩
  have hux : u ∈ xs := (hI.mem_avail _).2 ⟨hub, hu⟩
  obtain ⟨hab, hueq, hu0⟩ := hH.above_next hL
  have hl0 : lower ≠ 0 := hH.mem_ne_zero hlb
  have ho := hL.overhead_pos
  have hne : u ≠ lower := by omega
  have ndx : xs.Nodup := nodes_nodup_inner hI.avail.nodup
  have ndb : (l1 ++ lower :: u :: l2).Nodup := hH.tiled.nodup ho
  have hrl := hH.mem_range hlb
  have hru := hH.mem_range hub
  have hend := hH.end_lt
  -- the two removals
  obtain ⟨s1, e1, ok1, k1, o1, f1⟩ := el_remove_block_spec hI.avail hlx
  have hux1 : u ∈ xs.erase lower := (List.mem_erase_of_ne hne).2 hux
  obtain ⟨s2, e2, ok2, k2, o2, f2⟩ := el_remove_block_spec ok1 hux1
  have hsz2 : s2.size = s.size := k2.size.trans k1.size
  -- the new size
  have hnew : add64 (add64 (s2.size lower) (s2.size u)) L.EL_BLOCK_OVERHEAD =
      s.size lower + s.size u + L.EL_BLOCK_OVERHEAD := by
    rw [hsz2, add64_eq (a := s.size lower) (by omega), add64_eq (by omega)]
  have hfoot : el_get_footer L
      (s2.wr_size lower (s.size lower + s.size u + L.EL_BLOCK_OVERHEAD)) lower =
      some (lower + L.head_bytes + (s.size lower + s.size u + L.EL_BLOCK_OVERHEAD)) := by
    have := el_get_footer_eq L
      (s2.wr_size lower (s.size lower + s.size u + L.EL_BLOCK_OVERHEAD)) hl0
      (by simp only [wr_size_size, Function.update_same]
          unfold Layout.EL_BLOCK_OVERHEAD at *; omega)
    simpa using this
  have hf0 : lower + L.head_bytes + (s.size lower + s.size u + L.EL_BLOCK_OVERHEAD) ≠ 0 := by
    omega
  -- the list after the size and footer writes
  have hlnot : lower ∉ (xs.erase lower).erase u := by
    intro hm
    exact (List.Nodup.mem_erase_iff ndx).1 (List.mem_of_mem_erase hm) |>.1 rfl
  have hsubx : (xs.erase lower).erase u ⊆ l1 ++ lower :: u :: l2 :=
    fun c hc => hI.avail_sub (List.mem_of_mem_erase (List.mem_of_mem_erase hc))
  have ok4 : ListOK L ((s2.wr_size lower (s.size lower + s.size u + L.EL_BLOCK_OVERHEAD)).wr_foot
      (lower + L.head_bytes + (s.size lower + s.size u + L.EL_BLOCK_OVERHEAD))
      (s.size lower + s.size u + L.EL_BLOCK_OVERHEAD)) .avail ((xs.erase lower).erase u) := by
    refine ok2.frame (by simp) (fun a _ => by simp) (fun a ha => ?_)
    have : a ≠ lower := by rintro rfl; exact hlnot ha
    simp [Function.update_apply, this]
  have htot1 := total_erase L s.size hlx
  have htot2 := total_erase L s.size hux1
  have hbl := hI.avail.bytes_lt
  have hll := hI.avail.len_lt
  have hlen1 : (xs.erase lower).length + 1 = xs.length := by
    rw [List.length_erase_of_mem hlx]
    have := List.length_pos_of_mem hlx; omega
  have hlen2 : ((xs.erase lower).erase u).length + 1 = (xs.erase lower).length := by
    rw [List.length_erase_of_mem hux1]
    have := List.length_pos_of_mem hux1; omega
  have hnodes : lower ∉ nodes L .avail ((xs.erase lower).erase u) :=
    not_mem_nodes (hH.not_sentinel hL hlb) hlnot
  obtain ⟨s5, e5, ok5, k5, o5, f5⟩ := el_add_block_front_spec ok4 hnodes hl0
    (by omega)
    (by
      simp only [wr_foot_size, wr_size_size, Function.update_same]
      have hc : ∀ a ∈ (xs.erase lower).erase u, Function.update s2.size lower
          (s.size lower + s.size u + L.EL_BLOCK_OVERHEAD) a = s.size a := by
        intro a ha
        have : a ≠ lower := by rintro rfl; exact hlnot ha
        simp [Function.update_apply, this, hsz2]
      rw [total_congr L hc]
      omega)
  refine ⟨s5, ?_, ?_, ?_⟩
  · unfold el_merge_block_with_above
    rw [if_neg hl0, if_neg (by simp [hl]), hab]
    simp only [Option.bind_eq_bind, Option.some_bind, if_neg hu0, hu, ne_eq,
      not_true_eq_false, if_false, e1, e2, hnew, hfoot, deref_ne hf0, Option.pure_def,
      wr_size_size, Function.update_same, e5]
  · have hst : s5.state = s.state := by
      rw [k5.state]; simp [k2.state, k1.state]
    have hsz : s5.size = Function.update s.size lower
        (s.size lower + s.size u + L.EL_BLOCK_OVERHEAD) := by
      rw [k5.size]; simp [hsz2]
    have hft : s5.foot = Function.update s.foot
        (lower + L.head_bytes + (s.size lower + s.size u + L.EL_BLOCK_OVERHEAD))
        (s.size lower + s.size u + L.EL_BLOCK_OVERHEAD) := by
      rw [k5.foot]; simp [k2.foot, k1.foot]
    have hhs : s5.heap_start = s.heap_start := by
      rw [k5.heap_start]; simp [k2.heap_start, k1.heap_start]
    have hhe : s5.heap_end = s.heap_end := by
      rw [k5.heap_end]; simp [k2.heap_end, k1.heap_end]
    have hhb : s5.heap_bytes = s.heap_bytes := by
      rw [k5.heap_bytes]; simp [k2.heap_bytes, k1.heap_bytes]
    have hszo : ∀ c, c ≠ lower → s5.size c = s.size c := by
      intro c hc; rw [hsz]; simp [Function.update_apply, hc]
    have hmem := @mem_middle_erase l1 l2 lower u
    refine ⟨?_, ok5, ?_, ?_, ?_, ?_, ?_⟩
    · refine ⟨by rw [hhs]; exact hH.start_pos, by rw [hhe]; exact hH.end_lt,
        by rw [hhs, hhb, hhe]; exact hH.extent, ?_, by simp, ?_, ?_⟩
      · rw [hhs, hhe]
        refine hH.tiled.merge_block (by rw [hsz]; simp) ?_ ?_
        · intro c hc
          refine hszo c ?_
          rintro rfl
          have := List.nodup_middle.1 ndb
          simp at this; tauto
        · intro c hc
          refine hszo c ?_
          rintro rfl
          have := List.nodup_middle.1 ndb
          simp at this; tauto
      · intro c hc
        have hcb := ((hmem ndb).1 hc)
        by_cases hcl : c = lower
        · subst hcl
          rw [hsz, hft, Function.update_same, Function.update_same]
        · have hsep := hH.tiled.sep hcb.1 hub hcb.2
          have hrc := hH.mem_range hcb.1
          have hfp := hL.foot_pos
          rw [hszo c hcl, hft, Function.update_noteq, hH.foot_ok c hcb.1]
          unfold Layout.EL_BLOCK_OVERHEAD at *
          omega
      · intro a ha
        rw [hhs, hhe]; exact hH.sent_out a ha
    · refine hI.used.frame ?_ ?_ ?_
      · rw [o5 .used (by decide)]
        have h2 := o2 .used (by decide)
        have h1 := o1 .used (by decide)
        simp only [list_used] at h1 h2
        simp [h2, h1]
      · intro a ha
        have hna : a ∉ nodes L .avail xs := fun h' =>
          nodes_disjoint hH hL hI.avail_sub hI.used_sub (fun b hb => hI.disjoint hL hb) h' ha
        have hna1 : a ∉ nodes L .avail (xs.erase lower) := fun h' => hna (by
          rcases nodes_mem.1 h' with h' | h' | h'
          · exact nodes_mem.2 (Or.inl h')
          · exact nodes_mem.2 (Or.inr (Or.inl (List.mem_of_mem_erase h')))
          · exact nodes_mem.2 (Or.inr (Or.inr h')))
        have hna2 : a ∉ nodes L .avail ((xs.erase lower).erase u) := fun h' => hna1 (by
          rcases nodes_mem.1 h' with h' | h' | h'
          · exact nodes_mem.2 (Or.inl h')
          · exact nodes_mem.2 (Or.inr (Or.inl (List.mem_of_mem_erase h')))
          · exact nodes_mem.2 (Or.inr (Or.inr h')))
        have hal : a ≠ lower := by
          rintro rfl
          exact hna (nodes_mem.2 (Or.inr (Or.inl hlx)))
        have := f5 a hal hna2
        simp only [wr_foot_next, wr_size_next, wr_foot_prev, wr_size_prev] at this
        rw [this.1, this.2, (f2 a hna1).1, (f2 a hna1).2, (f1 a hna).1, (f1 a hna).2]
        exact ⟨rfl, rfl⟩
      · intro a ha
        refine hszo a ?_
        rintro rfl
        exact hI.disjoint hL hlx ha
    · intro c hc
      rw [hst]; exact hI.tag c ((hmem ndb).1 hc).1
    · intro c
      rw [hst, hmem ndb]
      constructor
      · intro hc
        rcases List.mem_cons.1 hc with rfl | hc
        · exact ⟨⟨hlb, hne.symm⟩, hl⟩
        · have h1 := (List.Nodup.mem_erase_iff (ndx.erase lower)).1 hc
          have h2 := (hI.mem_avail c).1 (List.mem_of_mem_erase h1.2)
          exact ⟨⟨h2.1, h1.1⟩, h2.2⟩
      · rintro ⟨⟨hc, hcu⟩, hca⟩
        by_cases hcl : c = lower
        · simp [hcl]
        · refine List.mem_cons_of_mem _ ?_
          refine (List.mem_erase_of_ne hcu).2 ((List.mem_erase_of_ne hcl).2 ?_)
          exact (hI.mem_avail c).2 ⟨hc, hca⟩
    · intro c
      rw [hst]; exact hI.mem_used c
    · intro c hc
      refine (hmem ndb).2 ⟨hI.used_sub c hc, ?_⟩
      rintro rfl
      exact hI.disjoint hL hux hc
  · refine ⟨?_, ?_, ?_, ?_, ?_, ?_, ?_, ?_⟩
    · rw [k5.state]; simp [k2.state, k1.state]
    · rw [k5.size]; simp [hsz2]
    · rw [k5.heap_start]; simp [k2.heap_start, k1.heap_start]
    · rw [k5.heap_end]; simp [k2.heap_end, k1.heap_end]
    · rw [k5.heap_bytes]; simp [k2.heap_bytes, k1.heap_bytes]
    · have h5 := ok5.bytes
      have h0 := hI.avail.bytes
      simp only [list_avail] at h5 h0
      rw [h5, h0, total_cons, k5.size]
      simp only [wr_foot_size, wr_size_size, Function.update_same]
      have hc : ∀ a ∈ (xs.erase lower).erase u, Function.update s2.size lower
          (s.size lower + s.size u + L.EL_BLOCK_OVERHEAD) a = s.size a := by
        intro a ha
        have : a ≠ lower := by rintro rfl; exact hlnot ha
        simp [Function.update_apply, this, hsz2]
      rw [total_congr L hc]
      omega
    · have h5 := ok5.len
      have h0 := hI.avail.len
      simp only [list_avail] at h5 h0
      rw [h5, h0]; simp only [List.length_cons]; omega
    · have := o5 .used (by decide)
      simp only [list_used] at this
      rw [this]
      have h2 := o2 .used (by decide)
      have h1 := o1 .used (by decide)
      simp only [list_used] at h1 h2
      simp [h2, h1]

/-! ## Coalescing around a freshly available block -/

theorem MergeStep.refl (s : State) : MergeStep s s := ⟨rfl, rfl, rfl, rfl, rfl, rfl⟩

theorem MergeStep.trans {s1 s2 s3 : State} (h : MergeStep s1 s2) (h' : MergeStep s2 s3) :
    MergeStep s1 s3 :=
  ⟨h'.state.trans h.state, h'.heap_start.trans h.heap_start, h'.heap_end.trans h.heap_end,
   h'.heap_bytes.trans h.heap_bytes, h'.avail_bytes.trans h.avail_bytes,
   h'.used.trans h.used⟩

theorem Merged.step {L : Layout} {s s' : State} {lower u : Nat} (h : Merged L s s' lower u) :
    MergeStep s s' :=
  ⟨h.state, h.heap_start, h.heap_end, h.heap_bytes, h.avail_bytes, h.used⟩

/-- Merging the available block `x` with the block above it restores the
invariant above `x`; with what it does to the heap: nothing when the block
above is missing or not available, and otherwise that block is merged into
`x`, which goes to the front of the available list. -/
theorem merge_above_shape {L : Layout} {s : State} {bs xs ys : List Nat} {x : Nat}
    (hL : L.WF) (hI : Inv0 L s bs xs ys) (hx : x ∈ bs) (hxa : s.state x = L.EL_AVAILABLE)
    (hadj : NoAdjAround L s bs x) :
    ∃ s' bs' xs', el_merge_block_with_above L s x = some s' ∧ Inv0 L s' bs' xs' ys ∧
      x ∈ bs' ∧ NoAdjBelow L s' bs' x ∧ MergeStep s s' ∧
      ((s' = s ∧ bs' = bs ∧ xs' = xs) ∨
        (∃ l1 u l2, bs = l1 ++ x :: u :: l2 ∧ s.state u = L.EL_AVAILABLE ∧
          bs' = l1 ++ x :: l2 ∧ xs' = x :: (xs.erase x).erase u ∧
          Merged L s s' x u)) := by
  have hH := hI.heap
  have ho := hL.overhead_pos
  obtain ⟨l1, l2, rfl⟩ := List.append_of_mem hx
  cases l2 with
  | nil =>
    refine ⟨s, _, xs, el_merge_noop_last hH, hI, hx, ?_, MergeStep.refl s,
      Or.inl ⟨rfl, rfl, rfl⟩⟩
    intro b hb c hc hcb hcx
    by_cases hbx : b = x
    · subst hbx
      rcases hH.tiled.above with ⟨_, h4⟩ | ⟨l2', h4, _⟩
      · have := hH.mem_range hc
        omega
      · simp at h4
    · exact hadj b hb c hc hcb hbx hcx
  | cons u l2 =>
    obtain ⟨hab, hueq, hu0⟩ := hH.above_next hL
    by_cases hua : s.state u = L.EL_AVAILABLE
    · obtain ⟨s', e, hI', hm⟩ := el_merge_spec hL hI hxa hua
      have ndb : (l1 ++ x :: u :: l2).Nodup := hH.tiled.nodup ho
      have hmem := @mem_middle_erase l1 l2 x u
      refine ⟨s', _, _, e, hI', by simp, ?_, hm.step,
        Or.inr ⟨l1, u, l2, rfl, hua, rfl, rfl, hm⟩⟩
      intro b hb c hc hcb hcx
      rw [hm.state]
      have hb' := (hmem ndb).1 hb
      have hc' := (hmem ndb).1 hc
      have hub : u ∈ l1 ++ x :: u :: l2 := by simp
      by_cases hbx : b = x
      · subst hbx
        rw [hm.size, Function.update_same] at hcb
        have := hadj u hub c hc'.1 (by omega) (by omega) hcx
        tauto
      · rw [hm.size, Function.update_noteq hbx] at hcb
        exact hadj b hb'.1 c hc'.1 hcb hbx hcx
    · refine ⟨s, _, xs, el_merge_noop_above hH hL hua, hI, hx, ?_, MergeStep.refl s,
        Or.inl ⟨rfl, rfl, rfl⟩⟩
      intro b hb c hc hcb hcx
      by_cases hbx : b = x
      · subst hbx
        have : c = u := by omega
        subst this
        tauto
      · exact hadj b hb c hc hcb hbx hcx

/-- Merging the available block `x` with the block above it restores the
invariant above `x`. -/
theorem merge_above_fix {L : Layout} {s : State} {bs xs ys : List Nat} {x : Nat}
    (hL : L.WF) (hI : Inv0 L s bs xs ys) (hx : x ∈ bs) (hxa : s.state x = L.EL_AVAILABLE)
    (hadj : NoAdjAround L s bs x) :
    ∃ s' bs' xs', el_merge_block_with_above L s x = some s' ∧ Inv0 L s' bs' xs' ys ∧
      x ∈ bs' ∧ NoAdjBelow L s' bs' x ∧ MergeStep s s' := by
  obtain ⟨s', bs', xs', h1, h2, h3, h4, h5, _⟩ := merge_above_shape hL hI hx hxa hadj
  exact ⟨s', bs', xs', h1, h2, h3, h4, h5⟩

/-- The merge that `el_free` and `el_append_pages_to_heap` attempt with the
block below `x`, with what it does to the heap: nothing when no available block
ends where `x` starts, and otherwise `x` is merged into that block. -/
theorem merge_below_shape {L : Layout} {s : State} {bs xs ys : List Nat} {x : Nat}
    (hL : L.WF) (hI : Inv0 L s bs xs ys) (hx : x ∈ bs) (hxa : s.state x = L.EL_AVAILABLE)
    (hadj : NoAdjBelow L s bs x) :
    ∃ lower s' bs' xs', el_block_below L s x = some lower ∧
      (if lower ≠ 0 then
        (if s.state lower = L.EL_AVAILABLE then el_merge_block_with_above L s lower
         else some s)
       else some s) = some s' ∧
      Inv L s' bs' xs' ys ∧ MergeStep s s' ∧
      ((s' = s ∧ bs' = bs ∧ xs' = xs ∧
          ∀ l ∈ bs, x = l + s.size l + L.EL_BLOCK_OVERHEAD → s.state l ≠ L.EL_AVAILABLE) ∨
        (∃ l1 l2, bs = l1 ++ lower :: x :: l2 ∧ s.state lower = L.EL_AVAILABLE ∧
          bs' = l1 ++ lower :: l2 ∧ xs' = lower :: (xs.erase lower).erase x ∧
          Merged L s s' lower x)) := by
  have hH := hI.heap
  have ho := hL.overhead_pos
  obtain ⟨l1, l2, rfl⟩ := List.append_of_mem hx
  rcases List.eq_nil_or_concat l1 with rfl | ⟨l1', l, hl⟩
  · refine ⟨0, s, _, xs, hH.below_first, by simp, ⟨hI, ?_⟩, MergeStep.refl s,
      Or.inl ⟨rfl, rfl, rfl, ?_⟩⟩
    · intro b hb c hc hcb
      by_cases hcx : c = x
      · subst hcx
        have h1 := hH.tiled.1
        have h2 := hH.mem_range hb
        simp only [List.nil_append] at h1
        omega
      · exact hadj b hb c hc hcb hcx
    · intro b hb hbx
      have h1 := hH.tiled.1
      have h2 := hH.mem_range hb
      simp only [List.nil_append] at h1
      omega
  · rw [List.concat_eq_append] at hl
    subst hl
    have hH' : HeapOK L s (l1' ++ l :: x :: l2) := by simpa using hH
    have hI' : Inv0 L s (l1' ++ l :: x :: l2) xs ys := by simpa using hI
    obtain ⟨hbe, hxeq, hl0⟩ := hH'.below_prev hL
    have hlb : l ∈ l1' ++ l :: x :: l2 := by simp
    have hbelow : ∀ b ∈ l1' ++ [l] ++ x :: l2, x = b + s.size b + L.EL_BLOCK_OVERHEAD →
        b = l := by
      intro b hb hbx
      have hb' : b ∈ l1' ++ l :: x :: l2 := by simpa using hb
      by_contra hne
      have := hH'.tiled.sep hb' hlb hne
      omega
    by_cases hla : s.state l = L.EL_AVAILABLE
    · obtain ⟨s', e, hI2, hm⟩ := el_merge_spec hL hI' hla hxa
      have ndb : (l1' ++ l :: x :: l2).Nodup := hH'.tiled.nodup ho
      have hmem := @mem_middle_erase l1' l2 l x
      refine ⟨l, s', _, _, hbe, by simp [hl0, hla, e], ⟨hI2, ?_⟩, hm.step,
        Or.inr ⟨l1', l2, by simp, hla, rfl, rfl, hm⟩⟩
      intro b hb c hc hcb
      rw [hm.state]
      have hb' := (hmem ndb).1 hb
      have hc' := (hmem ndb).1 hc
      have hb2 : b ∈ l1' ++ [l] ++ x :: l2 := by simpa using hb'.1
      have hc2 : c ∈ l1' ++ [l] ++ x :: l2 := by simpa using hc'.1
      by_cases hbl : b = l
      · subst hbl
        rw [hm.size, Function.update_same] at hcb
        have := hadj x hx c hc2 (by omega) hc'.2
        tauto
      · rw [hm.size, Function.update_noteq hbl] at hcb
        exact hadj b hb2 c hc2 hcb hc'.2
    · refine ⟨l, s, _, xs, hbe, by simp [hl0, hla], ⟨hI, ?_⟩, MergeStep.refl s,
        Or.inl ⟨rfl, rfl, rfl, ?_⟩⟩
      · intro b hb c hc hcb
        by_cases hcx : c = x
        · subst hcx
          have := hbelow b hb hcb
          subst this
          tauto
        · exact hadj b hb c hc hcb hcx
      · intro b hb hbx
        rw [hbelow b hb hbx]
        exact hla

/-- The merge that `el_free` and `el_append_pages_to_heap` attempt with the
block below `x`: it restores the whole invariant. -/
theorem merge_below_fix {L : Layout} {s : State} {bs xs ys : List Nat} {x : Nat}
    (hL : L.WF) (hI : Inv0 L s bs xs ys) (hx : x ∈ bs) (hxa : s.state x = L.EL_AVAILABLE)
    (hadj : NoAdjBelow L s bs x) :
    ∃ lower s' bs' xs', el_block_below L s x = some lower ∧
      (if lower ≠ 0 then
        (if s.state lower = L.EL_AVAILABLE then el_merge_block_with_above L s lower
         else some s)
       else some s) = some s' ∧
      Inv L s' bs' xs' ys ∧ MergeStep s s' := by
  obtain ⟨lower, s', bs', xs', h1, h2, h3, h4, _⟩ := merge_below_shape hL hI hx hxa hadj
  exact ⟨lower, s', bs', xs', h1, h2, h3, h4⟩

/-! ## Deallocation keeps the invariant -/

theorem nodes_erase_sub {L : Layout} {id : ListId} {xs : List Nat} {a b : Nat}
    (h : a ∈ nodes L id (xs.erase b)) : a ∈ nodes L id xs := by
  rcases nodes_mem.1 h with h | h | h
  · exact nodes_mem.2 (Or.inl h)
  · exact nodes_mem.2 (Or.inr (Or.inl (List.mem_of_mem_erase h)))
  · exact nodes_mem.2 (Or.inr (Or.inr h))

/-- The first half of `el_free`: the block changes its tag and moves from the
used list to the front of the available list. -/
theorem free_relink {L : Layout} {s : State} {bs xs ys : List Nat} {block : Nat}
    (hL : L.WF) (hI : Inv L s bs xs ys) (hb : block ∈ ys) :
    ∃ s1 s2, el_remove_block L ((s.wr_state block L.EL_AVAILABLE).wr_foot
        (block + L.head_bytes + s.size block) (s.size block)) .used block = some s1 ∧
      el_add_block_front L s1 .avail block = some s2 ∧
      Inv0 L s2 bs (block :: xs) (ys.erase block) ∧
      NoAdjAround L s2 bs block ∧ Freed L s s2 block := by
  have hI0 := hI.base
  have hH := hI0.heap
  have ho := hL.overhead_pos
  have hbb : block ∈ bs := hI0.used_sub block hb
  have hbu : s.state block = L.EL_USED := (hI0.mem_used block).1 hb
  have hbx : block ∉ xs := fun h => hI0.disjoint hL h hb
  have hfo := hH.foot_ok block hbb
  have ndx : xs.Nodup := nodes_nodup_inner hI0.avail.nodup
  have ndy : ys.Nodup := nodes_nodup_inner hI0.used.nodup
  have hfoot : Function.update s.foot (block + L.head_bytes + s.size block) (s.size block) =
      s.foot := by
    have := Function.update_eq_self (block + L.head_bytes + s.size block) s.foot
    rwa [hfo] at this
  -- the used list in the state with the new tag
  have oku : ListOK L ((s.wr_state block L.EL_AVAILABLE).wr_foot
      (block + L.head_bytes + s.size block) (s.size block)) .used ys :=
    hI0.used.frame (by simp) (fun a _ => by simp) (fun a _ => by simp)
  obtain ⟨s1, e1, ok1, k1, o1, f1⟩ := el_remove_block_spec oku hb
  have ha1 := o1 .avail (by decide)
  simp only [list_avail, wr_foot_avail, wr_state_avail] at ha1
  have oka : ListOK L s1 .avail xs := by
    refine hI0.avail.frame (by simpa using ha1) (fun a ha => ?_) (fun a _ => by simp [k1.size])
    have hna : a ∉ nodes L .used ys :=
      nodes_disjoint hH hL hI0.avail_sub hI0.used_sub (fun b hb => hI0.disjoint hL hb) ha
    have := f1 a hna
    simpa using this
  have hbn : block ∉ nodes L .avail xs := not_mem_nodes (hH.not_sentinel hL hbb) hbx
  have hb0 : block ≠ 0 := hH.mem_ne_zero hbb
  have hnd : (block :: xs).Nodup := List.nodup_cons.2 ⟨hbx, ndx⟩
  have hsub : block :: xs ⊆ bs := by
    intro c hc
    rcases List.mem_cons.1 hc with rfl | hc
    · exact hbb
    · exact hI0.avail_sub hc
  have hlt := hH.total_lt hL hnd hsub
  rw [total_cons] at hlt
  have hsz1 : s1.size = s.size := by rw [k1.size]; simp
  obtain ⟨s2, e2, ok2, k2, o2, f2⟩ := el_add_block_front_spec oka hbn hb0
    (by simpa using hlt.2.2) (by rw [hsz1]; omega)
  have hsz2 : s2.size = s.size := k2.size.trans hsz1
  have hst2 : s2.state = Function.update s.state block L.EL_AVAILABLE := by
    rw [k2.state, k1.state]; simp
  have hft2 : s2.foot = s.foot := by
    rw [k2.foot, k1.foot]; simpa using hfoot
  have hhs : s2.heap_start = s.heap_start := by rw [k2.heap_start, k1.heap_start]; simp
  have hhe : s2.heap_end = s.heap_end := by rw [k2.heap_end, k1.heap_end]; simp
  have hhb : s2.heap_bytes = s.heap_bytes := by rw [k2.heap_bytes, k1.heap_bytes]; simp
  have hu2 := o2 .used (by decide)
  simp only [list_used] at hu2
  refine ⟨s1, s2, e1, e2, ?_, ?_, ?_⟩
  · refine ⟨?_, ok2, ?_, ?_, ?_, ?_, ?_⟩
    · exact ⟨by rw [hhs]; exact hH.start_pos, by rw [hhe]; exact hH.end_lt,
        by rw [hhs, hhb, hhe]; exact hH.extent, by rw [hsz2, hhs, hhe]; exact hH.tiled,
        hH.ne, by rw [hsz2, hft2]; exact hH.foot_ok,
        by rw [hhs, hhe]; exact hH.sent_out⟩
    · refine ok1.frame (by simpa using hu2) (fun a ha => ?_) (fun a _ => by rw [k2.size])
      have ha' := nodes_erase_sub ha
      have hna : a ∉ nodes L .avail xs := fun h' =>
        nodes_disjoint hH hL hI0.avail_sub hI0.used_sub (fun b hb => hI0.disjoint hL hb) h' ha'
      have hab : a ≠ block := by
        rintro rfl
        rcases nodes_mem.1 ha with h | h | h
        · exact hH.not_sentinel hL hbb (h ▸ isSentinel_beg L _)
        · exact (List.Nodup.mem_erase_iff ndy).1 h |>.1 rfl
        · exact hH.not_sentinel hL hbb (h ▸ isSentinel_end L _)
      exact f2 a hab hna
    · intro c hc
      rw [hst2]
      by_cases hcb : c = block
      · subst hcb; left; exact Function.update_same _ _ _
      · rw [Function.update_noteq hcb]; exact hI0.tag c hc
    · intro c
      rw [hst2]
      by_cases hcb : c = block
      · subst hcb; simp [hbb]
      · rw [Function.update_noteq hcb, List.mem_cons, hI0.mem_avail c]
        simp [hcb]
    · intro c
      rw [hst2, List.Nodup.mem_erase_iff ndy]
      by_cases hcb : c = block
      · subst hcb; simp [hL.avail_ne_used]
      · rw [Function.update_noteq hcb, hI0.mem_used c]
        simp [hcb]
    · intro c hc
      exact hI0.used_sub c (List.mem_of_mem_erase hc)
  · intro b hb' c hc hcb hbx' hcx
    rw [hst2, Function.update_noteq hbx', Function.update_noteq hcx]
    rw [hsz2] at hcb
    exact hI.no_adj b hb' c hc hcb
  · have hl1 := ok1.len
    have hb1 := ok1.bytes
    have hl0 := hI0.used.len
    have hby0 := hI0.used.bytes
    have hab2 := ok2.bytes
    have hab0 := hI0.avail.bytes
    simp only [list_used, list_avail] at hl1 hb1 hl0 hby0 hab2 hab0
    have hte := total_erase L s.size hb
    have hle : (ys.erase block).length + 1 = ys.length := by
      rw [List.length_erase_of_mem hb]
      have := List.length_pos_of_mem hb; omega
    refine ⟨hst2, hhs, hhe, hhb, ?_, ?_, ?_⟩
    · rw [hu2, hl1, hl0]; exact hle
    · rw [hu2, hb1, hby0, hsz1]; exact hte
    · rw [hab2, hab0, total_cons, hsz2]; omega

/-- Effect of `el_free` on the pointer of a block of the used list. -/
theorem el_free_spec {L : Layout} {s : State} {bs xs ys : List Nat} {block ptr : Nat}
    (hL : L.WF) (hI : Inv L s bs xs ys) (hb : block ∈ ys) (hp : ptr ≠ 0)
    (hblk : PTR_MINUS_BYTES ptr L.head_bytes = block) :
    ∃ s' bs' xs', el_free L s ptr = some s' ∧ Inv L s' bs' xs' (ys.erase block) ∧
      Freed L s s' block := by
  have hI0 := hI.base
  have hH := hI0.heap
  have hbb : block ∈ bs := hI0.used_sub block hb
  have hbu : s.state block = L.EL_USED := (hI0.mem_used block).1 hb
  have hb0 : block ≠ 0 := hH.mem_ne_zero hbb
  obtain ⟨s1, s2, e1, e2, hI2, hadj2, hfr⟩ := free_relink hL hI hb
  have hxa2 : s2.state block = L.EL_AVAILABLE := by rw [hfr.state]; simp
  obtain ⟨s3, bs3, xs3, e3, hI3, hx3, hadj3, m3⟩ := merge_above_fix hL hI2 hbb hxa2 hadj2
  have hxa3 : s3.state block = L.EL_AVAILABLE := by rw [m3.state]; exact hxa2
  obtain ⟨lower, s4, bs4, xs4, e4, e5, hI4, m4⟩ := merge_below_fix hL hI3 hx3 hxa3 hadj3
  have hfoot := (hH.footer hbb)
  have hfoot' : el_get_footer L (s.wr_state block L.EL_AVAILABLE) block =
      some (block + L.head_bytes + s.size block) := by
    have := hfoot.1
    simpa [el_get_footer] using this
  refine ⟨s4, bs4, xs4, ?_, hI4, ?_⟩
  · unfold el_free
    rw [if_neg hp]
    simp only [hblk]
    rw [if_neg hb0, if_neg (by simp [hbu])]
    simp only [hfoot', Option.bind_eq_bind, Option.some_bind, deref_ne hfoot.2, wr_state_size,
      e1, e2, e3, e4, Option.pure_def]
    exact e5
  · have hm := m3.trans m4
    refine ⟨by rw [hm.state, hfr.state], by rw [hm.heap_start, hfr.heap_start],
      by rw [hm.heap_end, hfr.heap_end], by rw [hm.heap_bytes, hfr.heap_bytes], ?_, ?_, ?_⟩
    · rw [hm.used]; exact hfr.used_len
    · rw [hm.used]; exact hfr.used_bytes
    · rw [hm.avail_bytes]; exact hfr.avail_bytes

/-- The two outcomes of `el_free` on a state satisfying the invariant: nothing
changes, or a block of the used list is freed. -/
theorem el_free_cases {L : Layout} {s s' : State} {bs xs ys : List Nat} {ptr : Nat}
    (hL : L.WF) (hI : Inv L s bs xs ys) (h : el_free L s ptr = some s') :
    s' = s ∨ (ptr ≠ 0 ∧ PTR_MINUS_BYTES ptr L.head_bytes ∈ ys ∧
      ∃ bs' xs', Inv L s' bs' xs' (ys.erase (PTR_MINUS_BYTES ptr L.head_bytes)) ∧
        Freed L s s' (PTR_MINUS_BYTES ptr L.head_bytes)) := by
  by_cases hp : ptr = 0
  · left
    simp [el_free, hp] at h
    exact h.symm
  by_cases hb0 : PTR_MINUS_BYTES ptr L.head_bytes = 0
  · simp [el_free, hp, hb0] at h
  by_cases hu : s.state (PTR_MINUS_BYTES ptr L.head_bytes) = L.EL_USED
  · right
    have hb := (hI.base.mem_used _).2 hu
    obtain ⟨s2, bs', xs', e, hI', hf⟩ := el_free_spec hL hI hb hp rfl
    rw [e] at h
    cases h
    exact ⟨hp, hb, bs', xs', hI', hf⟩
  · left
    unfold el_free at h
    rw [if_neg hp] at h
    simp only [if_neg hb0, hu, ne_eq, not_false_eq_true, if_true] at h
    cases h
    rfl

/-! ## First fit -/

/-- More fuel does not change a result of the search loop. -/
theorem find_first_loop_mono (s : State) (size : Nat) {fuel : Nat} {curr r : Nat}
    (h : find_first_loop s size fuel curr = some r) (k : Nat) :
    find_first_loop s size (fuel + k) curr = some r := by
  induction fuel generalizing curr with
  | zero => simp [find_first_loop] at h
  | succ fuel ih =>
    rw [Nat.add_right_comm]
    unfold find_first_loop at h ⊢
    split_ifs at h ⊢ with h1 h2 h3
    · exact h
    · exact h
    · exact ih h

theorem find_first_loop_seg (s : State) (size : Nat) {xs : List Nat} {p e : Nat}
    (h : Seg s.next s.prev p xs e) (he : s.avail.end_ = e)
    (hne : ∀ x ∈ xs, x ≠ e ∧ x ≠ 0) {fuel : Nat} (hf : xs.length < fuel) :
    find_first_loop s size fuel (s.next p) = some (firstFit s size xs) := by
  induction xs generalizing p fuel with
  | nil =>
    obtain ⟨k, rfl⟩ : ∃ k, fuel = k + 1 := ⟨fuel - 1, by simp at hf; omega⟩
    simp [find_first_loop, h.1, he, firstFit]
  | cons x xs ih =>
    obtain ⟨k, rfl⟩ : ∃ k, fuel = k + 1 := ⟨fuel - 1, by simp at hf; omega⟩
    obtain ⟨h1, h2, h3⟩ := h
    have hx := hne x (by simp)
    rw [h1]
    unfold find_first_loop
    rw [he, if_neg hx.1, if_neg hx.2]
    by_cases hs : size ≤ s.size x
    · simp [hs, firstFit]
    · rw [if_neg hs, ih h3 (fun y hy => hne y (by simp [hy])) (by simpa using hf)]
      simp [firstFit, hs]

/-- On a well-formed available list, `el_find_first_avail` returns the first
fit as soon as the fuel exceeds the length of the list. -/
theorem el_find_first_avail_eq {L : Layout} {s : State} {xs : List Nat}
    (h : ListOK L s .avail xs) (size : Nat) {fuel : Nat} (hf : xs.length < fuel) :
    el_find_first_avail s fuel size = some (firstFit s size xs) := by
  have hb0 : s.avail.beg ≠ 0 := by
    have := h.beg_eq
    simp only [list_avail] at this
    rw [this]; exact h.nonnull _ (by simp [nodes])
  have hb := h.beg_eq
  have he := h.end_eq
  simp only [list_avail] at hb he
  simp only [el_find_first_avail, deref_ne hb0, Option.bind_eq_bind, Option.some_bind]
  rw [hb]
  refine find_first_loop_seg s size h.seg he (fun x hx => ⟨?_, ?_⟩) hf
  · rintro rfl
    have := h.nodup
    simp [nodes, List.nodup_append] at this
    tauto
  · exact h.nonnull x (by simp [nodes, hx])

/-- The first fit is `0` exactly when no member is large enough; otherwise it
is a member that is large enough and every member before it is too small. -/
theorem firstFit_cases (s : State) (size : Nat) (xs : List Nat) (h0 : ∀ x ∈ xs, x ≠ 0) :
    (firstFit s size xs = 0 ∧ ∀ x ∈ xs, s.size x < size) ∨
    (∃ l1 l2, xs = l1 ++ firstFit s size xs :: l2 ∧ firstFit s size xs ≠ 0 ∧
      size ≤ s.size (firstFit s size xs) ∧ ∀ c ∈ l1, s.size c < size) := by
  induction xs with
  | nil => left; simp [firstFit]
  | cons x xs ih =>
    by_cases hs : size ≤ s.size x
    · right
      refine ⟨[], xs, ?_, ?_, ?_, by simp⟩
      · simp [firstFit, hs]
      · simp [firstFit, hs]; exact h0 x (by simp)
      · simp [firstFit, hs]
    · have hff : firstFit s size (x :: xs) = firstFit s size xs := by
        simp [firstFit, hs]
      rw [hff]
      rcases ih (fun y hy => h0 y (by simp [hy])) with ⟨h1, h2⟩ | ⟨l1, l2, h1, h2, h3, h4⟩
      · left
        refine ⟨h1, ?_⟩
        intro y hy
        rcases List.mem_cons.1 hy with rfl | hy
        · omega
        · exact h2 y hy
      · right
        refine ⟨x :: l1, l2, by rw [List.cons_append, ← h1], h2, h3, ?_⟩
        intro c hc
        rcases List.mem_cons.1 hc with rfl | hc
        · omega
        · exact h4 c hc

/-! ## Splitting -/

theorem el_split_block_small (L : Layout) (s : State) {b n : Nat} (h0 : b ≠ 0)
    (hlt : s.size b < n + L.EL_BLOCK_OVERHEAD) (hw : n + L.EL_BLOCK_OVERHEAD < WORD) :
    el_split_block L s b n = some (s, 0) := by
  simp only [el_split_block, deref_ne h0, Option.bind_eq_bind, Option.some_bind,
    add64_eq hw, if_pos hlt, Option.pure_def]

/-- The state and block `el_split_block` returns when the block is large
enough. -/
theorem el_split_block_eq (L : Layout) (s : State) {b n : Nat} (h0 : b ≠ 0)
    (hge : n + L.EL_BLOCK_OVERHEAD ≤ s.size b)
    (hw : b + s.size b + L.EL_BLOCK_OVERHEAD < WORD) :
    el_split_block L s b n = some
      ((((((((s.wr_size b n).wr_foot (b + L.head_bytes + n) n).wr_size
          (b + n + L.EL_BLOCK_OVERHEAD) (s.size b - n - L.EL_BLOCK_OVERHEAD)).wr_state
          (b + n + L.EL_BLOCK_OVERHEAD) L.EL_AVAILABLE).wr_prev
          (b + n + L.EL_BLOCK_OVERHEAD) b).wr_next
          (b + n + L.EL_BLOCK_OVERHEAD) (s.next b)).wr_next b
          (b + n + L.EL_BLOCK_OVERHEAD)).wr_foot
          (b + s.size b + L.head_bytes) (s.size b - n - L.EL_BLOCK_OVERHEAD),
        b + n + L.EL_BLOCK_OVERHEAD) := by
  have hss : sub64 (sub64 (s.size b) n) L.EL_BLOCK_OVERHEAD =
      s.size b - n - L.EL_BLOCK_OVERHEAD := by
    rw [sub64_eq (a := s.size b) (by omega) (by omega), sub64_eq (by omega) (by omega)]
  have hf1 : PTR_PLUS_BYTES b (add64 L.head_bytes n) = b + L.head_bytes + n := by
    unfold PTR_PLUS_BYTES Layout.EL_BLOCK_OVERHEAD at *
    rw [add64_eq (a := L.head_bytes) (by omega), add64_eq (by omega)]; omega
  have hm : PTR_PLUS_BYTES (b + L.head_bytes + n) L.foot_bytes =
      b + n + L.EL_BLOCK_OVERHEAD := by
    unfold PTR_PLUS_BYTES Layout.EL_BLOCK_OVERHEAD at *
    rw [add64_eq (by omega)]; omega
  have hf2 : PTR_PLUS_BYTES (b + n + L.EL_BLOCK_OVERHEAD)
      (add64 L.head_bytes (s.size b - n - L.EL_BLOCK_OVERHEAD)) =
      b + s.size b + L.head_bytes := by
    unfold PTR_PLUS_BYTES Layout.EL_BLOCK_OVERHEAD at *
    rw [add64_eq (a := L.head_bytes) (by omega), add64_eq (by omega)]; omega
  simp only [el_split_block, el_get_footer, deref_ne h0, Option.bind_eq_bind,
    Option.some_bind, add64_eq (show n + L.EL_BLOCK_OVERHEAD < WORD by omega),
    if_neg (show ¬ s.size b < n + L.EL_BLOCK_OVERHEAD by omega), Option.pure_def, hss,
    wr_size_size, Function.update_same, hf1,
    deref_ne (show b + L.head_bytes + n ≠ 0 by omega), hm,
    deref_ne (show b + n + L.EL_BLOCK_OVERHEAD ≠ 0 by omega),
    wr_foot_next, wr_size_next, wr_state_next, wr_prev_next, wr_next_size, wr_prev_size,
    wr_state_size, wr_foot_size, hf2,
    deref_ne (show b + s.size b + L.head_bytes ≠ 0 by omega)]

/-- Effect of a successful `el_split_block`, field by field. -/
theorem el_split_block_spec (L : Layout) (s : State) {b n : Nat} (h0 : b ≠ 0)
    (hge : n + L.EL_BLOCK_OVERHEAD ≤ s.size b)
    (hw : b + s.size b + L.EL_BLOCK_OVERHEAD < WORD) :
    ∃ s', el_split_block L s b n = some (s', b + n + L.EL_BLOCK_OVERHEAD) ∧
      s'.size = Function.update (Function.update s.size b n) (b + n + L.EL_BLOCK_OVERHEAD)
        (s.size b - n - L.EL_BLOCK_OVERHEAD) ∧
      s'.state = Function.update s.state (b + n + L.EL_BLOCK_OVERHEAD) L.EL_AVAILABLE ∧
      s'.foot = Function.update (Function.update s.foot (b + L.head_bytes + n) n)
        (b + s.size b + L.head_bytes) (s.size b - n - L.EL_BLOCK_OVERHEAD) ∧
      s'.next = Function.update (Function.update s.next (b + n + L.EL_BLOCK_OVERHEAD)
        (s.next b)) b (b + n + L.EL_BLOCK_OVERHEAD) ∧
      s'.prev = Function.update s.prev (b + n + L.EL_BLOCK_OVERHEAD) b ∧
      s'.avail = s.avail ∧ s'.used = s.used ∧ s'.heap_start = s.heap_start ∧
      s'.heap_end = s.heap_end ∧ s'.heap_bytes = s.heap_bytes := by
  refine ⟨_, el_split_block_eq L s h0 hge hw, ?_, ?_, ?_, ?_, ?_, ?_, ?_, ?_, ?_, ?_⟩ <;>
    simp only [wr_size_size, wr_size_state, wr_size_next, wr_size_prev, wr_size_foot,
      wr_size_avail, wr_size_used, wr_size_heap_start, wr_size_heap_end, wr_size_heap_bytes,
      wr_state_size, wr_state_state, wr_state_next, wr_state_prev, wr_state_foot,
      wr_state_avail, wr_state_used, wr_state_heap_start, wr_state_heap_end,
      wr_state_heap_bytes, wr_next_size, wr_next_state, wr_next_next, wr_next_prev,
      wr_next_foot, wr_next_avail, wr_next_used, wr_next_heap_start, wr_next_heap_end,
      wr_next_heap_bytes, wr_prev_size, wr_prev_state, wr_prev_next, wr_prev_prev,
      wr_prev_foot, wr_prev_avail, wr_prev_used, wr_prev_heap_start, wr_prev_heap_end,
      wr_prev_heap_bytes, wr_foot_size, wr_foot_state, wr_foot_next, wr_foot_prev,
      wr_foot_foot, wr_foot_avail, wr_foot_used, wr_foot_heap_start, wr_foot_heap_end,
      wr_foot_heap_bytes]

/-! ## Allocation keeps the invariant -/

/-- The last steps of `el_malloc`: the chosen block, in neither list, gets the
used tag and goes to the front of the used list. -/
theorem malloc_finish {L : Layout} {t : State} {bs xs ys : List Nat} {b : Nat}
    (hL : L.WF) (hH : HeapOK L t bs) (oka : ListOK L t .avail xs)
    (oku : ListOK L t .used ys) (hb : b ∈ bs) (hbx : b ∉ xs) (hby : b ∉ ys)
    (htag : ∀ c ∈ bs, c ≠ b → t.state c = L.EL_AVAILABLE ∨ t.state c = L.EL_USED)
    (hma : ∀ c, c ∈ xs ↔ c ∈ bs ∧ c ≠ b ∧ t.state c = L.EL_AVAILABLE)
    (hmu : ∀ c, c ≠ b → (c ∈ ys ↔ t.state c = L.EL_USED))
    (hus : ∀ c ∈ ys, c ∈ bs) (hadj : NoAdjAround L t bs b) :
    ∃ t', el_add_block_front L
        ((t.wr_foot (b + L.head_bytes + t.size b) (t.size b)).wr_state b L.EL_USED)
        .used b = some t' ∧
      Inv L t' bs xs (b :: ys) ∧ Linked L t t' b := by
  have ho := hL.overhead_pos
  have hfo := hH.foot_ok b hb
  have hfoot : Function.update t.foot (b + L.head_bytes + t.size b) (t.size b) = t.foot := by
    have := Function.update_eq_self (b + L.head_bytes + t.size b) t.foot
    rwa [hfo] at this
  have ndy : ys.Nodup := nodes_nodup_inner oku.nodup
  have hxs : xs ⊆ bs := fun c hc => ((hma c).1 hc).1
  have hdis : ∀ c ∈ xs, c ∉ ys := by
    intro c hc hy
    have h1 := (hma c).1 hc
    have h2 := (hmu c h1.2.1).1 hy
    exact hL.avail_ne_used (h1.2.2.symm.trans h2)
  have oku1 : ListOK L ((t.wr_foot (b + L.head_bytes + t.size b) (t.size b)).wr_state
      b L.EL_USED) .used ys :=
    oku.frame (by simp) (fun a _ => by simp) (fun a _ => by simp)
  have hbn : b ∉ nodes L .used ys := not_mem_nodes (hH.not_sentinel hL hb) hby
  have hb0 : b ≠ 0 := hH.mem_ne_zero hb
  have hnd : (b :: ys).Nodup := List.nodup_cons.2 ⟨hby, ndy⟩
  have hsub : b :: ys ⊆ bs := by
    intro c hc
    rcases List.mem_cons.1 hc with rfl | hc
    · exact hb
    · exact hus c hc
  have hlt := hH.total_lt hL hnd hsub
  rw [total_cons] at hlt
  obtain ⟨t', e, ok', k, o, f⟩ := el_add_block_front_spec oku1 hbn hb0
    (by simpa using hlt.2.2) (by simp only [wr_state_size, wr_foot_size]; omega)
  have hsz : t'.size = t.size := by rw [k.size]; simp
  have hst : t'.state = Function.update t.state b L.EL_USED := by rw [k.state]; simp
  have hft : t'.foot = t.foot := by rw [k.foot]; simpa using hfoot
  have hhs : t'.heap_start = t.heap_start := by rw [k.heap_start]; simp
  have hhe : t'.heap_end = t.heap_end := by rw [k.heap_end]; simp
  have hhb : t'.heap_bytes = t.heap_bytes := by rw [k.heap_bytes]; simp
  have hav := o .avail (by decide)
  simp only [list_avail, wr_state_avail, wr_foot_avail] at hav
  refine ⟨t', e, ⟨⟨?_, ?_, ok', ?_, ?_, ?_, ?_⟩, ?_⟩, ?_⟩
  · exact ⟨by rw [hhs]; exact hH.start_pos, by rw [hhe]; exact hH.end_lt,
      by rw [hhs, hhb, hhe]; exact hH.extent, by rw [hsz, hhs, hhe]; exact hH.tiled,
      hH.ne, by rw [hsz, hft]; exact hH.foot_ok, by rw [hhs, hhe]; exact hH.sent_out⟩
  · refine oka.frame (by simpa using hav) (fun a ha => ?_) (fun a _ => by rw [hsz])
    have hna : a ∉ nodes L .used ys := nodes_disjoint hH hL hxs hus hdis ha
    have hab : a ≠ b := by
      rintro rfl
      exact not_mem_nodes (hH.not_sentinel hL hb) hbx ha
    simpa using f a hab hna
  · intro c hc
    rw [hst]
    by_cases hcb : c = b
    · subst hcb; right; exact Function.update_same _ _ _
    · rw [Function.update_noteq hcb]; exact htag c hc hcb
  · intro c
    rw [hst, hma c]
    by_cases hcb : c = b
    · subst hcb
      rw [Function.update_same]
      simp [hL.avail_ne_used.symm]
    · rw [Function.update_noteq hcb]; simp [hcb]
  · intro c
    rw [hst]
    by_cases hcb : c = b
    · subst hcb; simp
    · rw [Function.update_noteq hcb, List.mem_cons, hmu c hcb]; simp [hcb]
  · exact fun c hc => hsub hc
  · intro c hc d hd hcd
    rw [hst]
    by_cases hcb : c = b
    · subst hcb
      rw [Function.update_same]
      intro h; exact hL.avail_ne_used h.1.symm
    by_cases hdb : d = b
    · subst hdb
      rw [Function.update_same]
      intro h; exact hL.avail_ne_used h.2.symm
    rw [Function.update_noteq hcb, Function.update_noteq hdb]
    rw [hsz] at hcd
    exact hadj c hc d hd hcd hcb hdb
  · have h1 := ok'.len
    have h2 := ok'.bytes
    have h3 := oku.len
    have h4 := oku.bytes
    simp only [list_used] at h1 h2 h3 h4
    refine ⟨hsz, hst, hhs, hhe, hhb, hav, ?_, ?_⟩
    · rw [h1, h3]; simp
    · rw [h2, h4, total_cons, hsz]; omega

/-- Allocation from a block too small to be split, with the sizes and tags it
leaves. -/
theorem el_malloc_whole_shape {L : Layout} {s : State} {bs xs ys : List Nat}
    {b n fuel : Nat} (hL : L.WF) (hI : Inv L s bs xs ys) (hf : xs.length < fuel)
    (hff : firstFit s n xs = b) (hbx : b ∈ xs) (hn : n ≤ s.size b)
    (hsm : s.size b < n + L.EL_BLOCK_OVERHEAD) :
    ∃ s', el_malloc L fuel s n = some (s', b + L.head_bytes) ∧
      Inv L s' bs (xs.erase b) (b :: ys) ∧ Alloc L s s' b n ∧
      s'.size = s.size ∧ s'.state = Function.update s.state b L.EL_USED := by
  have hI0 := hI.base
  have hH := hI0.heap
  have ho := hL.overhead_pos
  have hbb : b ∈ bs := hI0.avail_sub hbx
  have hba : s.state b = L.EL_AVAILABLE := ((hI0.mem_avail b).1 hbx).2
  have hby : b ∉ ys := hI0.disjoint hL hbx
  have hb0 : b ≠ 0 := hH.mem_ne_zero hbb
  have hr := hH.mem_range hbb
  have hend := hH.end_lt
  have ndx : xs.Nodup := nodes_nodup_inner hI0.avail.nodup
  obtain ⟨s1, e1, ok1, k1, o1, f1⟩ := el_remove_block_spec hI0.avail hbx
  have hu1 := o1 .used (by decide)
  simp only [list_used] at hu1
  have hH1 : HeapOK L s1 bs :=
    ⟨by rw [k1.heap_start]; exact hH.start_pos, by rw [k1.heap_end]; exact hH.end_lt,
      by rw [k1.heap_start, k1.heap_bytes, k1.heap_end]; exact hH.extent,
      by rw [k1.size, k1.heap_start, k1.heap_end]; exact hH.tiled, hH.ne,
      by rw [k1.size, k1.foot]; exact hH.foot_ok,
      by rw [k1.heap_start, k1.heap_end]; exact hH.sent_out⟩
  have oku1 : ListOK L s1 .used ys := by
    refine hI0.used.frame (by simpa using hu1) (fun a ha => ?_) (fun a _ => by rw [k1.size])
    refine f1 a (fun h' => ?_)
    exact nodes_disjoint hH hL hI0.avail_sub hI0.used_sub
      (fun b hb => hI0.disjoint hL hb) h' ha
  have hbx1 : b ∉ xs.erase b := fun h => ((List.Nodup.mem_erase_iff ndx).1 h).1 rfl
  obtain ⟨t', e, hI', lk⟩ := malloc_finish hL hH1 ok1 oku1 hbb hbx1 hby
    (fun c hc _ => by rw [k1.state]; exact hI0.tag c hc)
    (fun c => by
      rw [k1.state, List.Nodup.mem_erase_iff ndx, hI0.mem_avail c]; tauto)
    (fun c _ => by rw [k1.state]; exact hI0.mem_used c)
    hI0.used_sub
    (fun c hc d hd hcd _ _ => by
      rw [k1.state]; rw [k1.size] at hcd; exact hI.no_adj c hc d hd hcd)
  have hfoot := hH1.footer hbb
  have hsplit := el_split_block_small L s1 hb0 (by rw [k1.size]; exact hsm) (by omega)
  have hptr : PTR_PLUS_BYTES b L.head_bytes = b + L.head_bytes := by
    unfold PTR_PLUS_BYTES Layout.EL_BLOCK_OVERHEAD at *
    rw [add64_eq (by omega)]
  refine ⟨t', ?_, hI', ?_, by rw [lk.size, k1.size], by rw [lk.state, k1.state]⟩
  · unfold el_malloc
    rw [el_find_first_avail_eq hI0.avail n hf, hff]
    simp only [Option.bind_eq_bind, Option.some_bind, if_neg hb0, e1, hsplit, ne_eq,
      not_true_eq_false, if_false, Option.pure_def, hfoot.1, deref_ne hfoot.2, e, hptr]
  · have hab := ok1.bytes
    have hab0 := hI0.avail.bytes
    simp only [list_avail] at hab hab0
    have hte := total_erase L s.size hbx
    refine ⟨by rw [lk.state]; simp, fun h => by omega, fun _ => by rw [lk.size, k1.size],
      by rw [lk.heap_start, k1.heap_start], by rw [lk.heap_end, k1.heap_end],
      by rw [lk.heap_bytes, k1.heap_bytes], by rw [lk.used_len, hu1], ?_, ?_⟩
    · rw [lk.used_bytes, hu1, lk.size]
    · rw [lk.avail, hab, lk.size, k1.size, hab0]; exact hte

/-- Allocation from a block too small to be split. -/
theorem el_malloc_whole {L : Layout} {s : State} {bs xs ys : List Nat} {b n fuel : Nat}
    (hL : L.WF) (hI : Inv L s bs xs ys) (hf : xs.length < fuel)
    (hff : firstFit s n xs = b) (hbx : b ∈ xs) (hn : n ≤ s.size b)
    (hsm : s.size b < n + L.EL_BLOCK_OVERHEAD) :
    ∃ s', el_malloc L fuel s n = some (s', b + L.head_bytes) ∧
      Inv L s' bs (xs.erase b) (b :: ys) ∧ Alloc L s s' b n := by
  obtain ⟨s', h1, h2, h3, _⟩ := el_malloc_whole_shape hL hI hf hff hbx hn hsm
  exact ⟨s', h1, h2, h3⟩

/-- Allocation from a block large enough to be split, with the sizes and tags
it leaves. -/
theorem el_malloc_split_shape {L : Layout} {s : State} {bs xs ys : List Nat}
    {b n fuel : Nat} (hL : L.WF) (hI : Inv L s bs xs ys) (hf : xs.length < fuel)
    (hff : firstFit s n xs = b) (hbx : b ∈ xs)
    (hsp : n + L.EL_BLOCK_OVERHEAD ≤ s.size b) :
    ∃ s' l1 l2, bs = l1 ++ b :: l2 ∧
      el_malloc L fuel s n = some (s', b + L.head_bytes) ∧
      Inv L s' (l1 ++ b :: (b + n + L.EL_BLOCK_OVERHEAD) :: l2)
        ((b + n + L.EL_BLOCK_OVERHEAD) :: xs.erase b) (b :: ys) ∧
      Alloc L s s' b n ∧
      s'.size = Function.update (Function.update s.size b n)
        (b + n + L.EL_BLOCK_OVERHEAD) (s.size b - n - L.EL_BLOCK_OVERHEAD) ∧
      s'.state = Function.update (Function.update s.state
        (b + n + L.EL_BLOCK_OVERHEAD) L.EL_AVAILABLE) b L.EL_USED := by
  have hI0 := hI.base
  have hH := hI0.heap
  have ho := hL.overhead_pos
  have hhp := hL.head_pos
  have hfp := hL.foot_pos
  have hbb : b ∈ bs := hI0.avail_sub hbx
  have hba : s.state b = L.EL_AVAILABLE := ((hI0.mem_avail b).1 hbx).2
  have hby : b ∉ ys := hI0.disjoint hL hbx
  have hb0 : b ≠ 0 := hH.mem_ne_zero hbb
  have hr := hH.mem_range hbb
  have hend := hH.end_lt
  have ndx : xs.Nodup := nodes_nodup_inner hI0.avail.nodup
  have ndb : bs.Nodup := hH.tiled.nodup ho
  obtain ⟨s1, e1, ok1, k1, o1, f1⟩ := el_remove_block_spec hI0.avail hbx
  have hu1 := o1 .used (by decide)
  simp only [list_used] at hu1
  have oku1 : ListOK L s1 .used ys := by
    refine hI0.used.frame (by simpa using hu1) (fun a ha => ?_) (fun a _ => by rw [k1.size])
    refine f1 a (fun h' => ?_)
    exact nodes_disjoint hH hL hI0.avail_sub hI0.used_sub
      (fun b hb => hI0.disjoint hL hb) h' ha
  have hbx1 : b ∉ xs.erase b := fun h => ((List.Nodup.mem_erase_iff ndx).1 h).1 rfl
  -- the split
  obtain ⟨s3, e3, z3, t3, ft3, n3, p3, a3, u3, hs3, he3, hb3⟩ :=
    el_split_block_spec L s1 hb0 (by rw [k1.size]; exact hsp) (by rw [k1.size]; omega)
  rw [k1.size] at z3 ft3
  rw [k1.state] at t3
  rw [k1.foot] at ft3
  rw [k1.heap_start] at hs3
  rw [k1.heap_end] at he3
  rw [k1.heap_bytes] at hb3
  -- the new block is no block of the old heap
  have hmb : b + n + L.EL_BLOCK_OVERHEAD ∉ bs := by
    intro hm
    have := hH.tiled.sep hbb hm (by omega)
    omega
  have hmsent : ¬ L.IsSentinel (b + n + L.EL_BLOCK_OVERHEAD) := by
    intro hs
    have := hH.sent_out _ hs
    omega
  have hm0 : b + n + L.EL_BLOCK_OVERHEAD ≠ 0 := by omega
  have hmb' : b + n + L.EL_BLOCK_OVERHEAD ≠ b := by omega
  have hsz3 : ∀ c, c ≠ b → c ≠ b + n + L.EL_BLOCK_OVERHEAD → s3.size c = s.size c := by
    intro c h1 h2
    rw [z3, Function.update_noteq h2, Function.update_noteq h1]
  have hsz3b : s3.size b = n := by
    rw [z3, Function.update_noteq hmb'.symm, Function.update_same]
  have hsz3m : s3.size (b + n + L.EL_BLOCK_OVERHEAD) =
      s.size b - n - L.EL_BLOCK_OVERHEAD := by
    rw [z3, Function.update_same]
  have ok3 : ListOK L s3 .avail (xs.erase b) := by
    refine ok1.frame (by simpa using a3) (fun a ha => ?_) (fun a ha => ?_)
    · have h1 : a ≠ b := by
        rintro rfl; exact not_mem_nodes (hH.not_sentinel hL hbb) hbx1 ha
      have h2 : a ≠ b + n + L.EL_BLOCK_OVERHEAD := by
        rintro rfl
        exact not_mem_nodes hmsent
          (fun h => hmb (hI0.avail_sub (List.mem_of_mem_erase h))) ha
      rw [n3, p3, Function.update_noteq h1, Function.update_noteq h2,
        Function.update_noteq h2]
      exact ⟨rfl, rfl⟩
    · have h1 : a ≠ b := by rintro rfl; exact hbx1 ha
      have h2 : a ≠ b + n + L.EL_BLOCK_OVERHEAD := by
        rintro rfl; exact hmb (hI0.avail_sub (List.mem_of_mem_erase ha))
      rw [hsz3 a h1 h2, k1.size]
  have hmn : b + n + L.EL_BLOCK_OVERHEAD ∉ nodes L .avail (xs.erase b) :=
    not_mem_nodes hmsent (fun h => hmb (hI0.avail_sub (List.mem_of_mem_erase h)))
  have hte := total_erase L s.size hbx
  have hbl := hI0.avail.bytes_lt
  have hll := hI0.avail.len_lt
  have hlen1 : (xs.erase b).length + 1 = xs.length := by
    rw [List.length_erase_of_mem hbx]
    have := List.length_pos_of_mem hbx; omega
  have htc : total L s3.size (xs.erase b) = total L s.size (xs.erase b) := by
    refine total_congr L (fun a ha => hsz3 a ?_ ?_)
    · rintro rfl; exact hbx1 ha
    · rintro rfl; exact hmb (hI0.avail_sub (List.mem_of_mem_erase ha))
  obtain ⟨s4, e4, ok4, k4, o4, f4⟩ := el_add_block_front_spec ok3 hmn hm0 (by omega)
    (by rw [htc, hsz3m]; omega)
  have hu4 := o4 .used (by decide)
  simp only [list_used] at hu4
  obtain ⟨l1, l2, rfl⟩ := List.append_of_mem hbb
  have hmem : ∀ c, c ∈ l1 ++ b :: (b + n + L.EL_BLOCK_OVERHEAD) :: l2 ↔
      c ∈ l1 ++ b :: l2 ∨ c = b + n + L.EL_BLOCK_OVERHEAD := by
    intro c; simp; tauto
  have hH4 : HeapOK L s4 (l1 ++ b :: (b + n + L.EL_BLOCK_OVERHEAD) :: l2) := by
    refine ⟨by rw [k4.heap_start, hs3]; exact hH.start_pos,
      by rw [k4.heap_end, he3]; exact hH.end_lt,
      by rw [k4.heap_start, k4.heap_bytes, k4.heap_end, hs3, hb3, he3]; exact hH.extent,
      ?_, by simp, ?_, by rw [k4.heap_start, k4.heap_end, hs3, he3]; exact hH.sent_out⟩
    · rw [k4.size, k4.heap_start, k4.heap_end, hs3, he3]
      refine hH.tiled.split_block hsz3b (by rw [hsz3m]; omega) ?_ ?_
      · intro c hc
        refine hsz3 c ?_ ?_
        · rintro rfl
          have := List.nodup_middle.1 ndb
          simp at this; tauto
        · rintro rfl; exact hmb (by simp [hc])
      · intro c hc
        refine hsz3 c ?_ ?_
        · rintro rfl
          have := List.nodup_middle.1 ndb
          simp at this; tauto
        · rintro rfl; exact hmb (by simp [hc])
    · intro c hc
      rw [k4.size, k4.foot]
      rcases (hmem c).1 hc with hc | rfl
      · by_cases hcb : c = b
        · subst hcb
          rw [hsz3b, ft3, Function.update_noteq (by unfold Layout.EL_BLOCK_OVERHEAD at *; omega),
            Function.update_same]
        · have hcm : c ≠ b + n + L.EL_BLOCK_OVERHEAD := by rintro rfl; exact hmb hc
          have hsep := hH.tiled.sep hc hbb hcb
          have hrc := hH.mem_range hc
          rw [hsz3 c hcb hcm, ft3,
            Function.update_noteq (by unfold Layout.EL_BLOCK_OVERHEAD at *; omega),
            Function.update_noteq (by unfold Layout.EL_BLOCK_OVERHEAD at *; omega)]
          exact hH.foot_ok c hc
      · rw [hsz3m, ft3]
        have : b + n + L.EL_BLOCK_OVERHEAD + L.head_bytes +
            (s.size b - n - L.EL_BLOCK_OVERHEAD) = b + s.size b + L.head_bytes := by omega
        rw [this, Function.update_same]
  have oku4 : ListOK L s4 .used ys := by
    refine oku1.frame (by simpa [u3] using hu4) (fun a ha => ?_) (fun a ha => ?_)
    · have hna : a ∉ nodes L .avail xs := fun h' =>
        nodes_disjoint hH hL hI0.avail_sub hI0.used_sub (fun b hb => hI0.disjoint hL hb) h' ha
      have h1 : a ≠ b := by
        rintro rfl; exact hna (nodes_mem.2 (Or.inr (Or.inl hbx)))
      have h2 : a ≠ b + n + L.EL_BLOCK_OVERHEAD := by
        rintro rfl
        exact not_mem_nodes hmsent (fun h => hmb (hI0.used_sub _ h)) ha
      have := f4 a h2 (fun h' => hna (nodes_erase_sub h'))
      rw [this.1, this.2, n3, p3, Function.update_noteq h1, Function.update_noteq h2,
        Function.update_noteq h2]
      exact ⟨rfl, rfl⟩
    · have h1 : a ≠ b := by rintro rfl; exact hby ha
      have h2 : a ≠ b + n + L.EL_BLOCK_OVERHEAD := by
        rintro rfl; exact hmb (hI0.used_sub _ ha)
      rw [k4.size, hsz3 a h1 h2, k1.size]
  have hst4 : s4.state = Function.update s.state (b + n + L.EL_BLOCK_OVERHEAD)
      L.EL_AVAILABLE := by rw [k4.state, t3]
  obtain ⟨t', e, hI', lk⟩ := malloc_finish hL hH4 ok4 oku4 (by simp)
    (by
      intro h
      rcases List.mem_cons.1 h with h | h
      · omega
      · exact hbx1 h)
    hby
    (by
      intro c hc _
      rw [hst4]
      rcases (hmem c).1 hc with hc | rfl
      · have hcm : c ≠ b + n + L.EL_BLOCK_OVERHEAD := by rintro rfl; exact hmb hc
        rw [Function.update_noteq hcm]; exact hI0.tag c hc
      · left; exact Function.update_same _ _ _)
    (by
      intro c
      rw [hst4, hmem c, List.mem_cons, List.Nodup.mem_erase_iff ndx, hI0.mem_avail c]
      by_cases hcm : c = b + n + L.EL_BLOCK_OVERHEAD
      · subst hcm
        rw [Function.update_same]
        simp [hmb']
      · rw [Function.update_noteq hcm]
        simp [hcm]; tauto)
    (by
      intro c _
      rw [hst4]
      by_cases hcm : c = b + n + L.EL_BLOCK_OVERHEAD
      · subst hcm
        rw [Function.update_same]
        constructor
        · intro h; exact absurd (hI0.used_sub _ h) hmb
        · intro h; exact absurd h hL.avail_ne_used
      · rw [Function.update_noteq hcm]; exact hI0.mem_used c)
    (fun c hc => (hmem c).2 (Or.inl (hI0.used_sub c hc)))
    (by
      intro c hc d hd hcd hcb hdb
      rw [hst4]
      rw [k4.size] at hcd
      rcases (hmem d).1 hd with hd' | rfl
      · have hdm : d ≠ b + n + L.EL_BLOCK_OVERHEAD := by rintro rfl; exact hmb hd'
        rw [Function.update_noteq hdm]
        rcases (hmem c).1 hc with hc' | rfl
        · have hcm : c ≠ b + n + L.EL_BLOCK_OVERHEAD := by rintro rfl; exact hmb hc'
          rw [Function.update_noteq hcm]
          rw [hsz3 c hcb hcm] at hcd
          exact hI.no_adj c hc' d hd' hcd
        · rw [hsz3m] at hcd
          have := hI.no_adj b hbb d hd' (by omega)
          tauto
      · exfalso
        rcases (hmem c).1 hc with hc' | hc'
        · have hcm : c ≠ b + n + L.EL_BLOCK_OVERHEAD := by rintro rfl; exact hmb hc'
          rw [hsz3 c hcb hcm] at hcd
          have := hH.tiled.sep hc' hbb hcb
          omega
        · subst hc'
          omega)
  have hfoot := hH4.footer (b := b) (by simp)
  have hptr : PTR_PLUS_BYTES b L.head_bytes = b + L.head_bytes := by
    unfold PTR_PLUS_BYTES Layout.EL_BLOCK_OVERHEAD at *
    rw [add64_eq (by omega)]
  refine ⟨t', l1, l2, rfl, ?_, hI', ?_, by rw [lk.size, k4.size, z3],
    by rw [lk.state, hst4]⟩
  · unfold el_malloc
    rw [el_find_first_avail_eq hI0.avail n hf, hff]
    simp only [Option.bind_eq_bind, Option.some_bind, if_neg hb0, e1, e3, ne_eq, hm0,
      not_false_eq_true, if_true, e4, Option.pure_def, hfoot.1, deref_ne hfoot.2, e, hptr]
  · have hab := ok4.bytes
    have hab0 := hI0.avail.bytes
    simp only [list_avail] at hab hab0
    have hs4b : s4.size b = n := by rw [k4.size, hsz3b]
    refine ⟨by rw [lk.state]; simp, fun _ => by rw [lk.size, hs4b], fun h => by omega,
      by rw [lk.heap_start, k4.heap_start, hs3], by rw [lk.heap_end, k4.heap_end, he3],
      by rw [lk.heap_bytes, k4.heap_bytes, hb3], by rw [lk.used_len, hu4, u3, hu1], ?_, ?_⟩
    · rw [lk.used_bytes, hu4, u3, hu1, lk.size]
    · rw [lk.avail, hab, lk.size, hs4b, total_cons, k4.size, hsz3m, htc, hab0]; omega

/-- Allocation from a block large enough to be split. -/
theorem el_malloc_split {L : Layout} {s : State} {bs xs ys : List Nat} {b n fuel : Nat}
    (hL : L.WF) (hI : Inv L s bs xs ys) (hf : xs.length < fuel)
    (hff : firstFit s n xs = b) (hbx : b ∈ xs)
    (hsp : n + L.EL_BLOCK_OVERHEAD ≤ s.size b) :
    ∃ s' l1 l2, bs = l1 ++ b :: l2 ∧
      el_malloc L fuel s n = some (s', b + L.head_bytes) ∧
      Inv L s' (l1 ++ b :: (b + n + L.EL_BLOCK_OVERHEAD) :: l2)
        ((b + n + L.EL_BLOCK_OVERHEAD) :: xs.erase b) (b :: ys) ∧
      Alloc L s s' b n := by
  obtain ⟨s', l1, l2, h1, h2, h3, h4, _⟩ := el_malloc_split_shape hL hI hf hff hbx hsp
  exact ⟨s', l1, l2, h1, h2, h3, h4⟩

/-- The two outcomes of `el_malloc` on a state satisfying the invariant, given
fuel beyond the length of the available list: no member is large enough and
NULL is returned with the state unchanged, or the first member that is large
enough is allocated. -/
theorem el_malloc_cases {L : Layout} {s : State} {bs xs ys : List Nat} {fuel : Nat}
    (hL : L.WF) (hI : Inv L s bs xs ys) (hf : xs.length < fuel) (n : Nat) :
    ((∀ x ∈ xs, s.size x < n) ∧ el_malloc L fuel s n = some (s, 0)) ∨
    (∃ l1 l2 b, xs = l1 ++ b :: l2 ∧ b ≠ 0 ∧ n ≤ s.size b ∧ (∀ c ∈ l1, s.size c < n) ∧
      ∃ s' bs' xs', el_malloc L fuel s n = some (s', b + L.head_bytes) ∧
        Inv L s' bs' xs' (b :: ys) ∧ Alloc L s s' b n) := by
  have h0 : ∀ x ∈ xs, x ≠ 0 := fun x hx => hI.base.heap.mem_ne_zero (hI.base.avail_sub hx)
  rcases firstFit_cases s n xs h0 with ⟨h1, h2⟩ | ⟨l1, l2, h1, h2, h3, h4⟩
  · left
    refine ⟨h2, ?_⟩
    unfold el_malloc
    rw [el_find_first_avail_eq hI.base.avail n hf, h1]
    simp
  · right
    have hbx : firstFit s n xs ∈ xs := by
      generalize firstFit s n xs = b at h1
      rw [h1]; simp
    refine ⟨l1, l2, _, h1, h2, h3, h4, ?_⟩
    by_cases hsp : n + L.EL_BLOCK_OVERHEAD ≤ s.size (firstFit s n xs)
    · obtain ⟨s', k1, k2, _, e, hI', ha⟩ := el_malloc_split hL hI hf rfl hbx hsp
      exact ⟨s', _, _, e, hI', ha⟩
    · obtain ⟨s', e, hI', ha⟩ := el_malloc_whole hL hI hf rfl hbx h3 (by omega)
      exact ⟨s', _, _, e, hI', ha⟩

/-- More fuel does not change a result of `el_malloc`. -/
theorem el_malloc_mono (L : Layout) (s : State) (n : Nat) {fuel : Nat}
    {r : State × Nat} (h : el_malloc L fuel s n = some r) (k : Nat) :
    el_malloc L (fuel + k) s n = some r := by
  unfold el_malloc at h ⊢
  cases hfind : el_find_first_avail s fuel n with
  | none => rw [hfind] at h; simp at h
  | some blk =>
    have : el_find_first_avail s (fuel + k) n = some blk := by
      unfold el_find_first_avail at hfind ⊢
      by_cases hb : s.avail.beg = 0
      · simp [deref, hb] at hfind
      · simp only [deref_ne hb, Option.bind_eq_bind, Option.some_bind] at hfind ⊢
        exact find_first_loop_mono s n hfind k
    rw [hfind] at h
    rw [this]
    exact h

/-- `el_malloc` keeps the invariant, whatever the fuel it returned with. -/
theorem el_malloc_inv {L : Layout} {s s' : State} {bs xs ys : List Nat} {fuel n p : Nat}
    (hL : L.WF) (hI : Inv L s bs xs ys) (h : el_malloc L fuel s n = some (s', p)) :
    ∃ bs' xs' ys', Inv L s' bs' xs' ys' := by
  have h' := el_malloc_mono L s n h (xs.length + 1)
  have hf : xs.length < fuel + (xs.length + 1) := by omega
  rcases el_malloc_cases hL hI hf n with ⟨_, e⟩ | ⟨l1, l2, b, _, _, _, _, s2, bs', xs', e, hI', _⟩
  · rw [e] at h'
    cases h'
    exact ⟨bs, xs, ys, hI⟩
  · rw [e] at h'
    cases h'
    exact ⟨bs', xs', _, hI'⟩

/-! ## Heap expansion keeps the invariant -/

/-- The byte count of a page request whose product with the page size fits a
C `int`. -/
theorem bytes_add_eq {L : Layout} (hL : L.WF) {npages : Int} (h0 : 0 < npages)
    (h1 : npages * (L.EL_PAGE_BYTES : Int) < 2 ^ 31) :
    size_t_of_int (int_mul npages L.EL_PAGE_BYTES) = npages.toNat * L.EL_PAGE_BYTES ∧
      L.EL_BLOCK_OVERHEAD ≤ npages.toNat * L.EL_PAGE_BYTES := by
  obtain ⟨k, rfl⟩ : ∃ k : Nat, npages = (k : Int) := ⟨npages.toNat, by omega⟩
  have hk1 : 1 ≤ k := by omega
  have h3 : L.EL_PAGE_BYTES ≤ k * L.EL_PAGE_BYTES := Nat.le_mul_of_pos_left _ hk1
  have h4 := hL.page_ge
  have hp : ((k * L.EL_PAGE_BYTES : Nat) : Int) < 2 ^ 31 := by
    rw [Nat.cast_mul]; exact h1
  have hp' : k * L.EL_PAGE_BYTES < 2 ^ 31 := by exact_mod_cast hp
  refine ⟨?_, by rw [Int.toNat_ofNat]; omega⟩
  unfold size_t_of_int int_mul
  rw [Int.toNat_ofNat, ← Nat.cast_mul]
  generalize k * L.EL_PAGE_BYTES = m at hp' ⊢
  omega

/-- A list that ends in `a` and has no duplicates can only be cut at `a`
right before its end. -/
theorem append_singleton_eq_middle {l m r : List Nat} {a : Nat}
    (h : l ++ [a] = m ++ a :: r) (hn : (l ++ [a]).Nodup) : r = [] ∧ l = m := by
  rcases List.eq_nil_or_concat r with rfl | ⟨r', z, hr⟩
  · exact ⟨rfl, (List.append_inj' h rfl).1⟩
  · exfalso
    rw [List.concat_eq_append] at hr
    subst hr
    have h' : l ++ [a] = (m ++ a :: r') ++ [z] := by simpa using h
    have h2 := (List.append_inj' h' rfl).1
    have hd := List.disjoint_of_nodup_append hn
    have ha : a ∈ l := by rw [h2]; simp
    exact hd ha (by simp)

/-- Effect of `el_append_pages_to_heap` when the mapping is granted at the end
of the heap and has room for the overhead of a block, in terms of the byte
count the call computes, with the shape of the heap it leaves: a new last
block when the old last block is used, a longer last block when it is
available. -/
theorem el_append_shape_bytes {L : Layout} {s : State} {bs xs ys : List Nat}
    {npages : Int} (hL : L.WF) (hI : Inv L s bs xs ys) (h0 : 0 < npages)
    (hbo : L.EL_BLOCK_OVERHEAD ≤ size_t_of_int (int_mul npages L.EL_PAGE_BYTES))
    (hg : Granted L s.heap_end (size_t_of_int (int_mul npages L.EL_PAGE_BYTES))) :
    ∃ s' bs' xs', el_append_pages_to_heap L s npages s.heap_end = some (s', 0) ∧
      Inv L s' bs' xs' ys ∧
      Grown s s' (size_t_of_int (int_mul npages L.EL_PAGE_BYTES)) ∧
      s'.state = Function.update s.state s.heap_end L.EL_AVAILABLE ∧
      ∃ l1 last, bs = l1 ++ [last] ∧
        ((s.state last = L.EL_USED ∧ bs' = bs ++ [s.heap_end] ∧
            s'.size = Function.update s.size s.heap_end
              (size_t_of_int (int_mul npages L.EL_PAGE_BYTES) - L.EL_BLOCK_OVERHEAD)) ∨
          (s.state last = L.EL_AVAILABLE ∧ bs' = bs ∧
            s'.size = Function.update (Function.update s.size s.heap_end
              (size_t_of_int (int_mul npages L.EL_PAGE_BYTES) - L.EL_BLOCK_OVERHEAD)) last
              (s.size last + size_t_of_int (int_mul npages L.EL_PAGE_BYTES)))) := by
  obtain ⟨bytes, hbdef⟩ : ∃ bytes,
      size_t_of_int (int_mul npages L.EL_PAGE_BYTES) = bytes := ⟨_, rfl⟩
  rw [hbdef] at hbo hg ⊢
  have hI0 := hI.base
  have hH := hI0.heap
  have ho := hL.overhead_pos
  have hhp := hL.head_pos
  have hfp := hL.foot_pos
  obtain ⟨hg1, hg2⟩ := hg
  have hext := hH.extent
  have hsp := hH.start_pos
  have hle := hH.tiled.le
  have hnb : s.heap_end ∉ bs := by
    intro h
    have := hH.mem_range h
    omega
  have hnsent : ¬ L.IsSentinel s.heap_end := by
    intro h
    have := hg2 _ h
    omega
  have hn0 : s.heap_end ≠ 0 := by omega
  have hmf : s.heap_end ≠ MAP_FAILED := by
    unfold MAP_FAILED; omega
  have hnsz : sub64 bytes L.EL_BLOCK_OVERHEAD = bytes - L.EL_BLOCK_OVERHEAD := by
    rw [sub64_eq hbo (by omega)]
  have hfaddr : PTR_PLUS_BYTES s.heap_end
      (add64 L.head_bytes (bytes - L.EL_BLOCK_OVERHEAD)) =
      s.heap_end + L.head_bytes + (bytes - L.EL_BLOCK_OVERHEAD) := by
    unfold PTR_PLUS_BYTES Layout.EL_BLOCK_OVERHEAD at *
    rw [add64_eq (a := L.head_bytes) (by omega), add64_eq (by omega)]; omega
  have hhb : add64 s.heap_bytes bytes = s.heap_bytes + bytes := by
    rw [add64_eq (by omega)]
  have hhe : PTR_PLUS_BYTES s.heap_end bytes = s.heap_end + bytes := by
    unfold PTR_PLUS_BYTES; rw [add64_eq (by omega)]
  -- the state before the new block is linked
  obtain ⟨t, ht, tz, tt, tf, tn, tp, ta, tu, ths, the, thb⟩ : ∃ t : State,
      t = (((((((s.wr_size s.heap_end (bytes - L.EL_BLOCK_OVERHEAD)).wr_state s.heap_end
        L.EL_AVAILABLE).wr_next s.heap_end 0).wr_prev s.heap_end 0).wr_foot
        (s.heap_end + L.head_bytes + (bytes - L.EL_BLOCK_OVERHEAD))
        (bytes - L.EL_BLOCK_OVERHEAD)).set_heap_bytes (s.heap_bytes + bytes)).set_heap_end
        (s.heap_end + bytes)) ∧
      t.size = Function.update s.size s.heap_end (bytes - L.EL_BLOCK_OVERHEAD) ∧
      t.state = Function.update s.state s.heap_end L.EL_AVAILABLE ∧
      t.foot = Function.update s.foot
        (s.heap_end + L.head_bytes + (bytes - L.EL_BLOCK_OVERHEAD))
        (bytes - L.EL_BLOCK_OVERHEAD) ∧
      t.next = Function.update s.next s.heap_end 0 ∧
      t.prev = Function.update s.prev s.heap_end 0 ∧
      t.avail = s.avail ∧ t.used = s.used ∧ t.heap_start = s.heap_start ∧
      t.heap_end = s.heap_end + bytes ∧ t.heap_bytes = s.heap_bytes + bytes := by
    refine ⟨_, rfl, ?_, ?_, ?_, ?_, ?_, ?_, ?_, ?_, ?_, ?_⟩ <;> simp
  have hszo : ∀ c, c ≠ s.heap_end → t.size c = s.size c := by
    intro c hc; rw [tz, Function.update_noteq hc]
  have hsto : ∀ c, c ≠ s.heap_end → t.state c = s.state c := by
    intro c hc; rw [tt, Function.update_noteq hc]
  have hneb : ∀ c ∈ bs, c ≠ s.heap_end := fun c hc h => hnb (h ▸ hc)
  have oka : ListOK L t .avail xs := by
    refine hI0.avail.frame (by simpa using ta) (fun a ha => ?_) (fun a ha => ?_)
    · have : a ≠ s.heap_end := by
        rintro rfl
        exact not_mem_nodes hnsent (fun h => hnb (hI0.avail_sub h)) ha
      rw [tn, tp, Function.update_noteq this, Function.update_noteq this]
      exact ⟨rfl, rfl⟩
    · exact hszo a (hneb a (hI0.avail_sub ha))
  have hnn : s.heap_end ∉ nodes L .avail xs :=
    not_mem_nodes hnsent (fun h => hnb (hI0.avail_sub h))
  have hlt := hH.total_lt hL (nodes_nodup_inner hI0.avail.nodup) hI0.avail_sub
  have htc : total L t.size xs = total L s.size xs :=
    total_congr L (fun a ha => hszo a (hneb a (hI0.avail_sub ha)))
  have hlb : xs.length ≤ s.heap_bytes := by
    have := length_le_total L s.size xs ho
    omega
  obtain ⟨t2, e2, ok2, k2, o2, f2⟩ := el_add_block_front_spec oka hnn hn0 (by omega)
    (by rw [htc, tz, Function.update_same]; omega)
  have hu2 := o2 .used (by decide)
  simp only [list_used] at hu2
  have hmem : ∀ c, c ∈ bs ++ [s.heap_end] ↔ c ∈ bs ∨ c = s.heap_end := by
    intro c; simp
  have hI2 : Inv0 L t2 (bs ++ [s.heap_end]) (s.heap_end :: xs) ys := by
    refine ⟨?_, ok2, ?_, ?_, ?_, ?_, ?_⟩
    · refine ⟨by rw [k2.heap_start, ths]; exact hsp, by rw [k2.heap_end, the]; omega,
        by rw [k2.heap_start, k2.heap_bytes, k2.heap_end, ths, thb, the]; omega, ?_,
        by simp, ?_, ?_⟩
      · rw [k2.size, k2.heap_start, k2.heap_end, ths, the]
        refine Tiled.append.2 ⟨s.heap_end, hH.tiled.congr (fun c hc => hszo c (hneb c hc)), ?_⟩
        refine ⟨rfl, ?_⟩
        rw [tz, Function.update_same]
        show _ = _
        omega
      · intro c hc
        rw [k2.size, k2.foot]
        rcases (hmem c).1 hc with hc | rfl
        · have hr := hH.mem_range hc
          rw [hszo c (hneb c hc), tf,
            Function.update_noteq (by unfold Layout.EL_BLOCK_OVERHEAD at *; omega)]
          exact hH.foot_ok c hc
        · rw [tz, tf, Function.update_same, Function.update_same]
      · intro a ha
        rw [k2.heap_start, k2.heap_end, ths, the]
        have h1 := hH.sent_out a ha
        have h2 := hg2 a ha
        omega
    · refine hI0.used.frame (by show t2.used = s.used; rw [hu2, tu])
        (fun a ha => ?_) (fun a ha => ?_)
      · have hna : a ∉ nodes L .avail xs := fun h' =>
          nodes_disjoint hH hL hI0.avail_sub hI0.used_sub (fun b hb => hI0.disjoint hL hb) h' ha
        have hae : a ≠ s.heap_end := by
          rintro rfl
          exact not_mem_nodes hnsent (fun h => hnb (hI0.used_sub _ h)) ha
        have := f2 a hae hna
        rw [this.1, this.2, tn, tp, Function.update_noteq hae, Function.update_noteq hae]
        exact ⟨rfl, rfl⟩
      · rw [k2.size]; exact hszo a (hneb a (hI0.used_sub a ha))
    · intro c hc
      rw [k2.state]
      rcases (hmem c).1 hc with hc | rfl
      · rw [hsto c (hneb c hc)]; exact hI0.tag c hc
      · left; rw [tt, Function.update_same]
    · intro c
      rw [k2.state, hmem c, List.mem_cons]
      by_cases hce : c = s.heap_end
      · subst hce
        rw [tt, Function.update_same]; simp
      · rw [hsto c hce, hI0.mem_avail c]; simp [hce]
    · intro c
      rw [k2.state]
      by_cases hce : c = s.heap_end
      · subst hce
        rw [tt, Function.update_same]
        constructor
        · intro h; exact absurd (hI0.used_sub _ h) hnb
        · intro h; exact absurd h hL.avail_ne_used
      · rw [hsto c hce]; exact hI0.mem_used c
    · intro c hc
      exact (hmem c).2 (Or.inl (hI0.used_sub c hc))
  have hadj : NoAdjBelow L t2 (bs ++ [s.heap_end]) s.heap_end := by
    intro c hc d hd hcd hde
    rw [k2.state]
    rw [k2.size] at hcd
    rcases (hmem d).1 hd with hd' | hd'
    · rcases (hmem c).1 hc with hc' | rfl
      · rw [hsto c (hneb c hc'), hsto d hde]
        rw [hszo c (hneb c hc')] at hcd
        exact hI.no_adj c hc' d hd' hcd
      · exfalso
        have := hH.mem_range hd'
        omega
    · exact absurd hd' hde
  have hxa : t2.state s.heap_end = L.EL_AVAILABLE := by
    rw [k2.state, tt, Function.update_same]
  obtain ⟨lower, s', bs', xs', e3, e4, hI', m, hshape⟩ :=
    merge_below_shape hL hI2 (by simp) hxa hadj
  obtain ⟨l1, last, hbs⟩ : ∃ l1 last, bs = l1 ++ [last] := by
    rcases List.eq_nil_or_concat bs with h | ⟨l1, last, h⟩
    · exact absurd h hH.ne
    · exact ⟨l1, last, by rw [h, List.concat_eq_append]⟩
  have hlast : last ∈ bs := by rw [hbs]; simp
  have hlend : last + s.size last + L.EL_BLOCK_OVERHEAD = s.heap_end := by
    have ht := hH.tiled
    rw [hbs] at ht
    rcases ht.above with ⟨_, h⟩ | ⟨l2', h, _⟩
    · exact h
    · simp at h
  refine ⟨s', bs', xs', ?_, hI', ?_, by rw [m.state, k2.state, tt], l1, last, hbs, ?_⟩
  rotate_left 2
  · rcases hshape with ⟨rfl, rfl, rfl, hno⟩ | ⟨h1', h2', hdec, hla, rfl, rfl, hm⟩
    · left
      have h := hno last (by simp [hlast])
        (by rw [k2.size, hszo last (hneb last hlast)]; exact hlend.symm)
      rw [k2.state, hsto last (hneb last hlast)] at h
      exact ⟨(hI0.tag last hlast).resolve_left h, rfl, by rw [k2.size, tz]⟩
    · right
      have hnd : (bs ++ [s.heap_end]).Nodup := hI2.heap.tiled.nodup ho
      obtain ⟨rfl, hb'⟩ := append_singleton_eq_middle
        (show bs ++ [s.heap_end] = (h1' ++ [lower]) ++ s.heap_end :: h2' by simpa using hdec)
        hnd
      have hll : lower = last := by
        have := (List.append_inj' (hb'.symm.trans hbs) rfl).2
        simpa using this
      subst hll
      rw [k2.state, hsto lower (hneb lower hlast)] at hla
      refine ⟨hla, hb'.symm, ?_⟩
      rw [hm.size, k2.size, hszo lower (hneb lower hlast), tz, Function.update_same]
      have hv : s.size lower + (bytes - L.EL_BLOCK_OVERHEAD) + L.EL_BLOCK_OVERHEAD =
          s.size lower + bytes := by rw [Nat.add_assoc, Nat.sub_add_cancel hbo]
      rw [hv]
  · unfold el_append_pages_to_heap
    rw [if_neg (by omega)]
    simp only [hmf, ne_eq, not_true_eq_false, or_self, if_false, deref_ne hn0,
      Option.bind_eq_bind, Option.some_bind, hbdef, hnsz, el_get_footer, wr_prev_size,
      wr_next_size, wr_state_size, wr_size_size, Function.update_same, hfaddr,
      deref_ne (show s.heap_end + L.head_bytes + (bytes - L.EL_BLOCK_OVERHEAD) ≠ 0 by omega),
      Option.pure_def, hhb, hhe, wr_foot_size, wr_foot_heap_bytes, wr_prev_heap_bytes,
      wr_next_heap_bytes, wr_state_heap_bytes, wr_size_heap_bytes]
    rw [← ht, e2]
    simp only [Option.some_bind, e3]
    by_cases hl : lower = 0
    · rw [if_neg (by simp [hl])] at e4
      rw [if_neg (by simp [hl])]
      cases e4; rfl
    · rw [if_pos hl] at e4
      rw [if_pos hl, e4]; rfl
  · have hab := ok2.bytes
    have hab0 := hI0.avail.bytes
    simp only [list_avail] at hab hab0
    refine ⟨by rw [m.heap_start, k2.heap_start, ths], by rw [m.heap_end, k2.heap_end, the],
      by rw [m.heap_bytes, k2.heap_bytes, thb], by rw [m.used, hu2, tu], ?_⟩
    rw [m.avail_bytes, hab, total_cons, k2.size, htc, tz, Function.update_same, hab0]
    omega

/-- Effect of `el_append_pages_to_heap` when the mapping is granted at the end
of the heap and the byte count fits a C `int`, with the shape of the heap it
leaves. -/
theorem el_append_shape {L : Layout} {s : State} {bs xs ys : List Nat} {npages : Int}
    (hL : L.WF) (hI : Inv L s bs xs ys) (h0 : 0 < npages)
    (h1 : npages * (L.EL_PAGE_BYTES : Int) < 2 ^ 31)
    (hg : Granted L s.heap_end (size_t_of_int (int_mul npages L.EL_PAGE_BYTES))) :
    ∃ s' bs' xs', el_append_pages_to_heap L s npages s.heap_end = some (s', 0) ∧
      Inv L s' bs' xs' ys ∧ Grown s s' (npages.toNat * L.EL_PAGE_BYTES) ∧
      s'.state = Function.update s.state s.heap_end L.EL_AVAILABLE ∧
      ∃ l1 last, bs = l1 ++ [last] ∧
        ((s.state last = L.EL_USED ∧ bs' = bs ++ [s.heap_end] ∧
            s'.size = Function.update s.size s.heap_end
              (npages.toNat * L.EL_PAGE_BYTES - L.EL_BLOCK_OVERHEAD)) ∨
          (s.state last = L.EL_AVAILABLE ∧ bs' = bs ∧
            s'.size = Function.update (Function.update s.size s.heap_end
              (npages.toNat * L.EL_PAGE_BYTES - L.EL_BLOCK_OVERHEAD)) last
              (s.size last + npages.toNat * L.EL_PAGE_BYTES))) := by
  obtain ⟨hbe, hbo⟩ := bytes_add_eq hL h0 h1
  have h := el_append_shape_bytes hL hI h0 (by rw [hbe]; exact hbo) hg
  rw [hbe] at h
  exact h

/-- Effect of `el_append_pages_to_heap` when the mapping is granted at the end
of the heap. -/
theorem el_append_spec {L : Layout} {s : State} {bs xs ys : List Nat} {npages : Int}
    (hL : L.WF) (hI : Inv L s bs xs ys) (h0 : 0 < npages)
    (h1 : npages * (L.EL_PAGE_BYTES : Int) < 2 ^ 31)
    (hg : Granted L s.heap_end (size_t_of_int (int_mul npages L.EL_PAGE_BYTES))) :
    ∃ s' bs' xs', el_append_pages_to_heap L s npages s.heap_end = some (s', 0) ∧
      Inv L s' bs' xs' ys ∧ Grown s s' (npages.toNat * L.EL_PAGE_BYTES) := by
  obtain ⟨s', bs', xs', k1, k2, k3, _⟩ := el_append_shape hL hI h0 h1 hg
  exact ⟨s', bs', xs', k1, k2, k3⟩

/-- The outcomes of `el_append_pages_to_heap` on a state satisfying the
invariant: failure with the state unchanged, or growth by the byte count the
call computes. -/
theorem el_append_cases {L : Layout} {s s' : State} {bs xs ys : List Nat} {npages : Int}
    {addr r : Nat} (hL : L.WF) (hI : Inv L s bs xs ys)
    (hg : addr = s.heap_end →
      Granted L s.heap_end (size_t_of_int (int_mul npages L.EL_PAGE_BYTES)) ∧
        L.EL_BLOCK_OVERHEAD ≤ size_t_of_int (int_mul npages L.EL_PAGE_BYTES))
    (h : el_append_pages_to_heap L s npages addr = some (s', r)) :
    (s' = s ∧ r = 1) ∨ (0 < npages ∧ addr = s.heap_end ∧ r = 0 ∧
      ∃ bs' xs', Inv L s' bs' xs' ys ∧
        Grown s s' (size_t_of_int (int_mul npages L.EL_PAGE_BYTES))) := by
  by_cases h0 : npages ≤ 0
  · left
    simp [el_append_pages_to_heap, h0] at h
    exact ⟨h.1.symm, h.2.symm⟩
  by_cases ha : addr = s.heap_end
  · right
    subst ha
    obtain ⟨s2, bs', xs', e, hI', hgr, _⟩ :=
      el_append_shape_bytes hL hI (by omega) (hg rfl).2 (hg rfl).1
    rw [e] at h
    cases h
    exact ⟨by omega, rfl, rfl, bs', xs', hI', hgr⟩
  · left
    simp [el_append_pages_to_heap, h0, ha] at h
    exact ⟨h.1.symm, h.2.symm⟩

/-! ## Initialisation -/

/-- Effect of `el_init_blocklist` when the pointer `list->beg` it finds is not
null. -/
theorem el_init_blocklist_spec (L : Layout) (s : State) (id : ListId)
    (hb : (s.list id).beg ≠ 0) (he : L.end_actual id ≠ 0) :
    ∃ s', el_init_blocklist L s id = some s' ∧
      s'.list id = el_blocklist_t.mk (s.list id).beg (L.end_actual id) 0 0 ∧
      (∀ id', id' ≠ id → s'.list id' = s.list id') ∧
      s'.state = Function.update (Function.update s.state (s.list id).beg L.EL_BEGIN_BLOCK)
        (L.end_actual id) L.EL_END_BLOCK ∧
      s'.size = Function.update (Function.update s.size (s.list id).beg L.EL_UNINITIALIZED)
        (L.end_actual id) L.EL_UNINITIALIZED ∧
      s'.next = Function.update (Function.update s.next (s.list id).beg (L.end_actual id))
        (L.end_actual id) 0 ∧
      s'.prev = Function.update (Function.update s.prev (s.list id).beg 0)
        (L.end_actual id) (s.list id).beg ∧
      s'.foot = s.foot ∧ s'.heap_start = s.heap_start ∧ s'.heap_end = s.heap_end ∧
      s'.heap_bytes = s.heap_bytes := by
  simp only [el_init_blocklist, deref_ne hb, Option.bind_eq_bind, Option.some_bind,
    wr_state_list, wr_size_list, list_setList_self, deref_ne he, wr_next_list, wr_prev_list,
    Option.pure_def, setList_setList]
  refine ⟨_, rfl, by simp, ?_, by simp, by simp, by simp, by simp, by simp, by simp,
    by simp, by simp⟩
  intro id' hne
  simp [list_setList_ne _ _ hne]

theorem Layout.WF.sent_facts {L : Layout} (hL : L.WF) :
    L.avail_beg_actual ≠ 0 ∧ L.avail_end_actual ≠ 0 ∧ L.used_beg_actual ≠ 0 ∧
    L.used_end_actual ≠ 0 ∧ L.avail_beg_actual ≠ L.avail_end_actual ∧
    L.avail_beg_actual ≠ L.used_beg_actual ∧ L.avail_beg_actual ≠ L.used_end_actual ∧
    L.avail_end_actual ≠ L.used_beg_actual ∧ L.avail_end_actual ≠ L.used_end_actual ∧
    L.used_beg_actual ≠ L.used_end_actual := by
  have h1 := hL.sentinels
  have h2 := hL.sentinels_pos
  simp at h1 h2
  tauto

/-- The state a successful `el_init` returns, field by field. -/
theorem el_init_fields {L : Layout} {pre : State} {n : Nat} (hL : L.WF)
    (hp : Prepared L pre) (hg : Granted L L.EL_HEAP_START_ADDRESS n)
    (hn : L.EL_BLOCK_OVERHEAD ≤ n) :
    ∃ s, el_init L pre L.EL_CTL_START_ADDRESS L.EL_HEAP_START_ADDRESS n = some (s, 0) ∧
      s.heap_start = L.EL_HEAP_START_ADDRESS ∧
      s.heap_end = L.EL_HEAP_START_ADDRESS + n ∧ s.heap_bytes = n ∧
      s.avail = el_blocklist_t.mk L.avail_beg_actual L.avail_end_actual 1 n ∧
      s.used = el_blocklist_t.mk L.used_beg_actual L.used_end_actual 0 0 ∧
      s.size = Function.update (Function.update (Function.update (Function.update
        (Function.update pre.size L.avail_beg_actual L.EL_UNINITIALIZED)
        L.avail_end_actual L.EL_UNINITIALIZED) L.used_beg_actual L.EL_UNINITIALIZED)
        L.used_end_actual L.EL_UNINITIALIZED) L.EL_HEAP_START_ADDRESS
        (n - L.EL_BLOCK_OVERHEAD) ∧
      s.state = Function.update (Function.update (Function.update (Function.update
        (Function.update pre.state L.avail_beg_actual L.EL_BEGIN_BLOCK)
        L.avail_end_actual L.EL_END_BLOCK) L.used_beg_actual L.EL_BEGIN_BLOCK)
        L.used_end_actual L.EL_END_BLOCK) L.EL_HEAP_START_ADDRESS L.EL_AVAILABLE ∧
      s.foot = Function.update pre.foot
        (L.EL_HEAP_START_ADDRESS + L.head_bytes + (n - L.EL_BLOCK_OVERHEAD))
        (n - L.EL_BLOCK_OVERHEAD) ∧
      s.next = Function.update (Function.update (Function.update (Function.update
        (Function.update (Function.update pre.next L.avail_beg_actual L.avail_end_actual)
        L.avail_end_actual 0) L.used_beg_actual L.used_end_actual) L.used_end_actual 0)
        L.EL_HEAP_START_ADDRESS L.avail_end_actual) L.avail_beg_actual
        L.EL_HEAP_START_ADDRESS ∧
      s.prev = Function.update (Function.update (Function.update (Function.update
        (Function.update (Function.update pre.prev L.avail_beg_actual 0)
        L.avail_end_actual L.avail_beg_actual) L.used_beg_actual 0) L.used_end_actual
        L.used_beg_actual) L.EL_HEAP_START_ADDRESS L.avail_beg_actual) L.avail_end_actual
        L.EL_HEAP_START_ADDRESS := by
  obtain ⟨a0, e0, b0, f0, hae, hab, haf, heb, hef, hbf⟩ := hL.sent_facts
  have ho := hL.overhead_pos
  have hhp := hL.heap_pos
  obtain ⟨hg1, hg2⟩ := hg
  have hs0 : L.EL_HEAP_START_ADDRESS ≠ 0 := by omega
  have hsa : L.EL_HEAP_START_ADDRESS ≠ L.avail_beg_actual := by
    intro h; have := hg2 L.avail_beg_actual (Or.inl rfl); omega
  have hse : L.EL_HEAP_START_ADDRESS ≠ L.avail_end_actual := by
    intro h; have := hg2 L.avail_end_actual (Or.inr (Or.inl rfl)); omega
  have hsb : L.EL_HEAP_START_ADDRESS ≠ L.used_beg_actual := by
    intro h; have := hg2 L.used_beg_actual (Or.inr (Or.inr (Or.inl rfl))); omega
  have hsf : L.EL_HEAP_START_ADDRESS ≠ L.used_end_actual := by
    intro h; have := hg2 L.used_end_actual (Or.inr (Or.inr (Or.inr rfl))); omega
  have hend : PTR_PLUS_BYTES L.EL_HEAP_START_ADDRESS n = L.EL_HEAP_START_ADDRESS + n := by
    unfold PTR_PLUS_BYTES; rw [add64_eq hg1]
  obtain ⟨s1, e1, l1, o1, t1, z1, n1, p1, ft1, hs1, he1, hb1⟩ := el_init_blocklist_spec L
    (((pre.set_heap_bytes n).set_heap_start L.EL_HEAP_START_ADDRESS).set_heap_end
      (L.EL_HEAP_START_ADDRESS + n)) .avail (by simpa [hp.avail_beg] using a0)
    (by simpa [Layout.end_actual] using e0)
  have hu1 := o1 .used (by decide)
  simp only [list_used, set_heap_end_used, set_heap_start_used, set_heap_bytes_used] at hu1
  obtain ⟨s2, e2, l2, o2, t2, z2, n2, p2, ft2, hs2, he2, hb2⟩ := el_init_blocklist_spec L
    s1 .used (by simpa [hu1, hp.used_beg] using b0)
    (by simpa [Layout.end_actual] using f0)
  have ha2 := o2 .avail (by decide)
  simp only [list_avail, list_used, set_heap_end_list, set_heap_start_list,
    set_heap_bytes_list, hp.avail_beg, hp.used_beg, hu1, Layout.end_actual,
    set_heap_end_avail, set_heap_start_avail,
    set_heap_bytes_avail, set_heap_end_used, set_heap_start_used, set_heap_bytes_used]
    at l1 l2 ha2
  simp only [list_avail, list_used, set_heap_end_list, set_heap_start_list,
    set_heap_bytes_list, hp.avail_beg, hp.used_beg, hu1, Layout.end_actual,
    set_heap_end_state, set_heap_start_state, set_heap_bytes_state,
    set_heap_end_size, set_heap_start_size, set_heap_bytes_size,
    set_heap_end_next, set_heap_start_next, set_heap_bytes_next,
    set_heap_end_prev, set_heap_start_prev, set_heap_bytes_prev,
    set_heap_end_foot, set_heap_start_foot, set_heap_bytes_foot,
    set_heap_end_heap_start, set_heap_start_heap_start, set_heap_bytes_heap_start,
    set_heap_end_heap_end, set_heap_end_heap_bytes, set_heap_start_heap_bytes,
    set_heap_bytes_heap_bytes, set_heap_end_avail, set_heap_start_avail,
    set_heap_bytes_avail, set_heap_end_used, set_heap_start_used, set_heap_bytes_used]
    at t1 z1 n1 p1 ft1 hs1 he1 hb1 t2 z2 n2 p2 ft2 hs2 he2 hb2 ha2 l1
  rw [l1] at ha2
  have hsub : sub64 n L.EL_BLOCK_OVERHEAD = n - L.EL_BLOCK_OVERHEAD := by
    rw [sub64_eq hn (by omega)]
  have hfaddr : PTR_PLUS_BYTES L.EL_HEAP_START_ADDRESS
      (add64 L.head_bytes (n - L.EL_BLOCK_OVERHEAD)) =
      L.EL_HEAP_START_ADDRESS + L.head_bytes + (n - L.EL_BLOCK_OVERHEAD) := by
    unfold PTR_PLUS_BYTES Layout.EL_BLOCK_OVERHEAD at *
    rw [add64_eq (a := L.head_bytes) (by omega), add64_eq (by omega)]; omega
  have hnx : s2.next L.avail_beg_actual = L.avail_end_actual := by
    rw [n2, n1]
    simp [Function.update_apply, hab, haf, hae]
  have hlen : add64 0 1 = 1 := by rw [add64_eq (by unfold WORD; omega)]
  have hby : add64 0 (add64 (n - L.EL_BLOCK_OVERHEAD) L.EL_BLOCK_OVERHEAD) = n := by
    rw [add64_eq (a := n - L.EL_BLOCK_OVERHEAD) (by omega), add64_eq (by omega)]; omega
  unfold el_init
  rw [if_neg (by simp), if_neg (by simp)]
  simp only [set_heap_bytes_heap_bytes, set_heap_start_heap_bytes, set_heap_end_heap_bytes,
    hend, if_neg (show ¬ n < L.EL_BLOCK_OVERHEAD by omega), e1, Option.bind_eq_bind,
    Option.some_bind, e2, hb2, hb1, hs2, hs1, hsub, deref_ne hs0, el_get_footer,
    wr_state_size, wr_size_size, Function.update_same, hfaddr, Option.pure_def,
    deref_ne (show L.EL_HEAP_START_ADDRESS + L.head_bytes + (n - L.EL_BLOCK_OVERHEAD) ≠ 0
      by omega),
    wr_foot_avail, wr_state_avail, wr_size_avail, ha2, deref_ne a0, wr_prev_avail,
    wr_prev_next, wr_foot_next, wr_state_next, wr_size_next, hnx, wr_next_prev,
    wr_prev_prev, deref_ne e0, wr_next_next, wr_next_avail, setList_avail_avail,
    hlen, wr_prev_size, wr_next_size, wr_foot_size, setList_size, hby, setList_setList,
    Function.update_apply, hsa, if_false, if_true, ite_true, ite_false,
    Option.some.injEq, Prod.mk.injEq, and_true, exists_eq_left']
  refine ⟨by simp [hs2, hs1], by simp [he2, he1], by simp [hb2, hb1], by simp,
    by simp [l2], ?_, ?_, ?_, ?_, ?_⟩
  · simp [z2, z1]
  · simp [t2, t1]
  · simp [ft2, ft1]
  · simp [n2, n1]
  · simp [p2, p1]

/-- A successful `el_init` establishes the invariant: one available block that
spans the heap. -/
theorem el_init_spec {L : Layout} {pre : State} {n : Nat} (hL : L.WF)
    (hp : Prepared L pre) (hg : Granted L L.EL_HEAP_START_ADDRESS n)
    (hn : L.EL_BLOCK_OVERHEAD ≤ n) :
    ∃ s, el_init L pre L.EL_CTL_START_ADDRESS L.EL_HEAP_START_ADDRESS n = some (s, 0) ∧
      Inv L s [L.EL_HEAP_START_ADDRESS] [L.EL_HEAP_START_ADDRESS] [] ∧
      s.heap_start = L.EL_HEAP_START_ADDRESS ∧ s.heap_bytes = n ∧
      s.size L.EL_HEAP_START_ADDRESS = n - L.EL_BLOCK_OVERHEAD := by
  obtain ⟨s, e, hs, he, hb, ha, hu, hz, ht, hf, hnx, hpv⟩ := el_init_fields hL hp hg hn
  obtain ⟨a0, e0, b0, f0, hae, hab, haf, heb, hef, hbf⟩ := hL.sent_facts
  have ho := hL.overhead_pos
  have hhp := hL.heap_pos
  obtain ⟨hg1, hg2⟩ := hg
  have hsa : L.EL_HEAP_START_ADDRESS ≠ L.avail_beg_actual := by
    intro h; have := hg2 L.avail_beg_actual (Or.inl rfl); omega
  have hse : L.EL_HEAP_START_ADDRESS ≠ L.avail_end_actual := by
    intro h; have := hg2 L.avail_end_actual (Or.inr (Or.inl rfl)); omega
  have hsb : L.EL_HEAP_START_ADDRESS ≠ L.used_beg_actual := by
    intro h; have := hg2 L.used_beg_actual (Or.inr (Or.inr (Or.inl rfl))); omega
  have hsf : L.EL_HEAP_START_ADDRESS ≠ L.used_end_actual := by
    intro h; have := hg2 L.used_end_actual (Or.inr (Or.inr (Or.inr rfl))); omega
  have hsz : s.size L.EL_HEAP_START_ADDRESS = n - L.EL_BLOCK_OVERHEAD := by
    rw [hz, Function.update_same]
  have hst : s.state L.EL_HEAP_START_ADDRESS = L.EL_AVAILABLE := by
    rw [ht, Function.update_same]
  have hH : HeapOK L s [L.EL_HEAP_START_ADDRESS] := by
    refine ⟨by rw [hs]; exact hhp, by rw [he]; exact hg1, by rw [hs, hb, he], ?_, by simp,
      ?_, ?_⟩
    · rw [hs, he]
      refine ⟨rfl, ?_⟩
      rw [hsz]
      show _ = _
      omega
    · intro b hb'
      simp only [List.mem_singleton] at hb'
      subst hb'
      rw [hsz, hf, Function.update_same]
    · intro a ha'
      rw [hs, he]; exact hg2 a ha'
  have hno : ∀ b, s.state b ≠ L.EL_USED := by
    intro b
    rw [ht]
    simp only [Function.update_apply]
    split_ifs
    · exact hL.avail_ne_used
    · exact hL.end_ne_used
    · exact hL.begin_ne_used
    · exact hL.end_ne_used
    · exact hL.begin_ne_used
    · exact hp.no_used b
  refine ⟨s, e, ⟨⟨hH, ?_, ?_, ?_, ?_, ?_, ?_⟩, ?_⟩, hs, hb, hsz⟩
  · have hn' := nodes_ok hH hL .avail (List.nodup_singleton _) (List.Subset.refl _)
    refine ⟨by simp [ha, Layout.beg_actual], by simp [ha, Layout.end_actual], ?_, hn'.1,
      hn'.2, by simp [ha], ?_, by simp; unfold WORD; omega, ?_⟩
    · simp only [Seg, Layout.beg_actual, Layout.end_actual, hnx, hpv, Function.update_apply]
      simp [hsa, hse, hsa.symm, hse.symm, hae, hae.symm]
    · simp only [list_avail, ha, total_cons, total_nil, hsz]; omega
    · simp only [total_cons, total_nil, hsz]; omega
  · have hnil : ([] : List Nat) ⊆ [L.EL_HEAP_START_ADDRESS] := by simp
    have hn' := nodes_ok hH hL .used List.nodup_nil hnil
    refine ⟨by simp [hu, Layout.beg_actual], by simp [hu, Layout.end_actual], ?_, hn'.1,
      hn'.2, by simp [hu], by simp [hu, total_nil], by simp; unfold WORD; omega,
      by simp only [total_nil]; unfold WORD; omega⟩
    simp only [Seg, Layout.beg_actual, Layout.end_actual, hnx, hpv, Function.update_apply]
    simp [hsb, hsf, hsb.symm, hsf.symm, hbf, hbf.symm, hab, hab.symm, haf, haf.symm, heb,
      heb.symm, hef, hef.symm]
  · intro b hb'
    simp only [List.mem_singleton] at hb'
    subst hb'
    exact Or.inl hst
  · intro b
    constructor
    · intro hb'
      simp only [List.mem_singleton] at hb'
      subst hb'
      exact ⟨by simp, hst⟩
    · intro hb'; exact hb'.1
  · intro b
    simp only [List.not_mem_nil, false_iff]
    exact hno b
  · intro b hb'
    simp at hb'
  · intro b hb' c hc hcb
    simp only [List.mem_singleton] at hb' hc
    subst hb' hc
    omega

/-! ## Walks over the heap and over the lists -/

theorem heap_walk_suffix {L : Layout} {s : State} (hL : L.WF) {l2 : List Nat} :
    ∀ {l1 : List Nat} {b : Nat}, HeapOK L s (l1 ++ b :: l2) →
      ∀ {fuel : Nat}, (b :: l2).length < fuel → heap_walk L s fuel b = some (b :: l2) := by
  induction l2 with
  | nil =>
    intro l1 b h fuel hf
    obtain ⟨k, rfl⟩ : ∃ k, fuel = k + 2 := ⟨fuel - 2, by simp at hf; omega⟩
    have hb0 := h.mem_ne_zero (b := b) (by simp)
    simp [heap_walk, hb0, h.above_last]
  | cons u l2 ih =>
    intro l1 b h fuel hf
    obtain ⟨k, rfl⟩ : ∃ k, fuel = k + 1 := ⟨fuel - 1, by simp at hf; omega⟩
    have hb0 := h.mem_ne_zero (b := b) (by simp)
    have h' : HeapOK L s ((l1 ++ [b]) ++ u :: l2) := by simpa using h
    have := ih h' (show (u :: l2).length < k by simpa using hf)
    simp [heap_walk, hb0, (h.above_next hL).1, this]

/-- In a well-formed heap the walk from `heap_start` visits exactly the blocks
of the tiling. -/
theorem HeapOK.walk {L : Layout} {s : State} {bs : List Nat} (h : HeapOK L s bs)
    (hL : L.WF) {fuel : Nat} (hf : bs.length < fuel) :
    heap_walk L s fuel s.heap_start = some bs := by
  cases bs with
  | nil => exact absurd rfl h.ne
  | cons b bs =>
    have hb : b = s.heap_start := h.tiled.1
    rw [← hb]
    exact heap_walk_suffix hL (show HeapOK L s ([] ++ b :: bs) from h) hf

theorem walk_list_seg (s : State) {xs : List Nat} {p e : Nat}
    (h : Seg s.next s.prev p xs e) (hne : ∀ x ∈ xs, x ≠ e ∧ x ≠ 0) {fuel : Nat}
    (hf : xs.length < fuel) : walk_list s e fuel (s.next p) = some xs := by
  induction xs generalizing p fuel with
  | nil =>
    obtain ⟨k, rfl⟩ : ∃ k, fuel = k + 1 := ⟨fuel - 1, by simp at hf; omega⟩
    simp [walk_list, h.1]
  | cons x xs ih =>
    obtain ⟨k, rfl⟩ : ∃ k, fuel = k + 1 := ⟨fuel - 1, by simp at hf; omega⟩
    obtain ⟨h1, h2, h3⟩ := h
    have hx := hne x (by simp)
    rw [h1]
    unfold walk_list
    rw [if_neg hx.1, if_neg hx.2, ih h3 (fun y hy => hne y (by simp [hy])) (by simpa using hf)]
    rfl

/-- The traversal of a well-formed list returns its members. -/
theorem ListOK.members_eq {L : Layout} {s : State} {id : ListId} {xs : List Nat}
    (h : ListOK L s id xs) {fuel : Nat} (hf : xs.length < fuel) :
    s.members id fuel = some xs := by
  have hb0 : (s.list id).beg ≠ 0 := by
    rw [h.beg_eq]; exact h.nonnull _ (by simp [nodes])
  simp only [State.members, deref_ne hb0, Option.bind_eq_bind, Option.some_bind]
  rw [h.beg_eq, h.end_eq]
  refine walk_list_seg s h.seg (fun x hx => ⟨?_, ?_⟩) hf
  · rintro rfl
    have := h.nodup
    simp [nodes, List.nodup_append] at this
    tauto
  · exact h.nonnull x (by simp [nodes, hx])

/-! ## The invariant holds in every reachable state -/

theorem reachable_inv {L : Layout} {s : State} (hL : L.WF) (h : Reachable L s) :
    ∃ bs xs ys, Inv L s bs xs ys := by
  induction h with
  | @init pre s ctl_map heap_map n hp hg e =>
    have hc : ctl_map = L.EL_CTL_START_ADDRESS := by
      by_contra hne
      simp [el_init, hne] at e
    have hh : heap_map = L.EL_HEAP_START_ADDRESS := by
      by_contra hne
      simp [el_init, hne] at e
    subst hc hh
    have hn : L.EL_BLOCK_OVERHEAD ≤ n := by
      by_contra hlt
      have hlt' : n < L.EL_BLOCK_OVERHEAD := by omega
      simp [el_init, hlt'] at e
    obtain ⟨s2, e2, hI, _⟩ := el_init_spec hL hp hg hn
    rw [e2] at e
    cases e
    exact ⟨_, _, _, hI⟩
  | malloc _ e ih =>
    obtain ⟨bs, xs, ys, hI⟩ := ih
    exact el_malloc_inv hL hI e
  | free _ e ih =>
    obtain ⟨bs, xs, ys, hI⟩ := ih
    rcases el_free_cases hL hI e with rfl | ⟨_, _, bs', xs', hI', _⟩
    · exact ⟨bs, xs, ys, hI⟩
    · exact ⟨bs', xs', _, hI'⟩
  | append _ hg e ih =>
    obtain ⟨bs, xs, ys, hI⟩ := ih
    rcases el_append_cases hL hI hg e with ⟨rfl, _⟩ | ⟨_, _, _, bs', xs', hI', _⟩
    · exact ⟨bs, xs, ys, hI⟩
    · exact ⟨bs', xs', ys, hI'⟩

/-! ## A concrete layout and concrete states -/

theorem x86_64_wf : x86_64.WF :=
  ⟨by decide, by decide, by decide, by decide, by decide, by decide, by decide, by decide,
    by decide, by decide⟩

theorem prepared_page_ok : Prepared x86_64 prepared_page :=
  ⟨rfl, rfl, fun _ => by simp [prepared_page, fresh_page, x86_64]⟩

theorem granted0 : Granted x86_64 x86_64.EL_HEAP_START_ADDRESS 4096 := by
  refine ⟨by unfold WORD; decide, ?_⟩
  rintro a (rfl | rfl | rfl | rfl) <;> decide

theorem init0 :
    el_init x86_64 prepared_page x86_64.EL_CTL_START_ADDRESS x86_64.EL_HEAP_START_ADDRESS
      4096 = some (state0, 0) := by
  obtain ⟨s, e, _⟩ := el_init_spec x86_64_wf prepared_page_ok granted0 (by decide)
  simp [state0, e]

theorem inv0 : Inv x86_64 state0 [x86_64.EL_HEAP_START_ADDRESS]
    [x86_64.EL_HEAP_START_ADDRESS] [] ∧ state0.size x86_64.EL_HEAP_START_ADDRESS = 4056 := by
  obtain ⟨s, e, hI, _, _, hz⟩ := el_init_spec x86_64_wf prepared_page_ok granted0
    (show x86_64.EL_BLOCK_OVERHEAD ≤ 4096 by decide)
  have : state0 = s := by simp [state0, e]
  rw [this]
  exact ⟨hI, hz⟩

theorem reach0 : Reachable x86_64 state0 :=
  Reachable.init prepared_page_ok granted0 init0

theorem malloc1 : el_malloc x86_64 2 state0 100 = some (state1, ptr1) ∧ ptr1 ≠ 0 := by
  obtain ⟨hI, hz⟩ := inv0
  rcases el_malloc_cases x86_64_wf hI (show [x86_64.EL_HEAP_START_ADDRESS].length < 2 by decide) 100
    with ⟨h, _⟩ | ⟨l1, l2, b, _, _, _, _, s', bs', xs', e, _, _⟩
  · have := h _ (List.mem_singleton.2 rfl)
    omega
  · have hp : ptr1 = b + x86_64.head_bytes := by simp [ptr1, e]
    have hs : state1 = s' := by simp [state1, e]
    rw [hp, hs]
    exact ⟨e, by simp [x86_64]⟩

theorem reach1 : Reachable x86_64 state1 :=
  Reachable.malloc reach0 malloc1.1

/-! ## Auxiliary facts for the claims -/

/-- A non-null result of `el_block_above` in a well-formed heap is the block
that starts where the given block ends. -/
theorem HeapOK.above_mem {L : Layout} {s : State} {bs : List Nat} (h : HeapOK L s bs)
    (hL : L.WF) {b u : Nat} (hb : b ∈ bs) (he : el_block_above L s b = some u)
    (hu : u ≠ 0) : u ∈ bs ∧ u = b + s.size b + L.EL_BLOCK_OVERHEAD := by
  obtain ⟨l1, l2, rfl⟩ := List.append_of_mem hb
  cases l2 with
  | nil =>
    rw [h.above_last] at he
    cases he
    exact absurd rfl hu
  | cons u' l2 =>
    obtain ⟨h1, h2, _⟩ := h.above_next hL
    rw [h1] at he
    cases he
    exact ⟨by simp, h2⟩

/-- The header of the block whose usable space starts at `b + head_bytes`. -/
theorem HeapOK.ptr_block {L : Layout} {s : State} {bs : List Nat} (h : HeapOK L s bs)
    {b : Nat} (hb : b ∈ bs) : PTR_MINUS_BYTES (b + L.head_bytes) L.head_bytes = b := by
  have h1 := h.mem_range hb
  have h2 := h.end_lt
  unfold PTR_MINUS_BYTES Layout.EL_BLOCK_OVERHEAD at *
  rw [sub64_eq (by omega) (by omega)]
  omega

/-- A successful `el_malloc` in a state satisfying the invariant allocated the
first fit of the available list. -/
theorem el_malloc_success {L : Layout} {s s' : State} {bs xs ys : List Nat}
    {fuel n p : Nat} (hL : L.WF) (hI : Inv L s bs xs ys)
    (hm : el_malloc L fuel s n = some (s', p)) (hp : p ≠ 0) :
    ∃ l1 l2 b, xs = l1 ++ b :: l2 ∧ n ≤ s.size b ∧ (∀ c ∈ l1, s.size c < n) ∧
      p = b + L.head_bytes ∧ ∃ bs' xs', Inv L s' bs' xs' (b :: ys) ∧ Alloc L s s' b n := by
  have h' := el_malloc_mono L s n hm (xs.length + 1)
  have hf : xs.length < fuel + (xs.length + 1) := by omega
  rcases el_malloc_cases hL hI hf n with
    ⟨_, e⟩ | ⟨l1, l2, b, hx, _, hn, hl, s2, bs', xs', e, hI', ha⟩
  · rw [e] at h'
    cases h'
    exact absurd rfl hp
  · rw [e] at h'
    cases h'
    exact ⟨l1, l2, b, hx, hn, hl, rfl, bs', xs', hI', ha⟩

/-- The two error paths of `el_free` (lines 440-454) return the state they
were given. -/
theorem el_free_rejects (L : Layout) (s : State) (ptr : Nat)
    (h : ptr = 0 ∨ (PTR_MINUS_BYTES ptr L.head_bytes ≠ 0 ∧
      s.state (PTR_MINUS_BYTES ptr L.head_bytes) ≠ L.EL_USED)) :
    el_free L s ptr = some s := by
  unfold el_free
  rcases h with rfl | ⟨h0, hu⟩
  · simp
  · by_cases hp : ptr = 0
    · simp [hp]
    · rw [if_neg hp]
      simp only [if_neg h0, hu, ne_eq, not_false_eq_true, if_true]

/-! ## The claims -/

/-- C4 (round trip): in a reachable state, when `el_malloc n` returns a
non-null pointer `p`, the call `el_free p` right after it returns and leaves
the used list with the length and bytes it had before the `el_malloc`, and the
available list with the bytes it had before the `el_malloc`. -/
theorem malloc_free_round_trip (L : Layout) (s s1 : State) (fuel n p : Nat) (hL : L.WF)
    (h : Reachable L s) (hm : el_malloc L fuel s n = some (s1, p)) (hp : p ≠ 0) :
    ∃ s2, el_free L s1 p = some s2 ∧ s2.used.length = s.used.length ∧
      s2.used.bytes = s.used.bytes ∧ s2.avail.bytes = s.avail.bytes := by
  obtain ⟨bs, xs, ys, hI⟩ := reachable_inv hL h
  obtain ⟨l1, l2, b, _, _, _, rfl, bs', xs', hI', ha⟩ := el_malloc_success hL hI hm hp
  have hbb : b ∈ bs' := hI'.base.used_sub b (by simp)
  obtain ⟨s2, _, _, e, _, hf⟩ := el_free_spec hL hI' (List.mem_cons_self b ys) hp
    (hI'.base.heap.ptr_block hbb)
  refine ⟨s2, e, ?_, ?_, ?_⟩
  · have := hf.used_len
    have := ha.used_len
    omega
  · have := hf.used_bytes
    have := ha.used_bytes
    omega
  · have := hf.avail_bytes
    have := ha.avail_bytes
    omega

/-- C5 (invalid free): `el_free` called with the null pointer, or with a
pointer whose header, at the pointer minus the header size, is not tagged
used, returns the state it was given: heap extent, both lists and every header
and footer are as before.  (A header at the null address cannot be read.) -/
theorem free_misuse_noop (L : Layout) (s : State) (ptr : Nat)
    (h : ptr = 0 ∨ (PTR_MINUS_BYTES ptr L.head_bytes ≠ 0 ∧
      s.state (PTR_MINUS_BYTES ptr L.head_bytes) ≠ L.EL_USED)) :
    el_free L s ptr = some s :=
  el_free_rejects L s ptr h

/-- C6 (idempotent misuse): in a reachable state, for a non-null pointer `p`
whose block is tagged used (it was returned by `el_malloc` and not freed
since), the first `el_free p` performs the free (the used list loses one
member and the block gets the available tag, whether or not it was merged with
a neighbour) and a second `el_free p` returns the state of the first
unchanged. -/
theorem double_free_idempotent (L : Layout) (s : State) (p : Nat) (hL : L.WF)
    (h : Reachable L s) (hp : p ≠ 0)
    (hu : s.state (PTR_MINUS_BYTES p L.head_bytes) = L.EL_USED) :
    ∃ s1, el_free L s p = some s1 ∧ s1.used.length + 1 = s.used.length ∧
      s1.state (PTR_MINUS_BYTES p L.head_bytes) = L.EL_AVAILABLE ∧
      el_free L s1 p = some s1 := by
  obtain ⟨bs, xs, ys, hI⟩ := reachable_inv hL h
  have hb := (hI.base.mem_used _).2 hu
  obtain ⟨s1, _, _, e, _, hf⟩ := el_free_spec hL hI hb hp rfl
  have hst : s1.state (PTR_MINUS_BYTES p L.head_bytes) = L.EL_AVAILABLE := by
    rw [hf.state, Function.update_same]
  have hb0 := hI.base.heap.mem_ne_zero (hI.base.used_sub _ hb)
  refine ⟨s1, e, hf.used_len, hst, ?_⟩
  exact el_free_rejects L s1 p (Or.inr ⟨hb0, by rw [hst]; exact hL.avail_ne_used⟩)

/-- C7 (failing input): on a freshly mapped, zero-filled control block
`el_init 4096` does not return: `el_init_blocklist` dereferences the null
`list->beg` it never assigns. -/
theorem init_faults_on_fresh_page :
    el_init x86_64 fresh_page x86_64.EL_CTL_START_ADDRESS x86_64.EL_HEAP_START_ADDRESS
      4096 = none := by
  simp [el_init, x86_64, fresh_page, Layout.EL_BLOCK_OVERHEAD, el_init_blocklist, deref,
    State.set_heap_bytes, State.set_heap_start, State.set_heap_end]

/-- C8 (counterexample): `el_init 10` fails with result 1, yet it has set
`heap_bytes`, `heap_start` and `heap_end` of the control block. -/
theorem init_failure_sets_region_fields :
    ∃ s, el_init x86_64 fresh_page x86_64.EL_CTL_START_ADDRESS
        x86_64.EL_HEAP_START_ADDRESS 10 = some (s, 1) ∧
      fresh_page.heap_bytes = 0 ∧ s.heap_bytes = 10 ∧
      fresh_page.heap_start = 0 ∧ s.heap_start = 0x600000000000 ∧
      fresh_page.heap_end = 0 ∧ s.heap_end = 0x60000000000a := by
  refine ⟨((fresh_page.set_heap_bytes 10).set_heap_start 0x600000000000).set_heap_end
    0x60000000000a, ?_, rfl, rfl, rfl, rfl, rfl, rfl⟩
  simp [el_init, x86_64, Layout.EL_BLOCK_OVERHEAD, PTR_PLUS_BYTES, add64, WORD]

/-- C8 (amended): when both mappings are granted at the requested addresses,
`el_init n` returns a non-zero result exactly when `n < EL_BLOCK_OVERHEAD`; it
then returns 1 after setting `heap_bytes`, `heap_start` and `heap_end` and
nothing else: no block is set up and neither list is touched. -/
theorem init_failure_amended (L : Layout) (pre : State) (n : Nat) :
    (n < L.EL_BLOCK_OVERHEAD →
      el_init L pre L.EL_CTL_START_ADDRESS L.EL_HEAP_START_ADDRESS n =
        some (((pre.set_heap_bytes n).set_heap_start L.EL_HEAP_START_ADDRESS).set_heap_end
          (PTR_PLUS_BYTES L.EL_HEAP_START_ADDRESS n), 1)) ∧
    (∀ s r, el_init L pre L.EL_CTL_START_ADDRESS L.EL_HEAP_START_ADDRESS n = some (s, r) →
      (r ≠ 0 ↔ n < L.EL_BLOCK_OVERHEAD)) := by
  constructor
  · intro hn
    simp [el_init, hn]
  · intro s r e
    by_cases hn : n < L.EL_BLOCK_OVERHEAD
    · simp [el_init, hn] at e
      simp [hn, ← e.2]
    · simp only [hn, iff_false, not_not]
      unfold el_init at e
      rw [if_neg (by simp), if_neg (by simp)] at e
      simp only [set_heap_end_heap_bytes, set_heap_start_heap_bytes,
        set_heap_bytes_heap_bytes, if_neg hn, Option.bind_eq_bind, Option.pure_def,
        Option.bind_eq_some, Option.some.injEq, Prod.mk.injEq] at e
      obtain ⟨_, -, _, -, _, -, _, -, _, -, _, -, _, -, _, -, -, hr⟩ := e
      exact hr.symm

/-- C9 (first fit): in a reachable state with available members `ms` (what the
traversal of the available list returns), `el_malloc n` run with fuel beyond
the length of the list returns; it returns NULL exactly when no member has
`size >= n`; otherwise the block it allocates is a member with `size >= n`
before which every member has `size < n`. -/
theorem first_fit (L : Layout) (s : State) (n : Nat) (hL : L.WF) (h : Reachable L s) :
    ∃ ms, ∀ fuel, ms.length < fuel →
      s.members .avail fuel = some ms ∧
      ∃ s' p, el_malloc L fuel s n = some (s', p) ∧
        (p = 0 ↔ ∀ x ∈ ms, s.size x < n) ∧
        (p ≠ 0 → ∃ l1 l2, ms = l1 ++ PTR_MINUS_BYTES p L.head_bytes :: l2 ∧
          n ≤ s.size (PTR_MINUS_BYTES p L.head_bytes) ∧ (∀ c ∈ l1, s.size c < n) ∧
          s'.state (PTR_MINUS_BYTES p L.head_bytes) = L.EL_USED) := by
  obtain ⟨bs, xs, ys, hI⟩ := reachable_inv hL h
  refine ⟨xs, fun fuel hf => ⟨hI.base.avail.members_eq hf, ?_⟩⟩
  rcases el_malloc_cases hL hI hf n with
    ⟨hsm, e⟩ | ⟨l1, l2, b, hx, hb0, hn, hl, s', bs', xs', e, hI', ha⟩
  · exact ⟨s, 0, e, ⟨fun _ => hsm, fun _ => rfl⟩, fun hp => absurd rfl hp⟩
  · have hbx : b ∈ xs := by rw [hx]; simp
    have hpb := hI.base.heap.ptr_block (hI.base.avail_sub hbx)
    have hhp := hL.head_pos
    refine ⟨s', b + L.head_bytes, e, ?_, ?_⟩
    · constructor
      · intro h0; omega
      · intro hall
        have := hall b hbx
        omega
    · intro _
      rw [hpb]
      exact ⟨l1, l2, hx, hn, hl, ha.state⟩

/-- C10 (result of a successful allocation): in a reachable state, when
`el_malloc n` returns a non-null pointer `p`, there is a block `b`, available
before the call and with `size >= n`, such that `p` is the address of `b` plus
the header size (hence not the header address), and after the call `b` is
tagged used, is the first member of the used list, has a footer holding its
size, and has size `n` if its old size was at least `n + EL_BLOCK_OVERHEAD` and
its old size otherwise. -/
theorem malloc_result (L : Layout) (s s' : State) (fuel n p : Nat) (hL : L.WF)
    (h : Reachable L s) (hm : el_malloc L fuel s n = some (s', p)) (hp : p ≠ 0) :
    ∃ b, s.state b = L.EL_AVAILABLE ∧ n ≤ s.size b ∧
      p = PTR_PLUS_BYTES b L.head_bytes ∧ p = b + L.head_bytes ∧ p ≠ b ∧
      s'.state b = L.EL_USED ∧
      (∀ k, s'.used.length < k → ∃ rest, s'.members .used k = some (b :: rest)) ∧
      (∃ f, el_get_footer L s' b = some f ∧ s'.foot f = s'.size b) ∧
      (n + L.EL_BLOCK_OVERHEAD ≤ s.size b → s'.size b = n) ∧
      (s.size b < n + L.EL_BLOCK_OVERHEAD → s'.size b = s.size b) := by
  obtain ⟨bs, xs, ys, hI⟩ := reachable_inv hL h
  obtain ⟨l1, l2, b, hx, hn, _, rfl, bs', xs', hI', ha⟩ := el_malloc_success hL hI hm hp
  have hbx : b ∈ xs := by rw [hx]; simp
  have hbb : b ∈ bs' := hI'.base.used_sub b (by simp)
  have hhp := hL.head_pos
  have hr := hI'.base.heap.mem_range hbb
  have hend := hI'.base.heap.end_lt
  have hptr : PTR_PLUS_BYTES b L.head_bytes = b + L.head_bytes := by
    unfold PTR_PLUS_BYTES Layout.EL_BLOCK_OVERHEAD at *
    rw [add64_eq (by omega)]
  refine ⟨b, ((hI.base.mem_avail b).1 hbx).2, hn, hptr.symm, rfl, by omega, ha.state, ?_,
    ?_, ha.size_split, ha.size_whole⟩
  · intro k hk
    have hlen := hI'.base.used.len
    simp only [list_used] at hlen
    exact ⟨ys, hI'.base.used.members_eq (by rw [← hlen]; exact hk)⟩
  · exact ⟨_, (hI'.base.heap.footer hbb).1, hI'.base.heap.foot_ok b hbb⟩

/-! ## Instances of the claims on the concrete states -/

theorem used1 : state1.state (PTR_MINUS_BYTES ptr1 x86_64.head_bytes) = x86_64.EL_USED := by
  obtain ⟨bs, xs, ys, hI⟩ := reachable_inv x86_64_wf reach0
  obtain ⟨l1, l2, b, _, _, _, hp, bs', xs', hI', ha⟩ :=
    el_malloc_success x86_64_wf hI malloc1.1 malloc1.2
  rw [hp, hI'.base.heap.ptr_block (hI'.base.used_sub b (by simp))]
  exact ha.state

theorem malloc_free_round_trip_witness :
    x86_64.WF ∧ Reachable x86_64 state0 ∧
    el_malloc x86_64 2 state0 100 = some (state1, ptr1) ∧ ptr1 ≠ 0 ∧
    ∃ s2, el_free x86_64 state1 ptr1 = some s2 ∧ s2.used.length = state0.used.length ∧
      s2.used.bytes = state0.used.bytes ∧ s2.avail.bytes = state0.avail.bytes :=
  ⟨x86_64_wf, reach0, malloc1.1, malloc1.2,
    malloc_free_round_trip x86_64 state0 state1 2 100 ptr1 x86_64_wf reach0 malloc1.1
      malloc1.2⟩

theorem free_misuse_noop_witness :
    (PTR_MINUS_BYTES 1 x86_64.head_bytes ≠ 0 ∧
      fresh_page.state (PTR_MINUS_BYTES 1 x86_64.head_bytes) ≠ x86_64.EL_USED) ∧
    el_free x86_64 fresh_page 1 = some fresh_page ∧
    el_free x86_64 state1 0 = some state1 :=
  have h : PTR_MINUS_BYTES 1 x86_64.head_bytes ≠ 0 ∧
      fresh_page.state (PTR_MINUS_BYTES 1 x86_64.head_bytes) ≠ x86_64.EL_USED := by
    simp [PTR_MINUS_BYTES, sub64, WORD, x86_64, fresh_page]
  ⟨h, free_misuse_noop x86_64 fresh_page 1 (Or.inr h),
    free_misuse_noop x86_64 state1 0 (Or.inl rfl)⟩

theorem double_free_idempotent_witness :
    x86_64.WF ∧ Reachable x86_64 state1 ∧ ptr1 ≠ 0 ∧
    state1.state (PTR_MINUS_BYTES ptr1 x86_64.head_bytes) = x86_64.EL_USED ∧
    ∃ s1, el_free x86_64 state1 ptr1 = some s1 ∧
      s1.used.length + 1 = state1.used.length ∧
      s1.state (PTR_MINUS_BYTES ptr1 x86_64.head_bytes) = x86_64.EL_AVAILABLE ∧
      el_free x86_64 s1 ptr1 = some s1 :=
  ⟨x86_64_wf, reach1, malloc1.2, used1,
    double_free_idempotent x86_64 state1 ptr1 x86_64_wf reach1 malloc1.2 used1⟩

theorem init_failure_amended_witness :
    10 < x86_64.EL_BLOCK_OVERHEAD ∧
    el_init x86_64 fresh_page x86_64.EL_CTL_START_ADDRESS x86_64.EL_HEAP_START_ADDRESS 10 =
      some (((fresh_page.set_heap_bytes 10).set_heap_start
        x86_64.EL_HEAP_START_ADDRESS).set_heap_end
          (PTR_PLUS_BYTES x86_64.EL_HEAP_START_ADDRESS 10), 1) :=
  ⟨by decide, (init_failure_amended x86_64 fresh_page 10).1 (by decide)⟩

theorem first_fit_witness :
    x86_64.WF ∧ Reachable x86_64 state0 ∧
    ∃ ms, ∀ fuel, ms.length < fuel →
      state0.members .avail fuel = some ms ∧
      ∃ s' p, el_malloc x86_64 fuel state0 100 = some (s', p) ∧
        (p = 0 ↔ ∀ x ∈ ms, state0.size x < 100) ∧
        (p ≠ 0 → ∃ l1 l2, ms = l1 ++ PTR_MINUS_BYTES p x86_64.head_bytes :: l2 ∧
          100 ≤ state0.size (PTR_MINUS_BYTES p x86_64.head_bytes) ∧
          (∀ c ∈ l1, state0.size c < 100) ∧
          s'.state (PTR_MINUS_BYTES p x86_64.head_bytes) = x86_64.EL_USED) :=
  ⟨x86_64_wf, reach0, first_fit x86_64 state0 100 x86_64_wf reach0⟩

theorem malloc_result_witness :
    x86_64.WF ∧ Reachable x86_64 state0 ∧
    el_malloc x86_64 2 state0 100 = some (state1, ptr1) ∧ ptr1 ≠ 0 ∧
    ∃ b, state0.state b = x86_64.EL_AVAILABLE ∧ 100 ≤ state0.size b ∧
      ptr1 = PTR_PLUS_BYTES b x86_64.head_bytes ∧ ptr1 = b + x86_64.head_bytes ∧ ptr1 ≠ b ∧
      state1.state b = x86_64.EL_USED ∧
      (∀ k, state1.used.length < k → ∃ rest, state1.members .used k = some (b :: rest)) ∧
      (∃ f, el_get_footer x86_64 state1 b = some f ∧ state1.foot f = state1.size b) ∧
      (100 + x86_64.EL_BLOCK_OVERHEAD ≤ state0.size b → state1.size b = 100) ∧
      (state0.size b < 100 + x86_64.EL_BLOCK_OVERHEAD → state1.size b = state0.size b) :=
  ⟨x86_64_wf, reach0, malloc1.1, malloc1.2,
    malloc_result x86_64 state0 state1 2 100 ptr1 x86_64_wf reach0 malloc1.1 malloc1.2⟩

/-! ## Shapes of the heap after allocation -/

/-- A successful `el_malloc` in a state satisfying the invariant: the block it
takes is the first fit `b`, and either `b` is taken whole or it is cut down to
`n` bytes and the rest becomes a new available block right above it. -/
theorem el_malloc_shape {L : Layout} {s s' : State} {bs xs ys : List Nat}
    {fuel n p : Nat} (hL : L.WF) (hI : Inv L s bs xs ys)
    (hm : el_malloc L fuel s n = some (s', p)) (hp : p ≠ 0) :
    ∃ b, b ∈ xs ∧ n ≤ s.size b ∧ p = b + L.head_bytes ∧ Alloc L s s' b n ∧
      ((s.size b < n + L.EL_BLOCK_OVERHEAD ∧ Inv L s' bs (xs.erase b) (b :: ys) ∧
          s'.size = s.size ∧ s'.state = Function.update s.state b L.EL_USED) ∨
        (n + L.EL_BLOCK_OVERHEAD ≤ s.size b ∧ ∃ l1 l2, bs = l1 ++ b :: l2 ∧
          Inv L s' (l1 ++ b :: (b + n + L.EL_BLOCK_OVERHEAD) :: l2)
            ((b + n + L.EL_BLOCK_OVERHEAD) :: xs.erase b) (b :: ys) ∧
          s'.size = Function.update (Function.update s.size b n)
            (b + n + L.EL_BLOCK_OVERHEAD) (s.size b - n - L.EL_BLOCK_OVERHEAD) ∧
          s'.state = Function.update (Function.update s.state
            (b + n + L.EL_BLOCK_OVERHEAD) L.EL_AVAILABLE) b L.EL_USED)) := by
  have h' := el_malloc_mono L s n hm (xs.length + 1)
  have hf : xs.length < fuel + (xs.length + 1) := by omega
  have h0 : ∀ x ∈ xs, x ≠ 0 := fun x hx => hI.base.heap.mem_ne_zero (hI.base.avail_sub hx)
  rcases firstFit_cases s n xs h0 with ⟨h1, h2⟩ | ⟨l1, l2, h1, h2, h3, h4⟩
  · exfalso
    unfold el_malloc at h'
    rw [el_find_first_avail_eq hI.base.avail n hf, h1] at h'
    simp at h'
    exact hp h'.2.symm
  · have hbx : firstFit s n xs ∈ xs := by
      generalize firstFit s n xs = b at h1
      rw [h1]; simp
    by_cases hsp : n + L.EL_BLOCK_OVERHEAD ≤ s.size (firstFit s n xs)
    · obtain ⟨t, k1, k2, hb, e, hI', ha, hz, ht⟩ :=
        el_malloc_split_shape hL hI hf rfl hbx hsp
      rw [e] at h'
      cases h'
      exact ⟨_, hbx, h3, rfl, ha, Or.inr ⟨hsp, k1, k2, hb, hI', hz, ht⟩⟩
    · obtain ⟨t, e, hI', ha, hz, ht⟩ :=
        el_malloc_whole_shape hL hI hf rfl hbx h3 (by omega)
      rw [e] at h'
      cases h'
      exact ⟨_, hbx, h3, rfl, ha, Or.inl ⟨by omega, hI', hz, ht⟩⟩

/-- A successful `el_malloc` when the only available block `r` is the last
block of the heap, as after `el_init` and any number of allocations. -/
theorem malloc_top {L : Layout} {s s' : State} {pre ys : List Nat} {r fuel n p : Nat}
    (hL : L.WF) (hI : Inv L s (pre ++ [r]) [r] ys)
    (hm : el_malloc L fuel s n = some (s', p)) (hp : p ≠ 0) :
    p = r + L.head_bytes ∧ n ≤ s.size r ∧ Alloc L s s' r n ∧
      (∀ c ∈ pre, s'.size c = s.size c) ∧
      ((s.size r < n + L.EL_BLOCK_OVERHEAD ∧ Inv L s' (pre ++ [r]) [] (r :: ys) ∧
          s'.size r = s.size r) ∨
        (n + L.EL_BLOCK_OVERHEAD ≤ s.size r ∧
          Inv L s' ((pre ++ [r]) ++ [r + n + L.EL_BLOCK_OVERHEAD])
            [r + n + L.EL_BLOCK_OVERHEAD] (r :: ys) ∧
          s'.size r = n ∧
          s'.size (r + n + L.EL_BLOCK_OVERHEAD) = s.size r - n - L.EL_BLOCK_OVERHEAD)) := by
  have ho := hL.overhead_pos
  have hnd : (pre ++ [r]).Nodup := hI.base.heap.tiled.nodup ho
  have hpr : ∀ c ∈ pre, c ≠ r := by
    intro c hc hcr
    subst hcr
    exact List.disjoint_of_nodup_append hnd hc (by simp)
  obtain ⟨b, hb, hn, hpe, ha, hcase⟩ := el_malloc_shape hL hI hm hp
  obtain rfl : b = r := by simpa using hb
  refine ⟨hpe, hn, ha, ?_, ?_⟩
  · intro c hc
    rcases hcase with ⟨_, _, hz, _⟩ | ⟨_, l1, l2, hdec, hI', hz, _⟩
    · rw [hz]
    · obtain ⟨rfl, rfl⟩ := append_singleton_eq_middle hdec hnd
      have hnd' := hI'.base.heap.tiled.nodup ho
      have hcx : c ≠ b + n + L.EL_BLOCK_OVERHEAD := by
        intro hcx
        subst hcx
        exact List.disjoint_of_nodup_append hnd' hc (by simp)
      rw [hz, Function.update_noteq hcx, Function.update_noteq (hpr c hc)]
  · rcases hcase with ⟨hlt, hI', hz, _⟩ | ⟨hge, l1, l2, hdec, hI', hz, _⟩
    · left
      refine ⟨hlt, ?_, by rw [hz]⟩
      simpa using hI'
    · right
      obtain ⟨rfl, rfl⟩ := append_singleton_eq_middle hdec hnd
      refine ⟨hge, ?_, ?_, ?_⟩
      · simpa using hI'
      · rw [hz, Function.update_noteq (by omega), Function.update_same]
      · rw [hz, Function.update_same]

/-- Nothing can be allocated when the available list is empty. -/
theorem malloc_none_avail {L : Layout} {s s' : State} {bs ys : List Nat}
    {fuel n p : Nat} (hL : L.WF) (hI : Inv L s bs [] ys)
    (hm : el_malloc L fuel s n = some (s', p)) : p = 0 := by
  by_contra hp
  obtain ⟨b, hb, _⟩ := el_malloc_shape hL hI hm hp
  simp at hb

/-! ## Heaps with at most one used block -/

/-- With no used block, the heap is one available block. -/
theorem Inv.one_block {L : Layout} {s : State} {bs xs : List Nat}
    (hI : Inv L s bs xs []) :
    bs = [s.heap_start] ∧ xs = [s.heap_start] ∧
      s.state s.heap_start = L.EL_AVAILABLE ∧
      s.size s.heap_start + L.EL_BLOCK_OVERHEAD = s.heap_bytes := by
  have hH := hI.base.heap
  have hall : ∀ b ∈ bs, s.state b = L.EL_AVAILABLE := by
    intro b hb
    rcases hI.base.tag b hb with h | h
    · exact h
    · have := (hI.base.mem_used b).2 h
      simp at this
  have hbs : bs = [s.heap_start] ∧
      s.size s.heap_start + L.EL_BLOCK_OVERHEAD = s.heap_bytes := by
    cases bs with
    | nil => exact absurd rfl hH.ne
    | cons a tl =>
      obtain ⟨ha, ht⟩ := hH.tiled
      subst ha
      cases tl with
      | nil =>
        have he := hH.extent
        have ht' : s.heap_start + s.size s.heap_start + L.EL_BLOCK_OVERHEAD = s.heap_end := ht
        exact ⟨rfl, by omega⟩
      | cons c tl' =>
        exfalso
        obtain ⟨hc, _⟩ := ht
        exact hI.no_adj s.heap_start (by simp) c (by simp) hc
          ⟨hall _ (by simp), hall _ (by simp)⟩
  obtain ⟨hb1, hb2⟩ := hbs
  have hst : s.state s.heap_start = L.EL_AVAILABLE := hall _ (by rw [hb1]; simp)
  refine ⟨hb1, ?_, hst, hb2⟩
  have ndx : xs.Nodup := nodes_nodup_inner hI.base.avail.nodup
  have hp : xs.Perm [s.heap_start] := by
    refine (List.perm_ext_iff_of_nodup ndx (List.nodup_singleton _)).2 (fun a => ?_)
    rw [hI.base.mem_avail a, hb1]
    constructor
    · intro h; exact h.1
    · intro h
      refine ⟨h, ?_⟩
      rw [List.mem_singleton.1 h]
      exact hst
  exact List.perm_singleton.1 hp

/-- With one used block `c` that is not the first block, the heap starts with
one available block that ends where `c` starts. -/
theorem Inv.block_below_used {L : Layout} {s : State} {bs xs : List Nat} {c : Nat}
    (hI : Inv L s bs xs [c]) (hc : c ≠ s.heap_start) :
    ∃ rest, bs = s.heap_start :: c :: rest ∧
      s.state s.heap_start = L.EL_AVAILABLE ∧
      c = s.heap_start + s.size s.heap_start + L.EL_BLOCK_OVERHEAD ∧
      s.state c = L.EL_USED ∧ s.heap_start ∈ xs := by
  have hH := hI.base.heap
  have hcu : s.state c = L.EL_USED := (hI.base.mem_used c).1 (by simp)
  have hcb : c ∈ bs := hI.base.used_sub c (by simp)
  have hav : ∀ b ∈ bs, b ≠ c → s.state b = L.EL_AVAILABLE := by
    intro b hb hbc
    rcases hI.base.tag b hb with h | h
    · exact h
    · have := (hI.base.mem_used b).2 h
      simp at this
      exact absurd this hbc
  cases bs with
  | nil => exact absurd rfl hH.ne
  | cons a tl =>
    obtain ⟨ha, ht⟩ := hH.tiled
    subst ha
    have hsa : s.state s.heap_start = L.EL_AVAILABLE := hav _ (by simp) (Ne.symm hc)
    have hct : c ∈ tl := by
      rcases List.mem_cons.1 hcb with h | h
      · exact absurd h hc
      · exact h
    cases tl with
    | nil => simp at hct
    | cons d tl' =>
      obtain ⟨hd, _⟩ := ht
      have hdc : d = c := by
        by_contra hne
        exact hI.no_adj s.heap_start (by simp) d (by simp) hd
          ⟨hsa, hav d (by simp) hne⟩
      subst hdc
      exact ⟨tl', rfl, hsa, hd, hcu, (hI.base.mem_avail _).2 ⟨by simp, hsa⟩⟩

/-- What a successful `el_init` leaves, read off its result. -/
theorem el_init_shape {L : Layout} {pre s : State} {n : Nat} (hL : L.WF)
    (hp : Prepared L pre) (hg : Granted L L.EL_HEAP_START_ADDRESS n)
    (hi : el_init L pre L.EL_CTL_START_ADDRESS L.EL_HEAP_START_ADDRESS n = some (s, 0)) :
    L.EL_BLOCK_OVERHEAD ≤ n ∧
      Inv L s [L.EL_HEAP_START_ADDRESS] [L.EL_HEAP_START_ADDRESS] [] ∧
      s.heap_start = L.EL_HEAP_START_ADDRESS ∧ s.heap_bytes = n ∧
      s.size L.EL_HEAP_START_ADDRESS = n - L.EL_BLOCK_OVERHEAD := by
  have hn : L.EL_BLOCK_OVERHEAD ≤ n := by
    by_contra hlt
    have hlt' : n < L.EL_BLOCK_OVERHEAD := by omega
    simp [el_init, hlt'] at hi
  obtain ⟨t, e, hI, h1, h2, h3⟩ := el_init_spec hL hp hg hn
  rw [e] at hi
  cases hi
  exact ⟨hn, hI, h1, h2, h3⟩

/-! ## The scenarios of the specification -/

theorem Inv.one_available {L : Layout} {s : State} {bs xs : List Nat} (hL : L.WF)
    (hI : Inv L s bs xs []) : OneAvailable L s (s.heap_bytes - L.EL_BLOCK_OVERHEAD) := by
  obtain ⟨hb, hx, hst, hsz⟩ := hI.one_block
  subst hb
  subst hx
  have h1 := hI.base.avail.len
  have h2 := hI.base.used.len
  simp only [list_avail, list_used] at h1 h2
  refine ⟨fun fuel hf => hI.base.heap.walk hL (by simpa using hf),
    fun fuel hf => hI.base.avail.members_eq (by simpa using hf),
    fun fuel hf => hI.base.used.members_eq (by simpa using hf),
    by simpa using h1, by simpa using h2, hst, by omega⟩

/-- The state after `el_init` and two successful allocations: the first two
blocks of the heap are the allocated ones, in address order. -/
theorem second_malloc {L : Layout} {pre s0 s1 s2 : State} {H a b p q f1 f2 : Nat}
    (hL : L.WF) (hpre : Prepared L pre) (hg : Granted L L.EL_HEAP_START_ADDRESS H)
    (hi : el_init L pre L.EL_CTL_START_ADDRESS L.EL_HEAP_START_ADDRESS H = some (s0, 0))
    (h1 : el_malloc L f1 s0 a = some (s1, p)) (hp : p ≠ 0)
    (h2 : el_malloc L f2 s1 b = some (s2, q)) (hq : q ≠ 0) :
    p = L.EL_HEAP_START_ADDRESS + L.head_bytes ∧
      q = L.EL_HEAP_START_ADDRESS + a + L.EL_BLOCK_OVERHEAD + L.head_bytes ∧
      s2.heap_start = L.EL_HEAP_START_ADDRESS ∧ s2.heap_bytes = H ∧
      s2.size L.EL_HEAP_START_ADDRESS = a ∧
      (Inv L s2 [L.EL_HEAP_START_ADDRESS, L.EL_HEAP_START_ADDRESS + a + L.EL_BLOCK_OVERHEAD]
          [] [L.EL_HEAP_START_ADDRESS + a + L.EL_BLOCK_OVERHEAD, L.EL_HEAP_START_ADDRESS] ∨
        (Inv L s2 ([L.EL_HEAP_START_ADDRESS,
              L.EL_HEAP_START_ADDRESS + a + L.EL_BLOCK_OVERHEAD] ++
            [L.EL_HEAP_START_ADDRESS + a + L.EL_BLOCK_OVERHEAD + b + L.EL_BLOCK_OVERHEAD])
          [L.EL_HEAP_START_ADDRESS + a + L.EL_BLOCK_OVERHEAD + b + L.EL_BLOCK_OVERHEAD]
          [L.EL_HEAP_START_ADDRESS + a + L.EL_BLOCK_OVERHEAD, L.EL_HEAP_START_ADDRESS] ∧
          s2.size (L.EL_HEAP_START_ADDRESS + a + L.EL_BLOCK_OVERHEAD) = b)) := by
  obtain ⟨_, hI0, hs0, hb0, _⟩ := el_init_shape hL hpre hg hi
  have hI0' : Inv L s0 ([] ++ [L.EL_HEAP_START_ADDRESS]) [L.EL_HEAP_START_ADDRESS] [] := by
    simpa using hI0
  obtain ⟨hpe, _, ha1, _, hc1⟩ := malloc_top hL hI0' h1 hp
  rcases hc1 with ⟨_, hI1, _⟩ | ⟨_, hI1, hz1, _⟩
  · exact absurd (malloc_none_avail hL hI1 h2) hq
  · obtain ⟨hqe, _, ha2, hfr, hc2⟩ := malloc_top hL hI1 h2 hq
    have hza : s2.size L.EL_HEAP_START_ADDRESS = a := by
      rw [hfr _ (by simp), hz1]
    refine ⟨hpe, hqe, by rw [ha2.heap_start, ha1.heap_start, hs0],
      by rw [ha2.heap_bytes, ha1.heap_bytes, hb0], hza, ?_⟩
    rcases hc2 with ⟨_, hI2, _⟩ | ⟨_, hI2, hz2, _⟩
    · left
      simpa using hI2
    · right
      exact ⟨by simpa using hI2, hz2⟩

/-! ## Claims C11 to C14: failed allocation and heap growth -/

/-- C11 (failed allocation): in a reachable state `el_malloc n` returns when
run with fuel beyond the length of the available list, and whenever it returns
NULL the state after the call is the state before it: extent of the heap, both
lists and every header and footer. -/
theorem malloc_null_keeps_state (L : Layout) (s : State) (n : Nat) (hL : L.WF)
    (h : Reachable L s) :
    (∀ fuel, s.avail.length < fuel → ∃ s' p, el_malloc L fuel s n = some (s', p)) ∧
    (∀ fuel s', el_malloc L fuel s n = some (s', 0) → s' = s) := by
  obtain ⟨bs, xs, ys, hI⟩ := reachable_inv hL h
  have hlen := hI.base.avail.len
  simp only [list_avail] at hlen
  have hhp := hL.head_pos
  constructor
  · intro fuel hf
    rcases el_malloc_cases hL hI (show xs.length < fuel by omega) n with
      ⟨_, e⟩ | ⟨_, _, b, _, _, _, _, s', _, _, e, _, _⟩
    · exact ⟨s, 0, e⟩
    · exact ⟨s', _, e⟩
  · intro fuel s' hm
    have h' := el_malloc_mono L s n hm (xs.length + 1)
    rcases el_malloc_cases hL hI (show xs.length < fuel + (xs.length + 1) by omega) n with
      ⟨_, e⟩ | ⟨_, _, b, _, _, _, _, t, _, _, e, _, _⟩
    · rw [e] at h'
      cases h'
      rfl
    · rw [e] at h'
      simp only [Option.some.injEq, Prod.mk.injEq] at h'
      omega

/-- C12 (failed growth): `el_append_pages_to_heap` returns 1 and the state it
was given when the page count is not positive, when the mapping is denied
(`MAP_FAILED`) and when the mapping is granted elsewhere than at `heap_end`. -/
theorem append_failure_keeps_state (L : Layout) (s : State) (npages : Int) (addr : Nat)
    (h : npages ≤ 0 ∨ addr = MAP_FAILED ∨ addr ≠ s.heap_end) :
    el_append_pages_to_heap L s npages addr = some (s, 1) := by
  unfold el_append_pages_to_heap
  by_cases hn : npages ≤ 0
  · rw [if_pos hn]
  · rw [if_neg hn]
    have h' : addr = MAP_FAILED ∨ addr ≠ s.heap_end := h.resolve_left hn
    simp only [if_pos h']

/-- C13 (amended): in a reachable state, for a positive page count whose byte
count `npages * EL_PAGE_BYTES` fits a C `int` (is below `2 ^ 31`) and whose
mapping is granted at `heap_end`, `el_append_pages_to_heap` returns 0;
`heap_start` is unchanged; `heap_bytes`, `heap_end` and the bytes of
the available list grow by `npages * EL_PAGE_BYTES`; the used list keeps its
counters and its members; and with `last` the last block of the heap walk
before the call: if `last` is used, the walk gains one block at the old
`heap_end`, available, of size `npages * EL_PAGE_BYTES - EL_BLOCK_OVERHEAD`; if
`last` is available, the walk is the same and `last` has grown by
`npages * EL_PAGE_BYTES`; in both cases that block ends at the new
`heap_end`. -/
theorem append_success (L : Layout) (s : State) (npages : Int) (hL : L.WF)
    (h : Reachable L s) (h0 : 0 < npages)
    (h1 : npages * (L.EL_PAGE_BYTES : Int) < 2 ^ 31)
    (hg : Granted L s.heap_end (npages.toNat * L.EL_PAGE_BYTES)) :
    ∃ s', el_append_pages_to_heap L s npages s.heap_end = some (s', 0) ∧
      s'.heap_start = s.heap_start ∧
      s'.heap_bytes = s.heap_bytes + npages.toNat * L.EL_PAGE_BYTES ∧
      s'.heap_end = s.heap_end + npages.toNat * L.EL_PAGE_BYTES ∧
      s'.avail.bytes = s.avail.bytes + npages.toNat * L.EL_PAGE_BYTES ∧
      s'.used = s.used ∧
      (∃ ys, ∀ fuel, ys.length < fuel →
        s.members .used fuel = some ys ∧ s'.members .used fuel = some ys) ∧
      ∃ l1 last,
        (∀ fuel, l1.length + 1 < fuel →
          heap_walk L s fuel s.heap_start = some (l1 ++ [last])) ∧
        (s.state last = L.EL_USED ∨ s.state last = L.EL_AVAILABLE) ∧
        (s.state last = L.EL_USED →
          (∀ fuel, l1.length + 2 < fuel →
            heap_walk L s' fuel s'.heap_start = some (l1 ++ [last, s.heap_end])) ∧
          s'.state s.heap_end = L.EL_AVAILABLE ∧
          s'.size s.heap_end = npages.toNat * L.EL_PAGE_BYTES - L.EL_BLOCK_OVERHEAD ∧
          s.heap_end + s'.size s.heap_end + L.EL_BLOCK_OVERHEAD = s'.heap_end) ∧
        (s.state last = L.EL_AVAILABLE →
          (∀ fuel, l1.length + 1 < fuel →
            heap_walk L s' fuel s'.heap_start = some (l1 ++ [last])) ∧
          s'.state last = L.EL_AVAILABLE ∧
          s'.size last = s.size last + npages.toNat * L.EL_PAGE_BYTES ∧
          last + s'.size last + L.EL_BLOCK_OVERHEAD = s'.heap_end) := by
  obtain ⟨bs, xs, ys, hI⟩ := reachable_inv hL h
  obtain ⟨hbe, hbo⟩ := bytes_add_eq hL h0 h1
  have hH := hI.base.heap
  have ho := hL.overhead_pos
  obtain ⟨s', bs', xs', e, hI', hgr, hst, l1, last, hbs, hcase⟩ :=
    el_append_shape hL hI h0 h1 (by rw [hbe]; exact hg)
  have hlast : last ∈ bs := by rw [hbs]; simp
  have hr := hH.mem_range hlast
  have hlend : last + s.size last + L.EL_BLOCK_OVERHEAD = s.heap_end := by
    have ht := hH.tiled
    rw [hbs] at ht
    rcases ht.above with ⟨_, h⟩ | ⟨l2', h, _⟩
    · exact h
    · simp at h
  refine ⟨s', e, hgr.heap_start, hgr.heap_bytes, hgr.heap_end, hgr.avail_bytes, hgr.used,
    ⟨ys, fun fuel hf => ⟨hI.base.used.members_eq hf, hI'.base.used.members_eq hf⟩⟩,
    l1, last, ?_, (hI.base.tag last hlast).symm, ?_, ?_⟩
  · intro fuel hf
    rw [← hbs]
    exact hH.walk hL (by rw [hbs]; simpa using hf)
  · intro hu
    rcases hcase with ⟨_, hb', hz⟩ | ⟨ha, _, _⟩
    · refine ⟨fun fuel hf => ?_, by rw [hst, Function.update_same],
        by rw [hz, Function.update_same], ?_⟩
      · have : heap_walk L s' fuel s'.heap_start = some bs' :=
          hI'.base.heap.walk hL (by rw [hb', hbs]; simpa using hf)
        rw [this, hb', hbs]
        simp
      · rw [hz, Function.update_same, hgr.heap_end]
        omega
    · exact absurd (ha.symm.trans hu) hL.avail_ne_used
  · intro ha
    rcases hcase with ⟨hu, _, _⟩ | ⟨_, hb', hz⟩
    · exact absurd (ha.symm.trans hu) hL.avail_ne_used
    · have hne : last ≠ s.heap_end := by omega
      refine ⟨fun fuel hf => ?_, by rw [hst, Function.update_noteq hne, ha],
        by rw [hz, Function.update_same], ?_⟩
      · have : heap_walk L s' fuel s'.heap_start = some bs' :=
          hI'.base.heap.walk hL (by rw [hb', hbs]; simpa using hf)
        rw [this, hb', hbs]
      · rw [hz, Function.update_same, hgr.heap_end]
        omega

/-- C14 (amended): in a reachable state, after a successful
`el_append_pages_to_heap` of a positive number `npages` of pages whose byte
count `npages * EL_PAGE_BYTES` fits a C `int`, `el_malloc k` for every
`k <= npages * EL_PAGE_BYTES - EL_BLOCK_OVERHEAD`, run with fuel beyond the
length of the available list, returns a non-null pointer. -/
theorem malloc_after_append (L : Layout) (s s' : State) (npages : Int) (k : Nat)
    (hL : L.WF) (h : Reachable L s) (h0 : 0 < npages)
    (h1 : npages * (L.EL_PAGE_BYTES : Int) < 2 ^ 31)
    (hg : Granted L s.heap_end (npages.toNat * L.EL_PAGE_BYTES))
    (ha : el_append_pages_to_heap L s npages s.heap_end = some (s', 0))
    (hk : k ≤ npages.toNat * L.EL_PAGE_BYTES - L.EL_BLOCK_OVERHEAD) :
    ∀ fuel, s'.avail.length < fuel →
      ∃ s'' p, el_malloc L fuel s' k = some (s'', p) ∧ p ≠ 0 := by
  obtain ⟨bs, xs, ys, hI⟩ := reachable_inv hL h
  obtain ⟨hbe, hbo⟩ := bytes_add_eq hL h0 h1
  have hhp := hL.head_pos
  obtain ⟨t, bs', xs', e, hI', hgr, hst, l1, last, hbs, hcase⟩ :=
    el_append_shape hL hI h0 h1 (by rw [hbe]; exact hg)
  rw [e] at ha
  cases ha
  have hlast : last ∈ bs := by rw [hbs]; simp
  have hr := hI.base.heap.mem_range hlast
  have ho := hL.overhead_pos
  have hbig : ∃ x ∈ xs', k ≤ s'.size x := by
    rcases hcase with ⟨_, hb', hz⟩ | ⟨hla, hb', hz⟩
    · refine ⟨s.heap_end, (hI'.base.mem_avail _).2 ⟨by rw [hb']; simp, ?_⟩, ?_⟩
      · rw [hst, Function.update_same]
      · rw [hz, Function.update_same]; exact hk
    · have hne : last ≠ s.heap_end := by omega
      refine ⟨last, (hI'.base.mem_avail _).2 ⟨by rw [hb']; exact hlast, ?_⟩, ?_⟩
      · rw [hst, Function.update_noteq hne, hla]
      · rw [hz, Function.update_same]; omega
  obtain ⟨x, hx, hxk⟩ := hbig
  have hlen := hI'.base.avail.len
  simp only [list_avail] at hlen
  intro fuel hf
  rcases el_malloc_cases hL hI' (show xs'.length < fuel by omega) k with
    ⟨hall, _⟩ | ⟨_, _, b, _, _, _, _, s'', _, _, e', _, _⟩
  · have := hall x hx
    omega
  · exact ⟨s'', _, e', by omega⟩

/-! ## Claims C15 and C16: coalescing scenarios -/

/-- Freeing the pointer of a member of the used list. -/
theorem free_member {L : Layout} {s : State} {bs xs ys : List Nat} {b : Nat}
    (hL : L.WF) (hI : Inv L s bs xs ys) (hb : b ∈ ys) :
    ∃ s' bs' xs', el_free L s (b + L.head_bytes) = some s' ∧
      Inv L s' bs' xs' (ys.erase b) ∧ Freed L s s' b := by
  have hhp := hL.head_pos
  exact el_free_spec hL hI hb (by omega)
    (hI.base.heap.ptr_block (hI.base.used_sub b hb))

theorem erase_pair_fst (x y : Nat) : [x, y].erase x = [y] := by simp

theorem erase_pair_snd {x y : Nat} (h : x ≠ y) : [x, y].erase y = [x] := by
  simp [List.erase_cons, h]

/-- Freeing the two members of a used list of two blocks, in either order,
leaves one available block. -/
theorem free_pair {L : Layout} {s : State} {bs xs : List Nat} {x y : Nat}
    (hL : L.WF) (hI : Inv L s bs xs [x, y]) :
    (∃ s3 s4, el_free L s (x + L.head_bytes) = some s3 ∧
      el_free L s3 (y + L.head_bytes) = some s4 ∧ s4.heap_start = s.heap_start ∧
      OneAvailable L s4 (s.heap_bytes - L.EL_BLOCK_OVERHEAD)) ∧
    (∃ s3 s4, el_free L s (y + L.head_bytes) = some s3 ∧
      el_free L s3 (x + L.head_bytes) = some s4 ∧ s4.heap_start = s.heap_start ∧
      OneAvailable L s4 (s.heap_bytes - L.EL_BLOCK_OVERHEAD)) := by
  have hne : x ≠ y := by
    have := nodes_nodup_inner hI.base.used.nodup
    simp at this
    exact this
  constructor
  · obtain ⟨s3, bs3, xs3, e3, hI3, f3⟩ := free_member hL hI (show x ∈ [x, y] by simp)
    rw [erase_pair_fst] at hI3
    obtain ⟨s4, bs4, xs4, e4, hI4, f4⟩ := free_member hL hI3 (show y ∈ [y] by simp)
    rw [List.erase_cons_head] at hI4
    have := hI4.one_available hL
    rw [f4.heap_bytes, f3.heap_bytes] at this
    exact ⟨s3, s4, e3, e4, by rw [f4.heap_start, f3.heap_start], this⟩
  · obtain ⟨s3, bs3, xs3, e3, hI3, f3⟩ := free_member hL hI (show y ∈ [x, y] by simp)
    rw [erase_pair_snd hne] at hI3
    obtain ⟨s4, bs4, xs4, e4, hI4, f4⟩ := free_member hL hI3 (show x ∈ [x] by simp)
    rw [List.erase_cons_head] at hI4
    have := hI4.one_available hL
    rw [f4.heap_bytes, f3.heap_bytes] at this
    exact ⟨s3, s4, e3, e4, by rw [f4.heap_start, f3.heap_start], this⟩

/-- C15 (full re-coalescing): when `el_init H` returns 0 and `el_malloc a`,
then `el_malloc b`, return the non-null pointers `p` and `q`, freeing `p` then
`q`, and also freeing `q` then `p`, returns and leaves the used list empty and
the available list with one member: the block at `heap_start`, which is the
whole heap, of size `H - EL_BLOCK_OVERHEAD`. -/
theorem full_recoalescing (L : Layout) (pre s0 s1 s2 : State) (H a b p q f1 f2 : Nat)
    (hL : L.WF) (hpre : Prepared L pre) (hg : Granted L L.EL_HEAP_START_ADDRESS H)
    (hi : el_init L pre L.EL_CTL_START_ADDRESS L.EL_HEAP_START_ADDRESS H = some (s0, 0))
    (h1 : el_malloc L f1 s0 a = some (s1, p)) (hp : p ≠ 0)
    (h2 : el_malloc L f2 s1 b = some (s2, q)) (hq : q ≠ 0) :
    (∃ s3 s4, el_free L s2 p = some s3 ∧ el_free L s3 q = some s4 ∧
      s4.heap_start = L.EL_HEAP_START_ADDRESS ∧
      OneAvailable L s4 (H - L.EL_BLOCK_OVERHEAD)) ∧
    (∃ s3 s4, el_free L s2 q = some s3 ∧ el_free L s3 p = some s4 ∧
      s4.heap_start = L.EL_HEAP_START_ADDRESS ∧
      OneAvailable L s4 (H - L.EL_BLOCK_OVERHEAD)) := by
  obtain ⟨hpe, hqe, hs, hb, _, hcase⟩ := second_malloc hL hpre hg hi h1 hp h2 hq
  have hI : ∃ bs xs, Inv L s2 bs xs
      [L.EL_HEAP_START_ADDRESS + a + L.EL_BLOCK_OVERHEAD, L.EL_HEAP_START_ADDRESS] := by
    rcases hcase with h | ⟨h, _⟩
    · exact ⟨_, _, h⟩
    · exact ⟨_, _, h⟩
  obtain ⟨bs, xs, hI⟩ := hI
  obtain ⟨k1, k2⟩ := free_pair hL hI
  rw [hs, hb, ← hpe, ← hqe] at k1 k2
  exact ⟨k2, k1⟩

/-- The state after `el_init` and three successful allocations: the first
three blocks of the heap are the allocated ones, in address order. -/
theorem third_malloc {L : Layout} {pre s0 s1 s2 s3 : State}
    {H a b c pA pB pC f1 f2 f3 : Nat}
    (hL : L.WF) (hpre : Prepared L pre) (hg : Granted L L.EL_HEAP_START_ADDRESS H)
    (hi : el_init L pre L.EL_CTL_START_ADDRESS L.EL_HEAP_START_ADDRESS H = some (s0, 0))
    (h1 : el_malloc L f1 s0 a = some (s1, pA)) (hA : pA ≠ 0)
    (h2 : el_malloc L f2 s1 b = some (s2, pB)) (hB : pB ≠ 0)
    (h3 : el_malloc L f3 s2 c = some (s3, pC)) (hC : pC ≠ 0) :
    ∃ A B C tail xs, A = L.EL_HEAP_START_ADDRESS ∧ B = A + a + L.EL_BLOCK_OVERHEAD ∧
      C = B + b + L.EL_BLOCK_OVERHEAD ∧
      pA = A + L.head_bytes ∧ pB = B + L.head_bytes ∧ pC = C + L.head_bytes ∧
      Inv L s3 (A :: B :: C :: tail) xs [C, B, A] ∧
      s3.heap_start = A ∧ s3.heap_bytes = H ∧ s3.size A = a ∧ s3.size B = b := by
  obtain ⟨hpe, hqe, hs, hb, hza, hcase⟩ := second_malloc hL hpre hg hi h1 hA h2 hB
  rcases hcase with hI2 | ⟨hI2, hzb⟩
  · exact absurd (malloc_none_avail hL hI2 h3) hC
  · obtain ⟨hce, _, ha3, hfr, hc3⟩ := malloc_top hL hI2 h3 hC
    have hfa := hfr L.EL_HEAP_START_ADDRESS (by simp)
    have hfb := hfr (L.EL_HEAP_START_ADDRESS + a + L.EL_BLOCK_OVERHEAD) (by simp)
    have hI3 : ∃ tail xs, Inv L s3 (L.EL_HEAP_START_ADDRESS ::
        (L.EL_HEAP_START_ADDRESS + a + L.EL_BLOCK_OVERHEAD) ::
        (L.EL_HEAP_START_ADDRESS + a + L.EL_BLOCK_OVERHEAD + b + L.EL_BLOCK_OVERHEAD) ::
        tail) xs
        [L.EL_HEAP_START_ADDRESS + a + L.EL_BLOCK_OVERHEAD + b + L.EL_BLOCK_OVERHEAD,
          L.EL_HEAP_START_ADDRESS + a + L.EL_BLOCK_OVERHEAD, L.EL_HEAP_START_ADDRESS] := by
      rcases hc3 with ⟨_, h, _⟩ | ⟨_, h, _⟩
      · exact ⟨[], _, by simpa using h⟩
      · exact ⟨_, _, by simpa using h⟩
    obtain ⟨tail, xs, hI3⟩ := hI3
    exact ⟨_, _, _, tail, xs, rfl, rfl, rfl, hpe, hqe, hce, hI3,
      by rw [ha3.heap_start, hs], by rw [ha3.heap_bytes, hb], by rw [hfa, hza],
      by rw [hfb, hzb]⟩

/-- C16 (three adjacent blocks): when `el_init H` returns 0 and three
allocations in a row return the non-null pointers `pA`, `pB`, `pC`, their
blocks `A`, `B`, `C` are used, `A` is at `heap_start`, `B` is right above `A`
and `C` right above `B`.  Freeing `pB` then `pA` returns and leaves at `A` one
available block of size `sA + sB + EL_BLOCK_OVERHEAD` with a matching footer,
right below `C`, which is still used and the only used block (the heap walk
goes from `A` straight to `C`).  Freeing `pC` then leaves the whole heap as one
available block at `A`, of size `H - EL_BLOCK_OVERHEAD`, which is at least
`sA + sB + sC + 2 * EL_BLOCK_OVERHEAD`. -/
theorem three_block_coalescing (L : Layout) (pre s0 s1 s2 s3 : State)
    (H a b c pA pB pC f1 f2 f3 : Nat)
    (hL : L.WF) (hpre : Prepared L pre) (hg : Granted L L.EL_HEAP_START_ADDRESS H)
    (hi : el_init L pre L.EL_CTL_START_ADDRESS L.EL_HEAP_START_ADDRESS H = some (s0, 0))
    (h1 : el_malloc L f1 s0 a = some (s1, pA)) (hA : pA ≠ 0)
    (h2 : el_malloc L f2 s1 b = some (s2, pB)) (hB : pB ≠ 0)
    (h3 : el_malloc L f3 s2 c = some (s3, pC)) (hC : pC ≠ 0) :
    ∃ A B C, pA = A + L.head_bytes ∧ pB = B + L.head_bytes ∧ pC = C + L.head_bytes ∧
      A = s3.heap_start ∧
      el_block_above L s3 A = some B ∧ el_block_above L s3 B = some C ∧
      A < B ∧ B < C ∧
      s3.state A = L.EL_USED ∧ s3.state B = L.EL_USED ∧ s3.state C = L.EL_USED ∧
      ∃ s4 s5 s6, el_free L s3 pB = some s4 ∧ el_free L s4 pA = some s5 ∧
        s5.state A = L.EL_AVAILABLE ∧
        s5.size A = s3.size A + s3.size B + L.EL_BLOCK_OVERHEAD ∧
        s5.foot (A + L.head_bytes + s5.size A) = s5.size A ∧
        el_block_above L s5 A = some C ∧ s5.state C = L.EL_USED ∧
        (∀ fuel, 1 < fuel → s5.members .used fuel = some [C]) ∧
        (∃ rest, ∀ fuel, rest.length + 2 < fuel →
          heap_walk L s5 fuel s5.heap_start = some (A :: C :: rest)) ∧
        el_free L s5 pC = some s6 ∧ s6.heap_start = A ∧
        OneAvailable L s6 (H - L.EL_BLOCK_OVERHEAD) ∧
        s3.size A + s3.size B + s3.size C + 2 * L.EL_BLOCK_OVERHEAD ≤ s6.size A := by
  obtain ⟨A, B, C, tail, xs, hAe, hBe, hCe, hpa, hpb, hpc, hI3, hs3, hb3, hza, hzb⟩ :=
    third_malloc hL hpre hg hi h1 hA h2 hB h3 hC
  have ho := hL.overhead_pos
  have hH3 := hI3.base.heap
  obtain ⟨hab, _, _⟩ := (show HeapOK L s3 ([] ++ A :: B :: (C :: tail)) from hH3).above_next hL
  obtain ⟨hbc, _, _⟩ := (show HeapOK L s3 ([A] ++ B :: C :: tail) from hH3).above_next hL
  have hCB : C ≠ B := by omega
  have hCA : C ≠ A := by omega
  have hrC := hH3.mem_range (show C ∈ A :: B :: C :: tail by simp)
  have hext := hH3.extent
  obtain ⟨s4, bs4, xs4, e4, hI4, fr4⟩ := free_member hL hI3 (show B ∈ [C, B, A] by simp)
  have he4 : [C, B, A].erase B = [C, A] := by simp [List.erase_cons, hCB]
  rw [he4] at hI4
  obtain ⟨s5, bs5, xs5, e5, hI5, fr5⟩ := free_member hL hI4 (show A ∈ [C, A] by simp)
  rw [erase_pair_snd hCA] at hI5
  have hs5 : s5.heap_start = A := by rw [fr5.heap_start, fr4.heap_start, hs3]
  obtain ⟨rest, hbs5, hsa, hce, hcu, _⟩ := hI5.block_below_used (by rw [hs5]; exact hCA)
  rw [hs5] at hbs5 hsa hce
  have hH5 := hI5.base.heap
  have hmemA : A ∈ bs5 := by rw [hbs5]; simp
  obtain ⟨hab5, _, _⟩ := (show HeapOK L s5 ([] ++ A :: C :: rest) by
    rw [← hbs5]; exact hH5).above_next hL
  obtain ⟨s6, bs6, xs6, e6, hI6, fr6⟩ := free_member hL hI5 (show C ∈ [C] by simp)
  rw [List.erase_cons_head] at hI6
  have hone := hI6.one_available hL
  have hs6 : s6.heap_start = A := by rw [fr6.heap_start, hs5]
  have hb6 : s6.heap_bytes = H := by
    rw [fr6.heap_bytes, fr5.heap_bytes, fr4.heap_bytes, hb3]
  rw [hb6] at hone
  have hz6 : s6.size A = H - L.EL_BLOCK_OVERHEAD := by
    have := hone.2.2.2.2.2.2
    rwa [hs6] at this
  refine ⟨A, B, C, hpa, hpb, hpc, hs3.symm, hab, hbc, by omega, by omega,
    (hI3.base.mem_used A).1 (by simp), (hI3.base.mem_used B).1 (by simp),
    (hI3.base.mem_used C).1 (by simp), s4, s5, s6, by rw [hpb]; exact e4,
    by rw [hpa]; exact e5, hsa, by omega, hH5.foot_ok A hmemA, hab5, hcu,
    fun fuel hf => hI5.base.used.members_eq (by simpa using hf),
    ⟨rest, fun fuel hf => ?_⟩, by rw [hpc]; exact e6, hs6, hone, ?_⟩
  · rw [← hbs5]
    exact hH5.walk hL (by rw [hbs5]; simpa using hf)
  · rw [hz6]
    omega

/-! ## Claims C17 to C20: merging, splitting, boundary tags -/

/-- C17 (merge): `el_merge_block_with_above lower` returns the state it was
given when `lower` is NULL, when `lower` is not available, and when
`el_block_above lower` is NULL or not available.  In a state with well-formed
heap and lists, when `lower` is an available block and the block `u` above it
is available (both are then members of the available list), it returns a state
in which `lower` has size `old lower.size + old u.size + EL_BLOCK_OVERHEAD`,
`lower`'s footer holds that size, `lower` is the first member of the available
list, `u` is not a member, the length of the available list is one less and
its bytes are the same. -/
theorem merge_with_above (L : Layout) (s : State) (lower : Nat) (hL : L.WF) :
    ((lower = 0 ∨ s.state lower ≠ L.EL_AVAILABLE ∨
        ∃ u, el_block_above L s lower = some u ∧ (u = 0 ∨ s.state u ≠ L.EL_AVAILABLE)) →
      el_merge_block_with_above L s lower = some s) ∧
    (∀ bs xs ys u, Inv0 L s bs xs ys → lower ∈ bs → s.state lower = L.EL_AVAILABLE →
      el_block_above L s lower = some u → u ≠ 0 → s.state u = L.EL_AVAILABLE →
      lower ∈ xs ∧ u ∈ xs ∧
      ∃ s', el_merge_block_with_above L s lower = some s' ∧
        s'.size lower = s.size lower + s.size u + L.EL_BLOCK_OVERHEAD ∧
        el_get_footer L s' lower = some (lower + L.head_bytes + s'.size lower) ∧
        s'.foot (lower + L.head_bytes + s'.size lower) = s'.size lower ∧
        (∃ ms, (∀ fuel, ms.length + 1 < fuel →
            s'.members .avail fuel = some (lower :: ms)) ∧ u ∉ lower :: ms) ∧
        s'.avail.length + 1 = s.avail.length ∧ s'.avail.bytes = s.avail.bytes) := by
  constructor
  · intro h
    unfold el_merge_block_with_above
    by_cases h0 : lower = 0
    · rw [if_pos h0]
    · rw [if_neg h0]
      by_cases ha : s.state lower ≠ L.EL_AVAILABLE
      · rw [if_pos ha]
      · rw [if_neg ha]
        rcases h with h | h | ⟨u, hu, hc⟩
        · exact absurd h h0
        · exact absurd h ha
        · rw [hu]
          rcases hc with rfl | hc
          · simp
          · by_cases hu0 : u = 0
            · simp [hu0]
            · simp [hu0, hc]
  · intro bs xs ys u hI hlb hla hab hu0 hua
    have hH := hI.heap
    have ho := hL.overhead_pos
    obtain ⟨hub, hue⟩ := hH.above_mem hL hlb hab hu0
    have hlx : lower ∈ xs := (hI.mem_avail lower).2 ⟨hlb, hla⟩
    have hux : u ∈ xs := (hI.mem_avail u).2 ⟨hub, hua⟩
    refine ⟨hlx, hux, ?_⟩
    obtain ⟨l1, l2, rfl⟩ := List.append_of_mem hlb
    rcases hH.tiled.above with ⟨rfl, _⟩ | ⟨l2', rfl, _⟩
    · rw [hH.above_last] at hab
      cases hab
      exact absurd rfl hu0
    · rw [← hue] at hI hH
      obtain ⟨s', e, hI', hm⟩ := el_merge_spec hL hI hla hua
      have hmem : lower ∈ l1 ++ lower :: l2' := by simp
      have hf := hI'.heap.footer hmem
      have ndx : xs.Nodup := nodes_nodup_inner hI.avail.nodup
      have hlen := hI'.avail.len
      simp only [list_avail] at hlen
      have hul : u ≠ lower := by omega
      refine ⟨s', e, by rw [hm.size, Function.update_same], hf.1,
        hI'.heap.foot_ok lower hmem, ⟨(xs.erase lower).erase u, fun fuel hf' => ?_, ?_⟩,
        hm.avail_len, hm.avail_bytes⟩
      · exact hI'.avail.members_eq (by simpa using hf')
      · intro hmm
        rcases List.mem_cons.1 hmm with h | h
        · exact hul h
        · exact ((List.Nodup.mem_erase_iff (ndx.erase lower)).1 h).1 rfl

/-- C18 (counterexample): with a block of 4056 bytes and the request
`2 ^ 64 - 1`, the sum `new_size + EL_BLOCK_OVERHEAD` wraps around to 39 and
`el_split_block` returns a new block, although the block is smaller than the
request plus the overhead. -/
theorem split_accepts_wrapped_request :
    ∃ s' r, el_split_block x86_64 state0 x86_64.EL_HEAP_START_ADDRESS (2 ^ 64 - 1) =
        some (s', r) ∧ r ≠ 0 ∧
      ¬ (2 ^ 64 - 1 + x86_64.EL_BLOCK_OVERHEAD ≤
        state0.size x86_64.EL_HEAP_START_ADDRESS) := by
  have hz : state0.size 105553116266496 = 4056 := inv0.2
  have h : (el_split_block x86_64 state0 x86_64.EL_HEAP_START_ADDRESS (2 ^ 64 - 1)).map
      Prod.snd = some 105553116266535 := by
    simp [el_split_block, deref, add64, sub64, WORD, PTR_PLUS_BYTES, el_get_footer,
      Layout.EL_BLOCK_OVERHEAD, x86_64, hz]
  obtain ⟨⟨s', r⟩, e, hr⟩ := Option.map_eq_some'.1 h
  refine ⟨s', r, e, ?_, ?_⟩
  · simp only at hr
    omega
  · rw [inv0.2]
    decide

/-- C18 (amended): for a non-null block that lies inside the address space and
a request for which `requested + EL_BLOCK_OVERHEAD` does not wrap around,
`el_split_block` returns; it returns a new block exactly when
`block.size >= requested + EL_BLOCK_OVERHEAD`, and NULL with the state
unchanged otherwise.  On success the block has size `requested` and a footer
holding it, the new block starts right after that footer, is available, has
size `old block.size - requested - EL_BLOCK_OVERHEAD` and a footer holding it,
and the two blocks cover exactly the bytes of the original block. -/
theorem split_block_amended (L : Layout) (s : State) (b n : Nat) (hL : L.WF)
    (h0 : b ≠ 0) (hn : n + L.EL_BLOCK_OVERHEAD < WORD)
    (hw : b + s.size b + L.EL_BLOCK_OVERHEAD < WORD) :
    ∃ s' r, el_split_block L s b n = some (s', r) ∧
      (r ≠ 0 ↔ n + L.EL_BLOCK_OVERHEAD ≤ s.size b) ∧
      (r = 0 → s' = s) ∧
      (r ≠ 0 →
        s'.size b = n ∧
        el_get_footer L s' b = some (b + L.head_bytes + n) ∧
        s'.foot (b + L.head_bytes + n) = n ∧
        r = b + L.head_bytes + n + L.foot_bytes ∧
        s'.state r = L.EL_AVAILABLE ∧
        s'.size r = s.size b - n - L.EL_BLOCK_OVERHEAD ∧
        el_get_footer L s' r = some (r + L.head_bytes + s'.size r) ∧
        s'.foot (r + L.head_bytes + s'.size r) = s'.size r ∧
        (s'.size b + L.EL_BLOCK_OVERHEAD) + (s'.size r + L.EL_BLOCK_OVERHEAD) =
          s.size b + L.EL_BLOCK_OVERHEAD ∧
        r + s'.size r + L.EL_BLOCK_OVERHEAD = b + s.size b + L.EL_BLOCK_OVERHEAD) := by
  have ho := hL.overhead_pos
  have hhp := hL.head_pos
  have hfp := hL.foot_pos
  have hoe : L.EL_BLOCK_OVERHEAD = L.head_bytes + L.foot_bytes := rfl
  by_cases hge : n + L.EL_BLOCK_OVERHEAD ≤ s.size b
  · obtain ⟨s', e, hz, ht, hf, _, _, _, _, _, _, _⟩ := el_split_block_spec L s h0 hge hw
    have hrb : b + n + L.EL_BLOCK_OVERHEAD ≠ b := by omega
    have hzb : s'.size b = n := by
      rw [hz, Function.update_noteq hrb.symm, Function.update_same]
    have hzr : s'.size (b + n + L.EL_BLOCK_OVERHEAD) =
        s.size b - n - L.EL_BLOCK_OVERHEAD := by
      rw [hz, Function.update_same]
    have hfa : b + n + L.EL_BLOCK_OVERHEAD + L.head_bytes +
        (s.size b - n - L.EL_BLOCK_OVERHEAD) = b + s.size b + L.head_bytes := by omega
    refine ⟨s', _, e, ⟨fun _ => hge, fun _ => by omega⟩, fun h => by omega, fun _ => ?_⟩
    refine ⟨hzb, ?_, ?_, by omega, by rw [ht, Function.update_same], hzr, ?_, ?_,
      by rw [hzb, hzr]; omega, by rw [hzr]; omega⟩
    · have := el_get_footer_eq L s' h0 (by rw [hzb]; omega)
      rwa [hzb] at this
    · rw [hf, Function.update_noteq (by omega), Function.update_same]
    · exact el_get_footer_eq L s' (by omega) (by rw [hzr]; omega)
    · rw [hzr, hfa, hf, Function.update_same]
  · have e := el_split_block_small L s h0 (show s.size b < n + L.EL_BLOCK_OVERHEAD by omega) hn
    exact ⟨s, 0, e, ⟨fun h => absurd rfl h, fun h => absurd h hge⟩, fun _ => rfl,
      fun h => absurd rfl h⟩

/-- C20 (counterexample): splitting the block of 4056 bytes of `state0` for a
request of 4016 bytes succeeds and leaves a new block of size 0. -/
theorem split_leaves_empty_block :
    ∃ s' r, el_split_block x86_64 state0 x86_64.EL_HEAP_START_ADDRESS 4016 =
        some (s', r) ∧ r ≠ 0 ∧ s'.size r = 0 := by
  have hz : state0.size x86_64.EL_HEAP_START_ADDRESS = 4056 := inv0.2
  obtain ⟨s', e, hs, _⟩ := el_split_block_spec x86_64 state0
    (b := x86_64.EL_HEAP_START_ADDRESS) (n := 4016) (by decide) (by rw [hz]; decide)
    (by rw [hz]; unfold WORD; decide)
  refine ⟨s', _, e, by decide, ?_⟩
  rw [hs, Function.update_same, hz]
  rfl

/-- C20 (amended): for a non-null block inside the address space and a request
that does not wrap around, when `el_split_block` returns a new block, the size
of that block is `block.size - requested - EL_BLOCK_OVERHEAD`; it is 0 exactly
when `block.size = requested + EL_BLOCK_OVERHEAD` and at least 1 exactly when
`block.size > requested + EL_BLOCK_OVERHEAD`. -/
theorem split_leftover_size (L : Layout) (s s' : State) (b n r : Nat)
    (h0 : b ≠ 0) (hn : n + L.EL_BLOCK_OVERHEAD < WORD)
    (hw : b + s.size b + L.EL_BLOCK_OVERHEAD < WORD)
    (hs : el_split_block L s b n = some (s', r)) (hr : r ≠ 0) :
    n + L.EL_BLOCK_OVERHEAD ≤ s.size b ∧
      s'.size r = s.size b - n - L.EL_BLOCK_OVERHEAD ∧
      (s'.size r = 0 ↔ s.size b = n + L.EL_BLOCK_OVERHEAD) ∧
      (1 ≤ s'.size r ↔ n + L.EL_BLOCK_OVERHEAD < s.size b) := by
  by_cases hge : n + L.EL_BLOCK_OVERHEAD ≤ s.size b
  · obtain ⟨t, e, hz, _⟩ := el_split_block_spec L s h0 hge hw
    rw [e] at hs
    simp only [Option.some.injEq, Prod.mk.injEq] at hs
    obtain ⟨rfl, rfl⟩ := hs
    have hzr : t.size (b + n + L.EL_BLOCK_OVERHEAD) =
        s.size b - n - L.EL_BLOCK_OVERHEAD := by
      rw [hz, Function.update_same]
    refine ⟨hge, hzr, ?_, ?_⟩ <;> rw [hzr] <;> omega
  · have e := el_split_block_small L s h0 (show s.size b < n + L.EL_BLOCK_OVERHEAD by omega) hn
    rw [e] at hs
    simp only [Option.some.injEq, Prod.mk.injEq] at hs
    exact absurd hs.2.symm hr

/-! ## Concrete runs: one mebibyte, three allocations, one more page -/

/-- With one available block, the last of the heap, large enough for the
request, `el_malloc` returns a non-null pointer. -/
theorem malloc_top_runs {L : Layout} {s : State} {pre ys : List Nat} {r n : Nat}
    (hL : L.WF) (hI : Inv L s (pre ++ [r]) [r] ys) (hn : n ≤ s.size r) :
    ∃ s' p, el_malloc L 2 s n = some (s', p) ∧ p ≠ 0 := by
  have hhp := hL.head_pos
  rcases el_malloc_cases hL hI (show [r].length < 2 by simp) n with
    ⟨hall, _⟩ | ⟨_, _, b, _, _, _, _, s', _, _, e, _, _⟩
  · have := hall r (by simp)
    omega
  · exact ⟨s', _, e, by omega⟩

theorem granted_big : Granted x86_64 x86_64.EL_HEAP_START_ADDRESS 1048576 := by
  refine ⟨by unfold WORD; decide, ?_⟩
  rintro a (rfl | rfl | rfl | rfl) <;> decide

theorem init_big :
    el_init x86_64 prepared_page x86_64.EL_CTL_START_ADDRESS x86_64.EL_HEAP_START_ADDRESS
      1048576 = some (big0, 0) := by
  obtain ⟨s, e, _⟩ := el_init_spec x86_64_wf prepared_page_ok granted_big (by decide)
  simp [big0, e]

theorem inv_big0 : Inv x86_64 big0 ([] ++ [x86_64.EL_HEAP_START_ADDRESS])
    [x86_64.EL_HEAP_START_ADDRESS] [] ∧
    big0.size x86_64.EL_HEAP_START_ADDRESS = 1048536 := by
  obtain ⟨_, hI, _, _, hz⟩ := el_init_shape x86_64_wf prepared_page_ok granted_big init_big
  exact ⟨by simpa using hI, hz⟩

theorem malloc_bigA : el_malloc x86_64 2 big0 100 = some (big1, bigA) ∧ bigA ≠ 0 := by
  obtain ⟨s', p, e, hp⟩ := malloc_top_runs x86_64_wf inv_big0.1
    (show 100 ≤ big0.size x86_64.EL_HEAP_START_ADDRESS by rw [inv_big0.2]; decide)
  have h1 : big1 = s' := by simp [big1, e]
  have h2 : bigA = p := by simp [bigA, e]
  rw [h1, h2]
  exact ⟨e, hp⟩

theorem inv_big1 : Inv x86_64 big1
    ([x86_64.EL_HEAP_START_ADDRESS] ++ [x86_64.EL_HEAP_START_ADDRESS + 140])
    [x86_64.EL_HEAP_START_ADDRESS + 140] [x86_64.EL_HEAP_START_ADDRESS] ∧
    big1.size (x86_64.EL_HEAP_START_ADDRESS + 140) = 1048396 := by
  obtain ⟨_, _, _, _, hc⟩ := malloc_top x86_64_wf inv_big0.1 malloc_bigA.1 malloc_bigA.2
  rw [inv_big0.2] at hc
  rcases hc with ⟨h, _⟩ | ⟨_, hI, _, hz⟩
  · exact absurd h (by decide)
  · exact ⟨hI, hz⟩

theorem malloc_bigB : el_malloc x86_64 2 big1 200 = some (big2, bigB) ∧ bigB ≠ 0 := by
  obtain ⟨s', p, e, hp⟩ := malloc_top_runs x86_64_wf inv_big1.1
    (show 200 ≤ big1.size (x86_64.EL_HEAP_START_ADDRESS + 140) by
      rw [inv_big1.2]; decide)
  have h1 : big2 = s' := by simp [big2, e]
  have h2 : bigB = p := by simp [bigB, e]
  rw [h1, h2]
  exact ⟨e, hp⟩

theorem inv_big2 : Inv x86_64 big2
    (([x86_64.EL_HEAP_START_ADDRESS] ++ [x86_64.EL_HEAP_START_ADDRESS + 140]) ++
      [x86_64.EL_HEAP_START_ADDRESS + 140 + 200 + x86_64.EL_BLOCK_OVERHEAD])
    [x86_64.EL_HEAP_START_ADDRESS + 140 + 200 + x86_64.EL_BLOCK_OVERHEAD]
    [x86_64.EL_HEAP_START_ADDRESS + 140, x86_64.EL_HEAP_START_ADDRESS] ∧
    big2.size (x86_64.EL_HEAP_START_ADDRESS + 140 + 200 + x86_64.EL_BLOCK_OVERHEAD) =
      1048156 := by
  obtain ⟨_, _, _, _, hc⟩ := malloc_top x86_64_wf inv_big1.1 malloc_bigB.1 malloc_bigB.2
  rw [inv_big1.2] at hc
  rcases hc with ⟨h, _⟩ | ⟨_, hI, _, hz⟩
  · exact absurd h (by decide)
  · exact ⟨hI, hz⟩

theorem malloc_bigC : el_malloc x86_64 2 big2 300 = some (big3, bigC) ∧ bigC ≠ 0 := by
  obtain ⟨s', p, e, hp⟩ := malloc_top_runs x86_64_wf inv_big2.1
    (show 300 ≤ big2.size
        (x86_64.EL_HEAP_START_ADDRESS + 140 + 200 + x86_64.EL_BLOCK_OVERHEAD) by
      rw [inv_big2.2]; decide)
  have h1 : big3 = s' := by simp [big3, e]
  have h2 : bigC = p := by simp [bigC, e]
  rw [h1, h2]
  exact ⟨e, hp⟩

theorem inv1 : Inv x86_64 state1
    ([x86_64.EL_HEAP_START_ADDRESS] ++ [x86_64.EL_HEAP_START_ADDRESS + 140])
    [x86_64.EL_HEAP_START_ADDRESS + 140] [x86_64.EL_HEAP_START_ADDRESS] ∧
    state1.heap_end = x86_64.EL_HEAP_START_ADDRESS + 4096 := by
  obtain ⟨_, hI0, hs, hb, hz⟩ := el_init_shape x86_64_wf prepared_page_ok granted0 init0
  have hI0' : Inv x86_64 state0 ([] ++ [x86_64.EL_HEAP_START_ADDRESS])
      [x86_64.EL_HEAP_START_ADDRESS] [] := by simpa using hI0
  have hext := hI0.base.heap.extent
  obtain ⟨_, _, ha, _, hc⟩ := malloc_top x86_64_wf hI0' malloc1.1 malloc1.2
  have he : state1.heap_end = x86_64.EL_HEAP_START_ADDRESS + 4096 := by
    rw [ha.heap_end, ← hext, hs, hb]
  rw [hz] at hc
  rcases hc with ⟨h, _⟩ | ⟨_, hI, _, _⟩
  · exact absurd h (by decide)
  · exact ⟨hI, he⟩

theorem granted1 :
    Granted x86_64 state1.heap_end ((1 : Int).toNat * x86_64.EL_PAGE_BYTES) := by
  rw [inv1.2]
  refine ⟨by unfold WORD; decide, ?_⟩
  rintro a (rfl | rfl | rfl | rfl) <;> decide

theorem append1 :
    el_append_pages_to_heap x86_64 state1 1 state1.heap_end = some (grown1, 0) := by
  have h0 : (0 : Int) < 1 := by decide
  have h1 : (1 : Int) * (x86_64.EL_PAGE_BYTES : Int) < 2 ^ 31 := by decide
  have hg : Granted x86_64 state1.heap_end
      (size_t_of_int (int_mul 1 x86_64.EL_PAGE_BYTES)) := by
    rw [(bytes_add_eq x86_64_wf h0 h1).1]
    exact granted1
  obtain ⟨s', _, _, e, _⟩ := el_append_spec x86_64_wf inv1.1 h0 h1 hg
  simp [grown1, e]

theorem inv_relinked1 : Inv0 x86_64 relinked1
    ([x86_64.EL_HEAP_START_ADDRESS] ++ [x86_64.EL_HEAP_START_ADDRESS + 140])
    [x86_64.EL_HEAP_START_ADDRESS, x86_64.EL_HEAP_START_ADDRESS + 140] [] := by
  obtain ⟨s1, s2, e1, e2, hI, _⟩ := free_relink x86_64_wf inv1.1
    (show x86_64.EL_HEAP_START_ADDRESS ∈ [x86_64.EL_HEAP_START_ADDRESS] by simp)
  have : relinked1 = s2 := by simp [relinked1, e1, e2]
  rw [this]
  simpa using hI

theorem split0_eq :
    el_split_block x86_64 state0 x86_64.EL_HEAP_START_ADDRESS 100 =
      some (split0, x86_64.EL_HEAP_START_ADDRESS + 140) := by
  have hz : state0.size x86_64.EL_HEAP_START_ADDRESS = 4056 := inv0.2
  obtain ⟨s', e, _⟩ := el_split_block_spec x86_64 state0
    (b := x86_64.EL_HEAP_START_ADDRESS) (n := 100) (by decide) (by rw [hz]; decide)
    (by rw [hz]; unfold WORD; decide)
  have : split0 = s' := by simp [split0, e]
  rw [this]
  exact e

theorem malloc_too_big : el_malloc x86_64 2 state0 5000 = some (state0, 0) := by
  obtain ⟨hI, hz⟩ := inv0
  rcases el_malloc_cases x86_64_wf hI
    (show [x86_64.EL_HEAP_START_ADDRESS].length < 2 by decide) 5000 with
    ⟨_, e⟩ | ⟨l1, l2, b, hx, _, hn, _⟩
  · exact e
  · exfalso
    have hb : b ∈ [x86_64.EL_HEAP_START_ADDRESS] := by rw [hx]; simp
    rw [List.mem_singleton.1 hb, hz] at hn
    omega

/-! ## The claims C11 to C20 at concrete inputs -/

theorem malloc_null_keeps_state_witness :
    x86_64.WF ∧ Reachable x86_64 state0 ∧
    el_malloc x86_64 2 state0 5000 = some (state0, 0) ∧
    (∀ fuel, state0.avail.length < fuel →
      ∃ s' p, el_malloc x86_64 fuel state0 5000 = some (s', p)) ∧
    (∀ fuel s', el_malloc x86_64 fuel state0 5000 = some (s', 0) → s' = state0) :=
  ⟨x86_64_wf, reach0, malloc_too_big,
    malloc_null_keeps_state x86_64 state0 5000 x86_64_wf reach0⟩

theorem append_failure_keeps_state_witness :
    ((0 : Int) ≤ 0 ∨ 7 = MAP_FAILED ∨ 7 ≠ state1.heap_end) ∧
    el_append_pages_to_heap x86_64 state1 0 7 = some (state1, 1) ∧
    el_append_pages_to_heap x86_64 state1 1 MAP_FAILED = some (state1, 1) :=
  ⟨Or.inl (le_refl 0),
    append_failure_keeps_state x86_64 state1 0 7 (Or.inl (le_refl 0)),
    append_failure_keeps_state x86_64 state1 1 MAP_FAILED (Or.inr (Or.inl rfl))⟩

theorem append_success_witness :
    x86_64.WF ∧ Reachable x86_64 state1 ∧ (0 : Int) < 1 ∧
    (1 : Int) * (x86_64.EL_PAGE_BYTES : Int) < 2 ^ 31 ∧
    Granted x86_64 state1.heap_end ((1 : Int).toNat * x86_64.EL_PAGE_BYTES) ∧
    ∃ s', el_append_pages_to_heap x86_64 state1 1 state1.heap_end = some (s', 0) ∧
      s'.heap_start = state1.heap_start ∧
      s'.heap_bytes = state1.heap_bytes + (1 : Int).toNat * x86_64.EL_PAGE_BYTES ∧
      s'.heap_end = state1.heap_end + (1 : Int).toNat * x86_64.EL_PAGE_BYTES ∧
      s'.avail.bytes = state1.avail.bytes + (1 : Int).toNat * x86_64.EL_PAGE_BYTES ∧
      s'.used = state1.used ∧
      (∃ ys, ∀ fuel, ys.length < fuel →
        state1.members .used fuel = some ys ∧ s'.members .used fuel = some ys) ∧
      ∃ l1 last,
        (∀ fuel, l1.length + 1 < fuel →
          heap_walk x86_64 state1 fuel state1.heap_start = some (l1 ++ [last])) ∧
        (state1.state last = x86_64.EL_USED ∨ state1.state last = x86_64.EL_AVAILABLE) ∧
        (state1.state last = x86_64.EL_USED →
          (∀ fuel, l1.length + 2 < fuel →
            heap_walk x86_64 s' fuel s'.heap_start =
              some (l1 ++ [last, state1.heap_end])) ∧
          s'.state state1.heap_end = x86_64.EL_AVAILABLE ∧
          s'.size state1.heap_end =
            (1 : Int).toNat * x86_64.EL_PAGE_BYTES - x86_64.EL_BLOCK_OVERHEAD ∧
          state1.heap_end + s'.size state1.heap_end + x86_64.EL_BLOCK_OVERHEAD =
            s'.heap_end) ∧
        (state1.state last = x86_64.EL_AVAILABLE →
          (∀ fuel, l1.length + 1 < fuel →
            heap_walk x86_64 s' fuel s'.heap_start = some (l1 ++ [last])) ∧
          s'.state last = x86_64.EL_AVAILABLE ∧
          s'.size last = state1.size last + (1 : Int).toNat * x86_64.EL_PAGE_BYTES ∧
          last + s'.size last + x86_64.EL_BLOCK_OVERHEAD = s'.heap_end) :=
  ⟨x86_64_wf, reach1, by decide, by decide, granted1,
    append_success x86_64 state1 1 x86_64_wf reach1 (by decide) (by decide) granted1⟩

theorem malloc_after_append_witness :
    x86_64.WF ∧ Reachable x86_64 state1 ∧ (0 : Int) < 1 ∧
    (1 : Int) * (x86_64.EL_PAGE_BYTES : Int) < 2 ^ 31 ∧
    Granted x86_64 state1.heap_end ((1 : Int).toNat * x86_64.EL_PAGE_BYTES) ∧
    el_append_pages_to_heap x86_64 state1 1 state1.heap_end = some (grown1, 0) ∧
    4056 ≤ (1 : Int).toNat * x86_64.EL_PAGE_BYTES - x86_64.EL_BLOCK_OVERHEAD ∧
    ∀ fuel, grown1.avail.length < fuel →
      ∃ s'' p, el_malloc x86_64 fuel grown1 4056 = some (s'', p) ∧ p ≠ 0 :=
  ⟨x86_64_wf, reach1, by decide, by decide, granted1, append1, by decide,
    malloc_after_append x86_64 state1 grown1 1 4056 x86_64_wf reach1 (by decide)
      (by decide) granted1 append1 (by decide)⟩

theorem full_recoalescing_witness :
    x86_64.WF ∧ Prepared x86_64 prepared_page ∧
    Granted x86_64 x86_64.EL_HEAP_START_ADDRESS 1048576 ∧
    el_init x86_64 prepared_page x86_64.EL_CTL_START_ADDRESS x86_64.EL_HEAP_START_ADDRESS
      1048576 = some (big0, 0) ∧
    el_malloc x86_64 2 big0 100 = some (big1, bigA) ∧ bigA ≠ 0 ∧
    el_malloc x86_64 2 big1 200 = some (big2, bigB) ∧ bigB ≠ 0 ∧
    (∃ s3 s4, el_free x86_64 big2 bigA = some s3 ∧ el_free x86_64 s3 bigB = some s4 ∧
      s4.heap_start = x86_64.EL_HEAP_START_ADDRESS ∧
      OneAvailable x86_64 s4 (1048576 - x86_64.EL_BLOCK_OVERHEAD)) ∧
    (∃ s3 s4, el_free x86_64 big2 bigB = some s3 ∧ el_free x86_64 s3 bigA = some s4 ∧
      s4.heap_start = x86_64.EL_HEAP_START_ADDRESS ∧
      OneAvailable x86_64 s4 (1048576 - x86_64.EL_BLOCK_OVERHEAD)) :=
  ⟨x86_64_wf, prepared_page_ok, granted_big, init_big, malloc_bigA.1, malloc_bigA.2,
    malloc_bigB.1, malloc_bigB.2,
    full_recoalescing x86_64 prepared_page big0 big1 big2 1048576 100 200 bigA bigB 2 2
      x86_64_wf prepared_page_ok granted_big init_big malloc_bigA.1 malloc_bigA.2
      malloc_bigB.1 malloc_bigB.2⟩

theorem three_block_coalescing_witness :
    x86_64.WF ∧ Prepared x86_64 prepared_page ∧
    Granted x86_64 x86_64.EL_HEAP_START_ADDRESS 1048576 ∧
    el_init x86_64 prepared_page x86_64.EL_CTL_START_ADDRESS x86_64.EL_HEAP_START_ADDRESS
      1048576 = some (big0, 0) ∧
    el_malloc x86_64 2 big0 100 = some (big1, bigA) ∧ bigA ≠ 0 ∧
    el_malloc x86_64 2 big1 200 = some (big2, bigB) ∧ bigB ≠ 0 ∧
    el_malloc x86_64 2 big2 300 = some (big3, bigC) ∧ bigC ≠ 0 ∧
    ∃ A B C, bigA = A + x86_64.head_bytes ∧ bigB = B + x86_64.head_bytes ∧
      bigC = C + x86_64.head_bytes ∧ A = big3.heap_start ∧
      el_block_above x86_64 big3 A = some B ∧ el_block_above x86_64 big3 B = some C ∧
      A < B ∧ B < C ∧
      big3.state A = x86_64.EL_USED ∧ big3.state B = x86_64.EL_USED ∧
      big3.state C = x86_64.EL_USED ∧
      ∃ s4 s5 s6, el_free x86_64 big3 bigB = some s4 ∧ el_free x86_64 s4 bigA = some s5 ∧
        s5.state A = x86_64.EL_AVAILABLE ∧
        s5.size A = big3.size A + big3.size B + x86_64.EL_BLOCK_OVERHEAD ∧
        s5.foot (A + x86_64.head_bytes + s5.size A) = s5.size A ∧
        el_block_above x86_64 s5 A = some C ∧ s5.state C = x86_64.EL_USED ∧
        (∀ fuel, 1 < fuel → s5.members .used fuel = some [C]) ∧
        (∃ rest, ∀ fuel, rest.length + 2 < fuel →
          heap_walk x86_64 s5 fuel s5.heap_start = some (A :: C :: rest)) ∧
        el_free x86_64 s5 bigC = some s6 ∧ s6.heap_start = A ∧
        OneAvailable x86_64 s6 (1048576 - x86_64.EL_BLOCK_OVERHEAD) ∧
        big3.size A + big3.size B + big3.size C + 2 * x86_64.EL_BLOCK_OVERHEAD ≤
          s6.size A :=
  ⟨x86_64_wf, prepared_page_ok, granted_big, init_big, malloc_bigA.1, malloc_bigA.2,
    malloc_bigB.1, malloc_bigB.2, malloc_bigC.1, malloc_bigC.2,
    three_block_coalescing x86_64 prepared_page big0 big1 big2 big3 1048576 100 200 300
      bigA bigB bigC 2 2 2 x86_64_wf prepared_page_ok granted_big init_big malloc_bigA.1
      malloc_bigA.2 malloc_bigB.1 malloc_bigB.2 malloc_bigC.1 malloc_bigC.2⟩

theorem relinked1_tags :
    relinked1.state x86_64.EL_HEAP_START_ADDRESS = x86_64.EL_AVAILABLE ∧
    relinked1.state (x86_64.EL_HEAP_START_ADDRESS + 140) = x86_64.EL_AVAILABLE ∧
    el_block_above x86_64 relinked1 x86_64.EL_HEAP_START_ADDRESS =
      some (x86_64.EL_HEAP_START_ADDRESS + 140) := by
  have hI := inv_relinked1
  refine ⟨((hI.mem_avail _).1 (by simp)).2, ((hI.mem_avail _).1 (by simp)).2, ?_⟩
  exact ((show HeapOK x86_64 relinked1 ([] ++ x86_64.EL_HEAP_START_ADDRESS ::
    (x86_64.EL_HEAP_START_ADDRESS + 140) :: []) from hI.heap).above_next x86_64_wf).1

theorem merge_with_above_witness :
    x86_64.WF ∧
    Inv0 x86_64 relinked1
      ([x86_64.EL_HEAP_START_ADDRESS] ++ [x86_64.EL_HEAP_START_ADDRESS + 140])
      [x86_64.EL_HEAP_START_ADDRESS, x86_64.EL_HEAP_START_ADDRESS + 140] [] ∧
    relinked1.state x86_64.EL_HEAP_START_ADDRESS = x86_64.EL_AVAILABLE ∧
    relinked1.state (x86_64.EL_HEAP_START_ADDRESS + 140) = x86_64.EL_AVAILABLE ∧
    el_block_above x86_64 relinked1 x86_64.EL_HEAP_START_ADDRESS =
      some (x86_64.EL_HEAP_START_ADDRESS + 140) ∧
    el_merge_block_with_above x86_64 state1 0 = some state1 ∧
    x86_64.EL_HEAP_START_ADDRESS ∈
      [x86_64.EL_HEAP_START_ADDRESS, x86_64.EL_HEAP_START_ADDRESS + 140] ∧
    x86_64.EL_HEAP_START_ADDRESS + 140 ∈
      [x86_64.EL_HEAP_START_ADDRESS, x86_64.EL_HEAP_START_ADDRESS + 140] ∧
    ∃ s', el_merge_block_with_above x86_64 relinked1 x86_64.EL_HEAP_START_ADDRESS =
        some s' ∧
      s'.size x86_64.EL_HEAP_START_ADDRESS =
        relinked1.size x86_64.EL_HEAP_START_ADDRESS +
          relinked1.size (x86_64.EL_HEAP_START_ADDRESS + 140) +
          x86_64.EL_BLOCK_OVERHEAD ∧
      el_get_footer x86_64 s' x86_64.EL_HEAP_START_ADDRESS =
        some (x86_64.EL_HEAP_START_ADDRESS + x86_64.head_bytes +
          s'.size x86_64.EL_HEAP_START_ADDRESS) ∧
      s'.foot (x86_64.EL_HEAP_START_ADDRESS + x86_64.head_bytes +
          s'.size x86_64.EL_HEAP_START_ADDRESS) =
        s'.size x86_64.EL_HEAP_START_ADDRESS ∧
      (∃ ms, (∀ fuel, ms.length + 1 < fuel →
          s'.members .avail fuel = some (x86_64.EL_HEAP_START_ADDRESS :: ms)) ∧
        x86_64.EL_HEAP_START_ADDRESS + 140 ∉ x86_64.EL_HEAP_START_ADDRESS :: ms) ∧
      s'.avail.length + 1 = relinked1.avail.length ∧
      s'.avail.bytes = relinked1.avail.bytes :=
  ⟨x86_64_wf, inv_relinked1, relinked1_tags.1, relinked1_tags.2.1, relinked1_tags.2.2,
    (merge_with_above x86_64 state1 0 x86_64_wf).1 (Or.inl rfl),
    (merge_with_above x86_64 relinked1 x86_64.EL_HEAP_START_ADDRESS x86_64_wf).2 _ _ _ _
      inv_relinked1 (by simp) relinked1_tags.1 relinked1_tags.2.2 (by decide)
      relinked1_tags.2.1⟩

theorem split_block_amended_witness :
    x86_64.WF ∧ x86_64.EL_HEAP_START_ADDRESS ≠ 0 ∧
    100 + x86_64.EL_BLOCK_OVERHEAD < WORD ∧
    x86_64.EL_HEAP_START_ADDRESS + state0.size x86_64.EL_HEAP_START_ADDRESS +
      x86_64.EL_BLOCK_OVERHEAD < WORD ∧
    ∃ s' r, el_split_block x86_64 state0 x86_64.EL_HEAP_START_ADDRESS 100 = some (s', r) ∧
      (r ≠ 0 ↔ 100 + x86_64.EL_BLOCK_OVERHEAD ≤ state0.size x86_64.EL_HEAP_START_ADDRESS) ∧
      (r = 0 → s' = state0) ∧
      (r ≠ 0 →
        s'.size x86_64.EL_HEAP_START_ADDRESS = 100 ∧
        el_get_footer x86_64 s' x86_64.EL_HEAP_START_ADDRESS =
          some (x86_64.EL_HEAP_START_ADDRESS + x86_64.head_bytes + 100) ∧
        s'.foot (x86_64.EL_HEAP_START_ADDRESS + x86_64.head_bytes + 100) = 100 ∧
        r = x86_64.EL_HEAP_START_ADDRESS + x86_64.head_bytes + 100 + x86_64.foot_bytes ∧
        s'.state r = x86_64.EL_AVAILABLE ∧
        s'.size r = state0.size x86_64.EL_HEAP_START_ADDRESS - 100 -
          x86_64.EL_BLOCK_OVERHEAD ∧
        el_get_footer x86_64 s' r = some (r + x86_64.head_bytes + s'.size r) ∧
        s'.foot (r + x86_64.head_bytes + s'.size r) = s'.size r ∧
        (s'.size x86_64.EL_HEAP_START_ADDRESS + x86_64.EL_BLOCK_OVERHEAD) +
            (s'.size r + x86_64.EL_BLOCK_OVERHEAD) =
          state0.size x86_64.EL_HEAP_START_ADDRESS + x86_64.EL_BLOCK_OVERHEAD ∧
        r + s'.size r + x86_64.EL_BLOCK_OVERHEAD =
          x86_64.EL_HEAP_START_ADDRESS + state0.size x86_64.EL_HEAP_START_ADDRESS +
            x86_64.EL_BLOCK_OVERHEAD) :=
  have hn : 100 + x86_64.EL_BLOCK_OVERHEAD < WORD := by unfold WORD; decide
  have hw : x86_64.EL_HEAP_START_ADDRESS + state0.size x86_64.EL_HEAP_START_ADDRESS +
      x86_64.EL_BLOCK_OVERHEAD < WORD := by rw [inv0.2]; unfold WORD; decide
  ⟨x86_64_wf, by decide, hn, hw,
    split_block_amended x86_64 state0 x86_64.EL_HEAP_START_ADDRESS 100 x86_64_wf
      (by decide) hn hw⟩

theorem split_leftover_size_witness :
    x86_64.EL_HEAP_START_ADDRESS ≠ 0 ∧ 100 + x86_64.EL_BLOCK_OVERHEAD < WORD ∧
    x86_64.EL_HEAP_START_ADDRESS + state0.size x86_64.EL_HEAP_START_ADDRESS +
      x86_64.EL_BLOCK_OVERHEAD < WORD ∧
    el_split_block x86_64 state0 x86_64.EL_HEAP_START_ADDRESS 100 =
      some (split0, x86_64.EL_HEAP_START_ADDRESS + 140) ∧
    x86_64.EL_HEAP_START_ADDRESS + 140 ≠ 0 ∧
    100 + x86_64.EL_BLOCK_OVERHEAD ≤ state0.size x86_64.EL_HEAP_START_ADDRESS ∧
    split0.size (x86_64.EL_HEAP_START_ADDRESS + 140) =
      state0.size x86_64.EL_HEAP_START_ADDRESS - 100 - x86_64.EL_BLOCK_OVERHEAD ∧
    (split0.size (x86_64.EL_HEAP_START_ADDRESS + 140) = 0 ↔
      state0.size x86_64.EL_HEAP_START_ADDRESS = 100 + x86_64.EL_BLOCK_OVERHEAD) ∧
    (1 ≤ split0.size (x86_64.EL_HEAP_START_ADDRESS + 140) ↔
      100 + x86_64.EL_BLOCK_OVERHEAD < state0.size x86_64.EL_HEAP_START_ADDRESS) :=
  have hn : 100 + x86_64.EL_BLOCK_OVERHEAD < WORD := by unfold WORD; decide
  have hw : x86_64.EL_HEAP_START_ADDRESS + state0.size x86_64.EL_HEAP_START_ADDRESS +
      x86_64.EL_BLOCK_OVERHEAD < WORD := by rw [inv0.2]; unfold WORD; decide
  ⟨by decide, hn, hw, split0_eq, by decide,
    split_leftover_size x86_64 state0 split0 x86_64.EL_HEAP_START_ADDRESS 100
      (x86_64.EL_HEAP_START_ADDRESS + 140) (by decide) hn hw split0_eq (by decide)⟩

/-! ## Freeing a block with no available block below it -/

/-- Two tilings of the same region by the same blocks give every block the
same size. -/
theorem Tiled.size_eq {L : Layout} {sz sz' : Nat → Nat} {bs : List Nat} {a e : Nat}
    (h : Tiled L sz a bs e) (h' : Tiled L sz' a bs e) : ∀ b ∈ bs, sz' b = sz b := by
  induction bs generalizing a with
  | nil => intro b hb; simp at hb
  | cons c bs ih =>
    obtain ⟨rfl, h2⟩ := h
    obtain ⟨_, h2'⟩ := h'
    have hc : sz' c = sz c := by
      cases bs with
      | nil =>
        have e1 : c + sz c + L.EL_BLOCK_OVERHEAD = e := h2
        have e2 : c + sz' c + L.EL_BLOCK_OVERHEAD = e := h2'
        omega
      | cons d bs' =>
        have e1 := h2.1
        have e2 := h2'.1
        omega
    intro b hb
    rcases List.mem_cons.1 hb with rfl | hb
    · exact hc
    · rw [hc] at h2'
      exact ih h2 h2' b hb

/-- Freeing a used block below which no available block ends: the block ends
up at the front of the available list, at least as large as it was. -/
theorem el_free_front {L : Layout} {s : State} {bs xs ys : List Nat} {block : Nat}
    (hL : L.WF) (hI : Inv L s bs xs ys) (hb : block ∈ ys)
    (hlow : ∀ l ∈ bs, block = l + s.size l + L.EL_BLOCK_OVERHEAD →
      s.state l ≠ L.EL_AVAILABLE) :
    ∃ s' bs' xs', el_free L s (block + L.head_bytes) = some s' ∧
      Inv L s' bs' (block :: xs') (ys.erase block) ∧ s.size block ≤ s'.size block := by
  have hI0 := hI.base
  have hH := hI0.heap
  have ho := hL.overhead_pos
  have hhp := hL.head_pos
  have hbb : block ∈ bs := hI0.used_sub block hb
  have hbu : s.state block = L.EL_USED := (hI0.mem_used block).1 hb
  have hb0 : block ≠ 0 := hH.mem_ne_zero hbb
  have hblk := hH.ptr_block hbb
  obtain ⟨s1, s2, e1, e2, hI2, hadj2, hfr⟩ := free_relink hL hI hb
  have hxa2 : s2.state block = L.EL_AVAILABLE := by rw [hfr.state]; simp
  have hsz2 : ∀ c ∈ bs, s2.size c = s.size c := by
    have ht := hI2.heap.tiled
    rw [hfr.heap_start, hfr.heap_end] at ht
    exact Tiled.size_eq hH.tiled ht
  obtain ⟨s3, bs3, xs3, e3, hI3, hx3, hadj3, m3, hsh3⟩ :=
    merge_above_shape hL hI2 hbb hxa2 hadj2
  have hxa3 : s3.state block = L.EL_AVAILABLE := by rw [m3.state]; exact hxa2
  -- the shape after the merge with the block above
  have hshape : (∃ tl, xs3 = block :: tl) ∧ s.size block ≤ s3.size block ∧
      ∀ l ∈ bs3, l ≠ block → l ∈ bs ∧ s3.size l = s.size l := by
    rcases hsh3 with ⟨rfl, rfl, rfl⟩ | ⟨l1, u, l2, hdec, _, rfl, rfl, hm⟩
    · exact ⟨⟨xs, rfl⟩, by rw [hsz2 block hbb], fun l hl _ => ⟨hl, hsz2 l hl⟩⟩
    · refine ⟨⟨_, rfl⟩, ?_, ?_⟩
      · rw [hm.size, Function.update_same, hsz2 block hbb]
        omega
      · intro l hl hne
        have hlb : l ∈ bs := by
          rw [hdec]
          simp only [List.mem_append, List.mem_cons] at hl ⊢
          tauto
        exact ⟨hlb, by rw [hm.size, Function.update_noteq hne, hsz2 l hlb]⟩
  obtain ⟨⟨tl, rfl⟩, hge, hfrm⟩ := hshape
  obtain ⟨lower, s4, bs4, xs4, e4, e5, hI4, m4, hsh4⟩ :=
    merge_below_shape hL hI3 hx3 hxa3 hadj3
  have hfoot := (hH.footer hbb)
  have hfoot' : el_get_footer L (s.wr_state block L.EL_AVAILABLE) block =
      some (block + L.head_bytes + s.size block) := by
    have := hfoot.1
    simpa [el_get_footer] using this
  have hrun : el_free L s (block + L.head_bytes) = some s4 := by
    unfold el_free
    rw [if_neg (by omega)]
    simp only [hblk]
    rw [if_neg hb0, if_neg (by simp [hbu])]
    simp only [hfoot', Option.bind_eq_bind, Option.some_bind, deref_ne hfoot.2, wr_state_size,
      e1, e2, e3, e4, Option.pure_def]
    exact e5
  rcases hsh4 with ⟨rfl, rfl, rfl, _⟩ | ⟨l1, l2, hdec, hla, _, _, _⟩
  · exact ⟨s4, bs4, tl, hrun, hI4, hge⟩
  · exfalso
    have hH3 : HeapOK L s3 (l1 ++ lower :: block :: l2) := by rw [← hdec]; exact hI3.heap
    obtain ⟨_, hbe, _⟩ := hH3.below_prev hL
    have hlm : lower ∈ bs3 := by rw [hdec]; simp
    have hne : lower ≠ block := by omega
    obtain ⟨hlb, hz⟩ := hfrm lower hlm hne
    rw [hz] at hbe
    have := hlow lower hlb hbe
    rw [m3.state, hfr.state, Function.update_noteq hne] at hla
    exact this hla

/-! ## Claims C21 to C24, C27 and C28 -/

/-- C21 (failing input): `el_split_block` on the block of `state0`, the one
member of the available list, for a request of 100 bytes overwrites the `next`
field of that block: it held the end sentinel of the list and now holds the new
block, so the traversal of the available list visits the new block as well,
while the stored length of the list is still 1. -/
theorem split_relinks_block :
    el_split_block x86_64 state0 x86_64.EL_HEAP_START_ADDRESS 100 =
      some (split0, x86_64.EL_HEAP_START_ADDRESS + 140) ∧
    state0.next x86_64.EL_HEAP_START_ADDRESS = x86_64.avail_end_actual ∧
    split0.next x86_64.EL_HEAP_START_ADDRESS = x86_64.EL_HEAP_START_ADDRESS + 140 ∧
    state0.members .avail 3 = some [x86_64.EL_HEAP_START_ADDRESS] ∧
    split0.members .avail 3 =
      some [x86_64.EL_HEAP_START_ADDRESS, x86_64.EL_HEAP_START_ADDRESS + 140] ∧
    split0.avail.length = 1 := by
  obtain ⟨hI, hz⟩ := inv0
  have ok := hI.base.avail
  obtain ⟨h1, h2, h3, h4⟩ := ok.seg
  have hbeg := ok.beg_eq
  have hend := ok.end_eq
  have hlen := ok.len
  simp only [list_avail] at hbeg hend hlen
  obtain ⟨s', e, _, _, _, hn, _, ha, _⟩ := el_split_block_spec x86_64 state0
    (b := x86_64.EL_HEAP_START_ADDRESS) (n := 100) (by decide) (by rw [hz]; decide)
    (by rw [hz]; unfold WORD; decide)
  have hs : split0 = s' := by
    have := split0_eq
    rw [e] at this
    simp only [Option.some.injEq, Prod.mk.injEq] at this
    exact this.1.symm
  have hnext : split0.next = Function.update (Function.update state0.next
      (x86_64.EL_HEAP_START_ADDRESS + 140) (state0.next x86_64.EL_HEAP_START_ADDRESS))
      x86_64.EL_HEAP_START_ADDRESS (x86_64.EL_HEAP_START_ADDRESS + 140) := by
    rw [hs, hn]
    rfl
  have hav : split0.avail = state0.avail := by rw [hs, ha]
  have n1 : split0.next x86_64.EL_HEAP_START_ADDRESS =
      x86_64.EL_HEAP_START_ADDRESS + 140 := by
    rw [hnext, Function.update_same]
  have n2 : split0.next (x86_64.EL_HEAP_START_ADDRESS + 140) = x86_64.avail_end_actual := by
    rw [hnext, Function.update_noteq (by decide), Function.update_same]
    exact h3
  have n0 : split0.next x86_64.avail_beg_actual = x86_64.EL_HEAP_START_ADDRESS := by
    rw [hnext, Function.update_noteq (by decide), Function.update_noteq (by decide)]
    exact h1
  refine ⟨split0_eq, h3, n1, ok.members_eq (by decide), ?_, by rw [hav, hlen]; rfl⟩
  have hb : (split0.list .avail).beg = x86_64.avail_beg_actual := by
    simp only [list_avail, hav]; exact hbeg
  have he : (split0.list .avail).end_ = x86_64.avail_end_actual := by
    simp only [list_avail, hav]; exact hend
  unfold State.members
  rw [hb, he, n0]
  have d1 : x86_64.EL_HEAP_START_ADDRESS ≠ x86_64.avail_end_actual := by decide
  have d2 : x86_64.EL_HEAP_START_ADDRESS ≠ 0 := by decide
  have d3 : x86_64.EL_HEAP_START_ADDRESS + 140 ≠ x86_64.avail_end_actual := by decide
  have d4 : x86_64.EL_HEAP_START_ADDRESS + 140 ≠ 0 := by decide
  have d5 : x86_64.avail_beg_actual ≠ 0 := by decide
  simp only [deref_ne d5, Option.bind_eq_bind, Option.some_bind, walk_list, if_neg d1,
    if_neg d2, n1, if_neg d3, if_neg d4, n2, if_true, Option.map_some']

/-- C22 (boundary-tag round trips): for a non-null block `b` whose footer
address is non-null and whose footer holds the size of its header,
`el_get_header (el_get_footer b)` is `b`; in a well-formed heap, when
`el_block_above b` returns a block `u`, `el_block_below u` is `b`; and
`el_block_below` of the block at `heap_start` is NULL. -/
theorem boundary_tag_round_trips (L : Layout) (s : State) (hL : L.WF) :
    (∀ b f, b ≠ 0 → b < WORD → el_get_footer L s b = some f → f ≠ 0 →
      s.foot f = s.size b → el_get_header L s f = some b) ∧
    (∀ bs b u, HeapOK L s bs → b ∈ bs → el_block_above L s b = some u → u ≠ 0 →
      el_block_below L s u = some b) ∧
    (∀ bs, HeapOK L s bs → el_block_below L s s.heap_start = some 0) := by
  refine ⟨?_, ?_, ?_⟩
  · intro b f hb0 hbw hf hf0 hfs
    simp only [el_get_footer, deref_ne hb0, Option.bind_eq_bind, Option.some_bind,
      Option.pure_def, Option.some.injEq] at hf
    simp only [el_get_header, deref_ne hf0, Option.bind_eq_bind, Option.some_bind,
      Option.pure_def, Option.some.injEq, hfs]
    rw [← hf]
    unfold PTR_MINUS_BYTES PTR_PLUS_BYTES sub64 add64
    unfold WORD at hbw ⊢
    omega
  · intro bs b u hH hb hab hu
    obtain ⟨l1, l2, rfl⟩ := List.append_of_mem hb
    rcases hH.tiled.above with ⟨rfl, _⟩ | ⟨l2', rfl, _⟩
    · rw [hH.above_last] at hab
      cases hab
      exact absurd rfl hu
    · obtain ⟨h1, _, _⟩ := hH.above_next hL
      rw [h1] at hab
      cases hab
      exact (hH.below_prev hL).1
  · intro bs hH
    cases bs with
    | nil => exact absurd rfl hH.ne
    | cons a tl =>
      have ha := hH.tiled.1
      rw [← ha]
      exact hH.below_first

/-- C23 (failing input): `el_init_blocklist` never writes `list->beg`.  On
the zero-filled control block, where that pointer is NULL, it does not return;
on a list whose `beg` holds the begin sentinel of the other list it returns
with `beg` still holding that address, not the list's own begin sentinel. -/
theorem init_blocklist_keeps_beg :
    el_init_blocklist x86_64 fresh_page .avail = none ∧
    (el_init_blocklist x86_64 stale_page .avail).map (fun s => s.avail.beg) =
      some x86_64.used_beg_actual ∧
    x86_64.used_beg_actual ≠ x86_64.avail_beg_actual := by
  refine ⟨?_, ?_, by decide⟩
  · simp [el_init_blocklist, fresh_page, deref]
  · simp [el_init_blocklist, stale_page, fresh_page, deref, x86_64, Layout.end_actual]

/-- C28 (reuse after free): in a reachable state, when `el_malloc n` returns
a non-null pointer `p`, `el_free p` returns, and `el_malloc n` in the state it
leaves, run with fuel beyond the length of the available list, returns `p`
again. -/
theorem reuse_after_free (L : Layout) (s s1 : State) (fuel n p : Nat) (hL : L.WF)
    (h : Reachable L s) (hm : el_malloc L fuel s n = some (s1, p)) (hp : p ≠ 0) :
    ∃ s2, el_free L s1 p = some s2 ∧
      ∀ fuel', s2.avail.length < fuel' → ∃ s3, el_malloc L fuel' s2 n = some (s3, p) := by
  obtain ⟨bs, xs, ys, hI⟩ := reachable_inv hL h
  have ho := hL.overhead_pos
  have hhp := hL.head_pos
  obtain ⟨b, hbx, hn, hpe, ha, hcase⟩ := el_malloc_shape hL hI hm hp
  have hba : s.state b = L.EL_AVAILABLE := ((hI.base.mem_avail b).1 hbx).2
  have hbb : b ∈ bs := hI.base.avail_sub hbx
  -- the state after the allocation, with no available block below `b`
  have hpost : ∃ bs1 xs1, Inv L s1 bs1 xs1 (b :: ys) ∧ n ≤ s1.size b ∧
      ∀ l ∈ bs1, b = l + s1.size l + L.EL_BLOCK_OVERHEAD → s1.state l ≠ L.EL_AVAILABLE := by
    rcases hcase with ⟨hlt, hI1, hz, ht⟩ | ⟨hge, l1, l2, hdec, hI1, hz, ht⟩
    · refine ⟨_, _, hI1, by rw [hz]; exact hn, fun l hl hbl => ?_⟩
      rw [hz] at hbl
      have hne : l ≠ b := by omega
      rw [ht, Function.update_noteq hne]
      intro hla
      exact hI.no_adj l hl b hbb hbl ⟨hla, hba⟩
    · have hzb : s1.size b = n := by
        rw [hz, Function.update_noteq (by omega), Function.update_same]
      refine ⟨_, _, hI1, by rw [hzb], fun l hl hbl => ?_⟩
      have hne : l ≠ b := by omega
      have hr := hI1.base.heap.mem_range hl
      have hne2 : l ≠ b + n + L.EL_BLOCK_OVERHEAD := by omega
      have hlb : l ∈ bs := by
        rw [hdec]
        simp only [List.mem_append, List.mem_cons] at hl ⊢
        tauto
      rw [hz, Function.update_noteq hne2, Function.update_noteq hne] at hbl
      rw [ht, Function.update_noteq hne, Function.update_noteq hne2]
      intro hla
      exact hI.no_adj l hlb b hbb hbl ⟨hla, hba⟩
  obtain ⟨bs1, xs1, hI1, hn1, hlow⟩ := hpost
  obtain ⟨s2, bs2, xs2, e2, hI2, hge⟩ := el_free_front hL hI1 (show b ∈ b :: ys by simp) hlow
  rw [← hpe] at e2
  refine ⟨s2, e2, fun fuel' hf => ?_⟩
  have hlen := hI2.base.avail.len
  simp only [list_avail] at hlen
  rcases el_malloc_cases hL hI2 (show (b :: xs2).length < fuel' by omega) n with
    ⟨hall, _⟩ | ⟨l1, l2, b', hx, _, _, hl1, s3, _, _, e3, _, _⟩
  · have := hall b (by simp)
    omega
  · cases l1 with
    | nil =>
      simp only [List.nil_append, List.cons.injEq] at hx
      rw [← hx.1, ← hpe] at e3
      exact ⟨s3, e3⟩
    | cons c l1' =>
      exfalso
      simp only [List.cons_append, List.cons.injEq] at hx
      have := hl1 c (by simp)
      rw [← hx.1] at this
      omega

/-! ## The claims C22, C24, C27 and C28 at concrete inputs -/

theorem heap1 : HeapOK x86_64 state1
    [x86_64.EL_HEAP_START_ADDRESS, x86_64.EL_HEAP_START_ADDRESS + 140] :=
  inv1.1.base.heap

theorem heap1_facts :
    el_get_footer x86_64 state1 x86_64.EL_HEAP_START_ADDRESS =
      some (x86_64.EL_HEAP_START_ADDRESS + x86_64.head_bytes +
        state1.size x86_64.EL_HEAP_START_ADDRESS) ∧
    x86_64.EL_HEAP_START_ADDRESS + x86_64.head_bytes +
      state1.size x86_64.EL_HEAP_START_ADDRESS ≠ 0 ∧
    state1.foot (x86_64.EL_HEAP_START_ADDRESS + x86_64.head_bytes +
      state1.size x86_64.EL_HEAP_START_ADDRESS) =
      state1.size x86_64.EL_HEAP_START_ADDRESS ∧
    el_block_above x86_64 state1 x86_64.EL_HEAP_START_ADDRESS =
      some (x86_64.EL_HEAP_START_ADDRESS + 140) := by
  have hm : x86_64.EL_HEAP_START_ADDRESS ∈
      [x86_64.EL_HEAP_START_ADDRESS, x86_64.EL_HEAP_START_ADDRESS + 140] := by simp
  obtain ⟨h1, h2⟩ := heap1.footer hm
  exact ⟨h1, h2, heap1.foot_ok _ hm,
    ((show HeapOK x86_64 state1 ([] ++ x86_64.EL_HEAP_START_ADDRESS ::
      (x86_64.EL_HEAP_START_ADDRESS + 140) :: []) from heap1).above_next x86_64_wf).1⟩

theorem boundary_tag_round_trips_witness :
    x86_64.WF ∧
    HeapOK x86_64 state1
      [x86_64.EL_HEAP_START_ADDRESS, x86_64.EL_HEAP_START_ADDRESS + 140] ∧
    x86_64.EL_HEAP_START_ADDRESS ≠ 0 ∧ x86_64.EL_HEAP_START_ADDRESS < WORD ∧
    el_get_footer x86_64 state1 x86_64.EL_HEAP_START_ADDRESS =
      some (x86_64.EL_HEAP_START_ADDRESS + x86_64.head_bytes +
        state1.size x86_64.EL_HEAP_START_ADDRESS) ∧
    x86_64.EL_HEAP_START_ADDRESS + x86_64.head_bytes +
      state1.size x86_64.EL_HEAP_START_ADDRESS ≠ 0 ∧
    state1.foot (x86_64.EL_HEAP_START_ADDRESS + x86_64.head_bytes +
      state1.size x86_64.EL_HEAP_START_ADDRESS) =
      state1.size x86_64.EL_HEAP_START_ADDRESS ∧
    el_block_above x86_64 state1 x86_64.EL_HEAP_START_ADDRESS =
      some (x86_64.EL_HEAP_START_ADDRESS + 140) ∧
    x86_64.EL_HEAP_START_ADDRESS + 140 ≠ 0 ∧
    el_get_header x86_64 state1 (x86_64.EL_HEAP_START_ADDRESS + x86_64.head_bytes +
      state1.size x86_64.EL_HEAP_START_ADDRESS) = some x86_64.EL_HEAP_START_ADDRESS ∧
    el_block_below x86_64 state1 (x86_64.EL_HEAP_START_ADDRESS + 140) =
      some x86_64.EL_HEAP_START_ADDRESS ∧
    el_block_below x86_64 state1 state1.heap_start = some 0 :=
  have hw : x86_64.EL_HEAP_START_ADDRESS < WORD := by unfold WORD; decide
  ⟨x86_64_wf, heap1, by decide, hw, heap1_facts.1, heap1_facts.2.1, heap1_facts.2.2.1,
    heap1_facts.2.2.2, by decide,
    (boundary_tag_round_trips x86_64 state1 x86_64_wf).1 _ _ (by decide) hw heap1_facts.1
      heap1_facts.2.1 heap1_facts.2.2.1,
    (boundary_tag_round_trips x86_64 state1 x86_64_wf).2.1 _ _ _ heap1 (by simp)
      heap1_facts.2.2.2 (by decide),
    (boundary_tag_round_trips x86_64 state1 x86_64_wf).2.2 _ heap1⟩

theorem reuse_after_free_witness :
    x86_64.WF ∧ Reachable x86_64 state0 ∧
    el_malloc x86_64 2 state0 100 = some (state1, ptr1) ∧ ptr1 ≠ 0 ∧
    ∃ s2, el_free x86_64 state1 ptr1 = some s2 ∧
      ∀ fuel', s2.avail.length < fuel' →
        ∃ s3, el_malloc x86_64 fuel' s2 100 = some (s3, ptr1) :=
  ⟨x86_64_wf, reach0, malloc1.1, malloc1.2,
    reuse_after_free x86_64 state0 state1 2 100 ptr1 x86_64_wf reach0 malloc1.1 malloc1.2⟩

/-! ## Page counts whose byte count does not fit an `int` -/

/-- With pages of 4096 bytes the `int` product for `2 ^ 20 + 1` pages is the
product for one page. -/
theorem append_wraps (s : State) (addr : Nat) :
    el_append_pages_to_heap x86_64 s (2 ^ 20 + 1) addr =
      el_append_pages_to_heap x86_64 s 1 addr := by
  have hb : size_t_of_int (int_mul (2 ^ 20 + 1) x86_64.EL_PAGE_BYTES) =
      size_t_of_int (int_mul 1 x86_64.EL_PAGE_BYTES) := by decide
  have h0 : ¬ ((2 : Int) ^ 20 + 1 ≤ 0) := by decide
  have h1 : ¬ ((1 : Int) ≤ 0) := by decide
  unfold el_append_pages_to_heap
  rw [if_neg h0, if_neg h1, hb]

/-- The state `grown1` and its heap. -/
theorem inv_grown1 : ∃ bs xs, Inv x86_64 grown1 bs xs [x86_64.EL_HEAP_START_ADDRESS] ∧
    bs.length ≤ 3 ∧ grown1.heap_bytes = state1.heap_bytes + 4096 ∧
    state1.heap_bytes = 4096 := by
  have h0 : (0 : Int) < 1 := by decide
  have h1 : (1 : Int) * (x86_64.EL_PAGE_BYTES : Int) < 2 ^ 31 := by decide
  have hg : Granted x86_64 state1.heap_end
      (size_t_of_int (int_mul 1 x86_64.EL_PAGE_BYTES)) := by
    rw [(bytes_add_eq x86_64_wf h0 h1).1]
    exact granted1
  obtain ⟨s', bs', xs', e, hI', hgr, _, l1, last, hbs, hcase⟩ :=
    el_append_shape x86_64_wf inv1.1 h0 h1 hg
  have hs : grown1 = s' := by
    have := append1
    rw [e] at this
    simp only [Option.some.injEq, Prod.mk.injEq] at this
    exact this.1.symm
  rw [hs]
  have hH := inv1.1.base.heap
  have hst : x86_64.EL_HEAP_START_ADDRESS = state1.heap_start := hH.tiled.1
  have hext := hH.extent
  have hend := inv1.2
  refine ⟨bs', xs', hI', ?_, hgr.heap_bytes, by omega⟩
  rcases hcase with ⟨_, hb, _⟩ | ⟨_, hb, _⟩
  · rw [hb]; simp
  · rw [hb]; simp

/-- In `grown1` no block has `2 ^ 32` bytes. -/
theorem malloc_grown1_null : el_malloc x86_64 4 grown1 (2 ^ 32) = some (grown1, 0) := by
  obtain ⟨bs, xs, hI, hlen, hb, hb1⟩ := inv_grown1
  have hH := hI.base.heap
  have hsub := hI.base.avail_sub
  have hnd : xs.Nodup := nodes_nodup_inner hI.base.avail.nodup
  have hxl : xs.length ≤ bs.length := (List.subperm_of_subset hnd hsub).length_le
  rcases el_malloc_cases x86_64_wf hI (show xs.length < 4 by omega) (2 ^ 32) with
    ⟨_, e⟩ | ⟨l1, l2, b, hx, _, hn, _⟩
  · exact e
  · exfalso
    have hbx : b ∈ xs := by rw [hx]; simp
    have hr := hH.mem_range (hsub hbx)
    have hext := hH.extent
    omega

/-- C13 (counterexample): in the reachable state `state1`, with pages of 4096
bytes, `el_append_pages_to_heap(2 ^ 20 + 1)` whose mapping is granted at
`heap_end` returns 0, but the `int` product of line 520 is 4096 and
`heap_bytes` grows by 4096, not by `(2 ^ 20 + 1) * EL_PAGE_BYTES`. -/
theorem append_grows_by_wrapped_product :
    Reachable x86_64 state1 ∧ (0 : Int) < 2 ^ 20 + 1 ∧
    Granted x86_64 state1.heap_end
      (size_t_of_int (int_mul (2 ^ 20 + 1) x86_64.EL_PAGE_BYTES)) ∧
    el_append_pages_to_heap x86_64 state1 (2 ^ 20 + 1) state1.heap_end =
      some (grown1, 0) ∧
    grown1.heap_bytes = state1.heap_bytes + 4096 ∧
    grown1.heap_bytes ≠ state1.heap_bytes + (2 ^ 20 + 1) * x86_64.EL_PAGE_BYTES := by
  obtain ⟨_, _, _, _, hb, _⟩ := inv_grown1
  refine ⟨reach1, by decide, ?_, ?_, hb, ?_⟩
  · rw [show size_t_of_int (int_mul (2 ^ 20 + 1) x86_64.EL_PAGE_BYTES) =
      (1 : Int).toNat * x86_64.EL_PAGE_BYTES from by decide]
    exact granted1
  · rw [append_wraps]
    exact append1
  · rw [hb]
    have : (2 ^ 20 + 1) * x86_64.EL_PAGE_BYTES = 4294971392 := by decide
    omega

/-- C14 (counterexample): in the reachable state `state1`, with pages of 4096
bytes, after the successful `el_append_pages_to_heap(2 ^ 20 + 1)` the request
`el_malloc(2 ^ 32)`, which is below
`(2 ^ 20 + 1) * EL_PAGE_BYTES - EL_BLOCK_OVERHEAD`, returns NULL. -/
theorem malloc_null_after_wrapped_append :
    Reachable x86_64 state1 ∧ (0 : Int) < 2 ^ 20 + 1 ∧
    el_append_pages_to_heap x86_64 state1 (2 ^ 20 + 1) state1.heap_end =
      some (grown1, 0) ∧
    2 ^ 32 ≤ (2 ^ 20 + 1) * x86_64.EL_PAGE_BYTES - x86_64.EL_BLOCK_OVERHEAD ∧
    el_malloc x86_64 4 grown1 (2 ^ 32) = some (grown1, 0) := by
  refine ⟨reach1, by decide, ?_, by decide, malloc_grown1_null⟩
  rw [append_wraps]
  exact append1

end ElMalloc

namespace ColNorm

/-! ## Loops as sums and as pointwise updates -/

theorem foldl_add_sum {α : Type} [Field α] (f : Nat → α) (n : Nat) (a : α) :
    (List.range n).foldl (fun acc i => acc + f i) a = a + ∑ i in Finset.range n, f i := by
  induction n with
  | zero => simp
  | succ n ih =>
    rw [List.range_succ, List.foldl_append, ih, Finset.sum_range_succ]
    simp [add_assoc]

/-- Two cells of a matrix row-major layout coincide only if their rows and
columns do. -/
theorem cell_inj {cs i j i' j' : Nat} (hj : j < cs) (hj' : j' < cs)
    (h : i * cs + j = i' * cs + j') : i = i' ∧ j = j' := by
  rcases lt_trichotomy i i' with hlt | heq | hgt
  · exfalso
    have : (i + 1) * cs ≤ i' * cs := Nat.mul_le_mul_right cs hlt
    rw [Nat.add_mul] at this
    omega
  · subst heq
    exact ⟨rfl, by omega⟩
  · exfalso
    have : (i' + 1) * cs ≤ i * cs := Nat.mul_le_mul_right cs hgt
    rw [Nat.add_mul] at this
    omega

/-- A loop that rewrites the cells `(r a, c a)` of a matrix, each from its own
old value, for the elements `a` of a list that designate distinct cells. -/
theorem foldl_MSET {α ι : Type} (r c : ι → Nat) (G : ι → α → α) (l : List ι)
    (m : matrix_t α)
    (hnd : (l.map fun a => r a * m.col_space + c a).Nodup) :
    ((l.foldl (fun m a => MSET m (r a) (c a) (G a (MGET m (r a) (c a)))) m).rows = m.rows ∧
      (l.foldl (fun m a => MSET m (r a) (c a) (G a (MGET m (r a) (c a)))) m).cols = m.cols ∧
      (l.foldl (fun m a => MSET m (r a) (c a) (G a (MGET m (r a) (c a)))) m).col_space =
        m.col_space) ∧
    (∀ a ∈ l, (l.foldl (fun m a => MSET m (r a) (c a) (G a (MGET m (r a) (c a)))) m).data
        (r a * m.col_space + c a) = G a (m.data (r a * m.col_space + c a))) ∧
    (∀ x, (∀ a ∈ l, r a * m.col_space + c a ≠ x) →
      (l.foldl (fun m a => MSET m (r a) (c a) (G a (MGET m (r a) (c a)))) m).data x =
        m.data x) := by
  induction l generalizing m with
  | nil => simp
  | cons b t ih =>
    simp only [List.map_cons, List.nodup_cons, List.mem_map, not_exists, not_and] at hnd
    obtain ⟨hb, ht⟩ := hnd
    have hcs : (MSET m (r b) (c b) (G b (MGET m (r b) (c b)))).col_space = m.col_space := rfl
    obtain ⟨⟨h1, h2, h3⟩, h4, h5⟩ := ih (MSET m (r b) (c b) (G b (MGET m (r b) (c b))))
      (by rw [hcs]; exact ht)
    rw [hcs] at h3 h4 h5
    simp only [List.foldl_cons]
    refine ⟨⟨h1, h2, h3⟩, ?_, ?_⟩
    · intro a ha
      rcases List.mem_cons.1 ha with rfl | ha
      · rw [h5 _ (fun a' ha' => hb a' ha')]
        simp [MSET, MGET]
      · rw [h4 a ha]
        have hne : r a * m.col_space + c a ≠ r b * m.col_space + c b := hb a ha
        simp [MSET, Function.update_noteq hne]
    · intro x hx
      rw [h5 x (fun a ha => hx a (List.mem_cons_of_mem _ ha))]
      have hne : x ≠ r b * m.col_space + c b := fun h => hx b (List.mem_cons_self _ _) h.symm
      simp [MSET, Function.update_noteq hne]

/-! ## The baseline normalisation, column by column -/

theorem base_column_eq {α : Type} [Field α] (sqrt : α → α)
    (st : matrix_t α × vector_t α × vector_t α) (j : Nat) :
    base_column sqrt st j =
      ((List.range st.1.rows).foldl
          (fun m i => MSET m i j ((MGET m i j - col_mean st.1 j) / sqrt (col_var st.1 j)))
          st.1,
        VSET st.2.1 j (col_mean st.1 j), VSET st.2.2 j (sqrt (col_var st.1 j))) := by
  simp only [base_column, foldl_add_sum, zero_add, col_mean, col_var, pow_two]

theorem col_mean_congr {α : Type} [Field α] {m m' : matrix_t α} {j : Nat}
    (hr : m.rows = m'.rows) (h : ∀ i, i < m'.rows → MGET m i j = MGET m' i j) :
    col_mean m j = col_mean m' j := by
  unfold col_mean
  rw [hr]
  congr 1
  exact Finset.sum_congr rfl (fun i hi => h i (Finset.mem_range.1 hi))

theorem col_var_congr {α : Type} [Field α] {m m' : matrix_t α} {j : Nat}
    (hr : m.rows = m'.rows) (h : ∀ i, i < m'.rows → MGET m i j = MGET m' i j) :
    col_var m j = col_var m' j := by
  unfold col_var
  rw [hr, col_mean_congr hr h]
  congr 1
  exact Finset.sum_congr rfl (fun i hi => by rw [h i (Finset.mem_range.1 hi)])

theorem Partial.start {α : Type} [Field α] (sqrt : α → α) (mat : matrix_t α)
    (avg std : vector_t α) : Partial sqrt mat avg std 0 (mat, avg, std) :=
  ⟨rfl, rfl, rfl, rfl, rfl, fun _ _ j hj => absurd hj (Nat.not_lt_zero j), fun _ _ => rfl,
    fun _ => by simp, fun _ => by simp⟩

/-- A column not yet normalised still holds the original values. -/
theorem Partial.column {α : Type} [Field α] {sqrt : α → α} {mat : matrix_t α}
    {avg std : vector_t α} {k : Nat} {st : matrix_t α × vector_t α × vector_t α}
    (h : Partial sqrt mat avg std k st) (hk : k < mat.cols) (hc : mat.cols ≤ mat.col_space)
    (i : Nat) : MGET st.1 i k = MGET mat i k := by
  unfold MGET
  rw [h.col_space]
  refine h.other _ (fun i' _ j hj he => ?_)
  have := cell_inj (by omega) (by omega) he
  omega

theorem Partial.next_column {α : Type} [Field α] {sqrt : α → α} {mat : matrix_t α}
    {avg std : vector_t α} {k : Nat} {st : matrix_t α × vector_t α × vector_t α}
    (h : Partial sqrt mat avg std k st) (hk : k < mat.cols) (hc : mat.cols ≤ mat.col_space) :
    Partial sqrt mat avg std (k + 1) (base_column sqrt st k) := by
  have hm : col_mean st.1 k = col_mean mat k :=
    col_mean_congr h.rows (fun i _ => h.column hk hc i)
  have hv : col_var st.1 k = col_var mat k :=
    col_var_congr h.rows (fun i _ => h.column hk hc i)
  have hcs : 0 < mat.col_space := by omega
  have hnd : ((List.range st.1.rows).map fun i => i * st.1.col_space + k).Nodup := by
    refine List.Nodup.map (fun a b hab => ?_) (List.nodup_range _)
    rw [h.col_space] at hab
    exact (cell_inj (by omega) (by omega) hab).1
  obtain ⟨⟨g1, g2, g3⟩, g4, g5⟩ := foldl_MSET (fun i : Nat => i) (fun _ => k)
    (fun _ v => (v - col_mean st.1 k) / sqrt (col_var st.1 k)) (List.range st.1.rows)
    st.1 hnd
  rw [base_column_eq]
  rw [h.col_space] at g4 g5
  rw [h.rows] at g4 g5
  refine ⟨g1.trans h.rows, g2.trans h.cols, g3.trans h.col_space, h.avg_len, h.std_len,
    ?_, ?_, ?_, ?_⟩
  · intro i hi j hj
    show (List.foldl _ st.1 (List.range st.1.rows)).data _ = _
    rw [h.rows]
    by_cases hjk : j = k
    · subst hjk
      rw [g4 i (List.mem_range.2 hi), hm, hv]
      congr 2
      have := h.column hk hc i
      unfold MGET at this
      rwa [h.col_space] at this
    · rw [g5 _ (fun a _ he => hjk (cell_inj (by omega) (by omega) he).2.symm)]
      exact h.cell i hi j (by omega)
  · intro x hx
    show (List.foldl _ st.1 (List.range st.1.rows)).data _ = _
    rw [h.rows]
    rw [g5 x (fun a ha he => hx a (List.mem_range.1 ha) k (by omega) he.symm)]
    exact h.other x (fun i hi j hj => hx i hi j (by omega))
  · intro j
    show (VSET st.2.1 k (col_mean st.1 k)).data j = _
    by_cases hjk : j = k
    · subst hjk
      simp [VSET, hm]
    · simp only [VSET, Function.update_noteq hjk, h.avg_eq j]
      by_cases hlt : j < k
      · simp [hlt, Nat.lt_succ_of_lt hlt]
      · have : ¬ j < k + 1 := by omega
        simp [hlt, this]
  · intro j
    show (VSET st.2.2 k (sqrt (col_var st.1 k))).data j = _
    by_cases hjk : j = k
    · subst hjk
      simp [VSET, hv]
    · simp only [VSET, Function.update_noteq hjk, h.std_eq j]
      by_cases hlt : j < k
      · simp [hlt, Nat.lt_succ_of_lt hlt]
      · have : ¬ j < k + 1 := by omega
        simp [hlt, this]

theorem Partial.columns {α : Type} [Field α] (sqrt : α → α) (mat : matrix_t α)
    (avg std : vector_t α) (hc : mat.cols ≤ mat.col_space) (k : Nat) (hk : k ≤ mat.cols) :
    Partial sqrt mat avg std k ((List.range k).foldl (base_column sqrt) (mat, avg, std)) := by
  induction k with
  | zero => exact Partial.start sqrt mat avg std
  | succ k ih =>
    rw [List.range_succ, List.foldl_append]
    exact (ih (by omega)).next_column (by omega) hc

/-- What `colnorm_BASE` returns on a matrix whose dimensions an `int` can
count and on vectors of the right length. -/
theorem colnorm_BASE_spec {α : Type} [Field α] (sqrt : α → α) (mat : matrix_t α)
    (avg std : vector_t α) (hr : mat.rows < 2 ^ 31) (hcl : mat.cols < 2 ^ 31)
    (hc : mat.cols ≤ mat.col_space) (ha : avg.len = mat.cols) (hs : std.len = mat.cols) :
    ∃ st, colnorm_BASE sqrt mat avg std = some (0, st.1, st.2.1, st.2.2) ∧
      Partial sqrt mat avg std mat.cols st := by
  refine ⟨_, ?_, Partial.columns sqrt mat avg std hc mat.cols (le_refl _)⟩
  unfold colnorm_BASE colnorm_BASE_1
  rw [if_neg (by simp [ha, hs]), if_neg (by omega)]

/-! ## A normalised column has mean 0 and standard deviation 1 -/

theorem normalized_mean_zero (n : Nat) (hn : 0 < n) (x : Nat → ℝ) (σ : ℝ) :
    (∑ i in Finset.range n,
      (x i - (∑ i in Finset.range n, x i) / (n : ℝ)) / σ) / (n : ℝ) = 0 := by
  have hn' : (n : ℝ) ≠ 0 := Nat.cast_ne_zero.2 (by omega)
  rw [← Finset.sum_div, Finset.sum_sub_distrib, Finset.sum_const, Finset.card_range,
    nsmul_eq_mul, mul_div_cancel₀ _ hn']
  simp

theorem normalized_var_one (n : Nat) (hn : 0 < n) (x : Nat → ℝ) (μ : ℝ)
    (hσ : Real.sqrt ((∑ i in Finset.range n, (x i - μ) ^ 2) / (n : ℝ)) ≠ 0) :
    (∑ i in Finset.range n,
      ((x i - μ) / Real.sqrt ((∑ i in Finset.range n, (x i - μ) ^ 2) / (n : ℝ)) - 0) ^ 2) /
        (n : ℝ) = 1 := by
  have hn' : (n : ℝ) ≠ 0 := Nat.cast_ne_zero.2 (by omega)
  have hv0 : 0 ≤ (∑ i in Finset.range n, (x i - μ) ^ 2) / (n : ℝ) :=
    div_nonneg (Finset.sum_nonneg (fun i _ => sq_nonneg _)) (Nat.cast_nonneg n)
  have hsq := Real.sq_sqrt hv0
  have hvne : (∑ i in Finset.range n, (x i - μ) ^ 2) / (n : ℝ) ≠ 0 := by
    intro h
    rw [h, Real.sqrt_zero] at hσ
    exact hσ rfl
  have hS : (∑ i in Finset.range n, (x i - μ) ^ 2) ≠ 0 := by
    intro h
    exact hvne (by rw [h, zero_div])
  simp only [sub_zero, div_pow, hsq]
  rw [← Finset.sum_div]
  field_simp

/-- C25 (amended; the baseline in exact real arithmetic): for a matrix with
`rows > 0` whose dimensions an `int` counter can count and vectors of length
`cols`, `colnorm_BASE` returns 0; for every column `j` it leaves in `avg[j]`
and `std[j]` the mean and the population standard deviation of the original
column and in the matrix the values `(x - avg[j]) / std[j]`; and when `std[j]`
is not 0 the resulting column has mean 0 and population standard deviation
1. -/
theorem colnorm_base_normalizes (mat : matrix_t ℝ) (avg std : vector_t ℝ)
    (h0 : 0 < mat.rows) (hr : mat.rows < 2 ^ 31) (hcl : mat.cols < 2 ^ 31)
    (hc : mat.cols ≤ mat.col_space) (ha : avg.len = mat.cols) (hs : std.len = mat.cols) :
    ∃ mat' avg' std', colnorm_BASE Real.sqrt mat avg std = some (0, mat', avg', std') ∧
      ∀ j, j < mat.cols →
        VGET avg' j = col_mean mat j ∧ VGET std' j = Real.sqrt (col_var mat j) ∧
        (∀ i, i < mat.rows → MGET mat' i j = (MGET mat i j - VGET avg' j) / VGET std' j) ∧
        (VGET std' j ≠ 0 → col_mean mat' j = 0 ∧ Real.sqrt (col_var mat' j) = 1) := by
  obtain ⟨st, e, hp⟩ := colnorm_BASE_spec Real.sqrt mat avg std hr hcl hc ha hs
  refine ⟨st.1, st.2.1, st.2.2, e, fun j hj => ?_⟩
  have hA : VGET st.2.1 j = col_mean mat j := by
    unfold VGET; rw [hp.avg_eq j, if_pos hj]
  have hS : VGET st.2.2 j = Real.sqrt (col_var mat j) := by
    unfold VGET; rw [hp.std_eq j, if_pos hj]
  have hcell : ∀ i, i < mat.rows →
      MGET st.1 i j = (MGET mat i j - col_mean mat j) / Real.sqrt (col_var mat j) := by
    intro i hi
    unfold MGET
    rw [hp.col_space]
    exact hp.cell i hi j hj
  refine ⟨hA, hS, fun i hi => by rw [hcell i hi, hA, hS], fun hne => ?_⟩
  rw [hS] at hne
  have hmean : col_mean st.1 j = 0 := by
    unfold col_mean
    rw [hp.rows]
    rw [Finset.sum_congr rfl (fun i hi => hcell i (Finset.mem_range.1 hi))]
    exact normalized_mean_zero mat.rows h0 (fun i => MGET mat i j) _
  refine ⟨hmean, ?_⟩
  have hvar : col_var st.1 j = 1 := by
    unfold col_var
    rw [hmean, hp.rows]
    rw [Finset.sum_congr rfl (fun i hi => by rw [hcell i (Finset.mem_range.1 hi)])]
    exact normalized_var_one mat.rows h0 (fun i => MGET mat i j) (col_mean mat j) hne
  rw [hvar, Real.sqrt_one]

/-! ## The loops of the threaded normalisation -/

/-- A loop over the first `c` entries of two vectors that rewrites entry `j`
of both from their old values. -/
theorem foldl_VSET_pair {α : Type} (F G : Nat → α → α → α) (c : Nat)
    (sh : vector_t α × vector_t α) :
    ((List.range c).foldl (fun sh j =>
        (VSET sh.1 j (F j (VGET sh.1 j) (VGET sh.2 j)),
          VSET sh.2 j (G j (VGET sh.1 j) (VGET sh.2 j)))) sh).1.len = sh.1.len ∧
    ((List.range c).foldl (fun sh j =>
        (VSET sh.1 j (F j (VGET sh.1 j) (VGET sh.2 j)),
          VSET sh.2 j (G j (VGET sh.1 j) (VGET sh.2 j)))) sh).2.len = sh.2.len ∧
    (∀ x, ((List.range c).foldl (fun sh j =>
        (VSET sh.1 j (F j (VGET sh.1 j) (VGET sh.2 j)),
          VSET sh.2 j (G j (VGET sh.1 j) (VGET sh.2 j)))) sh).1.data x =
      if x < c then F x (sh.1.data x) (sh.2.data x) else sh.1.data x) ∧
    (∀ x, ((List.range c).foldl (fun sh j =>
        (VSET sh.1 j (F j (VGET sh.1 j) (VGET sh.2 j)),
          VSET sh.2 j (G j (VGET sh.1 j) (VGET sh.2 j)))) sh).2.data x =
      if x < c then G x (sh.1.data x) (sh.2.data x) else sh.2.data x) := by
  induction c with
  | zero => simp
  | succ c ih =>
    rw [List.range_succ, List.foldl_append]
    obtain ⟨r, hr⟩ : ∃ r, r = (List.range c).foldl (fun sh j =>
        (VSET sh.1 j (F j (VGET sh.1 j) (VGET sh.2 j)),
          VSET sh.2 j (G j (VGET sh.1 j) (VGET sh.2 j)))) sh := ⟨_, rfl⟩
    rw [← hr] at ih ⊢
    obtain ⟨h1, h2, h3, h4⟩ := ih
    simp only [List.foldl_cons, List.foldl_nil, VSET, VGET]
    refine ⟨h1, h2, fun x => ?_, fun x => ?_⟩
    · by_cases hx : x = c
      · subst hx
        simp [h3, h4]
      · rw [Function.update_noteq hx, h3 x]
        by_cases hlt : x < c
        · simp [hlt, Nat.lt_succ_of_lt hlt]
        · have : ¬ x < c + 1 := by omega
          simp [hlt, this]
    · by_cases hx : x = c
      · subst hx
        simp [h3, h4]
      · rw [Function.update_noteq hx, h4 x]
        by_cases hlt : x < c
        · simp [hlt, Nat.lt_succ_of_lt hlt]
        · have : ¬ x < c + 1 := by omega
          simp [hlt, this]

/-- One row added to the local sums of a worker. -/
theorem foldl_local_row {α : Type} [Field α] (v : Nat → α) (c : Nat)
    (loc : (Nat → α) × (Nat → α)) :
    (∀ x, ((List.range c).foldl (fun loc j =>
        (Function.update loc.1 j (loc.1 j + v j),
          Function.update loc.2 j (loc.2 j + v j * v j))) loc).1 x =
      if x < c then loc.1 x + v x else loc.1 x) ∧
    (∀ x, ((List.range c).foldl (fun loc j =>
        (Function.update loc.1 j (loc.1 j + v j),
          Function.update loc.2 j (loc.2 j + v j * v j))) loc).2 x =
      if x < c then loc.2 x + v x * v x else loc.2 x) := by
  induction c with
  | zero => simp
  | succ c ih =>
    obtain ⟨h3, h4⟩ := ih
    rw [List.range_succ, List.foldl_append]
    simp only [List.foldl_cons, List.foldl_nil]
    refine ⟨fun x => ?_, fun x => ?_⟩
    · by_cases hx : x = c
      · subst hx
        simp [h3]
      · rw [Function.update_noteq hx, h3 x]
        by_cases hlt : x < c
        · simp [hlt, Nat.lt_succ_of_lt hlt]
        · have : ¬ x < c + 1 := by omega
          simp [hlt, this]
    · by_cases hx : x = c
      · subst hx
        simp [h4]
      · rw [Function.update_noteq hx, h4 x]
        by_cases hlt : x < c
        · simp [hlt, Nat.lt_succ_of_lt hlt]
        · have : ¬ x < c + 1 := by omega
          simp [hlt, this]

/-- The local sums of a worker over a list of rows. -/
theorem foldl_local_rows {α : Type} [Field α] (mat : matrix_t α) (l : List Nat)
    (loc : (Nat → α) × (Nat → α)) :
    (∀ x, (l.foldl (fun loc i => (List.range mat.cols).foldl (fun loc j =>
        (Function.update loc.1 j (loc.1 j + MGET mat i j),
          Function.update loc.2 j (loc.2 j + MGET mat i j * MGET mat i j))) loc) loc).1 x =
      if x < mat.cols then loc.1 x + (l.map fun i => MGET mat i x).sum else loc.1 x) ∧
    (∀ x, (l.foldl (fun loc i => (List.range mat.cols).foldl (fun loc j =>
        (Function.update loc.1 j (loc.1 j + MGET mat i j),
          Function.update loc.2 j (loc.2 j + MGET mat i j * MGET mat i j))) loc) loc).2 x =
      if x < mat.cols then loc.2 x + (l.map fun i => MGET mat i x * MGET mat i x).sum
      else loc.2 x) := by
  induction l generalizing loc with
  | nil => simp
  | cons i t ih =>
    obtain ⟨r1, r2⟩ := foldl_local_row (fun j => MGET mat i j) mat.cols loc
    obtain ⟨h1, h2⟩ := ih ((List.range mat.cols).foldl (fun loc j =>
        (Function.update loc.1 j (loc.1 j + MGET mat i j),
          Function.update loc.2 j (loc.2 j + MGET mat i j * MGET mat i j))) loc)
    simp only [List.foldl_cons, List.map_cons, List.sum_cons]
    refine ⟨fun x => ?_, fun x => ?_⟩
    · rw [h1 x, r1 x]
      by_cases hx : x < mat.cols
      · simp [hx, add_assoc]
      · simp [hx]
    · rw [h2 x, r2 x]
      by_cases hx : x < mat.cols
      · simp [hx, add_assoc]
      · simp [hx]

theorem local_sums_eq {α : Type} [Field α] (mat : matrix_t α) (T t : Nat) (x : Nat) :
    (local_sums mat (start_row mat.rows T t) (end_row mat.rows T t)).1 x =
      (if x < mat.cols then ((thread_rows mat.rows T t).map fun i => MGET mat i x).sum
       else 0) ∧
    (local_sums mat (start_row mat.rows T t) (end_row mat.rows T t)).2 x =
      (if x < mat.cols then
        ((thread_rows mat.rows T t).map fun i => MGET mat i x * MGET mat i x).sum
       else 0) := by
  obtain ⟨h1, h2⟩ := foldl_local_rows mat (thread_rows mat.rows T t) (fun _ => 0, fun _ => 0)
  unfold local_sums
  constructor
  · rw [show List.range' (start_row mat.rows T t)
        (end_row mat.rows T t - start_row mat.rows T t) = thread_rows mat.rows T t from rfl,
      h1 x]
    simp
  · rw [show List.range' (start_row mat.rows T t)
        (end_row mat.rows T t - start_row mat.rows T t) = thread_rows mat.rows T t from rfl,
      h2 x]
    simp

/-- What one worker does to the shared vectors. -/
theorem norm_worker_spec {α : Type} [Field α] (mat : matrix_t α) (T t : Nat)
    (sh : vector_t α × vector_t α) :
    (norm_worker mat T t sh).1.len = sh.1.len ∧ (norm_worker mat T t sh).2.len = sh.2.len ∧
    (∀ x, (norm_worker mat T t sh).1.data x =
      if x < mat.cols then
        sh.1.data x + ((thread_rows mat.rows T t).map fun i => MGET mat i x).sum
      else sh.1.data x) ∧
    (∀ x, (norm_worker mat T t sh).2.data x =
      if x < mat.cols then
        sh.2.data x +
          ((thread_rows mat.rows T t).map fun i => MGET mat i x * MGET mat i x).sum
      else sh.2.data x) := by
  obtain ⟨h1, h2, h3, h4⟩ := foldl_VSET_pair
    (fun j u _ => u + (local_sums mat (start_row mat.rows T t) (end_row mat.rows T t)).1 j)
    (fun j _ v => v + (local_sums mat (start_row mat.rows T t) (end_row mat.rows T t)).2 j)
    mat.cols sh
  unfold norm_worker
  refine ⟨h1, h2, fun x => ?_, fun x => ?_⟩
  · rw [h3 x]
    by_cases hx : x < mat.cols
    · simp only [if_pos hx, (local_sums_eq mat T t x).1]
    · simp only [if_neg hx]
  · rw [h4 x]
    by_cases hx : x < mat.cols
    · simp only [if_pos hx, (local_sums_eq mat T t x).2]
    · simp only [if_neg hx]

/-- What the workers, in the order `sched`, do to the shared vectors. -/
theorem workers_spec {α : Type} [Field α] (mat : matrix_t α) (T : Nat) (sched : List Nat)
    (sh : vector_t α × vector_t α) :
    (sched.foldl (fun sh t => norm_worker mat T t sh) sh).1.len = sh.1.len ∧
    (sched.foldl (fun sh t => norm_worker mat T t sh) sh).2.len = sh.2.len ∧
    (∀ x, (sched.foldl (fun sh t => norm_worker mat T t sh) sh).1.data x =
      if x < mat.cols then
        sh.1.data x +
          (sched.map fun t => ((thread_rows mat.rows T t).map fun i => MGET mat i x).sum).sum
      else sh.1.data x) ∧
    (∀ x, (sched.foldl (fun sh t => norm_worker mat T t sh) sh).2.data x =
      if x < mat.cols then
        sh.2.data x + (sched.map fun t =>
          ((thread_rows mat.rows T t).map fun i => MGET mat i x * MGET mat i x).sum).sum
      else sh.2.data x) := by
  induction sched generalizing sh with
  | nil => simp
  | cons t rest ih =>
    obtain ⟨w1, w2, w3, w4⟩ := norm_worker_spec mat T t sh
    obtain ⟨h1, h2, h3, h4⟩ := ih (norm_worker mat T t sh)
    simp only [List.foldl_cons, List.map_cons, List.sum_cons]
    refine ⟨h1.trans w1, h2.trans w2, fun x => ?_, fun x => ?_⟩
    · rw [h3 x, w3 x]
      by_cases hx : x < mat.cols
      · simp [hx, add_assoc]
      · simp [hx]
    · rw [h4 x, w4 x]
      by_cases hx : x < mat.cols
      · simp [hx, add_assoc]
      · simp [hx]

/-! ## The rows of the threads, and sums over them -/

theorem thread_rows_inner (rows k t : Nat) (ht : t < k) :
    thread_rows rows (k + 1) t = List.range' (t * (rows / (k + 1))) (rows / (k + 1)) := by
  unfold thread_rows end_row start_row
  have : t ≠ k + 1 - 1 := by omega
  rw [if_neg this, Nat.add_sub_cancel_left]

theorem thread_rows_last (rows k : Nat) :
    thread_rows rows (k + 1) k =
      List.range' (k * (rows / (k + 1))) (rows - k * (rows / (k + 1))) := by
  unfold thread_rows end_row start_row
  rw [if_pos (by omega)]

theorem thread_rows_prefix (rows k m : Nat) (hm : m ≤ k) :
    (List.range m).flatMap (thread_rows rows (k + 1)) = List.range' 0 (m * (rows / (k + 1))) := by
  induction m with
  | zero => simp
  | succ m ih =>
    rw [List.range_succ, List.flatMap_append, ih (by omega)]
    simp only [List.flatMap_cons, List.flatMap_nil, List.append_nil]
    rw [thread_rows_inner rows k m (by omega)]
    have := List.range'_append 0 (m * (rows / (k + 1))) (rows / (k + 1)) 1
    simp only [mul_one, zero_add, one_mul] at this
    rw [this]
    congr 1
    rw [Nat.add_mul]
    omega

/-- The row ranges of the threads, in the order of the thread numbers, make up
the rows `0 .. rows - 1`, each once. -/
theorem thread_rows_cover (rows T : Nat) (hT : 0 < T) :
    (List.range T).flatMap (thread_rows rows T) = List.range rows := by
  obtain ⟨k, rfl⟩ : ∃ k, T = k + 1 := ⟨T - 1, by omega⟩
  rw [List.range_succ, List.flatMap_append, thread_rows_prefix rows k k (le_refl _)]
  simp only [List.flatMap_cons, List.flatMap_nil, List.append_nil]
  rw [thread_rows_last]
  have hle : k * (rows / (k + 1)) ≤ rows := by
    have h1 : rows / (k + 1) * (k + 1) ≤ rows := Nat.div_mul_le_self rows (k + 1)
    have h2 : k * (rows / (k + 1)) ≤ rows / (k + 1) * (k + 1) := by
      rw [Nat.mul_comm]
      exact Nat.mul_le_mul_left _ (by omega)
    omega
  have := List.range'_append 0 (k * (rows / (k + 1))) (rows - k * (rows / (k + 1))) 1
  simp only [mul_one, zero_add, one_mul] at this
  rw [this, List.range_eq_range']
  congr 1
  omega

theorem sum_map_bind {α : Type} [Field α] (l : List Nat) (f : Nat → List Nat)
    (g : Nat → α) :
    ((l.flatMap f).map g).sum = (l.map fun t => ((f t).map g).sum).sum := by
  induction l with
  | nil => simp
  | cons a t ih => simp [List.flatMap_cons, ih]

theorem sum_map_range {α : Type} [Field α] (g : Nat → α) (n : Nat) :
    ((List.range n).map g).sum = ∑ i in Finset.range n, g i := by
  induction n with
  | zero => simp
  | succ n ih => simp [List.range_succ, ih, Finset.sum_range_succ]

/-- The sums of the threads add up to the sum over all rows, whatever the
order in which the threads deliver them. -/
theorem threads_total {α : Type} [Field α] (rows T : Nat) (hT : 0 < T) (sched : List Nat)
    (hs : sched.Perm (List.range T)) (g : Nat → α) :
    (sched.map fun t => ((thread_rows rows T t).map g).sum).sum =
      ∑ i in Finset.range rows, g i := by
  rw [(hs.map _).sum_eq, ← sum_map_bind, thread_rows_cover rows T hT, sum_map_range]

/-- The variance as the mean of the squares minus the square of the mean. -/
theorem var_identity {α : Type} [Field α] (n : Nat) (hn : (n : α) ≠ 0) (x : Nat → α) :
    (∑ i in Finset.range n, x i * x i) / (n : α) -
        (∑ i in Finset.range n, x i) / (n : α) * ((∑ i in Finset.range n, x i) / (n : α)) =
      (∑ i in Finset.range n, (x i - (∑ i in Finset.range n, x i) / (n : α)) ^ 2) /
        (n : α) := by
  obtain ⟨S, hS⟩ : ∃ S, S = ∑ i in Finset.range n, x i := ⟨_, rfl⟩
  obtain ⟨μ, hμ⟩ : ∃ μ, μ = S / (n : α) := ⟨_, rfl⟩
  rw [← hS, ← hμ]
  have h : ∑ i in Finset.range n, (x i - μ) ^ 2 =
      ∑ i in Finset.range n, x i * x i - 2 * μ * S + (n : α) * μ ^ 2 := by
    have hx : ∀ i, (x i - μ) ^ 2 = x i * x i - 2 * μ * x i + μ ^ 2 := fun i => by ring
    simp only [hx, Finset.sum_add_distrib, Finset.sum_sub_distrib, Finset.sum_const,
      Finset.card_range, nsmul_eq_mul, ← Finset.mul_sum, ← hS]
  rw [h, hμ]
  field_simp
  ring

/-! ## The threaded normalisation as a whole -/

/-- The loop of lines 165-172 over the first `n` rows: every cell of those
rows is rewritten from its own old value, nothing else changes. -/
theorem foldl_norm_rows {α : Type} [Field α] (A S : Nat → α) (c : Nat) (mat : matrix_t α)
    (hc : c ≤ mat.col_space) (n : Nat) :
    ((List.range n).foldl (fun m i => (List.range c).foldl
        (fun m j => MSET m i j ((MGET m i j - A j) / S j)) m) mat).rows = mat.rows ∧
    ((List.range n).foldl (fun m i => (List.range c).foldl
        (fun m j => MSET m i j ((MGET m i j - A j) / S j)) m) mat).cols = mat.cols ∧
    ((List.range n).foldl (fun m i => (List.range c).foldl
        (fun m j => MSET m i j ((MGET m i j - A j) / S j)) m) mat).col_space =
      mat.col_space ∧
    (∀ i, i < n → ∀ j, j < c →
      ((List.range n).foldl (fun m i => (List.range c).foldl
        (fun m j => MSET m i j ((MGET m i j - A j) / S j)) m) mat).data
          (i * mat.col_space + j) = (mat.data (i * mat.col_space + j) - A j) / S j) ∧
    (∀ x, (∀ i, i < n → ∀ j, j < c → x ≠ i * mat.col_space + j) →
      ((List.range n).foldl (fun m i => (List.range c).foldl
        (fun m j => MSET m i j ((MGET m i j - A j) / S j)) m) mat).data x = mat.data x) := by
  induction n with
  | zero =>
    exact ⟨rfl, rfl, rfl, fun i hi => absurd hi (Nat.not_lt_zero i), fun _ _ => rfl⟩
  | succ n ih =>
    rw [List.range_succ, List.foldl_append]
    obtain ⟨M, hM⟩ : ∃ M, M = (List.range n).foldl (fun m i => (List.range c).foldl
        (fun m j => MSET m i j ((MGET m i j - A j) / S j)) m) mat := ⟨_, rfl⟩
    rw [← hM] at ih ⊢
    obtain ⟨i1, i2, i3, i4, i5⟩ := ih
    simp only [List.foldl_cons, List.foldl_nil]
    have hnd : ((List.range c).map fun a => (fun _ => n) a * M.col_space + id a).Nodup := by
      refine (List.nodup_range c).map ?_
      intro a b hab
      simp only [id] at hab
      omega
    obtain ⟨⟨h1, h2, h3⟩, h4, h5⟩ := foldl_MSET (fun _ => n) id
      (fun j v => (v - A j) / S j) (List.range c) M hnd
    simp only [id] at h4 h5
    rw [i3] at h4 h5
    refine ⟨h1.trans i1, h2.trans i2, h3.trans i3, ?_, ?_⟩
    · intro i hi j hj
      by_cases hin : i = n
      · subst hin
        rw [h4 j (List.mem_range.2 hj)]
        rw [i5 _ (fun i' hi' j' hj' he => by
          have := (cell_inj (Nat.lt_of_lt_of_le hj hc) (Nat.lt_of_lt_of_le hj' hc) he).1
          omega)]
      · rw [h5 _ (fun a ha he => by
          have := (cell_inj (Nat.lt_of_lt_of_le (List.mem_range.1 ha) hc)
            (Nat.lt_of_lt_of_le hj hc) he).1
          exact hin this.symm)]
        exact i4 i (by omega) j hj
    · intro x hx
      rw [h5 x (fun a ha he => hx n (Nat.lt_succ_self n) a (List.mem_range.1 ha) he.symm)]
      exact i5 x (fun i hi j hj => hx i (Nat.lt_succ_of_lt hi) j hj)

/-- Two results that both satisfy the description of the normalised matrix
and vectors are the same. -/
theorem Partial.unique {α : Type} [Field α] {sqrt : α → α} {mat : matrix_t α}
    {avg std : vector_t α} {k : Nat} {st st' : matrix_t α × vector_t α × vector_t α}
    (h : Partial sqrt mat avg std k st) (h' : Partial sqrt mat avg std k st') : st = st' := by
  obtain ⟨⟨r, c, cs, d⟩, ⟨al, ad⟩, ⟨sl, sd⟩⟩ := st
  obtain ⟨⟨r', c', cs', d'⟩, ⟨al', ad'⟩, ⟨sl', sd'⟩⟩ := st'
  have e1 : r = r' := h.rows.trans h'.rows.symm
  have e2 : c = c' := h.cols.trans h'.cols.symm
  have e3 : cs = cs' := h.col_space.trans h'.col_space.symm
  have e4 : al = al' := h.avg_len.trans h'.avg_len.symm
  have e5 : sl = sl' := h.std_len.trans h'.std_len.symm
  have e6 : ad = ad' := funext fun j => (h.avg_eq j).trans (h'.avg_eq j).symm
  have e7 : sd = sd' := funext fun j => (h.std_eq j).trans (h'.std_eq j).symm
  have e8 : d = d' := by
    funext x
    by_cases hx : ∃ i, i < mat.rows ∧ ∃ j, j < k ∧ x = i * mat.col_space + j
    · obtain ⟨i, hi, j, hj, rfl⟩ := hx
      exact (h.cell i hi j hj).trans (h'.cell i hi j hj).symm
    · have hn : ∀ i, i < mat.rows → ∀ j, j < k → x ≠ i * mat.col_space + j :=
        fun i hi j hj he => hx ⟨i, hi, j, hj, he⟩
      exact (h.other x hn).trans (h'.other x hn).symm
  subst e1 e2 e3 e4 e5 e6 e7 e8
  rfl

/-- What `cn_verA` returns for a positive thread count, whatever the order in
which the threads take the lock. -/
theorem cn_verA_spec {α : Type} [Field α] (sqrt : α → α) (sched : List Nat)
    (mat : matrix_t α) (avg std : vector_t α) (T : Nat) (hT : 0 < T)
    (hcl : mat.cols < 2 ^ 31) (hc : mat.cols ≤ mat.col_space)
    (hn : (mat.rows : α) ≠ 0) (hs : sched.Perm (List.range T)) :
    ∃ st, cn_verA sqrt sched mat avg std T = some (0, st.1, st.2.1, st.2.2) ∧
      Partial sqrt mat avg std mat.cols st := by
  have key : ∀ shZ shW shF M,
      shZ = (List.range mat.cols).foldl (fun sh i => (VSET sh.1 i 0, VSET sh.2 i 0))
        (avg, std) →
      shW = sched.foldl (fun sh t => norm_worker mat T t sh) shZ →
      shF = (List.range mat.cols).foldl
        (fun sh j =>
          (VSET sh.1 j (VGET sh.1 j / (mat.rows : α)),
            VSET sh.2 j (sqrt (VGET sh.2 j / (mat.rows : α) -
              VGET sh.1 j / (mat.rows : α) * (VGET sh.1 j / (mat.rows : α)))))) shW →
      M = (List.range mat.rows).foldl
        (fun m i => (List.range mat.cols).foldl
          (fun m j => MSET m i j ((MGET m i j - VGET shF.1 j) / VGET shF.2 j)) m) mat →
      Partial sqrt mat avg std mat.cols (M, shF.1, shF.2) := by
    intro shZ shW shF M hZ hW hF hM
    obtain ⟨z1, z2, z3, z4⟩ := foldl_VSET_pair (fun _ _ _ => (0 : α)) (fun _ _ _ => (0 : α))
      mat.cols (avg, std)
    rw [← hZ] at z1 z2 z3 z4
    obtain ⟨w1, w2, w3, w4⟩ := workers_spec mat T sched shZ
    rw [← hW] at w1 w2 w3 w4
    obtain ⟨f1, f2, f3, f4⟩ := foldl_VSET_pair (fun _ u _ => u / (mat.rows : α))
      (fun _ u v => sqrt (v / (mat.rows : α) - u / (mat.rows : α) * (u / (mat.rows : α))))
      mat.cols shW
    rw [← hF] at f1 f2 f3 f4
    obtain ⟨m1, m2, m3, m4, m5⟩ := foldl_norm_rows (fun j => VGET shF.1 j)
      (fun j => VGET shF.2 j) mat.cols mat hc mat.rows
    rw [← hM] at m1 m2 m3 m4 m5
    have hA : ∀ j, shF.1.data j = if j < mat.cols then col_mean mat j else avg.data j := by
      intro j
      rw [f3 j]
      by_cases hj : j < mat.cols
      · rw [if_pos hj, if_pos hj, w3 j, if_pos hj, z3 j, if_pos hj, zero_add,
          threads_total mat.rows T hT sched hs]
        rfl
      · rw [if_neg hj, if_neg hj, w3 j, if_neg hj, z3 j, if_neg hj]
    have hS : ∀ j, shF.2.data j =
        if j < mat.cols then sqrt (col_var mat j) else std.data j := by
      intro j
      rw [f4 j]
      by_cases hj : j < mat.cols
      · rw [if_pos hj, if_pos hj, w3 j, w4 j, if_pos hj, if_pos hj, z3 j, z4 j, if_pos hj,
          if_pos hj, zero_add, zero_add, threads_total mat.rows T hT sched hs,
          threads_total mat.rows T hT sched hs,
          var_identity mat.rows hn (fun i => MGET mat i j)]
        rfl
      · rw [if_neg hj, if_neg hj, w4 j, if_neg hj, z4 j, if_neg hj]
    refine ⟨m1, m2, m3, f1.trans (w1.trans z1), f2.trans (w2.trans z2), ?_, m5, hA, hS⟩
    intro i hi j hj
    rw [m4 i hi j hj]
    simp only [VGET]
    rw [hA j, hS j, if_pos hj, if_pos hj]
  unfold cn_verA
  rw [if_neg (by omega)]
  exact ⟨(_, _, _), rfl, key _ _ _ _ rfl rfl rfl rfl⟩

/-! ## The threaded normalisation against the baseline -/

/-- C25 (counterexample): on a matrix of `2 ^ 31` rows, or of `2 ^ 31`
columns, with vectors of the right length, the `int` counters of
`colnorm_BASE_1` overflow and the call has no result. -/
theorem base_overflows_int_counter :
    (0 < (tall_mat ℝ).rows ∧ (sample_vec ℝ).len = (tall_mat ℝ).cols ∧
      colnorm_BASE Real.sqrt (tall_mat ℝ) (sample_vec ℝ) (sample_vec ℝ) = none) ∧
    (0 < (wide_mat ℝ).rows ∧ (wide_vec ℝ).len = (wide_mat ℝ).cols ∧
      colnorm_BASE Real.sqrt (wide_mat ℝ) (wide_vec ℝ) (wide_vec ℝ) = none) := by
  refine ⟨⟨by simp [tall_mat], rfl, ?_⟩, ⟨by simp [wide_mat], rfl, ?_⟩⟩
  · simp [colnorm_BASE, colnorm_BASE_1, tall_mat, sample_vec]
  · simp [colnorm_BASE, colnorm_BASE_1, wide_mat, wide_vec]

theorem colnorm_base_normalizes_witness :
    (0 < (sample_mat ℝ).rows ∧ (sample_mat ℝ).rows < 2 ^ 31 ∧ (sample_mat ℝ).cols < 2 ^ 31 ∧
      (sample_mat ℝ).cols ≤ (sample_mat ℝ).col_space ∧
      (sample_vec ℝ).len = (sample_mat ℝ).cols) ∧
    ∃ mat' avg' std',
      colnorm_BASE Real.sqrt (sample_mat ℝ) (sample_vec ℝ) (sample_vec ℝ) =
        some (0, mat', avg', std') ∧
      ∀ j, j < (sample_mat ℝ).cols →
        VGET avg' j = col_mean (sample_mat ℝ) j ∧
        VGET std' j = Real.sqrt (col_var (sample_mat ℝ) j) ∧
        (∀ i, i < (sample_mat ℝ).rows →
          MGET mat' i j = (MGET (sample_mat ℝ) i j - VGET avg' j) / VGET std' j) ∧
        (VGET std' j ≠ 0 → col_mean mat' j = 0 ∧ Real.sqrt (col_var mat' j) = 1) :=
  ⟨⟨by simp [sample_mat], by simp [sample_mat], by simp [sample_mat], by simp [sample_mat],
      rfl⟩,
    colnorm_base_normalizes (sample_mat ℝ) (sample_vec ℝ) (sample_vec ℝ)
      (by simp [sample_mat]) (by simp [sample_mat]) (by simp [sample_mat])
      (by simp [sample_mat]) rfl rfl⟩

/-- C26 (counterexample): on a matrix of `2 ^ 31` rows `colnorm_OPTM`
returns 0 while `colnorm_BASE` has no result, and on a matrix of `2 ^ 31`
columns `colnorm_OPTM` has no result either. -/
theorem optm_differs_on_tall_matrix :
    (0 < (tall_mat ℝ).rows ∧ (sample_vec ℝ).len = (tall_mat ℝ).cols ∧
      colnorm_BASE Real.sqrt (tall_mat ℝ) (sample_vec ℝ) (sample_vec ℝ) = none ∧
      (colnorm_OPTM Real.sqrt [0] (tall_mat ℝ) (sample_vec ℝ) (sample_vec ℝ) 1).map
        (fun r => r.1) = some 0) ∧
    (0 < (wide_mat ℝ).rows ∧ (wide_vec ℝ).len = (wide_mat ℝ).cols ∧
      colnorm_OPTM Real.sqrt [0] (wide_mat ℝ) (wide_vec ℝ) (wide_vec ℝ) 1 = none) := by
  refine ⟨⟨by simp [tall_mat], rfl, ?_, ?_⟩, ⟨by simp [wide_mat], rfl, ?_⟩⟩
  · simp [colnorm_BASE, colnorm_BASE_1, tall_mat, sample_vec]
  · have h : ¬ ((1 : Nat) = 0 ∨ 2 ^ 31 ≤ (tall_mat ℝ).cols) := by simp [tall_mat]
    unfold colnorm_OPTM cn_verA
    rw [if_neg h]
    rfl
  · simp [colnorm_OPTM, cn_verA, wide_mat]

/-- C26 (amended): in exact real arithmetic, for every matrix with
`rows > 0` whose dimensions an `int` counter can count, vectors of length
`cols`, every `thread_count >= 1` and every order `sched` in which the
threads take the lock, `colnorm_OPTM` returns 0 and leaves the same matrix,
the same `avg` and the same `std` as `colnorm_BASE` on the same input; and
the row ranges from `start_row` up to `end_row` of the threads
`0 .. thread_count - 1`, one after the other, are the rows `0 .. rows - 1`,
each once. -/
theorem optm_matches_base (mat : matrix_t ℝ) (avg std : vector_t ℝ) (thread_count : Nat)
    (sched : List Nat)
    (h0 : 0 < mat.rows) (hr : mat.rows < 2 ^ 31) (hcl : mat.cols < 2 ^ 31)
    (hc : mat.cols ≤ mat.col_space) (ha : avg.len = mat.cols) (hs : std.len = mat.cols)
    (hT : 1 ≤ thread_count) (hsched : sched.Perm (List.range thread_count)) :
    (∃ mat' avg' std', colnorm_BASE Real.sqrt mat avg std = some (0, mat', avg', std') ∧
      colnorm_OPTM Real.sqrt sched mat avg std thread_count = some (0, mat', avg', std')) ∧
    (List.range thread_count).flatMap (fun t =>
      List.range' (start_row mat.rows thread_count t)
        (end_row mat.rows thread_count t - start_row mat.rows thread_count t)) =
      List.range mat.rows := by
  obtain ⟨st, e, hp⟩ := colnorm_BASE_spec Real.sqrt mat avg std hr hcl hc ha hs
  have hn : (mat.rows : ℝ) ≠ 0 := by exact_mod_cast (Nat.pos_iff_ne_zero.1 h0)
  obtain ⟨st', e', hp'⟩ := cn_verA_spec Real.sqrt sched mat avg std thread_count hT hcl hc
    hn hsched
  have hst : st = st' := hp.unique hp'
  subst hst
  exact ⟨⟨st.1, st.2.1, st.2.2, e, e'⟩, thread_rows_cover mat.rows thread_count hT⟩

theorem optm_matches_base_witness :
    (0 < (sample_mat ℝ).rows ∧ (sample_mat ℝ).rows < 2 ^ 31 ∧ (sample_mat ℝ).cols < 2 ^ 31 ∧
      (sample_mat ℝ).cols ≤ (sample_mat ℝ).col_space ∧
      (sample_vec ℝ).len = (sample_mat ℝ).cols ∧ 1 ≤ 3 ∧
      [2, 0, 1].Perm (List.range 3)) ∧
    (∃ mat' avg' std',
      colnorm_BASE Real.sqrt (sample_mat ℝ) (sample_vec ℝ) (sample_vec ℝ) =
        some (0, mat', avg', std') ∧
      colnorm_OPTM Real.sqrt [2, 0, 1] (sample_mat ℝ) (sample_vec ℝ) (sample_vec ℝ) 3 =
        some (0, mat', avg', std')) ∧
    (List.range 3).flatMap (fun t =>
      List.range' (start_row (sample_mat ℝ).rows 3 t)
        (end_row (sample_mat ℝ).rows 3 t - start_row (sample_mat ℝ).rows 3 t)) =
      List.range (sample_mat ℝ).rows :=
  ⟨⟨by simp [sample_mat], by simp [sample_mat], by simp [sample_mat], by simp [sample_mat],
      rfl, by decide, by decide⟩,
    optm_matches_base (sample_mat ℝ) (sample_vec ℝ) (sample_vec ℝ) 3 [2, 0, 1]
      (by simp [sample_mat]) (by simp [sample_mat]) (by simp [sample_mat])
      (by simp [sample_mat]) rfl rfl (by decide) (by decide)⟩

end ColNorm
